import Mathlib

/-!
# SpliceCOV: `scripts/process_tiebrush.c`

A shallow embedding of the candidate-calling pipeline of `process_tiebrush.c`
and machine-checked statements about it.

Modelling conventions, used throughout:

* C `int` positions and indices are `Int` (or `Nat` for cursors that only count
  upwards from 0); genomic coordinates stay far below `2^31`, so no wrap-around
  is modelled.
* C `double` values are exact rationals (`ℚ`): every statement below is about
  the arithmetic the program intends, not about rounding.
* The global growable buffers (`covg`, `junc`, `drop_arr`, `record`, `jend`)
  are lists; a function that mutates a global returns the new value.
* A read past the filled part of a buffer yields the zero entry.
-/

namespace SpliceCOV

/-! ## Global parameters -/

def lowcov : ℚ := 10
def splicenoise : ℚ := 1 / 100
def percnoise : ℚ := 2 / 10
def highnoise : ℚ := 5 / 1000
def smallcov : ℚ := 50
def highcov : ℚ := 100
def delta_param : Int := 5
def win : Int := 150
def smallwin : Int := 25

/-! ## Data structures -/

/-- The C struct `CovgEntry`: a run `[start, end]` of uniform coverage `cov`. -/
structure CovgEntry where
  start : Int
  end_ : Int
  cov : ℚ
deriving DecidableEq

instance : Inhabited CovgEntry := ⟨⟨0, 0, 0⟩⟩

/-- The C struct `JuncEntry`. -/
structure JuncEntry where
  chrname : String
  start : Int
  end_ : Int
  cov : ℚ
  strand : Char
  ps : ℚ
deriving DecidableEq

instance : Inhabited JuncEntry := ⟨⟨"", 0, 0, 0, '\x00', 0⟩⟩

/-- Entry `i` of the coverage buffer (`covg[i]`). -/
def covgAt (covg : List CovgEntry) (i : Nat) : CovgEntry := covg.getD i default

/-- Entry `i` of a junction buffer (`junc[i]`). -/
def juncAt (junc : List JuncEntry) (i : Nat) : JuncEntry := junc.getD i default

/-! ## `less_than`, `equal_strand` -/

/-- The C function `less_than`: `0` is the exhausted-stream sentinel. -/
def less_than (n1 n2 : Int) : Bool :=
  if n1 = 0 then false
  else if n2 = 0 then true
  else if n1 < n2 then true
  else false

/-- The C function `equal_strand`. -/
def equal_strand (s1 s2 : Char) : Bool :=
  if s1 = s2 then true
  else if s1 = '.' ∨ s2 = '.' then true
  else false

/-! ## `get_cov` -/

/-- First loop of `get_cov`: `while (*si < nb && start > covg[*si].end) (*si)++`.
The first argument bounds the number of iterations; `get_cov` passes `nb - si`,
which the loop can never exceed. -/
def get_cov_skip (covg : List CovgEntry) (start : Int) (nb : Nat) : Nat → Nat → Nat
  | 0, si => si
  | fuel + 1, si =>
    if si < nb ∧ start > (covgAt covg si).end_ then get_cov_skip covg start nb fuel (si + 1)
    else si

/-- Second loop of `get_cov` together with the code after it. The loop leaves
through `return cov_sum` as soon as the cursor reaches `nb`, so `nb - si`
iterations (the first argument) always suffice when it is entered with
`si < nb`. Returns the sum and the cursor. -/
def get_cov_acc (covg : List CovgEntry) (end_ : Int) (nb : Nat) :
    Nat → Int → Nat → ℚ → ℚ × Nat
  | 0, _, si, cov_sum => (cov_sum, si)
  | fuel + 1, start, si, cov_sum =>
    if end_ > (covgAt covg si).end_ then
      let cov_sum1 := cov_sum + (((covgAt covg si).end_ - start + 1 : Int) : ℚ) * (covgAt covg si).cov
      let si1 := si + 1
      if si1 = nb then (cov_sum1, si1)
      else get_cov_acc covg end_ nb fuel (covgAt covg si1).start si1 cov_sum1
    else if end_ < start then (cov_sum, si)
    else (cov_sum + ((end_ - start + 1 : Int) : ℚ) * (covgAt covg si).cov, si)

/-- The C function `get_cov(start, end, &si, nb)`: the result and the cursor it
leaves in `*si`. -/
def get_cov (covg : List CovgEntry) (start end_ : Int) (si nb : Nat) : ℚ × Nat :=
  let si1 := get_cov_skip covg start nb (nb - si) si
  if si1 = nb then (0, si1)
  else
    let start1 := if start < (covgAt covg si1).start then (covgAt covg si1).start else start
    get_cov_acc covg end_ nb (nb - si1) start1 si1 0

/-! ### Reference semantics of a coverage query -/

/-- Number of positions in the intersection of `[s, e]` with a segment. -/
def overlapLen (s e : Int) (seg : CovgEntry) : Int :=
  max 0 (min e seg.end_ - max s seg.start + 1)

/-- Sum over all segments of (positions shared with `[s, e]`) times coverage. -/
def rangeCov (covg : List CovgEntry) (s e : Int) : ℚ :=
  (covg.map (fun seg => ((overlapLen s e seg : Int) : ℚ) * seg.cov)).sum

/-- Segments are non-empty, sorted ascending and pairwise disjoint (gaps allowed). -/
def CovgSorted (covg : List CovgEntry) : Prop :=
  (∀ seg ∈ covg, seg.start ≤ seg.end_) ∧ covg.Pairwise (fun a b => a.end_ < b.start)


instance (covg : List CovgEntry) : Decidable (CovgSorted covg) := by
  unfold CovgSorted
  infer_instance

/-- Two segments `[1,10]` and `[20,30]` of coverage 1, with a gap between them. -/
def twoSegments : List CovgEntry := [⟨1, 10, 1⟩, ⟨20, 30, 1⟩]

/-! ## `add_junc_to_bundle` -/

/-- The values `add_junc_to_bundle` parses from one line of the junction file
(`name` is parsed and never used): `chrname start end name cov strand ps-po-pl-pr`. -/
structure JuncLine where
  chrname : String
  start : Int
  end_ : Int
  cov_val : ℚ
  strand : Char
  ps : ℚ
  po : ℚ
  pl : ℚ
  pr : ℚ
deriving DecidableEq

/-- Body of the `while (fgets ...)` loop of `add_junc_to_bundle` for one line that
parsed: the new `bundleend`, junction pool `junc`, pending set `unprocjunc`, and
the flag `last`. -/
def add_junc_line (chr : String) (bundleend : Int) (junc unprocjunc : List JuncEntry)
    (l : JuncLine) : Int × List JuncEntry × List JuncEntry × Bool :=
  let d := if l.ps < l.po then l.ps else l.po
  let p := if l.pl < l.pr then l.pl else l.pr
  let last : Bool := if l.chrname ≠ chr ∨ l.start > bundleend then true else false
  if (l.ps > splicenoise ∨ l.po > splicenoise) ∧
      ((l.cov_val ≥ lowcov ∧ l.strand ≠ '.') ∨ l.cov_val ≥ smallcov) then
    if (l.cov_val > highcov ∧ l.strand ≠ '.') ∨
        (p > splicenoise ∧
          (d > splicenoise ∨ (d > highnoise ∧ l.cov_val > smallcov ∧ l.strand ≠ '.'))) then
      let end1 := l.end_ + 1
      if last = false then
        (if end1 > bundleend then end1 else bundleend,
          junc ++ [⟨l.chrname, l.start, end1, l.cov_val, l.strand, l.ps⟩], unprocjunc, last)
      else
        (bundleend, junc,
          unprocjunc ++ [⟨l.chrname, l.start, end1, l.cov_val, l.strand, l.ps⟩], last)
    else (bundleend, junc, unprocjunc, last)
  else (bundleend, junc, unprocjunc, last)

/-- The C function `add_junc_to_bundle`, reading from the remaining lines of the
junction file (`none` is a line that does not parse and is skipped). Returns the
new `bundleend`, `junc`, `unprocjunc` and the lines left unread. -/
def add_junc_to_bundle (chr : String) :
    Int → List JuncEntry → List JuncEntry → List (Option JuncLine) →
      Int × List JuncEntry × List JuncEntry × List (Option JuncLine)
  | bundleend, junc, unprocjunc, [] => (bundleend, junc, unprocjunc, [])
  | bundleend, junc, unprocjunc, none :: rest =>
    add_junc_to_bundle chr bundleend junc unprocjunc rest
  | bundleend, junc, unprocjunc, some l :: rest =>
    let r := add_junc_line chr bundleend junc unprocjunc l
    if r.2.2.2 = true then (r.1, r.2.1, r.2.2.1, rest)
    else add_junc_to_bundle chr r.1 r.2.1 r.2.2.1 rest

/-- Stage (a) of the admission filter, in the words of the specification. -/
def admitStageA (l : JuncLine) : Prop :=
  max l.ps l.po > splicenoise ∧
    ((l.cov_val ≥ lowcov ∧ l.strand ≠ '.') ∨ l.cov_val ≥ smallcov)

/-- Stage (b) of the admission filter, in the words of the specification. -/
def admitStageB (l : JuncLine) : Prop :=
  (l.cov_val > highcov ∧ l.strand ≠ '.') ∨
    (min l.pl l.pr > splicenoise ∧
      (min l.ps l.po > splicenoise ∨
        (min l.ps l.po > highnoise ∧ l.cov_val > smallcov ∧ l.strand ≠ '.')))

instance (l : JuncLine) : Decidable (admitStageA l) := by
  unfold admitStageA
  infer_instance

instance (l : JuncLine) : Decidable (admitStageB l) := by
  unfold admitStageB
  infer_instance

/-- The junction entry stored for an admitted line: `end` increased by 1, every
other field as parsed. -/
def storedEntry (l : JuncLine) : JuncEntry :=
  ⟨l.chrname, l.start, l.end_ + 1, l.cov_val, l.strand, l.ps⟩

/-- The junction of the specification's admission example: coverage 60, strand
`+`, percentages `0.02-0.001-0.3-0.1`. -/
def boundaryJunction : JuncLine :=
  ⟨"chr1", 1000, 2000, 60, '+', 2 / 100, 1 / 1000, 3 / 10, 1 / 10⟩

/-- The same junction with `spliceOther` raised to 0.006, above `highnoise`. -/
def boundaryJunctionAbove : JuncLine :=
  ⟨"chr1", 1000, 2000, 60, '+', 2 / 100, 6 / 1000, 3 / 10, 1 / 10⟩

/-! ## `process_junctions` -/

/-- The key `"%s:%d:%c"` of `process_junctions`. The string is determined by, and
determines, the triple (chromosome name, start, strand), so keys are compared as
triples. -/
abbrev JuncKey := String × Int × Char

def junc_key (j : JuncEntry) : JuncKey := (j.chrname, j.start, j.strand)

/-- The C struct `ActiveEntry`. -/
structure ActiveEntry where
  key : JuncKey
  idx : Nat
deriving DecidableEq

/-- Removal of the first entry of `active` whose key equals `key`
(the `for ... strcmp ... break` loop with its shift). -/
def active_remove (key : JuncKey) : List ActiveEntry → List ActiveEntry
  | [] => []
  | a :: rest => if a.key = key then rest else a :: active_remove key rest

/-- Entry `k` of the end-sorted index permutation (`jend[k]`). -/
def jendAt (jend : List Nat) (k : Nat) : Nat := jend.getD k 0

/-- The loop `while (je < nj && junc[jend[je]].end < junc[js].start)` of
`process_junctions`: closes the junctions that ended before the current start.
The first argument bounds the iterations; the caller passes `nj - je`. -/
def pj_close (junc : List JuncEntry) (jend : List Nat) (nj js : Nat) :
    Nat → Nat → List ActiveEntry → Nat × List ActiveEntry
  | 0, je, active => (je, active)
  | fuel + 1, je, active =>
    if je < nj ∧ (juncAt junc (jendAt jend je)).end_ < (juncAt junc js).start then
      pj_close junc jend nj js fuel (je + 1)
        (active_remove (junc_key (juncAt junc (jendAt jend je))) active)
    else (je, active)

/-- The loop "check against active junctions" of `process_junctions`, over the
active entries in order; `mark` is the `mark` array. -/
def pj_check (junc : List JuncEntry) (js : Nat) : List ActiveEntry → List Bool → List Bool
  | [], mark => mark
  | a :: rest, mark =>
    let ai := a.idx
    let mark1 :=
      if equal_strand (juncAt junc ai).strand (juncAt junc js).strand = true then
        if (juncAt junc js).cov > (juncAt junc ai).cov then
          if (juncAt junc js).cov < smallcov then mark.set ai true else mark
        else if (juncAt junc js).cov < (juncAt junc ai).cov then
          if (juncAt junc ai).cov < smallcov then mark.set js true else mark
        else mark
      else mark
    pj_check junc js rest mark1

/-- The loop `while (js < nj)` of `process_junctions`; the first argument bounds
the iterations, the caller passes `nj`. Returns the `mark` array. -/
def pj_sweep (junc : List JuncEntry) (jend : List Nat) (nj : Nat) :
    Nat → Nat → Nat → List ActiveEntry → List Bool → List Bool
  | 0, _, _, _, mark => mark
  | fuel + 1, js, je, active, mark =>
    if js < nj then
      let c := pj_close junc jend nj js (nj - je) je active
      let mark1 := pj_check junc js c.2 mark
      let active2 := c.2 ++ [⟨junc_key (juncAt junc js), js⟩]
      pj_sweep junc jend nj fuel (js + 1) c.1 active2 mark1
    else mark

/-- The loop "apply marks": `if (mark[j]) junc[j].cov = 0` for `j < nj`. -/
def pj_apply (nj : Nat) (mark : List Bool) : Nat → List JuncEntry → List JuncEntry
  | _, [] => []
  | j, e :: rest =>
    (if j < nj ∧ mark.getD j false = true then { e with cov := 0 } else e)
      :: pj_apply nj mark (j + 1) rest

/-- The C function `process_junctions(nj)` on the junction pool `junc` with the
end-sorted index permutation `jend`; returns the new junction pool. -/
def process_junctions (junc : List JuncEntry) (jend : List Nat) (nj : Nat) : List JuncEntry :=
  pj_apply nj (pj_sweep junc jend nj nj 0 0 [] (List.replicate nj false)) 0 junc

/-! ## Drops, records, candidates -/

/-- The C struct `DropEntry`; a negative `pos` encodes end polarity. -/
structure DropEntry where
  pos : Int
  perc : ℚ
  covdiff : ℚ
deriving DecidableEq

instance : Inhabited DropEntry := ⟨⟨0, 0, 0⟩⟩

/-- The C struct `RecordEntry`; `type` is one of the strings `"tstart"`, `"tend"`,
`"jstart"`, `"jend"`, and `num_indices` is the length of `indices`. -/
structure RecordEntry where
  type : String
  pos : Int
  indices : List Nat
  change_perc : ℚ
  pos_cov : ℚ
  cov_to_next : ℚ
deriving DecidableEq

instance : Inhabited RecordEntry := ⟨⟨"", 0, [], 0, 0, 0⟩⟩

/-- The C struct `TmpEntry`. -/
structure TmpEntry where
  pos : Int
  perc : ℚ
  cov : ℚ
  active : Bool
deriving DecidableEq

instance : Inhabited TmpEntry := ⟨⟨0, 0, 0, false⟩⟩

/-- Entry `i` of the drop buffer (`drop_arr[i]`). -/
def dropAt (drop_arr : List DropEntry) (i : Nat) : DropEntry := drop_arr.getD i default

/-- Entry `i` of the record buffer (`record[i]`). -/
def recAt (record : List RecordEntry) (i : Nat) : RecordEntry := record.getD i default

/-- Entry `i` of a candidate list (`tmps[i]`, `tmpe[i]`). -/
def tmpAt (tmp : List TmpEntry) (i : Nat) : TmpEntry := tmp.getD i default

/-- The assignment `junc[k].cov = 0`. -/
def junc_zero (junc : List JuncEntry) (k : Nat) : List JuncEntry :=
  junc.set k { juncAt junc k with cov := 0 }

/-- The loop `for (j ...) junc[indices[j]].cov = 0` over the indices of a group. -/
def junc_zero_all (junc : List JuncEntry) (indices : List Nat) : List JuncEntry :=
  indices.foldl junc_zero junc

/-- The sum `Σ junc[indices[j]].cov` over the indices of a group. -/
def junc_cov_sum (junc : List JuncEntry) (indices : List Nat) : ℚ :=
  (indices.map (fun k => (juncAt junc k).cov)).sum

/-- The update `record[record_size - 1].cov_to_next += x`. -/
def add_cov_to_last (record : List RecordEntry) (x : ℚ) : List RecordEntry :=
  record.set (record.length - 1)
    { recAt record (record.length - 1) with
      cov_to_next := (recAt record (record.length - 1)).cov_to_next + x }

/-- The C function `push_record`. -/
def push_record (record : List RecordEntry) (type : String) (pos : Int) (indices : List Nat)
    (change_perc pos_cov cov_to_next : ℚ) : List RecordEntry :=
  record ++ [⟨type, pos, indices, change_perc, pos_cov, cov_to_next⟩]

/-- The C function `push_drop`. -/
def push_drop (drop_arr : List DropEntry) (pos : Int) (perc covdiff : ℚ) : List DropEntry :=
  drop_arr ++ [⟨pos, perc, covdiff⟩]

/-! ## `compute_perc` -/

/-- The four outputs of `compute_perc`. -/
structure Perc where
  percl : ℚ
  percr : ℚ
  avgl : ℚ
  avgr : ℚ
deriving DecidableEq

/-- The C function `compute_perc`. The arrays `cov`, `adjs`, `adje` are maps from
index to value. Every call has `i ≥ 2` and `r ≥ 1`, where C's `%` is the
non-negative remainder. -/
def compute_perc (l r i : Int) (cov adjs adje : Int → ℚ) : Perc :=
  let k := (i - 2) % win
  let kw := i - 1 - k
  let sumleft := if kw < i ∧ kw ≥ l then cov (i - 1) - cov (l - 1) + cov (kw - 1)
    else cov (i - 1) - cov (l - 1)
  let sumlefta0 := if kw < i ∧ kw ≥ l then adjs (i - 1) - adjs (l - 1) + adjs (kw - 1)
    else adjs (i - 1) - adjs (l - 1)
  let sumlefta := sumleft - sumlefta0
  let k2 := (r - 1) % win
  let kw2 := r - k2
  let sumright := if kw2 - 1 < r ∧ kw2 ≥ i then cov r - cov (i - 1) + cov (kw2 - 1)
    else cov r - cov (i - 1)
  let sumrighta0 := if kw2 - 1 < r ∧ kw2 ≥ i then adje r - adje (i - 1) + adje (kw2 - 1)
    else adje r - adje (i - 1)
  let sumrighta := sumright - sumrighta0
  let avgl := if sumlefta > sumright then (sumlefta - sumright) / ((i - l : Int) : ℚ) else 0
  let percl := if sumlefta > sumright then sumright / sumlefta else 1
  let avgr := if sumrighta > sumleft then (sumrighta - sumleft) / ((i - l : Int) : ℚ) else 0
  let percr := if sumrighta > sumleft then sumleft / sumrighta else 1
  ⟨percl, percr, avgl, avgr⟩

/-! ## `get_drop` -/

/-- The update `a[k] += x` of a zero-initialised array held as a map. -/
def arr_add (a : Int → ℚ) (k : Int) (x : ℚ) : Int → ℚ :=
  fun n => if n = k then a n + x else a n

/-- The assignment `a[k] = x`. -/
def arr_set (a : Int → ℚ) (k : Int) (x : ℚ) : Int → ℚ :=
  fun n => if n = k then x else a n

/-- The loop `while (js < nj && junc[js].start < bound) js++`; the first argument
bounds the iterations (`nj - js`). -/
def skip_starts_before (junc : List JuncEntry) (nj : Nat) (bound : Int) : Nat → Nat → Nat
  | 0, js => js
  | fuel + 1, js =>
    if js < nj ∧ (juncAt junc js).start < bound then
      skip_starts_before junc nj bound fuel (js + 1)
    else js

/-- The loop `while (je < nj && junc[jend[je]].end < bound) je++`. -/
def skip_ends_before (junc : List JuncEntry) (jend : List Nat) (nj : Nat) (bound : Int) :
    Nat → Nat → Nat
  | 0, je => je
  | fuel + 1, je =>
    if je < nj ∧ (juncAt junc (jendAt jend je)).end_ < bound then
      skip_ends_before junc jend nj bound fuel (je + 1)
    else je

/-- The loop `while (istart > covg[curr_si].end) curr_si++`; inside a contiguous
region it stops at the segment holding `istart`, at the latest at the region's last
segment, so `nb - curr_si` iterations (the first argument) suffice. -/
def seg_of_pos (covg : List CovgEntry) (istart : Int) : Nat → Nat → Nat
  | 0, curr_si => curr_si
  | fuel + 1, curr_si =>
    if istart > (covgAt covg curr_si).end_ then seg_of_pos covg istart fuel (curr_si + 1)
    else curr_si

/-- The loop `jcov += junc[js].cov; js++` while `junc[js].start == istart`, entered
after the first junction of the group has been taken. Returns `jcov` and `js`. -/
def sum_starts_at (junc : List JuncEntry) (nj : Nat) (istart : Int) :
    Nat → Nat → ℚ → ℚ × Nat
  | 0, js, jcov => (jcov, js)
  | fuel + 1, js, jcov =>
    if js < nj ∧ (juncAt junc js).start = istart then
      sum_starts_at junc nj istart fuel (js + 1) (jcov + (juncAt junc js).cov)
    else (jcov, js)

/-- The loop `jcov += junc[jend[je]].cov; je++` while `junc[jend[je]].end == istart`. -/
def sum_ends_at (junc : List JuncEntry) (jend : List Nat) (nj : Nat) (istart : Int) :
    Nat → Nat → ℚ → ℚ × Nat
  | 0, je, jcov => (jcov, je)
  | fuel + 1, je, jcov =>
    if je < nj ∧ (juncAt junc (jendAt jend je)).end_ = istart then
      sum_ends_at junc jend nj istart fuel (je + 1) (jcov + (juncAt junc (jendAt jend je)).cov)
    else (jcov, je)

/-- The loop `for (j = from; j < from + n; j++) a[base + j] += jcov * j`. -/
def add_ramp (base : Int) (jcov : ℚ) : Nat → Int → (Int → ℚ) → (Int → ℚ)
  | 0, _, a => a
  | n + 1, j, a => add_ramp base jcov n (j + 1) (arr_add a (base + j) (jcov * (j : ℚ)))

/-- The loop `for (j = from; j < from + n; j++) a[base + j] += jcov`. -/
def add_flat (base : Int) (jcov : ℚ) : Nat → Int → (Int → ℚ) → (Int → ℚ)
  | 0, _, a => a
  | n + 1, j, a => add_flat base jcov n (j + 1) (arr_add a (base + j) jcov)

/-- The state of the array-building loop of `get_drop`. -/
structure BuildState where
  curr_si : Nat
  c : Int → ℚ
  as : Int → ℚ
  ae : Int → ℚ
  js : Nat
  je : Nat
  jp : List Int

/-- One iteration of `for (int i = 0; i < len; i++)` in `get_drop`. -/
def build_step (covg : List CovgEntry) (junc : List JuncEntry) (jend : List Nat)
    (nb nj : Nat) (start : Int) (i : Int) (st : BuildState) : BuildState :=
  let istart := i + start
  let curr_si := seg_of_pos covg istart (nb - st.curr_si) st.curr_si
  let i1 := i + 1
  let r_mod := i % win
  let c1 := arr_set st.c i1 (covgAt covg curr_si).cov
  let c2 := if r_mod ≠ 0 then arr_add c1 i1 (c1 i) else c1
  let as2 := if r_mod ≠ 0 then arr_add st.as i1 (st.as i) else st.as
  let ae2 := if r_mod ≠ 0 then arr_add st.ae i1 (st.ae i) else st.ae
  let isjunc : Bool := if st.js < nj ∧ (juncAt junc st.js).start = istart then true else false
  let sj := sum_starts_at junc nj istart (nj - (st.js + 1)) (st.js + 1) (juncAt junc st.js).cov
  let as3 := add_ramp (i - r_mod) sj.1 (r_mod + 1).toNat 1 as2
  let as4 := if i > win then add_ramp (i - win + 1) sj.1 (win - r_mod - 1).toNat 1 as3 else as3
  let as5 := if isjunc = true then as4 else as2
  let js5 := if isjunc = true then sj.2 else st.js
  let jp5 := if isjunc = true then st.jp ++ [i1] else st.jp
  if st.je < nj ∧ (juncAt junc (jendAt jend st.je)).end_ = istart then
    let se := sum_ends_at junc jend nj istart (nj - (st.je + 1)) (st.je + 1)
      (juncAt junc (jendAt jend st.je)).cov
    let ae5 := add_flat i1 se.1 win.toNat 0 ae2
    ⟨curr_si, c2, as5, ae5, js5, se.2, if isjunc = true then jp5 else jp5 ++ [i1]⟩
  else ⟨curr_si, c2, as5, ae2, js5, st.je, jp5⟩

/-- The loop `for (int i = 0; i < len; i++)` of `get_drop`, run for `n` iterations
from index `i`. -/
def build_arrays (covg : List CovgEntry) (junc : List JuncEntry) (jend : List Nat)
    (nb nj : Nat) (start : Int) : Nat → Int → BuildState → BuildState
  | 0, _, st => st
  | n + 1, i, st =>
    build_arrays covg junc jend nb nj start n (i + 1)
      (build_step covg junc jend nb nj start i st)

/-- The loop `while (j_idx < jp_size && jp[j_idx] <= l) j_idx++`. -/
def skip_jp (jp : List Int) (l : Int) : Nat → Nat → Nat
  | 0, j_idx => j_idx
  | fuel + 1, j_idx =>
    if j_idx < jp.length ∧ jp.getD j_idx 0 ≤ l then skip_jp jp l fuel (j_idx + 1) else j_idx

/-- Minimum update `if (percl < minpercl) {...} if (percr < minpercr) {...}`. -/
def perc_min (m p : Perc) : Perc :=
  ⟨if p.percl < m.percl then p.percl else m.percl,
   if p.percr < m.percr then p.percr else m.percr,
   if p.percl < m.percl then p.avgl else m.avgl,
   if p.percr < m.percr then p.avgr else m.avgr⟩

/-- The loop `while (k < jp_size && jp[k] < r_val)` of the scan: re-evaluates
`compute_perc` anchored at the junction boundaries inside the window. -/
def anchor_loop (jp : List Int) (c as ae : Int → ℚ) (i r_val : Int) : Nat → Nat → Perc → Perc
  | 0, _, m => m
  | fuel + 1, k, m =>
    if k < jp.length ∧ jp.getD k 0 < r_val then
      let jpk := jp.getD k 0
      let m1 :=
        if i - jpk > smallwin then perc_min m (compute_perc jpk (2 * i - jpk - 1) i c as ae)
        else if jpk - i + 1 > smallwin then
          perc_min m (compute_perc (2 * i - jpk - 1) jpk i c as ae)
        else m
      anchor_loop jp c as ae i r_val fuel (k + 1) m1
    else m

/-- The assignment `tmp[k].active = 0`. -/
def tmp_deactivate (tmp : List TmpEntry) (k : Nat) : List TmpEntry :=
  tmp.set k { tmpAt tmp k with active := false }

/-- The loop `while (k >= 0 && i - tmp[k].pos <= win)` that walks back over the
candidates inside the window; the first argument is `k + 1`. Returns the candidate
list and `maxs`. -/
def dedup_back (i : Int) (perc : ℚ) : Nat → List TmpEntry → Nat → List TmpEntry × Nat
  | 0, tmp, maxs => (tmp, maxs)
  | k + 1, tmp, maxs =>
    if i - (tmpAt tmp k).pos ≤ win then
      if perc > (tmpAt tmp k).perc then
        dedup_back i perc k (tmp_deactivate tmp (tmp.length - 1)) k
      else dedup_back i perc k (tmp_deactivate tmp k) maxs
    else (tmp, maxs)

/-- The candidate bookkeeping of the scan, the same code for `tmps`/`maxs` and for
`tmpe`/`maxe`: record a candidate at `i` with percentage `perc` and magnitude `avg`,
and de-duplicate against the earlier candidates. -/
def add_candidate (tmp : List TmpEntry) (maxs : Nat) (i : Int) (perc avg : ℚ) :
    List TmpEntry × Nat :=
  if tmp.length > 0 then
    let tmp1 := tmp ++ [⟨i, perc, avg, true⟩]
    let size := tmp1.length
    if i - (tmpAt tmp1 maxs).pos > win then
      if (tmpAt tmp1 (size - 2)).perc ≥ perc ∨ i - (tmpAt tmp1 (size - 2)).pos > win then
        dedup_back i perc (size - 1) tmp1 (size - 1)
      else (tmp_deactivate tmp1 (size - 1), maxs)
    else if perc < (tmpAt tmp1 maxs).perc then (tmp_deactivate tmp1 maxs, size - 1)
    else (tmp_deactivate tmp1 (size - 1), maxs)
  else (tmp ++ [⟨i, perc, avg, true⟩], maxs)

/-- The state of the scan loop of `get_drop`. -/
structure ScanState where
  i : Int
  j_idx : Nat
  tmps : List TmpEntry
  tmpe : List TmpEntry
  maxs : Nat
  maxe : Nat

/-- One iteration of `while (i < len - smallwin)` in `get_drop`. -/
def scan_step (c as ae : Int → ℚ) (jp : List Int) (len : Int) (st : ScanState) : ScanState :=
  let i := st.i
  let l0 := if i - win < 1 then 1 else i - win
  let r0 := 2 * i - l0 - 1
  let r_val := if r0 > len - 1 then len - 1 else r0
  let l := if r0 > len - 1 then 2 * i - r_val - 1 else l0
  let m0 := compute_perc l r_val i c as ae
  let j_idx := skip_jp jp l (jp.length - st.j_idx) st.j_idx
  let m := anchor_loop jp c as ae i r_val (jp.length - j_idx) j_idx m0
  let s := if m.percr < percnoise then add_candidate st.tmps st.maxs i m.percr m.avgr
    else (st.tmps, st.maxs)
  let e := if m.percl < percnoise then add_candidate st.tmpe st.maxe i m.percl m.avgl
    else (st.tmpe, st.maxe)
  let plus : Int :=
    if m.percr < percnoise ∨ m.percl < percnoise then 1
    else if m.percl > 1 / 2 ∧ m.percr > 1 / 2 then delta_param
    else 1
  ⟨i + plus, j_idx, s.1, e.1, s.2, e.2⟩

/-- The loop `while (i < len - smallwin)` of `get_drop`. Every iteration advances
`i` by at least 1, so `len` iterations (the first argument) suffice. -/
def scan_loop (c as ae : Int → ℚ) (jp : List Int) (len : Int) : Nat → ScanState → ScanState
  | 0, st => st
  | fuel + 1, st =>
    if st.i < len - smallwin then scan_loop c as ae jp len fuel (scan_step c as ae jp len st)
    else st

/-- The three merge loops at the end of the windowed part of `get_drop`: a
two-pointer merge of the start candidates `tmps` (from `s_idx`) and the end
candidates `tmpe` (from `e_idx`) into the drop buffer. `none` is `exit(1)`, taken
when an active start and an active end candidate have the same scan position. -/
def merge_candidates (start : Int) :
    List TmpEntry → List TmpEntry → List DropEntry → Option (List DropEntry)
  | [], [], drop_arr => some drop_arr
  | s :: ss, [], drop_arr =>
    merge_candidates start ss []
      (if s.active = true then push_drop drop_arr (s.pos + start - 1) s.perc s.cov else drop_arr)
  | [], e :: es, drop_arr =>
    merge_candidates start [] es
      (if e.active = true then push_drop drop_arr (-(e.pos + start - 2)) e.perc e.cov
        else drop_arr)
  | s :: ss, e :: es, drop_arr =>
    if e.pos < s.pos then
      merge_candidates start (s :: ss) es
        (if e.active = true then push_drop drop_arr (-(e.pos + start - 2)) e.perc e.cov
          else drop_arr)
    else if s.active = true then
      if e.active = true ∧ e.pos = s.pos then none
      else merge_candidates start ss (e :: es) (push_drop drop_arr (s.pos + start - 1) s.perc s.cov)
    else merge_candidates start ss (e :: es) drop_arr
termination_by ts te _ => ts.length + te.length

/-- The result of `get_drop`: the drop buffer and the cursors `*js_out`, `*je_out`. -/
structure DropResult where
  drop_arr : List DropEntry
  js : Nat
  je : Nat

/-- The windowed part of `get_drop` (the body of `if (len >= win + smallwin)`):
builds the arrays, scans, and merges the candidates into the drop buffer. Returns
the drop buffer and the cursors `js`, `je`; `none` is `exit(1)`. -/
def get_drop_window (covg : List CovgEntry) (junc : List JuncEntry) (jend : List Nat)
    (drop_arr : List DropEntry) (si nb nj : Nat) (start len : Int) (js je : Nat) :
    Option DropResult :=
  let b := build_arrays covg junc jend nb nj start len.toNat 0
    ⟨si, fun _ => 0, fun _ => 0, fun _ => 0, js, je, []⟩
  let sc := scan_loop b.c b.as b.ae b.jp len len.toNat ⟨smallwin + 1, 0, [], [], 0, 0⟩
  match merge_candidates start sc.tmps sc.tmpe drop_arr with
  | none => none
  | some d => some ⟨d, b.js, b.je⟩

/-- The C function `get_drop(si, se, nb, &js, &je, js, je, nj)` on the drop buffer
`drop_arr`; `none` is `exit(1)`. -/
def get_drop (covg : List CovgEntry) (junc : List JuncEntry) (jend : List Nat)
    (drop_arr : List DropEntry) (si se nb : Nat) (js je nj : Nat) : Option DropResult :=
  let start := (covgAt covg si).start
  let end_ := (covgAt covg se).end_
  let js1 := skip_starts_before junc nj start (nj - js) js
  let je1 := skip_ends_before junc jend nj start (nj - je) je
  let drop1 := push_drop drop_arr start 0 (covgAt covg si).cov
  let len := end_ - start + 1
  let w : Option DropResult :=
    if len ≥ win + smallwin then get_drop_window covg junc jend drop1 si nb nj start len js1 je1
    else some ⟨drop1, js1, je1⟩
  match w with
  | none => none
  | some r =>
    let js2 := if r.js > 0 then r.js - 1 else r.js
    let js3 := skip_starts_before junc nj end_ (nj - js2) js2
    some ⟨push_drop r.drop_arr (-end_) 0 (covgAt covg se).cov, js3, r.je⟩

/-! ## `get_record` -/

/-- The state `get_record` reads and writes through its pointer arguments and the
globals `junc` and `record`. -/
structure MergeState where
  ib : Nat
  id : Nat
  js : Nat
  je : Nat
  prevpos : Int
  junc : List JuncEntry
  record : List RecordEntry

/-- The loop that skips retracted junctions in start order:
`while (*js < nj) { if (junc[*js].cov > 0) { nextjs = junc[*js].start; break; } (*js)++; }`.
Returns `*js` and `nextjs`. -/
def next_start (junc : List JuncEntry) (nj : Nat) : Nat → Nat → Nat × Int
  | 0, js => (js, 0)
  | fuel + 1, js =>
    if js < nj then
      if (juncAt junc js).cov > 0 then (js, (juncAt junc js).start)
      else next_start junc nj fuel (js + 1)
    else (js, 0)

/-- The loop that skips retracted junctions in end order. Returns `*je` and `nextje`. -/
def next_end (junc : List JuncEntry) (jend : List Nat) (nj : Nat) : Nat → Nat → Nat × Int
  | 0, je => (je, 0)
  | fuel + 1, je =>
    if je < nj then
      if (juncAt junc (jendAt jend je)).cov > 0 then (je, (juncAt junc (jendAt jend je)).end_)
      else next_end junc jend nj fuel (je + 1)
    else (je, 0)

/-- The loop `while (i >= 0 && record[i].pos > nextd - delta_param)` of the `tend`
case: retracts the junctions of every `jend` record in the window. The first
argument is `i + 1`. -/
def retract_jend_back (record : List RecordEntry) (bound : Int) :
    Nat → List JuncEntry → List JuncEntry
  | 0, junc => junc
  | i + 1, junc =>
    if (recAt record i).pos > bound then
      retract_jend_back record bound i
        (if (recAt record i).type = "jend" then junc_zero_all junc (recAt record i).indices
          else junc)
    else junc

/-- The loop `while (*id < nd && abs(drop_arr[*id].pos) == nextd)` of `get_record`:
pushes one `tstart`/`tend` record per drop at position `nextd`. The first argument
bounds the iterations (`nd - id`). Returns `id`, `junc` and `record`. -/
def push_drops (drop_arr : List DropEntry) (nd : Nat) (nextd prevpos : Int) (pos_cov : ℚ) :
    Nat → Nat → List JuncEntry → List RecordEntry → Nat × List JuncEntry × List RecordEntry
  | 0, id, junc, record => (id, junc, record)
  | fuel + 1, id, junc, record =>
    if id < nd ∧ |(dropAt drop_arr id).pos| = nextd then
      let type := if (dropAt drop_arr id).pos < 0 then "tend" else "tstart"
      let last := recAt record (record.length - 1)
      let junc1 :=
        if (dropAt drop_arr id).perc = 0 ∧ prevpos > nextd - delta_param then
          if type = "tstart" then
            if last.pos = nextd ∧ last.type = "jstart" then junc_zero_all junc last.indices
            else junc
          else retract_jend_back record (nextd - delta_param) record.length junc
        else junc
      push_drops drop_arr nd nextd prevpos pos_cov fuel (id + 1) junc1
        (push_record record type nextd [id] (dropAt drop_arr id).perc pos_cov 0)
    else (id, junc, record)

/-- The branch "start/stop is smallest" of `get_record`. -/
def get_record_drop (covg : List CovgEntry) (drop_arr : List DropEntry) (nb nd : Nat)
    (nextd : Int) (st : MergeState) : MergeState :=
  let record1 :=
    if nextd > st.prevpos + 1 then
      add_cov_to_last st.record (get_cov covg (st.prevpos + 1) (nextd - 1) st.ib nb).1
    else st.record
  let pc := get_cov covg nextd nextd st.ib nb
  let r := push_drops drop_arr nd nextd st.prevpos pc.1 (nd - st.id) st.id st.junc record1
  { st with ib := pc.2, id := r.1, prevpos := nextd, junc := r.2.1, record := r.2.2 }

/-- The loop `while (covg[tmpib].start > leftstart) tmpib--`. It is only entered
when `covg[0].start <= leftstart`, so it stops at index 0 at the latest. -/
def cursor_back (covg : List CovgEntry) (leftstart : Int) : Nat → Nat
  | 0 => 0
  | n + 1 => if (covgAt covg (n + 1)).start > leftstart then cursor_back covg leftstart n else n + 1

/-- The flank sums `leftcov`, `rightcov` of a junction group: `get_cov` over
`[lo, mid - 1]` (with `lo` clipped to the first segment's start) and over
`[mid, hi]` (with `hi` clipped to the last segment's end), sharing one cursor. -/
def flank_cov (covg : List CovgEntry) (nb ib : Nat) (lo mid hi : Int) : ℚ × ℚ :=
  let leftstart := if lo < (covgAt covg 0).start then (covgAt covg 0).start else lo
  let tmpib := if lo < (covgAt covg 0).start then 0 else cursor_back covg leftstart ib
  let left := get_cov covg leftstart (mid - 1) tmpib nb
  let rightend := if hi > (covgAt covg (nb - 1)).end_ then (covgAt covg (nb - 1)).end_ else hi
  let right := get_cov covg mid rightend left.2 nb
  (left.1, right.1)

/-- The loop `while (*je < nj && junc[jend[*je]].end == nextje)` of `get_record`:
collects the live junctions of the group into `tmpr` and sums their coverage.
Returns `*je`, `tmpr` and `count`. -/
def collect_ends (junc : List JuncEntry) (jend : List Nat) (nj : Nat) (nextje : Int) :
    Nat → Nat → List Nat → ℚ → Nat × List Nat × ℚ
  | 0, je, tmpr, count => (je, tmpr, count)
  | fuel + 1, je, tmpr, count =>
    if je < nj ∧ (juncAt junc (jendAt jend je)).end_ = nextje then
      if (juncAt junc (jendAt jend je)).cov > 0 then
        collect_ends junc jend nj nextje fuel (je + 1) (tmpr ++ [jendAt jend je])
          (count + (juncAt junc (jendAt jend je)).cov)
      else collect_ends junc jend nj nextje fuel (je + 1) tmpr count
    else (je, tmpr, count)

/-- The loop `while (*js < nj && junc[*js].start == nextjs)` of `get_record`. -/
def collect_starts (junc : List JuncEntry) (nj : Nat) (nextjs : Int) :
    Nat → Nat → List Nat → ℚ → Nat × List Nat × ℚ
  | 0, js, tmpr, count => (js, tmpr, count)
  | fuel + 1, js, tmpr, count =>
    if js < nj ∧ (juncAt junc js).start = nextjs then
      if (juncAt junc js).cov > 0 then
        collect_starts junc nj nextjs fuel (js + 1) (tmpr ++ [js]) (count + (juncAt junc js).cov)
      else collect_starts junc nj nextjs fuel (js + 1) tmpr count
    else (js, tmpr, count)

/-- The loop `while (i >= 0 && record[i].pos > nextje - 2)` of the `jend` branch:
looks for a `jend` record at `nextje - 1`. The first argument is `i + 1`; returns
`prevjend` and `prevcount`. -/
def prev_jend_scan (junc : List JuncEntry) (record : List RecordEntry) (nextje : Int) :
    Nat → Nat → ℚ → Nat × ℚ
  | 0, prevjend, prevcount => (prevjend, prevcount)
  | i + 1, prevjend, prevcount =>
    if (recAt record i).pos > nextje - 2 then
      if (recAt record i).pos = nextje - 1 ∧ (recAt record i).type = "jend" then
        prev_jend_scan junc record nextje i i
          (prevcount + junc_cov_sum junc (recAt record i).indices)
      else prev_jend_scan junc record nextje i prevjend prevcount
    else (prevjend, prevcount)

/-- The branch "nextje is smallest" of `get_record` (the source has it twice). -/
def get_record_jend (covg : List CovgEntry) (jend : List Nat) (nb nj : Nat)
    (nextje : Int) (st : MergeState) : MergeState :=
  let g := collect_ends st.junc jend nj nextje (nj - st.je) st.je [] 0
  let tmpr := g.2.1
  let count := g.2.2
  if count > 0 then
    let f := flank_cov covg nb st.ib (nextje - delta_param) nextje (nextje + delta_param - 1)
    let p := if st.prevpos > nextje - 2 then
        prev_jend_scan st.junc st.record nextje st.record.length 0 0
      else (0, 0)
    if f.1 < f.2 ∧ p.2 < count then
      let junc1 :=
        if p.2 > 0 then junc_zero_all st.junc (recAt st.record p.1).indices else st.junc
      let record1 :=
        if nextje > st.prevpos + 1 then
          add_cov_to_last st.record (get_cov covg (st.prevpos + 1) (nextje - 1) st.ib nb).1
        else st.record
      let pc := get_cov covg nextje nextje st.ib nb
      { st with ib := pc.2, je := g.1, prevpos := nextje, junc := junc1,
                record := push_record record1 "jend" nextje tmpr (f.1 / f.2) pc.1 0 }
    else { st with je := g.1, junc := junc_zero_all st.junc tmpr }
  else { st with je := g.1 }

/-- The state of the loop `while (i >= 0 && record[i].pos > nextjs - delta_param)`
of the `jstart` branch. -/
structure StartScan where
  count : ℚ
  prevjstart : Nat
  prevcount : ℚ

/-- The loop `while (i >= 0 && record[i].pos > nextjs - delta_param)` of the
`jstart` branch: a 0-confidence `tstart` or a `jend` at `nextjs` in the window
clears `count` and stops; a `jstart` record at `nextjs - 1` is remembered. The
first argument is `i + 1`. -/
def prev_jstart_scan (junc : List JuncEntry) (record : List RecordEntry) (nextjs : Int) :
    Nat → StartScan → StartScan
  | 0, s => s
  | i + 1, s =>
    if (recAt record i).pos > nextjs - delta_param then
      if ((recAt record i).change_perc = 0 ∧ (recAt record i).type = "tstart") ∨
          ((recAt record i).pos = nextjs ∧ (recAt record i).type = "jend") then
        { s with count := 0 }
      else if (recAt record i).pos = nextjs - 1 ∧ (recAt record i).type = "jstart" then
        prev_jstart_scan junc record nextjs i
          { s with prevjstart := i,
                   prevcount := s.prevcount + junc_cov_sum junc (recAt record i).indices }
      else prev_jstart_scan junc record nextjs i s
    else s

/-- The branch "nextjs is smallest" of `get_record`. -/
def get_record_jstart (covg : List CovgEntry) (nb nj : Nat) (nextjs : Int)
    (st : MergeState) : MergeState :=
  let g := collect_starts st.junc nj nextjs (nj - st.js) st.js [] 0
  let tmpr := g.2.1
  if g.2.2 > 0 then
    let s := if st.prevpos > nextjs - delta_param then
        prev_jstart_scan st.junc st.record nextjs st.record.length ⟨g.2.2, 0, 0⟩
      else ⟨g.2.2, 0, 0⟩
    let f := flank_cov covg nb st.ib (nextjs - delta_param + 1) (nextjs + 1)
      (nextjs + delta_param)
    if s.prevcount < s.count ∧ s.count > 0 ∧ f.1 > f.2 then
      let junc1 :=
        if s.prevcount > 0 then junc_zero_all st.junc (recAt st.record s.prevjstart).indices
        else st.junc
      let record1 :=
        if nextjs > st.prevpos + 1 then
          add_cov_to_last st.record (get_cov covg (st.prevpos + 1) (nextjs - 1) st.ib nb).1
        else st.record
      let pc := get_cov covg nextjs nextjs st.ib nb
      { st with ib := pc.2, js := g.1, prevpos := nextjs, junc := junc1,
                record := push_record record1 "jstart" nextjs tmpr (f.2 / f.1) pc.1 0 }
    else { st with js := g.1, junc := junc_zero_all st.junc tmpr }
  else { st with js := g.1 }

/-- The C function `get_record`; `none` is `exit(1)`. -/
def get_record (covg : List CovgEntry) (drop_arr : List DropEntry) (jend : List Nat)
    (nb nd nj : Nat) (st : MergeState) : Option MergeState :=
  let nextd : Int := if st.id < nd then |(dropAt drop_arr st.id).pos| else 0
  let s := next_start st.junc nj (nj - st.js) st.js
  let e := next_end st.junc jend nj (nj - st.je) st.je
  let nextjs := s.2
  let nextje := e.2
  let st1 : MergeState := { st with js := s.1, je := e.1 }
  if nextd = 0 ∧ nextjs = 0 ∧ nextje = 0 then
    if st1.id = nd ∧ st1.js = nj ∧ st1.je = nj then some st1 else none
  else if less_than nextd nextjs = true then
    if less_than nextd nextje = true then some (get_record_drop covg drop_arr nb nd nextd st1)
    else if nextje ≠ 0 then some (get_record_jend covg jend nb nj nextje st1)
    else some st1
  else
    if less_than nextjs nextje = true then some (get_record_jstart covg nb nj nextjs st1)
    else if nextje ≠ 0 then some (get_record_jend covg jend nb nj nextje st1)
    else some st1

/-! ## Output, `get_next_cov`, `print_small_bundle` -/

/-- What follows the five common fields of a record line: the supporting junctions
`position:strand:coverage` of a junction record, or the coverage delta of a drop
record. -/
inductive RecTail where
  | juncs (entries : List (Int × Char × ℚ))
  | covdiff (value : ℚ)
deriving DecidableEq

/-- One line written to standard output, with its values unformatted. -/
inductive OutLine where
  | bundle (chr : String) (bundleno : Int) (firstPos lastPos : Int) (avg : ℚ)
  | record (type : String) (pos : Int) (change_perc pos_cov cov_val : ℚ) (tail : RecTail)
deriving DecidableEq

/-- The loop `while (i < e && record[i].pos == 0)` of `get_next_cov`; returns `i`
and `cov_val`. -/
def next_cov_skip (record : List RecordEntry) (e : Nat) : Nat → Nat → ℚ → Nat × ℚ
  | 0, i, cov_val => (i, cov_val)
  | fuel + 1, i, cov_val =>
    if i < e ∧ (recAt record i).pos = 0 then
      next_cov_skip record e fuel (i + 1)
        (cov_val + ((recAt record i).pos_cov + (recAt record i).cov_to_next))
    else (i, cov_val)

/-- The C function `get_next_cov(i, e)`. -/
def get_next_cov (record : List RecordEntry) (i e : Nat) : ℚ :=
  let r := recAt record i
  let first := r.type = "tstart" ∨ r.type = "jend"
  let cov0 := if first then r.cov_to_next + r.pos_cov else r.cov_to_next
  let start := if first then r.pos else r.pos + 1
  let k := next_cov_skip record e (e - (i + 1)) (i + 1) cov0
  if k.1 < e then
    let n := recAt record k.1
    let closing := n.type = "tend" ∨ n.type = "jstart"
    let cov_val := if closing then k.2 + n.pos_cov else k.2
    let len_val : Int := (if closing then 1 else 0) + (n.pos - start)
    if len_val > 0 then cov_val / (len_val : ℚ) else cov_val
  else 0

/-- Entry `b` of the record buffer for a signed index; `record[-1]` reads as the
zero entry. -/
def recAtI (record : List RecordEntry) (b : Int) : RecordEntry :=
  if b < 0 then default else recAt record b.toNat

/-- The assignment `record[j].pos = 0`. -/
def rec_zero_pos (record : List RecordEntry) (j : Nat) : List RecordEntry :=
  record.set j { recAt record j with pos := 0 }

/-- The loop `for (j = b; j <= i; j++) if (record[j].pos) { record[j].pos = 0; nl--; }`,
run for `n` iterations from `j`. Returns `record` and `nl`. -/
def retract_range : Nat → Int → List RecordEntry → Int → List RecordEntry × Int
  | 0, _, record, nl => (record, nl)
  | n + 1, j, record, nl =>
    if (recAtI record j).pos ≠ 0 then
      retract_range n (j + 1) (rec_zero_pos record j.toNat) (nl - 1)
    else retract_range n (j + 1) record nl

/-- The state of the first loop of `print_small_bundle`. -/
structure SmallState where
  record : List RecordEntry
  b : Int
  sum : ℚ
  sumb : ℚ
  found : Bool
  nl : Int
  reale : Nat

/-- One iteration of the first loop of `print_small_bundle`. -/
def small_step (i : Nat) (st : SmallState) : SmallState :=
  let r := recAt st.record i
  let x := r.pos_cov + r.cov_to_next
  if r.pos = 0 then
    { st with sum := st.sum + x, sumb := if st.b ≥ 0 then st.sumb + x else st.sumb }
  else if r.type = "tend" then
    if r.change_perc = 0 then
      let len_val := r.pos - (recAtI st.record st.b).pos + 1
      if st.found = false ∧ (len_val < win ∨ (st.sumb + x) / (len_val : ℚ) < lowcov) then
        let t := retract_range ((i : Int) - st.b + 1).toNat st.b st.record (st.nl + 1)
        { st with record := t.1, nl := t.2, sum := st.sum + x, sumb := 0, b := -1,
                  found := false }
      else
        { st with nl := st.nl + 1, sum := st.sum + x, sumb := 0, b := -1, found := false,
                  reale := i }
    else { st with sum := st.sum + x, sumb := st.sumb + x, nl := st.nl + 1 }
  else if r.type = "tstart" then
    if r.change_perc = 0 then
      { st with sum := st.sum + x, sumb := st.sumb + x, nl := st.nl + 1, b := i,
                found := false }
    else { st with sum := st.sum + x, sumb := st.sumb + x, nl := st.nl + 1 }
  else { st with sum := st.sum + x, sumb := st.sumb + x, nl := st.nl + 1, found := true }

/-- The first loop `for (int i = s; i < e; i++)` of `print_small_bundle`, run for
`n` iterations from `i`. -/
def small_loop : Nat → Nat → SmallState → SmallState
  | 0, _, st => st
  | n + 1, i, st => small_loop n (i + 1) (small_step i st)

/-- The junction entries printed on a `jend` (`pos = 1`) or `jstart` (`pos = 2`)
line: one per supporting junction with coverage above 0. -/
def junc_entries (junc : List JuncEntry) (is_jend : Bool) : List Nat → List (Int × Char × ℚ)
  | [] => []
  | k :: rest =>
    if (juncAt junc k).cov > 0 then
      ((if is_jend = true then (juncAt junc k).start else (juncAt junc k).end_),
        (juncAt junc k).strand, (juncAt junc k).cov) :: junc_entries junc is_jend rest
    else junc_entries junc is_jend rest

/-- The line printed for record `i` in the second loop of `print_small_bundle`. -/
def record_line (junc : List JuncEntry) (drop_arr : List DropEntry)
    (record : List RecordEntry) (i e : Nat) : OutLine :=
  let r := recAt record i
  let tail :=
    if r.type = "jend" then RecTail.juncs (junc_entries junc true r.indices)
    else if r.type = "jstart" then RecTail.juncs (junc_entries junc false r.indices)
    else RecTail.covdiff (dropAt drop_arr (r.indices.getD 0 0)).covdiff
  OutLine.record r.type r.pos r.change_perc r.pos_cov (get_next_cov record i e) tail

/-- The second loop `for (int i = s; i < e; i++)` of `print_small_bundle`: one line
per record whose position is not 0. -/
def print_records (junc : List JuncEntry) (drop_arr : List DropEntry)
    (record : List RecordEntry) (e : Nat) : Nat → Nat → List OutLine
  | 0, _ => []
  | n + 1, i =>
    if (recAt record i).pos ≠ 0 then
      record_line junc drop_arr record i e :: print_records junc drop_arr record e n (i + 1)
    else print_records junc drop_arr record e n (i + 1)

/-- The C function `print_small_bundle(chr, bundleno, s, e)`: the new record
buffer, the returned bundle number and the lines printed. -/
def print_small_bundle (junc : List JuncEntry) (drop_arr : List DropEntry)
    (record : List RecordEntry) (chr : String) (bundleno : Int) (s e : Nat) :
    List RecordEntry × Int × List OutLine :=
  let st := small_loop (e - s) s ⟨record, s, 0, 0, false, 0, e - 1⟩
  if st.nl > 0 then
    let avg := st.sum /
      ((((recAt st.record st.reale).pos - (recAt st.record s).pos + 1 : Int)) : ℚ)
    (st.record, bundleno + 1,
      OutLine.bundle chr bundleno (recAt st.record s).pos (recAt st.record st.reale).pos avg
        :: print_records junc drop_arr st.record e (e - s) s)
  else (st.record, bundleno, [])

/-! ## `process_records` -/

/-- The loop `while (j >= 0 && (record[j].pos == 0 || record[j].pos == p))` with its
`break`: is a record at position `p` found before a record at another non-zero
position? The first argument is `j + 1`. -/
def same_pos_before (record : List RecordEntry) (p : Int) : Nat → Bool
  | 0 => false
  | j + 1 =>
    if (recAt record j).pos = 0 ∨ (recAt record j).pos = p then
      if p = (recAt record j).pos then true else same_pos_before record p j
    else false

/-- Retraction of record `k` in `process_records`: `record[k].pos_cov = 0` when the
backward walk finds a record at the same position, then `record[k].pos = 0`. -/
def retract_record (record : List RecordEntry) (k : Nat) : List RecordEntry :=
  let r := recAt record k
  record.set k
    { r with pos := 0,
             pos_cov := if same_pos_before record r.pos k = true then 0 else r.pos_cov }

/-- The state of the main loop of `process_records`. -/
structure ProcState where
  record : List RecordEntry
  bundleno : Int
  out : List OutLine
  lasts : Nat
  laste : Nat
  lastjs : Nat
  lastje : Nat
  bundlend : Int
  s : Nat

/-- The loop over the supporting junctions of a `jstart` record: is one of them
live, and the bundle end raised to the largest end of the live ones. -/
def jstart_valid (junc : List JuncEntry) : List Nat → Bool → Int → Bool × Int
  | [], found, bundlend => (found, bundlend)
  | k :: rest, found, bundlend =>
    if (juncAt junc k).cov > 0 then
      jstart_valid junc rest true
        (if (juncAt junc k).end_ > bundlend then (juncAt junc k).end_ else bundlend)
    else jstart_valid junc rest found bundlend

/-- One iteration of `while (i < n)` in `process_records`. -/
def proc_step (junc : List JuncEntry) (drop_arr : List DropEntry) (chr : String) (i : Nat)
    (st : ProcState) : ProcState :=
  let r := recAt st.record i
  let prev := recAt st.record (i - 1)
  if r.type = "tstart" then
    if r.change_perc > 0 then
      if st.lastje ≠ 0 ∧ r.pos - (recAt st.record st.lastje).pos < smallwin ∧
          (recAt st.record st.lastje).change_perc < 1 / 2 then
        { st with record := retract_record st.record i }
      else { st with lasts := i }
    else if prev.pos = r.pos ∧ prev.type = "jend" then
      { st with record := st.record.set i { r with pos := 0, pos_cov := 0 } }
    else if r.pos > st.bundlend then
      let p := print_small_bundle junc drop_arr st.record chr st.bundleno st.s i
      { st with record := p.1, bundleno := p.2.1, out := st.out ++ p.2.2, s := i }
    else st
  else if r.type = "tend" then
    if r.change_perc > 0 then
      if st.lastjs ≠ 0 ∧ r.pos - (recAt st.record st.lastjs).pos < smallwin ∧
          (recAt st.record st.lastjs).change_perc < 1 / 2 then
        { st with record := retract_record st.record i }
      else { st with laste := i }
    else if prev.pos = r.pos ∧ prev.type = "jstart" then
      { st with record := st.record.set i { r with pos := 0, pos_cov := 0 } }
    else st
  else if r.type = "jstart" then
    let v := jstart_valid junc r.indices false st.bundlend
    if v.1 = true then
      if r.change_perc < 1 / 2 ∧ st.laste ≠ 0 ∧
          r.pos - (recAt st.record st.laste).pos < smallwin then
        { st with record := retract_record st.record st.laste, laste := 0, lastjs := i,
                  bundlend := v.2 }
      else { st with lastjs := i, bundlend := v.2 }
    else { st with record := retract_record st.record i, bundlend := v.2 }
  else
    if r.indices.any (fun k => decide ((juncAt junc k).cov > 0)) = true then
      if r.change_perc < 1 / 2 ∧ st.lasts ≠ 0 ∧
          r.pos - (recAt st.record st.lasts).pos < smallwin then
        { st with record := retract_record st.record st.lasts, lasts := 0, lastje := i }
      else { st with lastje := i }
    else { st with record := rec_zero_pos st.record i }

/-- The loop `while (i < n)` of `process_records`, run for `k` iterations from `i`. -/
def proc_loop (junc : List JuncEntry) (drop_arr : List DropEntry) (chr : String) :
    Nat → Nat → ProcState → ProcState
  | 0, _, st => st
  | k + 1, i, st => proc_loop junc drop_arr chr k (i + 1) (proc_step junc drop_arr chr i st)

/-- The C function `process_records(chr, bundleno)`: the new record buffer, the
returned bundle number and the lines printed; `none` is `exit(1)`. -/
def process_records (junc : List JuncEntry) (drop_arr : List DropEntry)
    (record : List RecordEntry) (chr : String) (bundleno : Int) :
    Option (List RecordEntry × Int × List OutLine) :=
  let n := record.length
  if (recAt record (n - 1)).type ≠ "tend" then none
  else
    let st := proc_loop junc drop_arr chr (n - 1) 1
      ⟨record, bundleno, [], 0, 0, 0, 0, (recAt record 0).pos, 0⟩
    let p := print_small_bundle junc drop_arr st.record chr st.bundleno st.s n
    some (p.1, p.2.1, st.out ++ p.2.2)

/-! ## `process_bundle` -/

/-- The C struct `ContRegion`: the first and last segment index of a contiguous run. -/
structure ContRegion where
  si : Nat
  ei : Nat
deriving DecidableEq

instance : Inhabited ContRegion := ⟨⟨0, 0⟩⟩

/-- The state of the region-delimiting loop of `process_bundle`. -/
structure RegionState where
  s_arr : List ContRegion
  preve : Int
  seengoodavg : Bool
  runavg : ℚ
  avg : ℚ
  len : Int

/-- The test `runavg > 0 && s_size > 0 && runavg / region_len > lowcov` on the last
contiguous region. -/
def region_good (covg : List CovgEntry) (s_arr : List ContRegion) (runavg : ℚ) : Bool :=
  let last := s_arr.getD (s_arr.length - 1) default
  let region_len : Int := (covgAt covg last.ei).end_ - (covgAt covg last.si).start + 1
  if runavg > 0 ∧ s_arr.length > 0 ∧ runavg / (region_len : ℚ) > lowcov then true else false

/-- One iteration of `for (int i = 0; i < nb; i++)` in `process_bundle`. -/
def region_step (covg : List CovgEntry) (i : Nat) (st : RegionState) : RegionState :=
  let g := covgAt covg i
  let gap := g.start - 1 > st.preve
  let seen1 : Bool :=
    if gap ∧ st.seengoodavg = false ∧ region_good covg st.s_arr st.runavg = true then true
    else st.seengoodavg
  let runavg1 := if gap then 0 else st.runavg
  let s1 := if gap then st.s_arr ++ [⟨i, i⟩] else st.s_arr
  let s2 := s1.set (s1.length - 1) { s1.getD (s1.length - 1) default with ei := i }
  let clen : Int := g.end_ - g.start + 1
  ⟨s2, g.end_, seen1, if seen1 = false then runavg1 + g.cov * (clen : ℚ) else runavg1,
    st.avg + g.cov * (clen : ℚ), st.len + clen⟩

/-- The loop `for (int i = 0; i < nb; i++)` of `process_bundle`, run for `n`
iterations from `i`. -/
def region_loop (covg : List CovgEntry) : Nat → Nat → RegionState → RegionState
  | 0, _, st => st
  | n + 1, i, st => region_loop covg n (i + 1) (region_step covg i st)

/-- The loop `for (i < s_size) get_drop(s_arr[i].si, s_arr[i].ei, ...)`. -/
def drop_loop (covg : List CovgEntry) (junc : List JuncEntry) (jend : List Nat)
    (nb nj : Nat) : List ContRegion → DropResult → Option DropResult
  | [], r => some r
  | reg :: rest, r =>
    match get_drop covg junc jend r.drop_arr reg.si reg.ei nb r.js r.je nj with
    | none => none
    | some r1 => drop_loop covg junc jend nb nj rest r1

/-- The loop `while (id < nd || js < nj || je < nj) get_record(...)`. Every call
that returns advances one of the three cursors or leaves all of them exhausted, so
the first argument, a bound on the number of calls, is never used up when it is at
least `(nd - id) + (nj - js) + (nj - je)`; `none` is `exit(1)`. -/
def merge_loop (covg : List CovgEntry) (drop_arr : List DropEntry) (jend : List Nat)
    (nb nd nj : Nat) : Nat → MergeState → Option MergeState
  | 0, st => if st.id < nd ∨ st.js < nj ∨ st.je < nj then none else some st
  | fuel + 1, st =>
    if st.id < nd ∨ st.js < nj ∨ st.je < nj then
      match get_record covg drop_arr jend nb nd nj st with
      | none => none
      | some st1 => merge_loop covg drop_arr jend nb nd nj fuel st1
    else some st

/-- What `process_bundle` has built when it calls `process_records`: the junction
pool, the drop buffer and the record buffer. -/
structure Built where
  junc : List JuncEntry
  drop_arr : List DropEntry
  record : List RecordEntry

/-- The detection part of `process_bundle` (the body of `if (len > win &&
seengoodavg)` up to the call of `process_records`). The end-sorted index
permutation `jend` that `sort_jend` computes with the C library's `qsort` is an
argument. `none` is `exit(1)`. -/
def build_records (covg : List CovgEntry) (junc : List JuncEntry) (jend : List Nat)
    (s_arr : List ContRegion) : Option Built :=
  let nb := covg.length
  let nj := junc.length
  let junc1 := process_junctions junc jend nj
  match drop_loop covg junc1 jend nb nj s_arr ⟨[], 0, 0⟩ with
  | none => none
  | some d =>
    let nd := d.drop_arr.length - 1
    let record0 := push_record [] "tstart" (covgAt covg 0).start [0] 0 (covgAt covg 0).cov 0
    let st0 : MergeState := ⟨0, 1, 0, 0, (covgAt covg 0).start, junc1, record0⟩
    match merge_loop covg d.drop_arr jend nb nd nj ((nd - 1) + nj + nj) st0 with
    | none => none
    | some st =>
      let last_end := (covgAt covg (nb - 1)).end_
      let record1 :=
        if last_end > st.prevpos + 1 then
          add_cov_to_last st.record (get_cov covg (st.prevpos + 1) (last_end - 1) st.ib nb).1
        else st.record
      some ⟨st.junc, d.drop_arr,
        push_record record1 "tend" last_end [nd] 0 (covgAt covg (nb - 1)).cov 0⟩

/-- The C function `process_bundle(chr, bundleno)` on the coverage buffer `covg`
and the junction pool `junc`: the returned bundle number and the lines printed;
`none` is `exit(1)`. -/
def process_bundle (covg : List CovgEntry) (junc : List JuncEntry) (jend : List Nat)
    (chr : String) (bundleno : Int) : Option (Int × List OutLine) :=
  let nb := covg.length
  if nb = 0 then some (bundleno, [])
  else
    let rs := region_loop covg nb 0 ⟨[], -1, false, 0, 0, 0⟩
    let seengoodavg : Bool :=
      if region_good covg rs.s_arr rs.runavg = true then true else rs.seengoodavg
    if rs.len > win ∧ seengoodavg = true then
      match build_records covg junc jend rs.s_arr with
      | none => none
      | some b =>
        match process_records b.junc b.drop_arr b.record chr bundleno with
        | none => none
        | some p => some (p.2.1, p.2.2)
    else some (bundleno, [])

/-! ## Reference notions used in the statements -/

/-- A region for the tie example: coverage 20 on `[100,200]`, then 5 on `[201,400]`. -/
def tieCovg : List CovgEntry := [⟨100, 200, 20⟩, ⟨201, 400, 5⟩]

/-- Drops of the tie example: the region start, a start candidate at 200, the region end. -/
def tieDrops : List DropEntry := [⟨100, 0, 20⟩, ⟨200, 1 / 10, 5⟩, ⟨-400, 0, 5⟩]

/-- Merge state of the tie example after the initial `tstart`: the next drop
candidate and the only junction's start are both at position 200. -/
def tieState : MergeState :=
  ⟨0, 1, 0, 0, 100, [⟨"chr1", 200, 300, 60, '+', 0⟩], [⟨"tstart", 100, [0], 0, 20, 0⟩]⟩

/-- The value, in units of the coverage, that the block-reset cumulative array of
`get_drop` holds at index `n` after `k` positions of constant coverage: the offset
inside the current block of `win` positions, plus 1. -/
def constPrefix (k n : Int) : Int :=
  if 1 ≤ n ∧ n ≤ k then (n - 1) % win + 1 else 0

/-- The record positions are in non-decreasing order. -/
def RecSorted (record : List RecordEntry) : Prop :=
  (record.map (fun r => r.pos)).Pairwise (fun a b => a ≤ b)

instance (record : List RecordEntry) : Decidable (RecSorted record) := by
  unfold RecSorted
  infer_instance

/-- The junctions are sorted by start and each has `0 < start < end`. -/
def JuncSorted (junc : List JuncEntry) : Prop :=
  junc.Pairwise (fun a b => a.start ≤ b.start) ∧ ∀ j ∈ junc, 0 < j.start ∧ j.start < j.end_

instance (junc : List JuncEntry) : Decidable (JuncSorted junc) := by
  unfold JuncSorted
  infer_instance

/-- A region for the ordering example: coverage 20 on `[100,260]`. -/
def lateCovg : List CovgEntry := [⟨100, 260, 20⟩]

/-- One junction that starts at 262, just after the end of the coverage. -/
def lateJunc : List JuncEntry := [⟨"chr1", 262, 300, 60, '+', 0⟩]

/-- The junction pool `b` is the pool `a` after some retractions: same junctions,
each coverage either kept or set to 0. -/
def Retracts (a b : List JuncEntry) : Prop :=
  a.length = b.length ∧
  ∀ k, (juncAt b k).start = (juncAt a k).start ∧ (juncAt b k).end_ = (juncAt a k).end_ ∧
    ((juncAt b k).cov = (juncAt a k).cov ∨ (juncAt b k).cov = 0)

/-- Facts about the junction pool that retractions do not change: starts are in
non-decreasing order, ends are in non-decreasing order along `jend`, and every
junction has `0 < start < end` and starts at or before `last_end`. -/
structure JuncStatic (jend : List Nat) (nj : Nat) (last_end : Int) (junc : List JuncEntry) :
    Prop where
  starts_sorted : ∀ i j, i ≤ j → j < nj → (juncAt junc i).start ≤ (juncAt junc j).start
  ends_sorted : ∀ k1 k2, k1 ≤ k2 → k2 < nj →
    (juncAt junc (jendAt jend k1)).end_ ≤ (juncAt junc (jendAt jend k2)).end_
  wf : ∀ j, j < nj → 0 < (juncAt junc j).start ∧ (juncAt junc j).start < (juncAt junc j).end_ ∧
    (juncAt junc j).start ≤ last_end
  jend_lt : ∀ k, k < nj → jendAt jend k < nj

/-- Facts about the coverage and the drop buffer that the merge relies on: the
first segment starts at a positive position, segments are non-empty with
non-negative coverage and none ends after the last one, and the drops from index 1
up to `nd` have absolute positions in non-decreasing order between the first
segment's start and the last segment's end. -/
structure MergeEnv (covg : List CovgEntry) (drop_arr : List DropEntry) (nd : Nat) : Prop where
  c0_pos : 0 < (covgAt covg 0).start
  covg_wf : ∀ i, (covgAt covg i).start ≤ (covgAt covg i).end_
  covg_nonneg : ∀ i, 0 ≤ (covgAt covg i).cov
  covg_le_last : ∀ i, i < covg.length →
    (covgAt covg i).end_ ≤ (covgAt covg (covg.length - 1)).end_
  c0_le_last : (covgAt covg 0).start ≤ (covgAt covg (covg.length - 1)).end_
  drops_sorted : ∀ k1 k2, 1 ≤ k1 → k1 ≤ k2 → k2 < nd →
    |(dropAt drop_arr k1).pos| ≤ |(dropAt drop_arr k2).pos|
  drops_range : ∀ k, 1 ≤ k → k < nd →
    (covgAt covg 0).start ≤ |(dropAt drop_arr k).pos| ∧
    |(dropAt drop_arr k).pos| ≤ (covgAt covg (covg.length - 1)).end_

/-- The invariant of the merge loop of `process_bundle`: the records pushed so far
are in non-decreasing position order between the first segment's start and
`prevpos`, the first record is the confidence-0 `tstart`, and no event that can
still be accepted lies before `prevpos`. -/
structure MergeInv (covg : List CovgEntry) (drop_arr : List DropEntry) (jend : List Nat)
    (nd nj : Nat) (st : MergeState) : Prop where
  static : JuncStatic jend nj (covgAt covg (covg.length - 1)).end_ st.junc
  rec_ne : st.record ≠ []
  rec_first : (recAt st.record 0).type = "tstart" ∧ (recAt st.record 0).change_perc = 0
  rec_sorted : RecSorted st.record
  rec_lo : ∀ r ∈ st.record, (covgAt covg 0).start ≤ r.pos
  rec_hi : ∀ r ∈ st.record, r.pos ≤ st.prevpos
  prev_hi : st.prevpos ≤ (covgAt covg (covg.length - 1)).end_
  ib_le : st.ib ≤ covg.length
  id_pos : 1 ≤ st.id
  drops_ge : ∀ k, st.id ≤ k → k < nd → st.prevpos ≤ |(dropAt drop_arr k).pos|
  starts_ge : ∀ j, st.js ≤ j → j < nj → (juncAt st.junc j).cov > 0 →
    st.prevpos ≤ (juncAt st.junc j).start ∨ (juncAt st.junc j).start < (covgAt covg 0).start
  ends_ge : ∀ k, st.je ≤ k → k < nj → (juncAt st.junc (jendAt jend k)).cov > 0 →
    jendAt jend k < st.js → st.prevpos ≤ (juncAt st.junc (jendAt jend k)).end_

/-- Candidate positions are strictly increasing, at least `smallwin + 1`, below the
scan position and below `len - smallwin`. -/
def CandOK (len i : Int) (l : List Int) : Prop :=
  l.Pairwise (fun a b => a < b) ∧ ∀ x ∈ l, smallwin + 1 ≤ x ∧ x < i ∧ x < len - smallwin


/-- The absolute positions of a list of drops are in non-decreasing order. -/
def AbsSorted (d : List DropEntry) : Prop :=
  (d.map (fun x => |x.pos|)).Pairwise (fun a b => a ≤ b)

/-- Absolute positions in non-decreasing order, all between `lo` and `hi`. -/
def DropsIn (lo hi : Int) (d : List DropEntry) : Prop :=
  AbsSorted d ∧ ∀ x ∈ d, lo ≤ |x.pos| ∧ |x.pos| ≤ hi

/-- The contiguous regions are index ranges `si ≤ ei` below `n`, in ascending order
and disjoint. -/
def RegionsOK (n : Nat) (regs : List ContRegion) : Prop :=
  (∀ reg ∈ regs, reg.si ≤ reg.ei ∧ reg.ei < n) ∧ regs.Pairwise (fun a b => a.ei < b.si)

/-- A junction for the ordering example that starts on the last base of `lateCovg`. -/
def edgeJunc : List JuncEntry := [⟨"chr1", 260, 300, 60, '+', 0⟩]

/-- The number of events the merge loop of `process_bundle` has still to consume:
`(nd - id) + (nj - js) + (nj - je)`. -/
def merge_measure (nd nj : Nat) (st : MergeState) : Nat :=
  (nd - st.id) + (nj - st.js) + (nj - st.je)

/-- The positions of the record lines of an output, in printing order. -/
def outPositions : List OutLine → List Int
  | [] => []
  | OutLine.bundle _ _ _ _ _ :: rest => outPositions rest
  | OutLine.record _ pos _ _ _ _ :: rest => pos :: outPositions rest

/-- The record lines of an output are in non-decreasing position order. -/
def OutSorted (out : List OutLine) : Prop :=
  (outPositions out).Pairwise (fun a b => a ≤ b)

/-- Buffer `cur` is buffer `orig` with some positions set to 0. -/
def Zeroed (orig cur : List RecordEntry) : Prop :=
  ∀ k, (recAt cur k).pos = (recAt orig k).pos ∨ (recAt cur k).pos = 0

/-- The positions of the records `i, …, i + n - 1` of a buffer. -/
def origPositions (orig : List RecordEntry) (i n : Nat) : List Int :=
  (List.range' i n).map (fun k => (recAt orig k).pos)

/-! ## `sort_jend` -/

/-- The value a C `int` holds after an arithmetic result `x` wraps around to 32 bits. -/
def wrap32 (x : Int) : Int := (x + 2147483648) % 4294967296 - 2147483648

/-- The C function `compare_jend` on two indices `ia`, `ib` of the junction pool:
`junc[ia].end - junc[ib].end` in `int` arithmetic. -/
def compare_jend (junc : List JuncEntry) (ia ib : Nat) : Int :=
  wrap32 ((juncAt junc ia).end_ - (juncAt junc ib).end_)

/-- The C function `sort_jend(nj)`: `jend` is filled with `0, …, nj - 1` and sorted
by the C library's `qsort` under `compare_jend`. The library routine is the
argument `qsort`; the result is the array `jend`. -/
def sort_jend (qsort : (Nat → Nat → Int) → List Nat → List Nat) (junc : List JuncEntry)
    (nj : Nat) : List Nat :=
  qsort (compare_jend junc) (List.range nj)

/-- What the C standard asks of the comparison function given to `qsort`: its sign
is antisymmetric and "not greater" is transitive. -/
def ConsistentCmp (cmp : Nat → Nat → Int) : Prop :=
  (∀ a b, cmp a b < 0 ↔ 0 < cmp b a) ∧ (∀ a b, cmp a b = 0 ↔ cmp b a = 0) ∧
  (∀ a b c, cmp a b ≤ 0 → cmp b c ≤ 0 → cmp a c ≤ 0)

/-- The contract of the C library's `qsort`: under a consistent comparison function
the result is a rearrangement of the input in ascending order. The order of
elements that compare equal is not part of the contract. -/
def QsortContract (qsort : (Nat → Nat → Int) → List Nat → List Nat) : Prop :=
  ∀ (cmp : Nat → Nat → Int) (l : List Nat), ConsistentCmp cmp →
    (qsort cmp l).Perm l ∧ (qsort cmp l).Pairwise (fun a b => cmp a b ≤ 0)

/-- A sorting routine that meets `QsortContract` and keeps equal elements in input
order: insertion of the elements from the back of the array. -/
def insertion_qsort (cmp : Nat → Nat → Int) (l : List Nat) : List Nat :=
  l.insertionSort (fun a b => cmp a b ≤ 0)

/-- A sorting routine that meets `QsortContract` and puts equal elements in the
reverse of the input order. -/
def reversing_qsort (cmp : Nat → Nat → Int) (l : List Nat) : List Nat :=
  l.reverse.insertionSort (fun a b => cmp a b ≤ 0)

/-- Two junctions with the same end. -/
def tieJunc : List JuncEntry :=
  [⟨"chr1", 100, 300, 20, '+', 0⟩, ⟨"chr1", 200, 300, 30, '+', 0⟩]

/-- Three junctions whose ends are not in start order. -/
def mixedJunc : List JuncEntry :=
  [⟨"chr1", 100, 500, 20, '+', 0⟩, ⟨"chr1", 200, 300, 30, '+', 0⟩,
   ⟨"chr1", 250, 400, 30, '-', 0⟩]

/-! ## States and regions for the merge and gate examples -/

/-- A merge state at the end of the merge: the only drop is consumed, the only
junction is retracted and not yet skipped. -/
def idleState : MergeState :=
  ⟨0, 1, 0, 0, 100, [⟨"chr1", 150, 200, 0, '+', 0⟩], [⟨"tstart", 100, [0], 0, 20, 0⟩]⟩

/-- The record buffer is not empty and its first record is a `tstart` at `p` with
confidence 0. -/
def RecHead (p : Int) (record : List RecordEntry) : Prop :=
  record ≠ [] ∧ (recAt record 0).type = "tstart" ∧ (recAt record 0).pos = p ∧
    (recAt record 0).change_perc = 0

/-- The last record of the buffer is a `tend` at `p` with confidence 0. -/
def RecLast (p : Int) (record : List RecordEntry) : Prop :=
  (recAt record (record.length - 1)).type = "tend" ∧
    (recAt record (record.length - 1)).pos = p ∧
    (recAt record (record.length - 1)).change_perc = 0

/-! ## The gate of `process_bundle` -/

/-- The number of positions of coverage segment `k`. -/
def segLen (covg : List CovgEntry) (k : Nat) : Int :=
  (covgAt covg k).end_ - (covgAt covg k).start + 1

/-- The number of positions covered by the segments `a, …, a + n - 1`. -/
def lenSum (covg : List CovgEntry) (a n : Nat) : Int :=
  ((List.range' a n).map (fun k => segLen covg k)).sum

/-- The coverage summed over the positions of the segments `a, …, a + n - 1`. -/
def covSum (covg : List CovgEntry) (a n : Nat) : ℚ :=
  ((List.range' a n).map (fun k => (covgAt covg k).cov * (segLen covg k : ℚ))).sum

/-- There is a gap between segment `k` and segment `k + 1`. -/
def gapAfter (covg : List CovgEntry) (k : Nat) : Prop :=
  (covgAt covg (k + 1)).start - 1 > (covgAt covg k).end_

/-- The segments `a, …, b` are a contiguous run. -/
def IsRun (covg : List CovgEntry) (a b : Nat) : Prop :=
  a ≤ b ∧ b < covg.length ∧ ∀ k, a ≤ k → k < b → ¬ gapAfter covg k

/-- The segments `a, …, b` are a maximal contiguous run. -/
def MaxRun (covg : List CovgEntry) (a b : Nat) : Prop :=
  IsRun covg a b ∧ (a = 0 ∨ gapAfter covg (a - 1)) ∧
    (b + 1 = covg.length ∨ gapAfter covg b)

/-- The mean coverage of the run `a, …, b` is above `lowcov`. -/
def GoodRun (covg : List CovgEntry) (a b : Nat) : Prop :=
  covSum covg a (b + 1 - a) / (lenSum covg a (b + 1 - a) : ℚ) > lowcov

/-- The gate of `process_bundle` stated over the region: the total covered length
is above `win` and some maximal contiguous run has mean coverage above `lowcov`. -/
def GatePasses (covg : List CovgEntry) : Prop :=
  lenSum covg 0 covg.length > win ∧ ∃ a b, MaxRun covg a b ∧ GoodRun covg a b

/-- A region with a one-base spike of coverage on its 26th base. -/
def spikeCovg : List CovgEntry := [⟨101, 125, 20⟩, ⟨126, 126, 2160⟩, ⟨127, 275, 20⟩]

/-- The candidate lists `tmps`, `tmpe` (and the rest of the scan state) that
`get_drop` has when it enters its merge loops; meaningful when the region has at
least `win + smallwin` positions. -/
def get_drop_scan (covg : List CovgEntry) (junc : List JuncEntry) (jend : List Nat)
    (si se nb : Nat) (js je nj : Nat) : ScanState :=
  let start := (covgAt covg si).start
  let end_ := (covgAt covg se).end_
  let js1 := skip_starts_before junc nj start (nj - js) js
  let je1 := skip_ends_before junc jend nj start (nj - je) je
  let len := end_ - start + 1
  let b := build_arrays covg junc jend nb nj start len.toNat 0
    ⟨si, fun _ => 0, fun _ => 0, fun _ => 0, js1, je1, []⟩
  scan_loop b.c b.as b.ae b.jp len len.toNat ⟨smallwin + 1, 0, [], [], 0, 0⟩

/-- An active start candidate and an active end candidate have the same scan
position. -/
def Coincide (ts te : List TmpEntry) : Prop :=
  ∃ s ∈ ts, ∃ e ∈ te, s.active = true ∧ e.active = true ∧ e.pos = s.pos

/-- Drop `x` is the drop of an active start candidate of `ts` or of an active end
candidate of `te`. -/
def FromCand (start : Int) (ts te : List TmpEntry) (x : DropEntry) : Prop :=
  (∃ s ∈ ts, s.active = true ∧ x.pos = s.pos + start - 1) ∨
  (∃ e ∈ te, e.active = true ∧ x.pos = -(e.pos + start - 2))

/-! ## The sub-bundle start index of `print_small_bundle` -/

/-- Two covered regions `[100,260]` and `[400,500]` at coverage 20. -/
def gapCovg : List CovgEntry := [⟨100, 260, 20⟩, ⟨400, 500, 20⟩]

/-- A junction from 259, one base before the end of the first region of `gapCovg`,
to the first base 400 of the second region (stored end, the end of the
junction line plus 1). -/
def gapJunc : List JuncEntry := [⟨"chr1", 259, 400, 60, '+', 0⟩]

/-- The record buffer and the start index `s` with which `process_records` makes its
last call `print_small_bundle(chr, bundleno, s, n)`. -/
def final_print_args (junc : List JuncEntry) (drop_arr : List DropEntry)
    (record : List RecordEntry) (chr : String) (bundleno : Int) : List RecordEntry × Nat :=
  let st := proc_loop junc drop_arr chr (record.length - 1) 1
    ⟨record, bundleno, [], 0, 0, 0, 0, (recAt record 0).pos, 0⟩
  (st.record, st.s)

/-- The state of the first loop of `print_small_bundle(chr, bundleno, s, e)` when it
reaches index `i`. -/
def small_state_before (record : List RecordEntry) (s e i : Nat) : SmallState :=
  small_loop (i - s) s ⟨record, s, 0, 0, false, 0, e - 1⟩

/-- A contiguous region whose second segment has coverage 0. -/
def zeroTailCovg : List CovgEntry := [⟨100, 200, 20⟩, ⟨201, 280, 0⟩]

/-! ## Junctions with the same start in `process_junctions` -/

/-- Three junctions in start order, with coverages 15, 15 and 20; the first two
share chromosome, start and strand, and the one with the larger end comes first. -/
def keyClashJunc : List JuncEntry :=
  [⟨"chr1", 100, 300, 15, '+', 1 / 2⟩, ⟨"chr1", 100, 200, 15, '+', 1 / 2⟩,
   ⟨"chr1", 250, 400, 20, '+', 1 / 2⟩]

/-- The lines of a junction file that give `keyClashJunc`: ends 299, 199 and 399,
coverages 15, 15 and 20, strand `+`, percentages `0.5-0.5-0.5-0.5`. -/
def keyClashLines : List (Option JuncLine) :=
  [some ⟨"chr1", 100, 299, 15, '+', 1 / 2, 1 / 2, 1 / 2, 1 / 2⟩,
   some ⟨"chr1", 100, 199, 15, '+', 1 / 2, 1 / 2, 1 / 2, 1 / 2⟩,
   some ⟨"chr1", 250, 399, 20, '+', 1 / 2, 1 / 2, 1 / 2, 1 / 2⟩]

/-- The region of the coverage line `chr1 49 500 20`: positions 50 to 500 at
coverage 20. -/
def keyClashCovg : List CovgEntry := [⟨50, 500, 20⟩]

/-! ## The window sums of `compute_perc` -/

/-- The local `sumleft` of `compute_perc`, the raw coverage sum of the left
window `[l, i - 1]`, as it stands when the percentages are computed. -/
def sumleft (l i : Int) (cov : Int → ℚ) : ℚ :=
  let k := (i - 2) % win
  let kw := i - 1 - k
  if kw < i ∧ kw ≥ l then cov (i - 1) - cov (l - 1) + cov (kw - 1)
  else cov (i - 1) - cov (l - 1)

/-- The local `sumlefta` of `compute_perc` after `sumlefta = sumleft - sumlefta`:
the junction-adjusted sum of the left window. -/
def sumlefta (l i : Int) (cov adjs : Int → ℚ) : ℚ :=
  let k := (i - 2) % win
  let kw := i - 1 - k
  sumleft l i cov -
    (if kw < i ∧ kw ≥ l then adjs (i - 1) - adjs (l - 1) + adjs (kw - 1)
      else adjs (i - 1) - adjs (l - 1))

/-- The local `sumright` of `compute_perc`, the raw coverage sum of the right
window `[i, r]`. -/
def sumright (r i : Int) (cov : Int → ℚ) : ℚ :=
  let k := (r - 1) % win
  let kw := r - k
  if kw - 1 < r ∧ kw ≥ i then cov r - cov (i - 1) + cov (kw - 1) else cov r - cov (i - 1)

/-- The local `sumrighta` of `compute_perc` after `sumrighta = sumright -
sumrighta`: the junction-adjusted sum of the right window. -/
def sumrighta (r i : Int) (cov adje : Int → ℚ) : ℚ :=
  let k := (r - 1) % win
  let kw := r - k
  sumright r i cov -
    (if kw - 1 < r ∧ kw ≥ i then adje r - adje (i - 1) + adje (kw - 1)
      else adje r - adje (i - 1))

/-- The left percentage read as "the ratio of the smaller side's junction-adjusted
sum to the larger side's raw sum": the adjusted right sum over the raw left sum
when coverage drops from left to right, 1 otherwise. -/
def percl_adjusted_over_raw (l r i : Int) (cov adjs adje : Int → ℚ) : ℚ :=
  if sumlefta l i cov adjs > sumright r i cov then sumrighta r i cov adje / sumleft l i cov
  else 1

/-- A contiguous region `[100, 275]` whose coverage steps down from 100 to 10 after
position 139. -/
def stepCovg : List CovgEntry := [⟨100, 139, 100⟩, ⟨140, 275, 10⟩]

/-- A junction of coverage 1 that starts at the last base, 139, of the high
segment of `stepCovg`. -/
def stepJunc : List JuncEntry := [⟨"chr1", 139, 400, 1, '+', 0⟩]

/-- The arrays `c`, `as`, `ae` that `get_drop` builds for the region `stepCovg`
with the junction `stepJunc`. -/
def stepArrays : BuildState :=
  build_arrays stepCovg stepJunc [0] 2 1 100 176 0
    ⟨0, fun _ => 0, fun _ => 0, fun _ => 0, 0, 0, []⟩

/-! ## Dominated junctions (`process_junctions`) -/

/-- The intervals `[start, end]` of two junctions intersect. -/
def Overlaps (a b : JuncEntry) : Prop := a.start ≤ b.end_ ∧ b.start ≤ a.end_

/-- Junction `a` is dominated by junction `b`: the two overlap, their strands are
compatible, and `b` has strictly greater coverage, below `smallcov`. -/
def DominatedBy (a b : JuncEntry) : Prop :=
  Overlaps a b ∧ equal_strand a.strand b.strand = true ∧ b.cov > a.cov ∧ b.cov < smallcov

/-- The state of the active set in the sweep: every entry is a junction scanned
before `js`, under its own key, that no `jend[e]` with `e < je` names; the keys of
the entries are distinct. -/
def ActiveOK (junc : List JuncEntry) (jend : List Nat) (js je : Nat)
    (active : List ActiveEntry) : Prop :=
  (active.map (fun b => b.key)).Nodup ∧
  ∀ a ∈ active, a.idx < js ∧ a.key = junc_key (juncAt junc a.idx) ∧
    ∀ e, e < je → jendAt jend e ≠ a.idx

/-- Marks of the sweep: every marked junction is dominated by another one. -/
def MarksOK (junc : List JuncEntry) (nj : Nat) (mark : List Bool) : Prop :=
  ∀ w, mark.getD w false = true →
    ∃ k, k < nj ∧ k ≠ w ∧ DominatedBy (juncAt junc w) (juncAt junc k)


/-- Two overlapping junctions with distinct starts, in start order; `jend = [1, 0]`
sorts them by end. -/
def nestedJunc : List JuncEntry :=
  [⟨"chr1", 100, 300, 15, '+', 1 / 2⟩, ⟨"chr1", 150, 200, 20, '+', 1 / 2⟩]

/-! ## `add_procjunc_to_bundle` -/

/-- The loop `while (j < nj)` of `add_procjunc_to_bundle` over the pending
junctions from index `j` on: the index `j` at which it stops, `*bundleend`, and
whether it stopped at a junction of another chromosome or one that starts after
`*bundleend` (the `return 0` inside the loop). -/
def procjunc_scan (chr : String) : List JuncEntry → Nat → Int → Nat × Int × Bool
  | [], j, bundleend => (j, bundleend, false)
  | e :: rest, j, bundleend =>
    if e.chrname ≠ chr ∨ e.start > bundleend then (j, bundleend, true)
    else procjunc_scan chr rest (j + 1) (if e.end_ > bundleend then e.end_ else bundleend)

/-- The C function `add_procjunc_to_bundle(&bundleend, chr)` on the junction pool
`junc` and the pending set `unprocjunc`: the new `*bundleend`, `junc` and
`unprocjunc`, and the value returned (`true` is 1). -/
def add_procjunc_to_bundle (chr : String) (bundleend : Int) (junc unprocjunc : List JuncEntry) :
    Int × List JuncEntry × List JuncEntry × Bool :=
  if unprocjunc.length = 0 then (bundleend, junc, unprocjunc, true)
  else
    let s := procjunc_scan chr unprocjunc 0 bundleend
    if s.2.2 = true then
      if s.1 > 0 then (s.2.1, junc ++ unprocjunc.take s.1, unprocjunc.drop s.1, false)
      else (s.2.1, junc, unprocjunc, false)
    else
      if s.1 > 0 then (s.2.1, junc ++ unprocjunc.take s.1, [], true)
      else (s.2.1, junc, unprocjunc, true)

/-- The bundle end after the junctions of `moved` have been handed over in order:
raised to the end of each one when that is larger. -/
def grown_end (bundleend : Int) (moved : List JuncEntry) : Int :=
  moved.foldl (fun b e => if e.end_ > b then e.end_ else b) bundleend

/-- The pending junction `e` can be handed over when the bundle end is `b`: it is
on the current chromosome and starts at or before `b`. -/
def Movable (chr : String) (b : Int) (e : JuncEntry) : Prop :=
  e.chrname = chr ∧ e.start ≤ b

/-- The first `k` pending junctions form the longest prefix that can be handed over
one after the other as the bundle end grows. -/
def LongestMovable (chr : String) (bundleend : Int) (pending : List JuncEntry) (k : Nat) :
    Prop :=
  k ≤ pending.length ∧
  (∀ i, i < k → Movable chr (grown_end bundleend (pending.take i)) (juncAt pending i)) ∧
  (k < pending.length →
    ¬ Movable chr (grown_end bundleend (pending.take k)) (juncAt pending k))

/-! ## The heads of the three event streams of `get_record` -/

/-- The local `nextd` of `get_record`: the absolute position of the next drop, or
0 when the drops are used up. -/
def next_drop (drop_arr : List DropEntry) (nd : Nat) (st : MergeState) : Int :=
  if st.id < nd then |(dropAt drop_arr st.id).pos| else 0

/-- The local `nextjs` of `get_record`: the start of the next live junction in
start order, or 0. -/
def next_js (nj : Nat) (st : MergeState) : Int :=
  (next_start st.junc nj (nj - st.js) st.js).2

/-- The local `nextje` of `get_record`: the end of the next live junction in end
order, or 0. -/
def next_je (jend : List Nat) (nj : Nat) (st : MergeState) : Int :=
  (next_end st.junc jend nj (nj - st.je) st.je).2

/-- The state of `get_record` after its two loops that skip retracted junctions. -/
def skip_retracted (jend : List Nat) (nj : Nat) (st : MergeState) : MergeState :=
  { st with js := (next_start st.junc nj (nj - st.js) st.js).1,
            je := (next_end st.junc jend nj (nj - st.je) st.je).1 }

/-- No drop below index `nd` is at position 0, and no junction starts or ends at
position 0. -/
def NonzeroPositions (drop_arr : List DropEntry) (nd : Nat) (junc : List JuncEntry) : Prop :=
  (∀ k, k < nd → (dropAt drop_arr k).pos ≠ 0) ∧
  ∀ j, j < junc.length → (juncAt junc j).start ≠ 0 ∧ (juncAt junc j).end_ ≠ 0

/-! ## The outcome of a junction event (`get_record`) -/

/-- The records of junction events name junctions at their own position: every
index of a `jstart` record is a junction that starts at the record's position,
and every index of a `jend` record one that ends there. -/
def RecIndexed (junc : List JuncEntry) (record : List RecordEntry) : Prop :=
  ∀ r ∈ record,
    (r.type = "jstart" → ∀ k ∈ r.indices, (juncAt junc k).start = r.pos) ∧
    (r.type = "jend" → ∀ k ∈ r.indices, (juncAt junc k).end_ = r.pos)

/-- `get_record` takes its branch "nextjs is smallest": the next live junction
start is not 0, is at or before the next drop, and is before the next live
junction end. -/
def HandlesStart (drop_arr : List DropEntry) (jend : List Nat) (nd nj : Nat)
    (st : MergeState) : Prop :=
  next_js nj st ≠ 0 ∧
  (next_drop drop_arr nd st = 0 ∨ next_js nj st ≤ next_drop drop_arr nd st) ∧
  (next_je jend nj st = 0 ∨ next_js nj st < next_je jend nj st)

/-- `get_record` takes one of its two branches "nextje is smallest": the next live
junction end is not 0 and is at or before the next drop and the next live junction
start. -/
def HandlesEnd (drop_arr : List DropEntry) (jend : List Nat) (nd nj : Nat)
    (st : MergeState) : Prop :=
  next_je jend nj st ≠ 0 ∧
  (next_drop drop_arr nd st = 0 ∨ next_je jend nj st ≤ next_drop drop_arr nd st) ∧
  (next_js nj st = 0 ∨ next_je jend nj st ≤ next_js nj st)

/-- The junction-start group of a call: the junctions the loop
`while (*js < nj && junc[*js].start == nextjs)` passes, in order. -/
def start_group (jend : List Nat) (nj : Nat) (st : MergeState) : List Nat :=
  List.range' (skip_retracted jend nj st).js
    ((collect_starts st.junc nj (next_js nj st) (nj - (skip_retracted jend nj st).js)
      (skip_retracted jend nj st).js [] 0).1 - (skip_retracted jend nj st).js)

/-- The junction-end group of a call: the junctions `jend[*je]` the loop
`while (*je < nj && junc[jend[*je]].end == nextje)` passes, in order. -/
def end_group (jend : List Nat) (nj : Nat) (st : MergeState) : List Nat :=
  (List.range' (skip_retracted jend nj st).je
    ((collect_ends st.junc jend nj (next_je jend nj st) (nj - (skip_retracted jend nj st).je)
      (skip_retracted jend nj st).je [] 0).1 - (skip_retracted jend nj st).je)).map
    (jendAt jend)

/-- The live junctions (coverage above 0) among `l`, in order. -/
def live_of (junc : List JuncEntry) (l : List Nat) : List Nat :=
  l.filter (fun j => decide ((juncAt junc j).cov > 0))

/-- The outcome "accept" of a junction event at `p` for the group `group`: exactly
one record of the given type is pushed, at `p`, with the group's live junctions as
its indices (the record before it may have gap coverage added), `prevpos` becomes
`p`, and the coverage of every junction of the group is as before. -/
def Accepted (type : String) (p : Int) (group : List Nat) (st st2 : MergeState) : Prop :=
  (∃ rec1 r, st2.record = rec1 ++ [r] ∧
    (rec1 = st.record ∨ ∃ x, rec1 = add_cov_to_last st.record x) ∧
    r.type = type ∧ r.pos = p ∧ r.indices = live_of st.junc group) ∧
  st2.prevpos = p ∧
  ∀ j ∈ group, (juncAt st2.junc j).cov = (juncAt st.junc j).cov

/-- The outcome "reject" of a junction event for the group `group`: no record is
pushed, `prevpos` stays, and every junction of the group has coverage 0. -/
def Rejected (group : List Nat) (st st2 : MergeState) : Prop :=
  st2.record = st.record ∧ st2.prevpos = st.prevpos ∧
  ∀ j ∈ group, (juncAt st2.junc j).cov = 0

/-- The state two calls of `get_record` after `tieState`: the junction start at 200
has been accepted and the drop at 200 pushed; the junction end at 300 is next. -/
def tieStateEnd : MergeState :=
  ⟨0, 2, 1, 0, 200, [⟨"chr1", 200, 300, 60, '+', 0⟩],
    [⟨"tstart", 100, [0], 0, 20, 1980⟩, ⟨"jstart", 200, [0], 1 / 4, 20, 0⟩,
      ⟨"tstart", 200, [1], 1 / 10, 20, 0⟩]⟩

/-! ## Flanking coverage -/

/-- The coverage at position `p`: the coverage of the first segment that contains
`p`, or 0 if `p` lies in no segment. -/
def pointCov (covg : List CovgEntry) (p : Int) : ℚ :=
  match covg.find? (fun s => decide (s.start ≤ p ∧ p ≤ s.end_)) with
  | some s => s.cov
  | none => 0

/-- A bundle of two regions, `[1, 160]` with coverage 30, 10 and 100, and
`[170, 180]` with coverage 20. -/
def zeroCovg : List CovgEntry := [⟨1, 20, 30⟩, ⟨21, 156, 10⟩, ⟨157, 160, 100⟩, ⟨170, 180, 20⟩]

/-- Two junctions in start order, the first of which starts at position 0. -/
def zeroJunc : List JuncEntry :=
  [⟨"chr1", 0, 158, 60, '+', 0⟩, ⟨"chr1", 20, 300, 60, '+', 0⟩]

/-- Any two active candidates of the list differ in scan position by more than
`win`. -/
def ActiveApart (tmp : List TmpEntry) : Prop :=
  ∀ j k, j < k → k < tmp.length → (tmpAt tmp j).active = true →
    (tmpAt tmp k).active = true → (tmpAt tmp k).pos - (tmpAt tmp j).pos > win

/-- The candidate list `b` is a later state of the candidate list `a`: every
candidate of `a` is still there, at the same scan position, and is inactive in `b`
if it was inactive in `a`. -/
def StaysInactive (a b : List TmpEntry) : Prop :=
  a.length ≤ b.length ∧
  ∀ k, k < a.length → (tmpAt b k).pos = (tmpAt a k).pos ∧
    ((tmpAt a k).active = false → (tmpAt b k).active = false)

/-- The state of the scan of `get_drop` after at most `n` iterations of
`while (i < len - smallwin)`. -/
def scan_after (c as ae : Int → ℚ) (jp : List Int) (len : Int) (n : Nat) : ScanState :=
  scan_loop c as ae jp len n ⟨smallwin + 1, 0, [], [], 0, 0⟩

/-- The candidate list `b` is the candidate list `a` with some candidates
deactivated. -/
def Deact (a b : List TmpEntry) : Prop :=
  a.length = b.length ∧
  ∀ j, (tmpAt b j).pos = (tmpAt a j).pos ∧
    ((tmpAt b j).active = true → (tmpAt a j).active = true)

/-- The invariant of the candidate bookkeeping (`tmps` with `maxs`, `tmpe` with
`maxe`): positions increase, no candidate after index `maxs` is active, active
candidates are more than `win` apart, and when the candidate at `maxs` is inactive
every active candidate is more than `win` before the last candidate. -/
structure DedupInv (tmp : List TmpEntry) (maxs : Nat) : Prop where
  maxs_le : maxs ≤ tmp.length - 1
  sorted : ∀ j k, j < k → k < tmp.length → (tmpAt tmp j).pos < (tmpAt tmp k).pos
  after : ∀ j, maxs < j → j < tmp.length → (tmpAt tmp j).active = false
  apart : ActiveApart tmp
  stale : (tmpAt tmp maxs).active = false → ∀ j, j < tmp.length →
    (tmpAt tmp j).active = true →
    (tmpAt tmp (tmp.length - 1)).pos - (tmpAt tmp j).pos > win

/-! ## The closing rule of `print_small_bundle` -/

/-- Junction `w` of the list has a stronger compatible neighbour: some other
junction among the first `nj` has a compatible strand and a strictly greater
coverage that is below `smallcov`. -/
def StrandDominated (junc : List JuncEntry) (nj w : Nat) : Prop :=
  ∃ k, k < nj ∧ k ≠ w ∧
    equal_strand (juncAt junc w).strand (juncAt junc k).strand = true ∧
    (juncAt junc k).cov > (juncAt junc w).cov ∧ (juncAt junc k).cov < smallcov

/-! ## Conservation of coverage by the merge -/

/-- A region of 161 bases whose coverage drops from 20 to 5 after position 199. -/
def fallCovg : List CovgEntry := [⟨100, 199, 20⟩, ⟨200, 260, 5⟩]

/-- One junction that starts on the last base before the fall. -/
def fallJunc : List JuncEntry := [⟨"chr1", 199, 400, 60, '+', 0⟩]

/-! ## The block-reset cumulative array of `get_drop` -/

/-- The sum `x a + x (a + 1) + ... + x (a + n - 1)`. -/
def sumRange (x : Int → ℚ) (a : Int) : Nat → ℚ
  | 0 => 0
  | n + 1 => sumRange x a n + x (a + n)

/-- The sum of `x` over the indices `[a, b)`. -/
def sumTo (x : Int → ℚ) (a b : Int) : ℚ := sumRange x a (b - a).toNat

/-- The array `c` is the running sum of `x` over the indices `1..n`, restarted at
every index `j` with `(j - 1) % win = 0`, and 0 at the indices up to 0: what the
loop `c[i1] = cov; if (i % win) c[i1] += c[i]` of `get_drop` builds. -/
def BlockSums (x c : Int → ℚ) (n : Int) : Prop :=
  (∀ j, j ≤ 0 → c j = 0) ∧
  ∀ j, 1 ≤ j → j ≤ n → c j = x j + (if (j - 1) % win ≠ 0 then c (j - 1) else 0)

/-- The coverage of the base whose running sum is `c[t]` in `get_drop`: the base at
offset `t` of the region, counted from 1, at position `start + t - 1`. -/
def baseCov (covg : List CovgEntry) (start t : Int) : ℚ := pointCov covg (start + t - 1)

/-- The arrays `c`, `as`, `ae` (and `jp`) that `get_drop` builds for the region of
the segments `si..se`: the state after the loop `for (i = 0; i < len; i++)`, entered
with the junction cursors `js`, `je`. -/
def region_arrays (covg : List CovgEntry) (junc : List JuncEntry) (jend : List Nat)
    (nj si se js je : Nat) : BuildState :=
  build_arrays covg junc jend covg.length nj (covgAt covg si).start
    ((covgAt covg se).end_ - (covgAt covg si).start + 1).toNat 0
    ⟨si, fun _ => 0, fun _ => 0, fun _ => 0, js, je, []⟩

/-! ## The range of the confidence values -/

/-- Both percentages of a `compute_perc` result are at least 0. -/
def PercOK (m : Perc) : Prop := 0 ≤ m.percl ∧ 0 ≤ m.percr

/-- The window `[l, i)`, `[i, r]` lies inside the arrays of a region of length `n`
and each half is at most `win` long. -/
def WindowOK (n l r i : Int) : Prop :=
  1 ≤ l ∧ l < i ∧ i ≤ r ∧ r ≤ n ∧ i - l ≤ win ∧ r - i + 1 ≤ win

/-- Every percentage in the list is in `[0, percnoise)`. -/
def PercsOK (l : List ℚ) : Prop := ∀ p ∈ l, 0 ≤ p ∧ p < percnoise

/-- The confidence of a record is in range: it is in `[0, 1)`; for a `tstart` or
`tend` record it is 0 or below `percnoise`; for a `jend` record it is the left flank
sum over the strictly larger right flank sum, and for a `jstart` record the right
flank sum over the strictly larger left one, the flank sums being those
`get_record` computes at the record's position (from some cursor `ib`). -/
def ConfOK (covg : List CovgEntry) (r : RecordEntry) : Prop :=
  0 ≤ r.change_perc ∧ r.change_perc < 1 ∧
  ((r.type = "tstart" ∨ r.type = "tend") → r.change_perc = 0 ∨ r.change_perc < percnoise) ∧
  (r.type = "jend" → ∃ ib,
    r.change_perc
      = (flank_cov covg covg.length ib (r.pos - delta_param) r.pos (r.pos + delta_param - 1)).1
        / (flank_cov covg covg.length ib (r.pos - delta_param) r.pos
            (r.pos + delta_param - 1)).2 ∧
    0 ≤ (flank_cov covg covg.length ib (r.pos - delta_param) r.pos
      (r.pos + delta_param - 1)).1 ∧
    (flank_cov covg covg.length ib (r.pos - delta_param) r.pos (r.pos + delta_param - 1)).1
      < (flank_cov covg covg.length ib (r.pos - delta_param) r.pos
          (r.pos + delta_param - 1)).2) ∧
  (r.type = "jstart" → ∃ ib,
    r.change_perc
      = (flank_cov covg covg.length ib (r.pos - delta_param + 1) (r.pos + 1)
          (r.pos + delta_param)).2
        / (flank_cov covg covg.length ib (r.pos - delta_param + 1) (r.pos + 1)
            (r.pos + delta_param)).1 ∧
    0 ≤ (flank_cov covg covg.length ib (r.pos - delta_param + 1) (r.pos + 1)
      (r.pos + delta_param)).2 ∧
    (flank_cov covg covg.length ib (r.pos - delta_param + 1) (r.pos + 1)
        (r.pos + delta_param)).2
      < (flank_cov covg covg.length ib (r.pos - delta_param + 1) (r.pos + 1)
          (r.pos + delta_param)).1)

/-- The invariant of the merge for the confidence range: the coverage cursor is
within the buffer and every record has its confidence in range. -/
def ConfInv (covg : List CovgEntry) (st : MergeState) : Prop :=
  st.ib ≤ covg.length ∧ ∀ r ∈ st.record, ConfOK covg r
/-! ## Facts about the coverage buffer and `get_cov` -/

theorem covg_drop_eq_cons (covg : List CovgEntry) (si : Nat) (h : si < covg.length) :
    covg.drop si = covgAt covg si :: covg.drop (si + 1) := by
  rw [covgAt, List.getD_eq_getElem _ _ h]
  exact List.drop_eq_getElem_cons h

theorem covgAt_mem (covg : List CovgEntry) (si : Nat) (h : si < covg.length) :
    covgAt covg si ∈ covg := by
  rw [covgAt, List.getD_eq_getElem _ _ h]
  exact List.getElem_mem h

theorem CovgSorted.lt_of_lt {covg : List CovgEntry} (hs : CovgSorted covg) {i j : Nat}
    (hij : i < j) (hj : j < covg.length) :
    (covgAt covg i).end_ < (covgAt covg j).start := by
  have hi : i < covg.length := lt_trans hij hj
  rw [covgAt, covgAt, List.getD_eq_getElem _ _ hi, List.getD_eq_getElem _ _ hj]
  exact List.pairwise_iff_getElem.mp hs.2 i j hi hj hij

theorem CovgSorted.start_le_end {covg : List CovgEntry} (hs : CovgSorted covg) {i : Nat}
    (hi : i < covg.length) : (covgAt covg i).start ≤ (covgAt covg i).end_ :=
  hs.1 _ (covgAt_mem covg i hi)

theorem mem_drop_exists (covg : List CovgEntry) (k : Nat) (t : CovgEntry)
    (ht : t ∈ covg.drop k) : ∃ j, k ≤ j ∧ j < covg.length ∧ t = covgAt covg j := by
  obtain ⟨n, hn, rfl⟩ := List.mem_iff_getElem.mp ht
  rw [List.length_drop] at hn
  refine ⟨k + n, Nat.le_add_right _ _, by omega, ?_⟩
  rw [covgAt, List.getD_eq_getElem _ _ (by omega), List.getElem_drop]

theorem mem_take_exists (covg : List CovgEntry) (k : Nat) (t : CovgEntry)
    (ht : t ∈ covg.take k) : ∃ j, j < k ∧ j < covg.length ∧ t = covgAt covg j := by
  obtain ⟨n, hn, rfl⟩ := List.mem_iff_getElem.mp ht
  rw [List.length_take] at hn
  refine ⟨n, by omega, by omega, ?_⟩
  rw [covgAt, List.getD_eq_getElem _ _ (by omega), List.getElem_take]

theorem rangeCov_cons (seg : CovgEntry) (l : List CovgEntry) (s e : Int) :
    rangeCov (seg :: l) s e = ((overlapLen s e seg : Int) : ℚ) * seg.cov + rangeCov l s e := by
  simp [rangeCov]

theorem rangeCov_append (l1 l2 : List CovgEntry) (s e : Int) :
    rangeCov (l1 ++ l2) s e = rangeCov l1 s e + rangeCov l2 s e := by
  simp [rangeCov]

theorem rangeCov_eq_zero (l : List CovgEntry) (s e : Int)
    (h : ∀ t ∈ l, overlapLen s e t = 0) : rangeCov l s e = 0 := by
  induction l with
  | nil => simp [rangeCov]
  | cons a l ih =>
    rw [rangeCov_cons, h a (List.mem_cons_self _ _), ih (fun t ht => h t (List.mem_cons_of_mem _ ht))]
    simp

theorem rangeCov_congr (l : List CovgEntry) (s s1 e : Int)
    (h : ∀ t ∈ l, overlapLen s e t = overlapLen s1 e t) : rangeCov l s e = rangeCov l s1 e := by
  induction l with
  | nil => simp [rangeCov]
  | cons a l ih =>
    rw [rangeCov_cons, rangeCov_cons, h a (List.mem_cons_self _ _),
      ih (fun t ht => h t (List.mem_cons_of_mem _ ht))]

/-- The first loop stops at the first segment that does not end before `start`. -/
theorem get_cov_skip_spec (covg : List CovgEntry) (start : Int) (nb : Nat) :
    ∀ (fuel si : Nat), fuel = nb - si → si ≤ nb →
      si ≤ get_cov_skip covg start nb fuel si ∧ get_cov_skip covg start nb fuel si ≤ nb ∧
      (∀ i, si ≤ i → i < get_cov_skip covg start nb fuel si → (covgAt covg i).end_ < start) ∧
      (get_cov_skip covg start nb fuel si < nb →
        start ≤ (covgAt covg (get_cov_skip covg start nb fuel si)).end_) := by
  intro fuel
  induction fuel with
  | zero =>
    intro si hf hle
    have : si = nb := by omega
    subst this
    refine ⟨le_refl _, le_refl _, fun i hi hik => ?_, fun h => ?_⟩
    · simp only [get_cov_skip] at hik
      omega
    · simp only [get_cov_skip] at h
      omega
  | succ n ih =>
    intro si hf hle
    rw [get_cov_skip]
    split
    · rename_i hc
      obtain ⟨h1, h2, h3, h4⟩ := ih (si + 1) (by omega) (by omega)
      refine ⟨by omega, h2, ?_, h4⟩
      intro i hi hik
      rcases Nat.eq_or_lt_of_le hi with rfl | hlt
      · exact hc.2
      · exact h3 i hlt hik
    · rename_i hc
      refine ⟨le_refl _, hle, fun i hi hik => absurd hik (by omega), ?_⟩
      intro hlt
      by_contra hcon
      exact hc ⟨hlt, by omega⟩

/-- The second loop adds, to the running sum, the coverage of `[start, end]` over
the segments from the cursor on. -/
theorem get_cov_acc_spec (covg : List CovgEntry) (end_ : Int) (hs : CovgSorted covg) :
    ∀ (fuel si : Nat) (start : Int) (cov_sum : ℚ), fuel = covg.length - si → si < covg.length →
      (covgAt covg si).start ≤ start → start ≤ (covgAt covg si).end_ →
      (get_cov_acc covg end_ covg.length fuel start si cov_sum).1
        = cov_sum + rangeCov (covg.drop si) start end_ := by
  intro fuel
  induction fuel with
  | zero => intro si start cov_sum hf hlt; omega
  | succ n ih =>
    intro si start cov_sum hf hlt hlo hhi
    rw [get_cov_acc, covg_drop_eq_cons covg si hlt, rangeCov_cons]
    have hlater : ∀ t ∈ covg.drop (si + 1), (covgAt covg si).end_ < t.start := by
      intro t ht
      obtain ⟨j, hj1, hj2, rfl⟩ := mem_drop_exists covg (si + 1) t ht
      exact hs.lt_of_lt (by omega) hj2
    split
    · rename_i hgt
      have hov : overlapLen start end_ (covgAt covg si) = (covgAt covg si).end_ - start + 1 := by
        unfold overlapLen
        rw [min_eq_right (le_of_lt hgt), max_eq_left hlo, max_eq_right (by omega)]
      simp only []
      split
      · rename_i heq
        have : covg.drop (si + 1) = [] := List.drop_eq_nil_of_le (by omega)
        rw [this, hov]
        simp [rangeCov]
      · rename_i hne
        have hlt1 : si + 1 < covg.length := by omega
        rw [ih (si + 1) _ _ (by omega) hlt1 (le_refl _) (hs.start_le_end hlt1), hov, add_assoc]
        congr 1
        congr 1
        apply rangeCov_congr
        intro t ht
        obtain ⟨j, hj1, hj2, rfl⟩ := mem_drop_exists covg (si + 1) t ht
        have h1 : (covgAt covg (si + 1)).start ≤ (covgAt covg j).start := by
          rcases Nat.eq_or_lt_of_le hj1 with rfl | hl
          · exact le_refl _
          · have := hs.lt_of_lt hl hj2
            have := hs.start_le_end hlt1
            omega
        have h2 := hs.lt_of_lt (show si < j by omega) hj2
        unfold overlapLen
        rw [max_eq_right h1, max_eq_right (show start ≤ (covgAt covg j).start by omega)]
    · rename_i hle
      have hzero : rangeCov (covg.drop (si + 1)) start end_ = 0 := by
        apply rangeCov_eq_zero
        intro t ht
        have := hlater t ht
        unfold overlapLen
        apply max_eq_left
        have h1 : min end_ t.end_ ≤ end_ := min_le_left _ _
        have h2 : t.start ≤ max start t.start := le_max_right _ _
        omega
      rw [hzero, add_zero]
      have hmin : min end_ (covgAt covg si).end_ = end_ := min_eq_left (by omega)
      split
      · rename_i hemp
        unfold overlapLen
        rw [hmin, max_eq_left hlo, max_eq_left (by omega)]
        simp
      · rename_i hnemp
        unfold overlapLen
        rw [hmin, max_eq_left hlo, max_eq_right (by omega)]

/-- Value of `get_cov` from any cursor that has not passed a segment reaching
`start`: the coverage of `[start, end]` over the segments from the cursor on. -/
theorem get_cov_from_cursor (covg : List CovgEntry) (hs : CovgSorted covg) (start end_ : Int)
    (si : Nat) (hsi : si ≤ covg.length) :
    (get_cov covg start end_ si covg.length).1 = rangeCov (covg.drop si) start end_ := by
  obtain ⟨h1, h2, h3, h4⟩ := get_cov_skip_spec covg start covg.length (covg.length - si) si rfl hsi
  unfold get_cov
  simp only []
  generalize get_cov_skip covg start covg.length (covg.length - si) si = k at h1 h2 h3 h4
  have hsplit : covg.drop si = (covg.drop si).take (k - si) ++ covg.drop k := by
    conv_lhs => rw [← List.take_append_drop (k - si) (covg.drop si)]
    rw [List.drop_drop]
    congr 2
    omega
  have hpre : rangeCov ((covg.drop si).take (k - si)) start end_ = 0 := by
    apply rangeCov_eq_zero
    intro t ht
    obtain ⟨j, hj1, hj2, rfl⟩ := mem_take_exists _ _ t ht
    rw [List.length_drop] at hj2
    have hget : covgAt (covg.drop si) j = covgAt covg (si + j) := by
      rw [covgAt, covgAt, List.getD_eq_getElem _ _ (by rw [List.length_drop]; omega),
        List.getD_eq_getElem _ _ (by omega), List.getElem_drop]
    rw [hget]
    have := h3 (si + j) (by omega) (by omega)
    unfold overlapLen
    apply max_eq_left
    have h1 : min end_ (covgAt covg (si + j)).end_ ≤ (covgAt covg (si + j)).end_ := min_le_right _ _
    have h2 : start ≤ max start (covgAt covg (si + j)).start := le_max_left _ _
    omega
  rw [hsplit, rangeCov_append, hpre, zero_add]
  split
  · rename_i heq
    rw [heq, List.drop_length]
    simp [rangeCov]
  · rename_i hne
    have hk : k < covg.length := by omega
    have hend := h4 hk
    rw [get_cov_acc_spec covg end_ hs _ k _ 0 rfl hk (by split <;> omega)
      (by split <;> [exact hs.start_le_end hk; exact hend]), zero_add]
    apply rangeCov_congr
    intro t ht
    obtain ⟨j, hj1, hj2, rfl⟩ := mem_drop_exists covg k t ht
    have hst : (covgAt covg k).start ≤ (covgAt covg j).start := by
      rcases Nat.eq_or_lt_of_le hj1 with rfl | hl
      · exact le_refl _
      · have := hs.lt_of_lt hl hj2
        have := hs.start_le_end hk
        omega
    split
    · rename_i hlt
      unfold overlapLen
      rw [max_eq_right hst, max_eq_right (show start ≤ (covgAt covg j).start by omega)]
    · rfl

/-- The cursor left by the second loop has only passed segments ending before `end`. -/
theorem get_cov_acc_cursor (covg : List CovgEntry) (end_ : Int) (nb : Nat) :
    ∀ (fuel si : Nat) (start : Int) (cov_sum : ℚ), fuel = nb - si → si < nb →
      si ≤ (get_cov_acc covg end_ nb fuel start si cov_sum).2 ∧
      (get_cov_acc covg end_ nb fuel start si cov_sum).2 ≤ nb ∧
      ∀ i, si ≤ i → i < (get_cov_acc covg end_ nb fuel start si cov_sum).2 →
        (covgAt covg i).end_ < end_ := by
  intro fuel
  induction fuel with
  | zero => intro si start cov_sum hf hlt; omega
  | succ n ih =>
    intro si start cov_sum hf hlt
    rw [get_cov_acc]
    split
    · rename_i hgt
      simp only []
      split
      · rename_i heq
        refine ⟨by simp, by simp; omega, ?_⟩
        intro i hi hik
        have : i = si := by simp at hik; omega
        subst this
        exact hgt
      · rename_i hne
        obtain ⟨h1, h2, h3⟩ := ih (si + 1) (covgAt covg (si + 1)).start
          (cov_sum + (((covgAt covg si).end_ - start + 1 : Int) : ℚ) * (covgAt covg si).cov)
          (by omega) (by omega)
        refine ⟨by omega, h2, ?_⟩
        intro i hi hik
        rcases Nat.eq_or_lt_of_le hi with rfl | hl
        · exact hgt
        · exact h3 i hl hik
    · split
      · exact ⟨le_refl _, le_of_lt hlt, fun i hi hik => absurd hik (by simp; omega)⟩
      · exact ⟨le_refl _, le_of_lt hlt, fun i hi hik => absurd hik (by simp; omega)⟩

/-- The cursor left by `get_cov` started at 0 is at most `nb` and has only passed
segments that end before `start` or before `end`. -/
theorem get_cov_cursor (covg : List CovgEntry) (start end_ : Int) :
    (get_cov covg start end_ 0 covg.length).2 ≤ covg.length ∧
    ∀ i, i < (get_cov covg start end_ 0 covg.length).2 →
      (covgAt covg i).end_ < start ∨ (covgAt covg i).end_ < end_ := by
  obtain ⟨_, h2, h3, _⟩ :=
    get_cov_skip_spec covg start covg.length (covg.length - 0) 0 rfl (Nat.zero_le _)
  unfold get_cov
  simp only []
  generalize get_cov_skip covg start covg.length (covg.length - 0) 0 = k at h2 h3
  split
  · rename_i heq
    exact ⟨le_of_eq heq, fun i hi => Or.inl (h3 i (Nat.zero_le _) hi)⟩
  · rename_i hne
    obtain ⟨g1, g2, g3⟩ := get_cov_acc_cursor covg end_ covg.length (covg.length - k) k
      (if start < (covgAt covg k).start then (covgAt covg k).start else start) 0 rfl (by omega)
    refine ⟨g2, fun i hi => ?_⟩
    by_cases hik : i < k
    · exact Or.inl (h3 i (Nat.zero_le _) hik)
    · exact Or.inr (g3 i (by omega) hi)

/-- A query run from a cursor that has only passed segments ending before its
start gives the same value as the query run from cursor 0. -/
theorem get_cov_cursor_sound (covg : List CovgEntry) (hs : CovgSorted covg) (start end_ : Int)
    (k : Nat) (hk : k ≤ covg.length) (hpass : ∀ i, i < k → (covgAt covg i).end_ < start) :
    (get_cov covg start end_ k covg.length).1 = (get_cov covg start end_ 0 covg.length).1 := by
  rw [get_cov_from_cursor covg hs start end_ k hk,
    get_cov_from_cursor covg hs start end_ 0 (Nat.zero_le _), List.drop_zero]
  conv_rhs => rw [← List.take_append_drop k covg]
  rw [rangeCov_append]
  have : rangeCov (covg.take k) start end_ = 0 := by
    apply rangeCov_eq_zero
    intro t ht
    obtain ⟨j, hj1, hj2, rfl⟩ := mem_take_exists _ _ t ht
    have := hpass j hj1
    unfold overlapLen
    apply max_eq_left
    have h1 : min end_ (covgAt covg j).end_ ≤ (covgAt covg j).end_ := min_le_right _ _
    have h2 : start ≤ max start (covgAt covg j).start := le_max_left _ _
    omega
  rw [this, zero_add]

/-- C2 (as stated, refuted): on `[1,10]`, `[20,30]` the query `[1,25]` leaves the
cursor on the second segment, and the later query `[5,8]`, whose start 5 does not
regress below 1, then returns 0 from that cursor but 4 from a fresh cursor. -/
theorem get_cov_cursor_reuse_counterexample :
    CovgSorted twoSegments ∧ (1 : Int) ≤ 5 ∧
    (get_cov twoSegments 1 25 0 twoSegments.length).2 = 1 ∧
    (get_cov twoSegments 5 8 (get_cov twoSegments 1 25 0 twoSegments.length).2
      twoSegments.length).1 = 0 ∧
    (get_cov twoSegments 5 8 0 twoSegments.length).1 = 4 := by
  refine ⟨by decide, by decide, ?_, ?_, ?_⟩ <;>
    norm_num [get_cov, get_cov_skip, get_cov_acc, covgAt, twoSegments]

/-- C2 (amended): for sorted, pairwise disjoint segments and two queries
`[s1, e1]` then `[s2, e2]` where `s2` is at least `s1` and at least `e1`, running
`get_cov` for the second query from the cursor left by the first (started at 0)
returns the same value as running it from a fresh cursor 0. -/
theorem get_cov_cursor_reuse (covg : List CovgEntry) (s1 e1 s2 e2 : Int)
    (hs : CovgSorted covg) (h1 : s1 ≤ s2) (h2 : e1 ≤ s2) :
    (get_cov covg s2 e2 (get_cov covg s1 e1 0 covg.length).2 covg.length).1
      = (get_cov covg s2 e2 0 covg.length).1 := by
  obtain ⟨hk, hp⟩ := get_cov_cursor covg s1 e1
  apply get_cov_cursor_sound covg hs s2 e2 _ hk
  intro i hi
  rcases hp i hi with h | h <;> omega

theorem get_cov_cursor_reuse_witness :
    (get_cov twoSegments 25 28 (get_cov twoSegments 1 25 0 twoSegments.length).2
      twoSegments.length).1 = (get_cov twoSegments 25 28 0 twoSegments.length).1 :=
  get_cov_cursor_reuse twoSegments 1 25 25 28 (by decide) (by decide) (by decide)

/-! ## Junction admission (`add_junc_to_bundle`) -/

theorem add_junc_line_cases (chr : String) (bundleend : Int)
    (junc unprocjunc : List JuncEntry) (l : JuncLine) :
    ((admitStageA l ∧ admitStageB l) →
      if l.chrname = chr ∧ l.start ≤ bundleend then
        (add_junc_line chr bundleend junc unprocjunc l).2.1 = junc ++ [storedEntry l] ∧
        (add_junc_line chr bundleend junc unprocjunc l).2.2.1 = unprocjunc
      else
        (add_junc_line chr bundleend junc unprocjunc l).2.1 = junc ∧
        (add_junc_line chr bundleend junc unprocjunc l).2.2.1
          = unprocjunc ++ [storedEntry l]) ∧
    (¬ (admitStageA l ∧ admitStageB l) →
      (add_junc_line chr bundleend junc unprocjunc l).2.1 = junc ∧
      (add_junc_line chr bundleend junc unprocjunc l).2.2.1 = unprocjunc) := by
  have hmax : max l.ps l.po > splicenoise ↔ (l.ps > splicenoise ∨ l.po > splicenoise) :=
    lt_max_iff
  have hd : (if l.ps < l.po then l.ps else l.po) = min l.ps l.po := by
    split
    · rename_i h; exact (min_eq_left (le_of_lt h)).symm
    · rename_i h; exact (min_eq_right (not_lt.mp h)).symm
  have hp : (if l.pl < l.pr then l.pl else l.pr) = min l.pl l.pr := by
    split
    · rename_i h; exact (min_eq_left (le_of_lt h)).symm
    · rename_i h; exact (min_eq_right (not_lt.mp h)).symm
  unfold add_junc_line admitStageA admitStageB storedEntry
  simp only [hd, hp, hmax]
  constructor
  · rintro ⟨ha, hb⟩
    rw [if_pos ha, if_pos hb]
    by_cases hl : l.chrname = chr ∧ l.start ≤ bundleend
    · have hl2 : ¬ (l.chrname ≠ chr ∨ l.start > bundleend) := by
        rintro (h | h)
        · exact h hl.1
        · exact absurd hl.2 (not_le.mpr h)
      simp [hl, hl2]
    · have hl2 : l.chrname ≠ chr ∨ l.start > bundleend := by
        by_cases hc : l.chrname = chr
        · exact Or.inr (not_le.mp (fun h => hl ⟨hc, h⟩))
        · exact Or.inl hc
      simp [hl, hl2]
  · intro hn
    by_cases ha : (l.ps > splicenoise ∨ l.po > splicenoise) ∧
        ((l.cov_val ≥ lowcov ∧ l.strand ≠ '.') ∨ l.cov_val ≥ smallcov)
    · rw [if_pos ha, if_neg (fun hb => hn ⟨ha, hb⟩)]
      exact ⟨rfl, rfl⟩
    · rw [if_neg ha]
      exact ⟨rfl, rfl⟩

/-- C3: a parsed junction line is stored (in the junction pool or in the pending
set) if and only if it passes both stages of the admission filter; an admitted line
is appended to the pool when it is on the current chromosome and starts at or before
the bundle end, and to the pending set otherwise; the stored entry has `end`
increased by 1 and every other field as parsed; a rejected line changes neither
collection. -/
theorem add_junc_line_admits_iff (chr : String) (bundleend : Int)
    (junc unprocjunc : List JuncEntry) (l : JuncLine) :
    ((admitStageA l ∧ admitStageB l) ↔
      ((add_junc_line chr bundleend junc unprocjunc l).2.1 ≠ junc ∨
        (add_junc_line chr bundleend junc unprocjunc l).2.2.1 ≠ unprocjunc)) ∧
    ((admitStageA l ∧ admitStageB l) →
      if l.chrname = chr ∧ l.start ≤ bundleend then
        (add_junc_line chr bundleend junc unprocjunc l).2.1 = junc ++ [storedEntry l] ∧
        (add_junc_line chr bundleend junc unprocjunc l).2.2.1 = unprocjunc
      else
        (add_junc_line chr bundleend junc unprocjunc l).2.1 = junc ∧
        (add_junc_line chr bundleend junc unprocjunc l).2.2.1
          = unprocjunc ++ [storedEntry l]) ∧
    (¬ (admitStageA l ∧ admitStageB l) →
      (add_junc_line chr bundleend junc unprocjunc l).2.1 = junc ∧
      (add_junc_line chr bundleend junc unprocjunc l).2.2.1 = unprocjunc) := by
  obtain ⟨h1, h2⟩ := add_junc_line_cases chr bundleend junc unprocjunc l
  refine ⟨⟨fun hab => ?_, fun hch => ?_⟩, h1, h2⟩
  · have := h1 hab
    split at this
    · left
      rw [this.1]
      intro h
      have := congrArg List.length h
      simp at this
    · right
      rw [this.2]
      intro h
      have := congrArg List.length h
      simp at this
  · by_contra hn
    obtain ⟨e1, e2⟩ := h2 hn
    rcases hch with h | h
    · exact h e1
    · exact h e2

/-- C4 (as stated, refuted): with the fixed constants the junction with coverage
60, strand `+`, spliceStart 0.02, spliceOther 0.001, percentLeft 0.3, percentRight
0.1 is not stored by `add_junc_to_bundle`, neither in the pool nor in the pending
set. -/
theorem boundaryJunction_not_admitted :
    (add_junc_line "chr1" 5000 [] [] boundaryJunction).2.1 = [] ∧
    (add_junc_line "chr1" 5000 [] [] boundaryJunction).2.2.1 = [] := by
  have hc : ¬ ('+' : Char) = '.' := by decide
  constructor <;>
    norm_num [hc, add_junc_line, boundaryJunction, splicenoise, lowcov, smallcov, highcov, highnoise]

/-- C4 (amended): with the fixed constants the junction with coverage 60, strand
`+`, spliceStart 0.02, spliceOther 0.001, percentLeft 0.3, percentRight 0.1 passes
stage (a) but fails stage (b), because min(spliceStart, spliceOther) = 0.001 is not
above highnoise = 0.005 and the coverage is not above highcov; the same junction
with spliceOther = 0.006 passes both stages and is stored with `end` increased
by 1. -/
theorem boundaryJunction_stages :
    admitStageA boundaryJunction ∧ ¬ admitStageB boundaryJunction ∧
    ¬ (min boundaryJunction.ps boundaryJunction.po > highnoise) ∧
    ¬ (boundaryJunction.cov_val > highcov) ∧
    admitStageA boundaryJunctionAbove ∧ admitStageB boundaryJunctionAbove ∧
    (add_junc_line "chr1" 5000 [] [] boundaryJunctionAbove).2.1
      = [storedEntry boundaryJunctionAbove] := by
  have hc : ¬ ('+' : Char) = '.' := by decide
  refine ⟨?_, ?_, ?_, ?_, ?_, ?_, ?_⟩ <;>
    norm_num [hc, add_junc_line, admitStageA, admitStageB, storedEntry, boundaryJunction,
      boundaryJunctionAbove, splicenoise, lowcov, smallcov, highcov, highnoise]

/-! ## NoiseFilter (`process_junctions`) -/

theorem process_junctions_pair_sweep (j0 j1 : JuncEntry) (jend : List Nat)
    (hsorted : j0.start ≤ j1.start) (hov : j1.start ≤ j0.end_)
    (hjend : (jend = [0, 1] ∧ j0.end_ ≤ j1.end_) ∨ (jend = [1, 0] ∧ j1.end_ ≤ j0.end_)) :
    pj_sweep [j0, j1] jend 2 2 0 0 [] [false, false] =
      pj_check [j0, j1] 1 [⟨junc_key j0, 0⟩] [false, false] := by
  rcases hjend with ⟨rfl, he⟩ | ⟨rfl, he⟩
  · have h0 : ¬ j0.end_ < j0.start := by omega
    have h1 : ¬ j0.end_ < j1.start := by omega
    simp [pj_sweep, pj_close, juncAt, jendAt, h0, h1, pj_check]
  · by_cases h0 : j1.end_ < j0.start
    · have h1 : ¬ j0.end_ < j0.start := by omega
      have h2 : ¬ j0.end_ < j1.start := by omega
      simp [pj_sweep, pj_close, juncAt, jendAt, h0, h1, h2, pj_check, active_remove]
    · have h2 : ¬ j0.end_ < j1.start := by omega
      by_cases h1 : j1.end_ < j1.start
      · have hk : ¬ junc_key j0 = junc_key j1 := by
          intro h
          have : j0.start = j1.start := congrArg (fun k => k.2.1) h
          omega
        simp [pj_sweep, pj_close, juncAt, jendAt, h0, h1, h2, pj_check, active_remove, hk]
      · simp [pj_sweep, pj_close, juncAt, jendAt, h0, h1, pj_check, active_remove]

/-- C5: for a region with exactly two junctions in start-sorted order that overlap
(the later one starts no later than the earlier one ends) and have compatible
strands, with any end-sorted index permutation, and with different coverages the
larger of which is below `smallcov`, `process_junctions` sets the coverage of the
weaker junction to 0 and leaves the stronger one unchanged, whether the weaker
junction is scanned first or second. -/
theorem process_junctions_pair (j0 j1 : JuncEntry) (jend : List Nat)
    (hsorted : j0.start ≤ j1.start) (hov : j1.start ≤ j0.end_)
    (hstrand : equal_strand j0.strand j1.strand = true)
    (hjend : (jend = [0, 1] ∧ j0.end_ ≤ j1.end_) ∨ (jend = [1, 0] ∧ j1.end_ ≤ j0.end_))
    (hcov : (j0.cov < j1.cov ∧ j1.cov < smallcov) ∨ (j1.cov < j0.cov ∧ j0.cov < smallcov)) :
    process_junctions [j0, j1] jend 2 =
      if j0.cov < j1.cov then [{ j0 with cov := 0 }, j1] else [j0, { j1 with cov := 0 }] := by
  have key := process_junctions_pair_sweep j0 j1 jend hsorted hov hjend
  rcases hcov with ⟨hlt, hsm⟩ | ⟨hlt, hsm⟩
  · have hn : ¬ j1.cov < j0.cov := not_lt.mpr (le_of_lt hlt)
    simp [process_junctions, key, pj_check, juncAt, hstrand, hlt, hsm, pj_apply]
  · have hn : ¬ j0.cov < j1.cov := not_lt.mpr (le_of_lt hlt)
    simp [process_junctions, key, pj_check, juncAt, hstrand, hlt, hsm, hn, pj_apply]

theorem process_junctions_pair_witness :
    process_junctions [⟨"chr1", 100, 200, 7, '+', 0⟩, ⟨"chr1", 150, 300, 5, '.', 0⟩] [0, 1] 2
      = if (7 : ℚ) < 5 then [⟨"chr1", 100, 200, 0, '+', 0⟩, ⟨"chr1", 150, 300, 5, '.', 0⟩]
        else [⟨"chr1", 100, 200, 7, '+', 0⟩, ⟨"chr1", 150, 300, 0, '.', 0⟩] :=
  process_junctions_pair ⟨"chr1", 100, 200, 7, '+', 0⟩ ⟨"chr1", 150, 300, 5, '.', 0⟩ [0, 1]
    (by decide) (by decide) (by decide) (Or.inl ⟨rfl, by decide⟩)
    (Or.inr ⟨by norm_num, by norm_num [smallcov]⟩)

/-! ## `print_small_bundle` -/

theorem recAt_append_length (pre : List RecordEntry) (x : RecordEntry) (rest : List RecordEntry) :
    recAt (pre ++ x :: rest) pre.length = x := by
  unfold recAt
  induction pre with
  | nil => rfl
  | cons a pre ih => simpa using ih

theorem set_append_length {α : Type} (pre : List α) (x y : α) (rest : List α) :
    (pre ++ x :: rest).set pre.length y = pre ++ y :: rest := by
  induction pre with
  | nil => rfl
  | cons a pre ih => simp [ih]

theorem mem_print_records (junc : List JuncEntry) (drop_arr : List DropEntry)
    (record : List RecordEntry) (e : Nat) (l : OutLine) :
    ∀ (n i : Nat), l ∈ print_records junc drop_arr record e n i ↔
      ∃ k, i ≤ k ∧ k < i + n ∧ (recAt record k).pos ≠ 0 ∧
        l = record_line junc drop_arr record k e := by
  intro n
  induction n with
  | zero =>
    intro i
    simp only [print_records, List.not_mem_nil, false_iff]
    rintro ⟨k, h1, h2, _⟩
    omega
  | succ n ih =>
    intro i
    rw [print_records]
    split
    · rename_i hp
      rw [List.mem_cons, ih]
      constructor
      · rintro (h | ⟨k, h1, h2, h3, h4⟩)
        · exact ⟨i, le_refl _, by omega, hp, h⟩
        · exact ⟨k, by omega, by omega, h3, h4⟩
      · rintro ⟨k, h1, h2, h3, h4⟩
        rcases Nat.eq_or_lt_of_le h1 with rfl | hlt
        · exact Or.inl h4
        · exact Or.inr ⟨k, by omega, by omega, h3, h4⟩
    · rename_i hp
      rw [ih]
      constructor
      · rintro ⟨k, h1, h2, h3, h4⟩
        exact ⟨k, by omega, by omega, h3, h4⟩
      · rintro ⟨k, h1, h2, h3, h4⟩
        rcases Nat.eq_or_lt_of_le h1 with rfl | hlt
        · exact absurd h3 hp
        · exact ⟨k, by omega, by omega, h3, h4⟩

theorem mem_junc_entries (junc : List JuncEntry) (is_jend : Bool) (x : Int × Char × ℚ) :
    ∀ (indices : List Nat), x ∈ junc_entries junc is_jend indices ↔
      ∃ k ∈ indices, (juncAt junc k).cov > 0 ∧
        x = ((if is_jend = true then (juncAt junc k).start else (juncAt junc k).end_),
              (juncAt junc k).strand, (juncAt junc k).cov) := by
  intro indices
  induction indices with
  | nil => simp [junc_entries]
  | cons a rest ih =>
    rw [junc_entries]
    split
    · rename_i hc
      rw [List.mem_cons, ih]
      constructor
      · rintro (h | ⟨k, hk, h1, h2⟩)
        · exact ⟨a, List.mem_cons_self _ _, hc, h⟩
        · exact ⟨k, List.mem_cons_of_mem _ hk, h1, h2⟩
      · rintro ⟨k, hk, h1, h2⟩
        rcases List.mem_cons.mp hk with rfl | hk
        · exact Or.inl h2
        · exact Or.inr ⟨k, hk, h1, h2⟩
    · rename_i hc
      rw [ih]
      constructor
      · rintro ⟨k, hk, h1, h2⟩
        exact ⟨k, List.mem_cons_of_mem _ hk, h1, h2⟩
      · rintro ⟨k, hk, h1, h2⟩
        rcases List.mem_cons.mp hk with rfl | hk
        · exact absurd h1 hc
        · exact ⟨k, hk, h1, h2⟩

/-- C9: of the lines `print_small_bundle` prints, every record line is the line of
a record of the range `[s, e)` whose position is non-zero (after the retractions of
this call); every junction entry on a printed line belongs to a supporting junction
of that record whose coverage is above 0; and when a block is printed, every record
of the range with non-zero position has its line printed. -/
theorem print_small_bundle_skips_retracted (junc : List JuncEntry) (drop_arr : List DropEntry)
    (record : List RecordEntry) (chr : String) (bundleno : Int) (s e : Nat) :
    (∀ l ∈ (print_small_bundle junc drop_arr record chr bundleno s e).2.2,
      (∃ c n a b v, l = OutLine.bundle c n a b v) ∨
      ∃ i, s ≤ i ∧ i < e ∧
        (recAt (print_small_bundle junc drop_arr record chr bundleno s e).1 i).pos ≠ 0 ∧
        l = record_line junc drop_arr
              (print_small_bundle junc drop_arr record chr bundleno s e).1 i e ∧
        ∀ type pos cp pc cv entries, l = OutLine.record type pos cp pc cv (RecTail.juncs entries) →
          pos ≠ 0 ∧ ∀ x ∈ entries, x.2.2 > 0 ∧
            ∃ k ∈ (recAt (print_small_bundle junc drop_arr record chr bundleno s e).1 i).indices,
              (juncAt junc k).cov > 0 ∧ x.2.2 = (juncAt junc k).cov ∧
              x.2.1 = (juncAt junc k).strand) ∧
    ((print_small_bundle junc drop_arr record chr bundleno s e).2.2 ≠ [] →
      ∀ i, s ≤ i → i < e →
        (recAt (print_small_bundle junc drop_arr record chr bundleno s e).1 i).pos ≠ 0 →
        record_line junc drop_arr (print_small_bundle junc drop_arr record chr bundleno s e).1 i e
          ∈ (print_small_bundle junc drop_arr record chr bundleno s e).2.2) := by
  unfold print_small_bundle
  simp only []
  generalize small_loop (e - s) s ⟨record, s, 0, 0, false, 0, e - 1⟩ = st
  split
  · constructor
    · intro l hl
      rcases List.mem_cons.mp hl with h | h
      · exact Or.inl ⟨_, _, _, _, _, h⟩
      · right
        obtain ⟨k, h1, h2, h3, h4⟩ := (mem_print_records junc drop_arr st.record e l _ _).mp h
        refine ⟨k, h1, by omega, h3, h4, ?_⟩
        intro type pos cp pc cv entries hline
        rw [h4, record_line] at hline
        simp only [OutLine.record.injEq] at hline
        obtain ⟨_, hpos, _, _, _, htail⟩ := hline
        refine ⟨by rw [← hpos]; exact h3, ?_⟩
        intro x hx
        split at htail
        · simp only [RecTail.juncs.injEq] at htail
          rw [← htail] at hx
          obtain ⟨j, hj, hc, rfl⟩ := (mem_junc_entries junc true x _).mp hx
          exact ⟨hc, j, hj, hc, rfl, rfl⟩
        · split at htail
          · simp only [RecTail.juncs.injEq] at htail
            rw [← htail] at hx
            obtain ⟨j, hj, hc, rfl⟩ := (mem_junc_entries junc false x _).mp hx
            exact ⟨hc, j, hj, hc, rfl, rfl⟩
          · exact absurd htail (by simp)
    · intro _ i h1 h2 h3
      apply List.mem_cons_of_mem
      exact (mem_print_records junc drop_arr st.record e _ _ _).mpr ⟨i, h1, by omega, h3, rfl⟩
  · constructor
    · intro l hl
      exact absurd hl (List.not_mem_nil _)
    · intro h
      exact absurd rfl h

/-! ## The three-way merge (`get_record`) -/

theorem less_than_self (n : Int) : less_than n n = false := by
  simp [less_than]

theorem less_than_zero_right (n : Int) (h : n ≠ 0) : less_than n 0 = true := by
  simp [less_than, h]

theorem less_than_true_ne_zero {n1 n2 : Int} (h : less_than n1 n2 = true) : n1 ≠ 0 := by
  intro h0
  simp [less_than, h0] at h

theorem less_than_true_iff (n1 n2 : Int) :
    less_than n1 n2 = true ↔ n1 ≠ 0 ∧ (n2 = 0 ∨ n1 < n2) := by
  unfold less_than
  by_cases h1 : n1 = 0
  · simp [h1]
  · by_cases h2 : n2 = 0
    · simp [h1, h2]
    · by_cases h3 : n1 < n2
      · simp [h1, h2, h3]
      · simp [h1, h2, h3]

/-- The skip over retracted junctions in start order stops at the first live
junction, whose start it reports, or runs to `nj` and reports 0. -/
theorem next_start_spec (junc : List JuncEntry) (nj : Nat) :
    ∀ (fuel js : Nat), fuel = nj - js →
      js ≤ (next_start junc nj fuel js).1 ∧
      (∀ j, js ≤ j → j < (next_start junc nj fuel js).1 → ¬ (juncAt junc j).cov > 0) ∧
      ((next_start junc nj fuel js).1 < nj →
        (juncAt junc (next_start junc nj fuel js).1).cov > 0 ∧
        (next_start junc nj fuel js).2 = (juncAt junc (next_start junc nj fuel js).1).start) ∧
      (¬ (next_start junc nj fuel js).1 < nj → (next_start junc nj fuel js).2 = 0) ∧
      (js ≤ nj → (next_start junc nj fuel js).1 ≤ nj) := by
  intro fuel
  induction fuel with
  | zero =>
    intro js hf
    simp only [next_start]
    refine ⟨le_refl _, fun j h1 h2 => absurd h2 (by omega), fun h => absurd h (by omega),
      fun _ => trivial, fun h => h⟩
  | succ n ih =>
    intro js hf
    have hlt : js < nj := by omega
    rw [next_start, if_pos hlt]
    split
    · rename_i hc
      exact ⟨le_refl _, fun j h1 h2 => absurd h2 (by simp; omega), fun _ => ⟨hc, rfl⟩,
        fun h => absurd hlt h, fun h => h⟩
    · rename_i hc
      obtain ⟨h1, h2, h3, h4, h5⟩ := ih (js + 1) (by omega)
      refine ⟨by omega, ?_, h3, h4, fun _ => h5 (by omega)⟩
      intro j hj1 hj2
      rcases Nat.eq_or_lt_of_le hj1 with rfl | hl
      · exact hc
      · exact h2 j hl hj2

/-- The skip over retracted junctions in end order. -/
theorem next_end_spec (junc : List JuncEntry) (jend : List Nat) (nj : Nat) :
    ∀ (fuel je : Nat), fuel = nj - je →
      je ≤ (next_end junc jend nj fuel je).1 ∧
      (∀ k, je ≤ k → k < (next_end junc jend nj fuel je).1 →
        ¬ (juncAt junc (jendAt jend k)).cov > 0) ∧
      ((next_end junc jend nj fuel je).1 < nj →
        (juncAt junc (jendAt jend (next_end junc jend nj fuel je).1)).cov > 0 ∧
        (next_end junc jend nj fuel je).2
          = (juncAt junc (jendAt jend (next_end junc jend nj fuel je).1)).end_) ∧
      (¬ (next_end junc jend nj fuel je).1 < nj → (next_end junc jend nj fuel je).2 = 0) ∧
      (je ≤ nj → (next_end junc jend nj fuel je).1 ≤ nj) := by
  intro fuel
  induction fuel with
  | zero =>
    intro je hf
    simp only [next_end]
    refine ⟨le_refl _, fun j h1 h2 => absurd h2 (by omega), fun h => absurd h (by omega),
      fun _ => trivial, fun h => h⟩
  | succ n ih =>
    intro je hf
    have hlt : je < nj := by omega
    rw [next_end, if_pos hlt]
    split
    · rename_i hc
      exact ⟨le_refl _, fun j h1 h2 => absurd h2 (by simp; omega), fun _ => ⟨hc, rfl⟩,
        fun h => absurd hlt h, fun h => h⟩
    · rename_i hc
      obtain ⟨h1, h2, h3, h4, h5⟩ := ih (je + 1) (by omega)
      refine ⟨by omega, ?_, h3, h4, fun _ => h5 (by omega)⟩
      intro j hj1 hj2
      rcases Nat.eq_or_lt_of_le hj1 with rfl | hl
      · exact hc
      · exact h2 j hl hj2

theorem collect_starts_ge (junc : List JuncEntry) (nj : Nat) (p : Int) :
    ∀ (fuel js : Nat) (tmpr : List Nat) (count : ℚ),
      js ≤ (collect_starts junc nj p fuel js tmpr count).1 := by
  intro fuel
  induction fuel with
  | zero => intro js tmpr count; simp [collect_starts]
  | succ n ih =>
    intro js tmpr count
    rw [collect_starts]
    split
    · split
      · exact le_trans (Nat.le_succ _) (ih _ _ _)
      · exact le_trans (Nat.le_succ _) (ih _ _ _)
    · exact le_refl _

theorem collect_starts_advance (junc : List JuncEntry) (nj : Nat) (p : Int) (js : Nat)
    (tmpr : List Nat) (count : ℚ) (h1 : js < nj) (h2 : (juncAt junc js).start = p) :
    js < (collect_starts junc nj p (nj - js) js tmpr count).1 := by
  obtain ⟨n, hn⟩ : ∃ n, nj - js = n + 1 := ⟨nj - js - 1, by omega⟩
  rw [hn, collect_starts, if_pos ⟨h1, h2⟩]
  split
  · exact collect_starts_ge junc nj p n (js + 1) _ _
  · exact collect_starts_ge junc nj p n (js + 1) _ _

theorem collect_ends_ge (junc : List JuncEntry) (jend : List Nat) (nj : Nat) (p : Int) :
    ∀ (fuel je : Nat) (tmpr : List Nat) (count : ℚ),
      je ≤ (collect_ends junc jend nj p fuel je tmpr count).1 := by
  intro fuel
  induction fuel with
  | zero => intro je tmpr count; simp [collect_ends]
  | succ n ih =>
    intro je tmpr count
    rw [collect_ends]
    split
    · split
      · exact le_trans (Nat.le_succ _) (ih _ _ _)
      · exact le_trans (Nat.le_succ _) (ih _ _ _)
    · exact le_refl _

theorem collect_ends_advance (junc : List JuncEntry) (jend : List Nat) (nj : Nat) (p : Int)
    (je : Nat) (tmpr : List Nat) (count : ℚ) (h1 : je < nj)
    (h2 : (juncAt junc (jendAt jend je)).end_ = p) :
    je < (collect_ends junc jend nj p (nj - je) je tmpr count).1 := by
  obtain ⟨n, hn⟩ : ∃ n, nj - je = n + 1 := ⟨nj - je - 1, by omega⟩
  rw [hn, collect_ends, if_pos ⟨h1, h2⟩]
  split
  · exact collect_ends_ge junc jend nj p n (je + 1) _ _
  · exact collect_ends_ge junc jend nj p n (je + 1) _ _

theorem add_cov_to_last_length (record : List RecordEntry) (x : ℚ) :
    (add_cov_to_last record x).length = record.length := by
  simp [add_cov_to_last]
/-- What the `jstart` branch leaves of the drop cursor, the junction cursors and
the record buffer: `id` and `je` stay, `js` moves past the group, and at most one
record, a `jstart` at `nextjs`, is appended. -/
theorem get_record_jstart_frame (covg : List CovgEntry) (nb nj : Nat) (nextjs : Int)
    (st : MergeState) :
    (get_record_jstart covg nb nj nextjs st).id = st.id ∧
    (get_record_jstart covg nb nj nextjs st).je = st.je ∧
    (get_record_jstart covg nb nj nextjs st).js
      = (collect_starts st.junc nj nextjs (nj - st.js) st.js [] 0).1 ∧
    (get_record_jstart covg nb nj nextjs st).record.length ≤ st.record.length + 1 ∧
    ∀ r ∈ (get_record_jstart covg nb nj nextjs st).record.drop st.record.length,
      r.type = "jstart" ∧ r.pos = nextjs := by
  unfold get_record_jstart
  simp only []
  split_ifs
  all_goals refine ⟨rfl, rfl, rfl, ?_, ?_⟩
  all_goals
    simp only [push_record, List.length_append, List.length_singleton, add_cov_to_last_length,
      List.drop_left' (add_cov_to_last_length _ _), List.drop_left' rfl, List.mem_singleton,
      le_refl, Nat.le_succ, List.drop_length, List.not_mem_nil, forall_eq, and_self,
      false_implies, implies_true]

/-- What the `jend` branch leaves of the drop cursor, the junction cursors and the
record buffer. -/
theorem get_record_jend_frame (covg : List CovgEntry) (jend : List Nat) (nb nj : Nat)
    (nextje : Int) (st : MergeState) :
    (get_record_jend covg jend nb nj nextje st).id = st.id ∧
    (get_record_jend covg jend nb nj nextje st).js = st.js ∧
    (get_record_jend covg jend nb nj nextje st).je
      = (collect_ends st.junc jend nj nextje (nj - st.je) st.je [] 0).1 ∧
    (get_record_jend covg jend nb nj nextje st).record.length ≤ st.record.length + 1 ∧
    ∀ r ∈ (get_record_jend covg jend nb nj nextje st).record.drop st.record.length,
      r.type = "jend" ∧ r.pos = nextje := by
  unfold get_record_jend
  simp only []
  split_ifs
  all_goals refine ⟨rfl, rfl, rfl, ?_, ?_⟩
  all_goals
    simp only [push_record, List.length_append, List.length_singleton, add_cov_to_last_length,
      List.drop_left' (add_cov_to_last_length _ _), List.drop_left' rfl, List.mem_singleton,
      le_refl, Nat.le_succ, List.drop_length, List.not_mem_nil, forall_eq, and_self,
      false_implies, implies_true]

/-- C10 (amended): when the next drop candidate and the next live junction start,
or the next live junction end, have the same non-zero position, `get_record`
returns, leaves the drop index where it is, consumes a junction group (the start
index or the end index advances), and any record it pushes is a `jstart` or `jend`
record; the drop candidate is left for a later call. -/
theorem get_record_tie_junction_first (covg : List CovgEntry) (drop_arr : List DropEntry)
    (jend : List Nat) (nb nd nj : Nat) (st : MergeState)
    (hid : st.id < nd) (hnz : (dropAt drop_arr st.id).pos ≠ 0)
    (htie : |(dropAt drop_arr st.id).pos| = (next_start st.junc nj (nj - st.js) st.js).2 ∨
      |(dropAt drop_arr st.id).pos| = (next_end st.junc jend nj (nj - st.je) st.je).2) :
    ∃ st1, get_record covg drop_arr jend nb nd nj st = some st1 ∧ st1.id = st.id ∧
      (st.js < st1.js ∨ st.je < st1.je) ∧
      st1.record.length ≤ st.record.length + 1 ∧
      ∀ r ∈ st1.record.drop st.record.length, r.type = "jstart" ∨ r.type = "jend" := by
  obtain ⟨s1, s2, s3, s4, s5⟩ := next_start_spec st.junc nj (nj - st.js) st.js rfl
  obtain ⟨e1, e2, e3, e4, e5⟩ := next_end_spec st.junc jend nj (nj - st.je) st.je rfl
  have hp : |(dropAt drop_arr st.id).pos| ≠ 0 := abs_ne_zero.mpr hnz
  unfold get_record
  simp only [if_pos hid]
  generalize hs : next_start st.junc nj (nj - st.js) st.js = s at *
  generalize he : next_end st.junc jend nj (nj - st.je) st.je = e at *
  generalize hpd : |(dropAt drop_arr st.id).pos| = p at *
  -- the two ways a junction group is consumed
  have hstart : s.2 ≠ 0 → ∃ st1,
      some (get_record_jstart covg nb nj s.2 { st with js := s.1, je := e.1 }) = some st1 ∧
      st1.id = st.id ∧ (st.js < st1.js ∨ st.je < st1.je) ∧
      st1.record.length ≤ st.record.length + 1 ∧
      ∀ r ∈ st1.record.drop st.record.length, r.type = "jstart" ∨ r.type = "jend" := by
    intro hs0
    have hlt : s.1 < nj := by
      by_contra hcon
      exact hs0 (s4 hcon)
    obtain ⟨f1, f2, f3, f4, f5⟩ :=
      get_record_jstart_frame covg nb nj s.2 { st with js := s.1, je := e.1 }
    refine ⟨_, rfl, f1, Or.inl ?_, f4, fun r hr => Or.inl (f5 r hr).1⟩
    rw [f3]
    exact lt_of_le_of_lt s1 (collect_starts_advance st.junc nj s.2 s.1 [] 0 hlt (s3 hlt).2.symm)
  have hend : e.2 ≠ 0 → ∃ st1,
      some (get_record_jend covg jend nb nj e.2 { st with js := s.1, je := e.1 }) = some st1 ∧
      st1.id = st.id ∧ (st.js < st1.js ∨ st.je < st1.je) ∧
      st1.record.length ≤ st.record.length + 1 ∧
      ∀ r ∈ st1.record.drop st.record.length, r.type = "jstart" ∨ r.type = "jend" := by
    intro he0
    have hlt : e.1 < nj := by
      by_contra hcon
      exact he0 (e4 hcon)
    obtain ⟨f1, f2, f3, f4, f5⟩ :=
      get_record_jend_frame covg jend nb nj e.2 { st with js := s.1, je := e.1 }
    refine ⟨_, rfl, f1, Or.inr ?_, f4, fun r hr => Or.inr (f5 r hr).1⟩
    rw [f3]
    exact lt_of_le_of_lt e1
      (collect_ends_advance st.junc jend nj e.2 e.1 [] 0 hlt (e3 hlt).2.symm)
  rw [if_neg (fun h => hp h.1)]
  rcases htie with ht | ht
  · -- tie with the junction start
    rw [← ht, less_than_self, if_neg (by simp)]
    have hs0 : s.2 ≠ 0 := by rw [← ht]; exact hp
    split
    · rw [ht]; exact hstart hs0
    · rename_i hlt
      have he0 : e.2 ≠ 0 := by
        intro h0
        rw [h0, less_than_zero_right p hp] at hlt
        exact hlt rfl
      rw [if_pos he0]
      exact hend he0
  · -- tie with the junction end
    have he0 : e.2 ≠ 0 := by rw [← ht]; exact hp
    rw [← ht, less_than_self]
    split
    · simp only [Bool.false_eq_true, if_false]
      rw [ht]
      exact hend he0
    · split
      · rename_i hlt
        exact hstart (less_than_true_ne_zero hlt)
      · rw [ht]
        exact hend he0

theorem get_record_tie_junction_first_witness :
    ∃ st1, get_record tieCovg tieDrops [0] 2 2 1 tieState = some st1 ∧ st1.id = tieState.id ∧
      (tieState.js < st1.js ∨ tieState.je < st1.je) ∧
      st1.record.length ≤ tieState.record.length + 1 ∧
      ∀ r ∈ st1.record.drop tieState.record.length, r.type = "jstart" ∨ r.type = "jend" :=
  get_record_tie_junction_first tieCovg tieDrops [0] 2 2 1 tieState (by decide) (by decide)
    (Or.inl (by norm_num [next_start, tieState, juncAt, dropAt, tieDrops]))

/-- C10 (as stated, refuted): in a merge state where the next drop candidate and
the next live junction start are both at position 200, `get_record` consumes the
junction start: it pushes a `jstart` record at 200 and advances the junction start
index from 0 to 1, and leaves the drop index at 1. -/
theorem get_record_tie_counterexample :
    |(dropAt tieDrops tieState.id).pos| = 200 ∧
    (next_start tieState.junc 1 (1 - tieState.js) tieState.js).2 = 200 ∧
    get_record tieCovg tieDrops [0] 2 2 1 tieState
      = some ⟨0, 1, 1, 0, 200, [⟨"chr1", 200, 300, 60, '+', 0⟩],
          [⟨"tstart", 100, [0], 0, 20, 1980⟩, ⟨"jstart", 200, [0], 1 / 4, 20, 0⟩]⟩ := by
  refine ⟨by decide, ?_, ?_⟩
  · norm_num [next_start, tieState, juncAt]
  · norm_num [get_record, tieCovg, tieDrops, tieState, next_start, next_end, juncAt, jendAt,
      dropAt, less_than, get_record_jstart, collect_starts, flank_cov, covgAt, cursor_back,
      get_cov, get_cov_skip, get_cov_acc, delta_param, push_record, add_cov_to_last, recAt]

/-! ## A region of constant coverage without junctions -/

/-- Over arrays built from constant coverage and no junctions, the two sides of a
symmetric window of at most `win` positions have the same sum, so `compute_perc`
reports no drop. -/
theorem compute_perc_const (cval : ℚ) (len l r i : Int) (cov adjs adje : Int → ℚ)
    (hcov : ∀ n, cov n = cval * ((constPrefix len n : Int) : ℚ))
    (has : ∀ n, adjs n = 0) (hae : ∀ n, adje n = 0)
    (hl : 1 ≤ l) (hli : l < i) (hr : r ≤ len) (hsym : r - i + 1 = i - l) (hw : i - l ≤ win) :
    compute_perc l r i cov adjs adje = ⟨1, 1, 0, 0⟩ := by
  have hleft : (if (i - 1 - (i - 2) % win) < i ∧ (i - 1 - (i - 2) % win) ≥ l then
        cov (i - 1) - cov (l - 1) + cov ((i - 1 - (i - 2) % win) - 1)
      else cov (i - 1) - cov (l - 1)) = cval * (((i - l : Int)) : ℚ) := by
    simp only [hcov]
    split
    · rw [← mul_sub, ← mul_add]
      congr 1
      norm_cast
      unfold constPrefix
      simp only [win] at *
      split_ifs <;> omega
    · rw [← mul_sub]
      congr 1
      norm_cast
      unfold constPrefix
      simp only [win] at *
      split_ifs <;> omega
  have hright : (if (r - (r - 1) % win) - 1 < r ∧ (r - (r - 1) % win) ≥ i then
        cov r - cov (i - 1) + cov ((r - (r - 1) % win) - 1)
      else cov r - cov (i - 1)) = cval * (((i - l : Int)) : ℚ) := by
    simp only [hcov]
    split
    · rw [← mul_sub, ← mul_add]
      congr 1
      norm_cast
      unfold constPrefix
      simp only [win] at *
      split_ifs <;> omega
    · rw [← mul_sub]
      congr 1
      norm_cast
      unfold constPrefix
      simp only [win] at *
      split_ifs <;> omega
  unfold compute_perc
  simp only [has, hae, hleft, hright, sub_self, add_zero, sub_zero, lt_self_iff_false,
    gt_iff_lt, if_false, ite_self]
theorem constPrefix_succ (k n : Int) (hk : 0 ≤ k) :
    constPrefix (k + 1) n = if n = k + 1 then k % win + 1 else constPrefix k n := by
  unfold constPrefix
  simp only [win]
  split_ifs <;> omega

/-- One step of the array-building loop on one segment of constant coverage with
no junctions extends the block-reset prefix sums and leaves everything else. -/
theorem build_step_const (s e : Int) (cval : ℚ) (jend : List Nat) (k : Int) (st : BuildState)
    (hk0 : 0 ≤ k) (hk : k < e - s + 1)
    (hsi : st.curr_si = 0) (hc : ∀ n, st.c n = cval * ((constPrefix k n : Int) : ℚ))
    (has : ∀ n, st.as n = 0) (hae : ∀ n, st.ae n = 0) (hjp : st.jp = []) :
    (build_step [⟨s, e, cval⟩] [] jend 1 0 s k st).curr_si = 0 ∧
    (∀ n, (build_step [⟨s, e, cval⟩] [] jend 1 0 s k st).c n
      = cval * ((constPrefix (k + 1) n : Int) : ℚ)) ∧
    (∀ n, (build_step [⟨s, e, cval⟩] [] jend 1 0 s k st).as n = 0) ∧
    (∀ n, (build_step [⟨s, e, cval⟩] [] jend 1 0 s k st).ae n = 0) ∧
    (build_step [⟨s, e, cval⟩] [] jend 1 0 s k st).jp = [] ∧
    (build_step [⟨s, e, cval⟩] [] jend 1 0 s k st).js = st.js ∧
    (build_step [⟨s, e, cval⟩] [] jend 1 0 s k st).je = st.je := by
  have hseg : seg_of_pos [⟨s, e, cval⟩] (k + s) (1 - st.curr_si) st.curr_si = 0 := by
    rw [hsi]
    have : ¬ (k + s > e) := by omega
    simp [seg_of_pos, covgAt, this]
  unfold build_step
  simp only [hseg, Nat.not_lt_zero, false_and, if_false, Bool.false_eq_true]
  refine ⟨trivial, ?_, ?_, ?_, hjp, trivial, trivial⟩
  · intro n
    rw [constPrefix_succ k n hk0]
    by_cases hmod : k % win = 0
    · simp only [hmod, ne_eq, not_true_eq_false, if_false, arr_set, covgAt, List.getD_cons_zero]
      split
      · simp
      · exact hc n
    · simp only [ne_eq, hmod, not_false_eq_true, if_true, arr_add, arr_set, covgAt,
        List.getD_cons_zero]
      split
      · rename_i hn
        have hne : ¬ (k = k + 1) := by omega
        rw [if_neg hne, hc k]
        have : constPrefix k k = k % win := by
          unfold constPrefix
          simp only [win] at *
          split_ifs <;> omega
        rw [this]
        push_cast
        ring
      · exact hc n
  · intro n
    split
    · simp only [arr_add]
      split
      · rw [has, has, add_zero]
      · exact has n
    · exact has n
  · intro n
    split
    · simp only [arr_add]
      split
      · rw [hae, hae, add_zero]
      · exact hae n
    · exact hae n

theorem build_arrays_const (s e : Int) (cval : ℚ) (jend : List Nat) :
    ∀ (n : Nat) (k : Int) (st : BuildState), 0 ≤ k → k + n ≤ e - s + 1 →
      st.curr_si = 0 → (∀ m, st.c m = cval * ((constPrefix k m : Int) : ℚ)) →
      (∀ m, st.as m = 0) → (∀ m, st.ae m = 0) → st.jp = [] →
      (∀ m, (build_arrays [⟨s, e, cval⟩] [] jend 1 0 s n k st).c m
        = cval * ((constPrefix (k + n) m : Int) : ℚ)) ∧
      (∀ m, (build_arrays [⟨s, e, cval⟩] [] jend 1 0 s n k st).as m = 0) ∧
      (∀ m, (build_arrays [⟨s, e, cval⟩] [] jend 1 0 s n k st).ae m = 0) ∧
      (build_arrays [⟨s, e, cval⟩] [] jend 1 0 s n k st).jp = [] ∧
      (build_arrays [⟨s, e, cval⟩] [] jend 1 0 s n k st).js = st.js ∧
      (build_arrays [⟨s, e, cval⟩] [] jend 1 0 s n k st).je = st.je := by
  intro n
  induction n with
  | zero =>
    intro k st _ _ _ hc has hae hjp
    simp only [build_arrays, Nat.cast_zero, add_zero]
    exact ⟨hc, has, hae, hjp, trivial, trivial⟩
  | succ n ih =>
    intro k st hk0 hkn hsi hc has hae hjp
    obtain ⟨b1, b2, b3, b4, b5, b6, b7⟩ :=
      build_step_const s e cval jend k st hk0 (by push_cast at hkn; omega) hsi hc has hae hjp
    obtain ⟨i1, i2, i3, i4, i5, i6⟩ :=
      ih (k + 1) _ (by omega) (by push_cast at hkn ⊢; omega) b1 b2 b3 b4 b5
    rw [build_arrays]
    refine ⟨?_, i2, i3, i4, i5.trans b6, i6.trans b7⟩
    intro m
    rw [i1 m]
    congr 3
    push_cast
    ring
theorem scan_step_const (cval : ℚ) (len : Int) (c as ae : Int → ℚ) (i : Int)
    (hcov : ∀ n, c n = cval * ((constPrefix len n : Int) : ℚ))
    (has : ∀ n, as n = 0) (hae : ∀ n, ae n = 0)
    (hi1 : smallwin + 1 ≤ i) (hi2 : i < len - smallwin) :
    scan_step c as ae [] len ⟨i, 0, [], [], 0, 0⟩ = ⟨i + delta_param, 0, [], [], 0, 0⟩ := by
  have hp : ∀ l r, 1 ≤ l → l < i → r ≤ len → r - i + 1 = i - l → i - l ≤ win →
      compute_perc l r i c as ae = ⟨1, 1, 0, 0⟩ :=
    fun l r h1 h2 h3 h4 h5 => compute_perc_const cval len l r i c as ae hcov has hae h1 h2 h3 h4 h5
  unfold scan_step
  simp only [smallwin, win] at *
  have hm : compute_perc
      (if 2 * i - (if i - 150 < 1 then 1 else i - 150) - 1 > len - 1 then
        2 * i - (if 2 * i - (if i - 150 < 1 then 1 else i - 150) - 1 > len - 1 then len - 1
          else 2 * i - (if i - 150 < 1 then 1 else i - 150) - 1) - 1
       else if i - 150 < 1 then 1 else i - 150)
      (if 2 * i - (if i - 150 < 1 then 1 else i - 150) - 1 > len - 1 then len - 1
        else 2 * i - (if i - 150 < 1 then 1 else i - 150) - 1) i c as ae = ⟨1, 1, 0, 0⟩ := by
    apply hp <;> split_ifs <;> omega
  simp only [hm, List.length_nil, Nat.sub_zero, skip_jp, anchor_loop]
  norm_num [percnoise]
theorem scan_loop_const (cval : ℚ) (len : Int) (c as ae : Int → ℚ)
    (hcov : ∀ n, c n = cval * ((constPrefix len n : Int) : ℚ))
    (has : ∀ n, as n = 0) (hae : ∀ n, ae n = 0) :
    ∀ (fuel : Nat) (i : Int), smallwin + 1 ≤ i →
      (scan_loop c as ae [] len fuel ⟨i, 0, [], [], 0, 0⟩).tmps = [] ∧
      (scan_loop c as ae [] len fuel ⟨i, 0, [], [], 0, 0⟩).tmpe = [] := by
  intro fuel
  induction fuel with
  | zero => intro i _; simp [scan_loop]
  | succ n ih =>
    intro i hi
    rw [scan_loop]
    split
    · rename_i hlt
      rw [scan_step_const cval len c as ae i hcov has hae hi hlt]
      exact ih (i + delta_param) (by simp only [delta_param]; omega)
    · exact ⟨rfl, rfl⟩

/-- On a region that is one segment of constant coverage, without junctions,
`get_drop` appends exactly the two synthetic boundary drops. -/
theorem get_drop_const (s e : Int) (cval : ℚ) (jend : List Nat) (hse : s ≤ e) :
    ∃ r, get_drop [⟨s, e, cval⟩] [] jend [] 0 0 1 0 0 0 = some r ∧
      r.drop_arr = [⟨s, 0, cval⟩, ⟨-e, 0, cval⟩] := by
  have hw : (if e - s + 1 ≥ win + smallwin then
        get_drop_window [⟨s, e, cval⟩] [] jend (push_drop [] s 0 cval) 0 1 0 s (e - s + 1) 0 0
      else some ⟨push_drop [] s 0 cval, 0, 0⟩) = some ⟨[⟨s, 0, cval⟩], 0, 0⟩ := by
    split
    · unfold get_drop_window
      obtain ⟨b1, b2, b3, b4, b5, b6⟩ := build_arrays_const s e cval jend (e - s + 1).toNat 0
        ⟨0, fun _ => 0, fun _ => 0, fun _ => 0, 0, 0, []⟩ (le_refl _)
        (by rw [Int.toNat_of_nonneg (by omega)]; omega) rfl
        (fun m => by
          have : ¬ (1 ≤ m ∧ m ≤ 0) := by omega
          simp [constPrefix, this]) (fun _ => rfl) (fun _ => rfl) rfl
      have hlen0 : (0 : Int) + ((e - s + 1).toNat : Int) = e - s + 1 := by
        rw [Int.toNat_of_nonneg (by omega)]; ring
      rw [hlen0] at b1
      simp only []
      generalize build_arrays [⟨s, e, cval⟩] [] jend 1 0 s (e - s + 1).toNat 0
        ⟨0, fun _ => 0, fun _ => 0, fun _ => 0, 0, 0, []⟩ = b at *
      obtain ⟨t1, t2⟩ := scan_loop_const cval (e - s + 1) b.c b.as b.ae b1 b2 b3
        (e - s + 1).toNat (smallwin + 1) (le_refl _)
      rw [b4, t1, t2]
      simp [merge_candidates, push_drop, b5, b6]
    · rfl
  unfold get_drop
  simp only [covgAt, List.getD_cons_zero, skip_starts_before, skip_ends_before, Nat.sub_zero, hw]
  exact ⟨_, rfl, by simp [push_drop]⟩
theorem build_records_trivial (s e : Int) (c : ℚ) (jend : List Nat) (hlen : e - s + 1 > win) :
    build_records [⟨s, e, c⟩] [] jend [⟨0, 0⟩] = some
      ⟨[], [⟨s, 0, c⟩, ⟨-e, 0, c⟩],
        [⟨"tstart", s, [0], 0, c, ((e - s - 1 : Int) : ℚ) * c⟩, ⟨"tend", e, [1], 0, c, 0⟩]⟩ := by
  simp only [win] at hlen
  obtain ⟨r, hr, hd⟩ := get_drop_const s e c jend (by omega)
  have h1 : ¬ (s + 1 > e) := by omega
  have h2 : ¬ (e - 1 > e) := by omega
  have h3 : ¬ (e - 1 < s + 1) := by omega
  have h4 : e > s + 1 := by omega
  have h5 : ¬ (s + 1 < s) := by omega
  have hcov : get_cov [⟨s, e, c⟩] (s + 1) (e - 1) 0 1 = (((e - s - 1 : Int) : ℚ) * c, 0) := by
    simp only [get_cov, get_cov_skip, get_cov_acc, covgAt, List.getD_cons_zero, h1, h2, h3, h5,
      and_false, if_false, Nat.sub_zero, zero_add]
    simp only [show (0 : Nat) = 1 ↔ False by decide, if_false, Prod.mk.injEq, and_true]
    congr 2
    omega
  unfold build_records
  simp only [List.length_nil, List.length_cons, process_junctions, pj_sweep, pj_apply, drop_loop,
    zero_add, hr, hd, merge_loop, Nat.sub_self, Nat.lt_irrefl, Nat.not_lt_zero, or_self,
    if_false, covgAt, List.getD_cons_zero, push_record, List.nil_append, h4, if_true,
    hcov]
  simp [add_cov_to_last, recAt]
/-- C7: a region that is one coverage segment `[s, e]` with `s ≥ 1`, constant
coverage `c > lowcov` and length `e - s + 1 > win`, without junctions (and with any
contents of the unused end-index array), makes `process_bundle` print exactly one
bundle block with first position `s`, last position `e` and mean coverage `c`,
holding exactly two record lines, a `tstart` at `s` and a `tend` at `e`, both of
confidence 0, and return `bundleno + 1`. -/
theorem process_bundle_trivial (s e : Int) (c : ℚ) (jend : List Nat) (chr : String)
    (bundleno : Int) (hs : 1 ≤ s) (hc : c > lowcov) (hlen : e - s + 1 > win) :
    process_bundle [⟨s, e, c⟩] [] jend chr bundleno = some (bundleno + 1,
      [OutLine.bundle chr bundleno s e c,
       OutLine.record "tstart" s 0 c c (RecTail.covdiff c),
       OutLine.record "tend" e 0 c 0 (RecTail.covdiff c)]) := by
  have hb := build_records_trivial s e c jend hlen
  have hlen2 := hlen
  simp only [win] at hlen2
  simp only [lowcov] at hc
  have hlenq : (0 : ℚ) < (((e - s + 1 : Int)) : ℚ) := by
    have : (0 : Int) < e - s + 1 := by omega
    exact_mod_cast this
  have hlenne : (((e - s + 1 : Int)) : ℚ) ≠ 0 := ne_of_gt hlenq
  have hc0 : (0 : ℚ) < c := by linarith
  have hgap : s - 1 > -1 := by omega
  -- the region loop finds one contiguous region and has not yet seen a good average
  have hreg : region_loop [⟨s, e, c⟩] 1 0 ⟨[], -1, false, 0, 0, 0⟩
      = ⟨[⟨0, 0⟩], e, false, c * (((e - s + 1 : Int)) : ℚ), c * (((e - s + 1 : Int)) : ℚ),
          e - s + 1⟩ := by
    simp [region_loop, region_step, region_good, covgAt, hgap]
  have hgood : region_good [⟨s, e, c⟩] [⟨0, 0⟩] (c * (((e - s + 1 : Int)) : ℚ)) = true := by
    have h1 : c * (((e - s + 1 : Int)) : ℚ) > 0 := mul_pos hc0 hlenq
    have h2 : c * (((e - s + 1 : Int)) : ℚ) / (((e - s + 1 : Int)) : ℚ) > lowcov := by
      rw [mul_div_assoc, div_self hlenne, mul_one]
      simpa [lowcov] using hc
    simp only [region_good, covgAt, List.length_singleton, Nat.sub_self, List.getD_cons_zero]
    rw [if_pos ⟨h1, Nat.one_pos, h2⟩]
  -- the finalizer keeps both boundary records
  have hs0 : ¬ (s = 0) := by omega
  have he0 : ¬ (e = 0) := by omega
  have hse : ¬ (s = e) := by omega
  have hwin : ¬ (e - s + 1 < 150) := by omega
  have hsum : ((e - s - 1 : Int) : ℚ) * c + c + c = c * (((e - s + 1 : Int)) : ℚ) := by
    push_cast; ring
  have hmean : ¬ (c * (((e - s + 1 : Int)) : ℚ) / (((e - s + 1 : Int)) : ℚ) < 10) := by
    rw [mul_div_assoc, div_self hlenne, mul_one]
    exact not_lt.mpr (le_of_lt hc)
  have hne1 : ¬ ("tstart" = "tend") := by decide
  have hne2 : ¬ ("tend" = "tstart") := by decide
  have hne3 : ¬ ("tstart" = "jend") := by decide
  have hne4 : ¬ ("tend" = "jend") := by decide
  have hne5 : ¬ ("tend" = "jstart") := by decide
  have hne6 : ¬ ("tstart" = "jstart") := by decide
  have hrec : process_records [] [⟨s, 0, c⟩, ⟨-e, 0, c⟩]
      [⟨"tstart", s, [0], 0, c, ((e - s - 1 : Int) : ℚ) * c⟩, ⟨"tend", e, [1], 0, c, 0⟩]
      chr bundleno = some
        ([⟨"tstart", s, [0], 0, c, ((e - s - 1 : Int) : ℚ) * c⟩, ⟨"tend", e, [1], 0, c, 0⟩],
          bundleno + 1,
          [OutLine.bundle chr bundleno s e c,
           OutLine.record "tstart" s 0 c c (RecTail.covdiff c),
           OutLine.record "tend" e 0 c 0 (RecTail.covdiff c)]) := by
    have hsumb : c + ((e - s - 1 : Int) : ℚ) * c + c = c * (((e - s + 1 : Int)) : ℚ) := by
      push_cast; ring
    have hlen1 : (1 : Int) + (e - s) = e - s + 1 := by ring
    have hden : ((e : ℚ) - (s : ℚ) + 1) ≠ 0 := by
      have := hlenne
      push_cast at this
      exact this
    have hdenpos : (0 : ℚ) < (e : ℚ) - (s : ℚ) + 1 := by
      have := hlenq
      push_cast at this
      exact this
    have hnum : c + ((e : ℚ) - (s : ℚ) - 1) * c + c = c * ((e : ℚ) - (s : ℚ) + 1) := by ring
    have hmean2 : ¬ ((c + ((e : ℚ) - (s : ℚ) - 1) * c + c) / ((e : ℚ) - (s : ℚ) + 1) < 10) := by
      rw [hnum, mul_div_assoc, div_self hden, mul_one]
      exact not_lt.mpr (le_of_lt hc)
    have havg : (c + ((e : ℚ) - (s : ℚ) - 1) * c + c) / ((e : ℚ) - (s : ℚ) + 1) = c := by
      rw [hnum, mul_div_assoc, div_self hden, mul_one]
    have hc10 : ¬ c < 10 := not_lt.mpr (le_of_lt hc)
    have hpos : (0 : Int) < e - s + 1 := by omega
    have hnext2 : (((e : ℚ) - (s : ℚ) - 1) * c + c + c) / ((e : ℚ) - (s : ℚ) + 1) = c := by
      rw [show ((e : ℚ) - (s : ℚ) - 1) * c + c + c = c * ((e : ℚ) - (s : ℚ) + 1) by ring,
        mul_div_assoc, div_self hden, mul_one]
    have hcn : ((e : ℚ) - (s : ℚ) - 1) * c + c + c = c * ((e : ℚ) - (s : ℚ) + 1) := by ring
    have hnext : (((e : ℚ) - (s : ℚ) - 1) * c + c + c) / (1 + ((e : ℚ) - (s : ℚ))) = c := by
      rw [hcn, add_comm (1 : ℚ), mul_div_assoc, div_self hden, mul_one]
    simp [process_records, proc_loop, proc_step, recAt, print_small_bundle, small_loop,
      small_step, recAtI, hs0, he0, hse, hne1, hne2, hne3, hne4, hne5, hne6, win, lowcov,
      hwin, hsumb, hmean, print_records, record_line, get_next_cov, next_cov_skip, dropAt,
      hlen1, hmean2, havg, hnext, hdenpos, hc10, hpos, hnext2]
  unfold process_bundle
  simp only [List.length_singleton, hreg, hgood, if_true, hb, hrec]
  simp [win, hlen2]

theorem process_bundle_trivial_witness :
    process_bundle [⟨100, 300, 20⟩] [] [] "chr1" 0 = some (0 + 1,
      [OutLine.bundle "chr1" 0 100 300 20,
       OutLine.record "tstart" 100 0 20 20 (RecTail.covdiff 20),
       OutLine.record "tend" 300 0 20 0 (RecTail.covdiff 20)]) :=
  process_bundle_trivial 100 300 20 [] "chr1" 0 (by decide) (by norm_num [lowcov]) (by decide)

/-! ## Order of the record positions -/

/-- C6 (as stated, refuted): for the sorted single segment `[100,260]` of coverage
20 and the single junction `[262,300]` (sorted, `0 < start < end`), the record
sequence built by `process_bundle` is a `tstart` at 100, a `jstart` at 262 and the
final `tend` at 260, which is not in non-decreasing position order. -/
theorem build_records_unsorted_example :
    CovgSorted lateCovg ∧ JuncSorted lateJunc ∧
    ∃ b, build_records lateCovg lateJunc [0]
        (region_loop lateCovg lateCovg.length 0 ⟨[], -1, false, 0, 0, 0⟩).s_arr = some b ∧
      b.record.map (fun r => (r.type, r.pos)) = [("tstart", 100), ("jstart", 262), ("tend", 260)] ∧
      ¬ RecSorted b.record := by
  refine ⟨by decide, by decide, ?_⟩
  have hreg : (region_loop lateCovg lateCovg.length 0 ⟨[], -1, false, 0, 0, 0⟩).s_arr
      = [⟨0, 0⟩] := by
    simp [region_loop, region_step, region_good, covgAt, lateCovg]
  have hdrop : get_drop lateCovg (process_junctions lateJunc [0] 1) [0] [] 0 0 1 0 0 1
      = some ⟨[⟨100, 0, 20⟩, ⟨-260, 0, 20⟩], 0, 0⟩ := by
    norm_num [get_drop, lateCovg, lateJunc, process_junctions, pj_sweep, pj_close, pj_check,
      pj_apply, covgAt, juncAt, jendAt, skip_starts_before, skip_ends_before, push_drop, win,
      smallwin]
  have hb : build_records lateCovg lateJunc [0] [⟨0, 0⟩] = some
      ⟨[⟨"chr1", 262, 300, 0, '+', 0⟩], [⟨100, 0, 20⟩, ⟨-260, 0, 20⟩],
        [⟨"tstart", 100, [0], 0, 20, 3200⟩, ⟨"jstart", 262, [0], 0, 0, 0⟩,
         ⟨"tend", 260, [1], 0, 20, 0⟩]⟩ := by
    unfold build_records
    simp only [drop_loop, show lateCovg.length = 1 from rfl, show lateJunc.length = 1 from rfl, hdrop]
    norm_num [lateCovg, lateJunc, process_junctions, pj_sweep, pj_close, pj_check,
      pj_apply, covgAt, juncAt, jendAt, merge_loop, get_record, next_start, next_end, dropAt,
      less_than, get_record_jstart, get_record_jend, collect_starts, collect_ends, flank_cov,
      cursor_back, get_cov, get_cov_skip, get_cov_acc, delta_param, push_record,
      add_cov_to_last, recAt, junc_zero_all, junc_zero, prev_jend_scan, prev_jstart_scan]
  rw [hreg, hb]
  refine ⟨_, rfl, by simp, by decide⟩
theorem juncAt_set (junc : List JuncEntry) (k j : Nat) (x : JuncEntry) :
    juncAt (junc.set k x) j = if k = j ∧ k < junc.length then x else juncAt junc j := by
  unfold juncAt
  rw [List.getD_eq_getElem?_getD, List.getD_eq_getElem?_getD, List.getElem?_set]
  by_cases h1 : k = j
  · by_cases h2 : k < junc.length
    · subst h1
      simp [h2]
    · subst h1
      have : junc[k]? = none := List.getElem?_eq_none (by omega)
      simp [h2, this]
  · simp [h1]

theorem Retracts.refl (a : List JuncEntry) : Retracts a a :=
  ⟨rfl, fun _ => ⟨rfl, rfl, Or.inl rfl⟩⟩

theorem Retracts.trans {a b c : List JuncEntry} (h1 : Retracts a b) (h2 : Retracts b c) :
    Retracts a c := by
  refine ⟨h1.1.trans h2.1, fun k => ?_⟩
  obtain ⟨a1, a2, a3⟩ := h1.2 k
  obtain ⟨b1, b2, b3⟩ := h2.2 k
  refine ⟨b1.trans a1, b2.trans a2, ?_⟩
  rcases b3 with h | h
  · rcases a3 with g | g
    · exact Or.inl (h.trans g)
    · exact Or.inr (h.trans g)
  · exact Or.inr h

theorem Retracts.live {a b : List JuncEntry} (h : Retracts a b) (k : Nat)
    (hl : (juncAt b k).cov > 0) : (juncAt a k).cov > 0 := by
  rcases (h.2 k).2.2 with g | g
  · rw [← g]; exact hl
  · rw [g] at hl; exact absurd hl (lt_irrefl _)

theorem junc_zero_retracts (junc : List JuncEntry) (k : Nat) : Retracts junc (junc_zero junc k) := by
  refine ⟨by simp [junc_zero], fun j => ?_⟩
  unfold junc_zero
  rw [juncAt_set]
  split
  · rename_i h
    rw [h.1]
    exact ⟨rfl, rfl, Or.inr rfl⟩
  · exact ⟨rfl, rfl, Or.inl rfl⟩

theorem junc_zero_at (junc : List JuncEntry) (k : Nat) : (juncAt (junc_zero junc k) k).cov = 0 := by
  unfold junc_zero
  rw [juncAt_set]
  split
  · rfl
  · rename_i h
    have hk : ¬ k < junc.length := fun hlt => h ⟨rfl, hlt⟩
    unfold juncAt
    rw [List.getD_eq_getElem?_getD, List.getElem?_eq_none (by omega)]
    rfl

theorem junc_zero_all_retracts (indices : List Nat) :
    ∀ (junc : List JuncEntry), Retracts junc (junc_zero_all junc indices) := by
  induction indices with
  | nil => intro junc; exact Retracts.refl junc
  | cons k rest ih =>
    intro junc
    exact (junc_zero_retracts junc k).trans (ih (junc_zero junc k))

theorem junc_zero_all_at (indices : List Nat) :
    ∀ (junc : List JuncEntry) (k : Nat), k ∈ indices →
      (juncAt (junc_zero_all junc indices) k).cov = 0 := by
  induction indices with
  | nil => intro junc k hk; simp at hk
  | cons a rest ih =>
    intro junc k hk
    rcases List.mem_cons.mp hk with rfl | hk
    · have h0 := junc_zero_at junc k
      rcases ((junc_zero_all_retracts rest (junc_zero junc k)).2 k).2.2 with g | g
      · exact g.trans h0
      · exact g
    · exact ih (junc_zero junc a) k hk
theorem pj_apply_retracts (nj : Nat) (mark : List Bool) :
    ∀ (junc : List JuncEntry) (j : Nat), Retracts junc (pj_apply nj mark j junc) := by
  intro junc
  induction junc with
  | nil => intro j; exact Retracts.refl []
  | cons e rest ih =>
    intro j
    obtain ⟨hl, hk⟩ := ih (j + 1)
    refine ⟨by simp [pj_apply, hl], fun k => ?_⟩
    cases k with
    | zero =>
      simp only [pj_apply, juncAt, List.getD_cons_zero]
      split
      · exact ⟨rfl, rfl, Or.inr rfl⟩
      · exact ⟨rfl, rfl, Or.inl rfl⟩
    | succ k =>
      simpa [pj_apply, juncAt] using hk k

theorem process_junctions_retracts (junc : List JuncEntry) (jend : List Nat) (nj : Nat) :
    Retracts junc (process_junctions junc jend nj) :=
  pj_apply_retracts nj _ junc 0

/-! ### The coverage cursor from any starting point -/

theorem get_cov_cursor_le (covg : List CovgEntry) (start end_ : Int) (si : Nat)
    (hsi : si ≤ covg.length) : (get_cov covg start end_ si covg.length).2 ≤ covg.length := by
  obtain ⟨_, h2, _, _⟩ := get_cov_skip_spec covg start covg.length (covg.length - si) si rfl hsi
  unfold get_cov
  simp only []
  generalize get_cov_skip covg start covg.length (covg.length - si) si = k at h2
  split
  · exact h2
  · rename_i hne
    exact (get_cov_acc_cursor covg end_ covg.length (covg.length - k) k _ 0 rfl (by omega)).2.1

theorem get_cov_acc_nonneg (covg : List CovgEntry) (end_ : Int) (nb : Nat)
    (hwf : ∀ i, (covgAt covg i).start ≤ (covgAt covg i).end_)
    (hcov : ∀ i, 0 ≤ (covgAt covg i).cov) :
    ∀ (fuel si : Nat) (start : Int) (cov_sum : ℚ), 0 ≤ cov_sum →
      start ≤ (covgAt covg si).end_ + 1 →
      0 ≤ (get_cov_acc covg end_ nb fuel start si cov_sum).1 := by
  intro fuel
  induction fuel with
  | zero => intro si start cov_sum h _; simpa [get_cov_acc] using h
  | succ n ih =>
    intro si start cov_sum h hst
    rw [get_cov_acc]
    have hterm : 0 ≤ (((covgAt covg si).end_ - start + 1 : Int) : ℚ) * (covgAt covg si).cov := by
      apply mul_nonneg _ (hcov si)
      have : (0 : Int) ≤ (covgAt covg si).end_ - start + 1 := by omega
      exact_mod_cast this
    split
    · simp only []
      split
      · exact add_nonneg h hterm
      · exact ih _ _ _ (add_nonneg h hterm) (by have := hwf (si + 1); omega)
    · split
      · exact h
      · rename_i h1 h2
        apply add_nonneg h
        apply mul_nonneg _ (hcov si)
        have : (0 : Int) ≤ end_ - start + 1 := by omega
        exact_mod_cast this

/-- With non-negative coverage values `get_cov` is non-negative, from any cursor
that is at most `nb`. -/
theorem get_cov_nonneg (covg : List CovgEntry) (start end_ : Int) (si nb : Nat)
    (hsi : si ≤ nb)
    (hwf : ∀ i, (covgAt covg i).start ≤ (covgAt covg i).end_)
    (hcov : ∀ i, 0 ≤ (covgAt covg i).cov) :
    0 ≤ (get_cov covg start end_ si nb).1 := by
  obtain ⟨_, h2, _, h4⟩ := get_cov_skip_spec covg start nb (nb - si) si rfl hsi
  unfold get_cov
  simp only []
  split
  · exact le_refl _
  · rename_i hne
    apply get_cov_acc_nonneg covg end_ nb hwf hcov _ _ _ _ (le_refl _)
    have hk := h4 (by omega)
    split
    · have := hwf (get_cov_skip covg start nb (nb - si) si)
      omega
    · omega

/-- A query that starts after the end of every segment returns 0 from any cursor
that is at most `nb`. -/
theorem get_cov_past_end (covg : List CovgEntry) (start end_ : Int) (si : Nat)
    (hsi : si ≤ covg.length) (hpast : ∀ i, i < covg.length → (covgAt covg i).end_ < start) :
    (get_cov covg start end_ si covg.length).1 = 0 := by
  obtain ⟨_, h2, _, h4⟩ := get_cov_skip_spec covg start covg.length (covg.length - si) si rfl hsi
  unfold get_cov
  simp only []
  split
  · rfl
  · rename_i hne
    have hk : get_cov_skip covg start covg.length (covg.length - si) si < covg.length := by omega
    have := h4 hk
    have := hpast _ hk
    omega
theorem cursor_back_le (covg : List CovgEntry) (leftstart : Int) :
    ∀ n, cursor_back covg leftstart n ≤ n := by
  intro n
  induction n with
  | zero => simp [cursor_back]
  | succ n ih =>
    rw [cursor_back]
    split
    · exact le_trans ih (Nat.le_succ _)
    · exact le_refl _

/-- A junction group beyond the last segment never passes the flank test of the
`jend` branch when coverage values are non-negative. -/
theorem flank_cov_past_end (covg : List CovgEntry) (ib : Nat) (lo mid hi : Int)
    (hib : ib ≤ covg.length)
    (hwf : ∀ i, (covgAt covg i).start ≤ (covgAt covg i).end_)
    (hcov : ∀ i, 0 ≤ (covgAt covg i).cov)
    (hpast : ∀ i, i < covg.length → (covgAt covg i).end_ < mid) :
    ¬ ((flank_cov covg covg.length ib lo mid hi).1 < (flank_cov covg covg.length ib lo mid hi).2) := by
  unfold flank_cov
  simp only []
  have hc : (if lo < (covgAt covg 0).start then 0
      else cursor_back covg (if lo < (covgAt covg 0).start then (covgAt covg 0).start else lo) ib)
      ≤ covg.length := by
    split
    · exact Nat.zero_le _
    · exact le_trans (cursor_back_le covg _ ib) hib
  rw [get_cov_past_end covg mid _ _ (get_cov_cursor_le covg _ _ _ hc) hpast]
  exact not_lt.mpr (get_cov_nonneg covg _ _ _ _ hc hwf hcov)

theorem recAt_mem (record : List RecordEntry) (i : Nat) (h : i < record.length) :
    recAt record i ∈ record := by
  rw [recAt, List.getD_eq_getElem _ _ h]
  exact List.getElem_mem h

theorem add_cov_to_last_map {β : Type} (f : RecordEntry → β)
    (hf : ∀ (r : RecordEntry) (x : ℚ), f { r with cov_to_next := x } = f r)
    (record : List RecordEntry) (x : ℚ) :
    (add_cov_to_last record x).map f = record.map f := by
  unfold add_cov_to_last
  rw [List.map_set, hf]
  apply List.ext_getElem
  · simp
  · intro n h1 h2
    rw [List.getElem_set]
    split
    · rename_i heq
      subst heq
      simp only [List.getElem_map]
      congr 1
      rw [recAt, List.getD_eq_getElem]
    · rfl

theorem add_cov_to_last_pos (record : List RecordEntry) (x : ℚ) :
    (add_cov_to_last record x).map (fun r => r.pos) = record.map (fun r => r.pos) :=
  add_cov_to_last_map (fun r => r.pos) (fun _ _ => rfl) record x

theorem add_cov_to_last_mem_pos (record : List RecordEntry) (x : ℚ) (r : RecordEntry)
    (h : r ∈ add_cov_to_last record x) : ∃ r0 ∈ record, r0.pos = r.pos := by
  have : r.pos ∈ (add_cov_to_last record x).map (fun r => r.pos) := List.mem_map_of_mem _ h
  rw [add_cov_to_last_pos] at this
  obtain ⟨r0, h0, h1⟩ := List.mem_map.mp this
  exact ⟨r0, h0, h1⟩

theorem add_cov_to_last_first (record : List RecordEntry) (x : ℚ) :
    (recAt (add_cov_to_last record x) 0).type = (recAt record 0).type ∧
    (recAt (add_cov_to_last record x) 0).change_perc = (recAt record 0).change_perc ∧
    (recAt (add_cov_to_last record x) 0).pos = (recAt record 0).pos := by
  have h := add_cov_to_last_map (fun r => (r.type, r.change_perc, r.pos)) (fun _ _ => rfl) record x
  cases hrec : record with
  | nil => simp [add_cov_to_last]
  | cons a rest =>
    rw [hrec] at h
    cases hnew : add_cov_to_last (a :: rest) x with
    | nil => rw [hnew] at h; simp at h
    | cons b rest2 =>
      rw [hnew] at h
      simp only [List.map_cons, List.cons.injEq, Prod.mk.injEq] at h
      simp only [recAt, List.getD_cons_zero]
      exact ⟨h.1.1, h.1.2.1, h.1.2.2⟩
theorem JuncStatic.retracts {jend : List Nat} {nj : Nat} {last_end : Int}
    {a b : List JuncEntry} (h : JuncStatic jend nj last_end a) (hr : Retracts a b) :
    JuncStatic jend nj last_end b := by
  refine ⟨fun i j h1 h2 => ?_, fun k1 k2 h1 h2 => ?_, fun j hj => ?_, h.jend_lt⟩
  · rw [(hr.2 i).1, (hr.2 j).1]; exact h.starts_sorted i j h1 h2
  · rw [(hr.2 _).2.1, (hr.2 _).2.1]; exact h.ends_sorted k1 k2 h1 h2
  · rw [(hr.2 j).1, (hr.2 j).2.1]; exact h.wf j hj

theorem MergeInv.prev_lo {covg : List CovgEntry} {drop_arr : List DropEntry} {jend : List Nat}
    {nd nj : Nat} {st : MergeState} (h : MergeInv covg drop_arr jend nd nj st) :
    (covgAt covg 0).start ≤ st.prevpos := by
  have hlen : 0 < st.record.length := List.length_pos.mpr h.rec_ne
  have hm := recAt_mem st.record 0 hlen
  exact le_trans (h.rec_lo _ hm) (h.rec_hi _ hm)

/-- What the loop that collects a junction-start group does: it passes exactly
junctions that start at `p`, keeps every live one among them in `tmpr`, and their
coverage makes `count` positive. -/
theorem collect_starts_spec (junc : List JuncEntry) (nj : Nat) (p : Int) :
    ∀ (fuel js : Nat) (tmpr : List Nat) (count : ℚ), fuel = nj - js →
      (∀ j, js ≤ j → j < (collect_starts junc nj p fuel js tmpr count).1 →
        (juncAt junc j).start = p) ∧
      (∀ j, js ≤ j → j < (collect_starts junc nj p fuel js tmpr count).1 →
        (juncAt junc j).cov > 0 →
        j ∈ (collect_starts junc nj p fuel js tmpr count).2.1 ∧
        count < (collect_starts junc nj p fuel js tmpr count).2.2) ∧
      (∀ j ∈ tmpr, j ∈ (collect_starts junc nj p fuel js tmpr count).2.1) ∧
      count ≤ (collect_starts junc nj p fuel js tmpr count).2.2 ∧
      (js ≤ nj → (collect_starts junc nj p fuel js tmpr count).1 ≤ nj) := by
  intro fuel
  induction fuel with
  | zero =>
    intro js tmpr count _
    simp only [collect_starts]
    exact ⟨fun j h1 h2 => absurd h2 (by omega), fun j h1 h2 => absurd h2 (by omega),
      fun j hj => hj, le_refl _, fun h => h⟩
  | succ n ih =>
    intro js tmpr count hf
    rw [collect_starts]
    split
    · rename_i hc
      split
      · rename_i hlive
        obtain ⟨h1, h2, h3, h4, h5⟩ := ih (js + 1) (tmpr ++ [js]) (count + (juncAt junc js).cov)
          (by omega)
        have hlt : count < count + (juncAt junc js).cov := by linarith
        refine ⟨?_, ?_, fun j hj => h3 j (List.mem_append_left _ hj), le_of_lt (lt_of_lt_of_le hlt h4),
          fun _ => h5 (by omega)⟩
        · intro j hj1 hj2
          rcases Nat.eq_or_lt_of_le hj1 with rfl | hl
          · exact hc.2
          · exact h1 j hl hj2
        · intro j hj1 hj2 hj3
          rcases Nat.eq_or_lt_of_le hj1 with rfl | hl
          · exact ⟨h3 _ (List.mem_append_right _ (List.mem_singleton_self _)),
              lt_of_lt_of_le hlt h4⟩
          · exact ⟨(h2 j hl hj2 hj3).1, lt_trans hlt (h2 j hl hj2 hj3).2⟩
      · rename_i hdead
        obtain ⟨h1, h2, h3, h4, h5⟩ := ih (js + 1) tmpr count (by omega)
        refine ⟨?_, ?_, h3, h4, fun _ => h5 (by omega)⟩
        · intro j hj1 hj2
          rcases Nat.eq_or_lt_of_le hj1 with rfl | hl
          · exact hc.2
          · exact h1 j hl hj2
        · intro j hj1 hj2 hj3
          rcases Nat.eq_or_lt_of_le hj1 with rfl | hl
          · exact absurd hj3 hdead
          · exact h2 j hl hj2 hj3
    · exact ⟨fun j h1 h2 => absurd h2 (by omega), fun j h1 h2 => absurd h2 (by omega),
        fun j hj => hj, le_refl _, fun h => h⟩

/-- What the loop that collects a junction-end group does. -/
theorem collect_ends_spec (junc : List JuncEntry) (jend : List Nat) (nj : Nat) (p : Int) :
    ∀ (fuel je : Nat) (tmpr : List Nat) (count : ℚ), fuel = nj - je →
      (∀ k, je ≤ k → k < (collect_ends junc jend nj p fuel je tmpr count).1 →
        (juncAt junc (jendAt jend k)).cov > 0 →
        jendAt jend k ∈ (collect_ends junc jend nj p fuel je tmpr count).2.1 ∧
        count < (collect_ends junc jend nj p fuel je tmpr count).2.2) ∧
      (∀ j ∈ tmpr, j ∈ (collect_ends junc jend nj p fuel je tmpr count).2.1) ∧
      count ≤ (collect_ends junc jend nj p fuel je tmpr count).2.2 := by
  intro fuel
  induction fuel with
  | zero =>
    intro je tmpr count _
    simp only [collect_ends]
    exact ⟨fun j h1 h2 => absurd h2 (by omega), fun j hj => hj, le_refl _⟩
  | succ n ih =>
    intro je tmpr count hf
    rw [collect_ends]
    split
    · rename_i hc
      split
      · rename_i hlive
        obtain ⟨h2, h3, h4⟩ := ih (je + 1) (tmpr ++ [jendAt jend je])
          (count + (juncAt junc (jendAt jend je)).cov) (by omega)
        have hlt : count < count + (juncAt junc (jendAt jend je)).cov := by linarith
        refine ⟨?_, fun j hj => h3 j (List.mem_append_left _ hj),
          le_of_lt (lt_of_lt_of_le hlt h4)⟩
        intro j hj1 hj2 hj3
        rcases Nat.eq_or_lt_of_le hj1 with rfl | hl
        · exact ⟨h3 _ (List.mem_append_right _ (List.mem_singleton_self _)),
            lt_of_lt_of_le hlt h4⟩
        · exact ⟨(h2 j hl hj2 hj3).1, lt_trans hlt (h2 j hl hj2 hj3).2⟩
      · rename_i hdead
        obtain ⟨h2, h3, h4⟩ := ih (je + 1) tmpr count (by omega)
        refine ⟨?_, h3, h4⟩
        intro j hj1 hj2 hj3
        rcases Nat.eq_or_lt_of_le hj1 with rfl | hl
        · exact absurd hj3 hdead
        · exact h2 j hl hj2 hj3
    · exact ⟨fun j h1 h2 => absurd h2 (by omega), fun j hj => hj, le_refl _⟩
/-- The three outcomes of the `jstart` branch: nothing live in the group, the
group is rejected and retracted, or it is accepted and one `jstart` record is
pushed at its position. -/
theorem get_record_jstart_cases (covg : List CovgEntry) (nb nj : Nat) (p : Int)
    (st : MergeState) :
    (get_record_jstart covg nb nj p st
        = { st with js := (collect_starts st.junc nj p (nj - st.js) st.js [] 0).1 } ∧
      ¬ (collect_starts st.junc nj p (nj - st.js) st.js [] 0).2.2 > 0) ∨
    (get_record_jstart covg nb nj p st
        = { st with js := (collect_starts st.junc nj p (nj - st.js) st.js [] 0).1,
                    junc := junc_zero_all st.junc
                      (collect_starts st.junc nj p (nj - st.js) st.js [] 0).2.1 }) ∨
    (∃ rec1 junc1 r,
      get_record_jstart covg nb nj p st
        = { st with ib := (get_cov covg p p st.ib nb).2,
                    js := (collect_starts st.junc nj p (nj - st.js) st.js [] 0).1,
                    prevpos := p, junc := junc1, record := rec1 ++ [r] } ∧
      r.type = "jstart" ∧ r.pos = p ∧
      (rec1 = st.record ∨ ∃ x, rec1 = add_cov_to_last st.record x) ∧
      Retracts st.junc junc1 ∧
      (st.prevpos > p - delta_param →
        (prev_jstart_scan st.junc st.record p st.record.length
          ⟨(collect_starts st.junc nj p (nj - st.js) st.js [] 0).2.2, 0, 0⟩).count > 0)) := by
  unfold get_record_jstart
  simp only []
  by_cases hcount : (collect_starts st.junc nj p (nj - st.js) st.js [] 0).2.2 > 0
  · rw [if_pos hcount]
    by_cases hprev : st.prevpos > p - delta_param
    · simp only [if_pos hprev]
      split_ifs with h1 h2 h3 h3
      all_goals first
        | exact Or.inr (Or.inl rfl)
        | refine Or.inr (Or.inr ⟨_, _, _, rfl, rfl, rfl, ?_, ?_, fun _ => h1.2.1⟩)
      all_goals first
        | exact Or.inl rfl
        | exact Or.inr ⟨_, rfl⟩
        | exact junc_zero_all_retracts _ _
        | exact Retracts.refl _
    · simp only [if_neg hprev]
      split_ifs with h1 h2 h3 h3
      all_goals first
        | exact Or.inr (Or.inl rfl)
        | refine Or.inr (Or.inr ⟨_, _, _, rfl, rfl, rfl, ?_, ?_, fun h => absurd h hprev⟩)
      all_goals first
        | exact Or.inl rfl
        | exact Or.inr ⟨_, rfl⟩
        | exact junc_zero_all_retracts _ _
        | exact Retracts.refl _
  · rw [if_neg hcount]
    exact Or.inl ⟨rfl, hcount⟩

/-- The three outcomes of the `jend` branch. -/
theorem get_record_jend_cases (covg : List CovgEntry) (jend : List Nat) (nb nj : Nat) (p : Int)
    (st : MergeState) :
    (get_record_jend covg jend nb nj p st
        = { st with je := (collect_ends st.junc jend nj p (nj - st.je) st.je [] 0).1 } ∧
      ¬ (collect_ends st.junc jend nj p (nj - st.je) st.je [] 0).2.2 > 0) ∨
    (get_record_jend covg jend nb nj p st
        = { st with je := (collect_ends st.junc jend nj p (nj - st.je) st.je [] 0).1,
                    junc := junc_zero_all st.junc
                      (collect_ends st.junc jend nj p (nj - st.je) st.je [] 0).2.1 }) ∨
    (∃ rec1 junc1 r,
      get_record_jend covg jend nb nj p st
        = { st with ib := (get_cov covg p p st.ib nb).2,
                    je := (collect_ends st.junc jend nj p (nj - st.je) st.je [] 0).1,
                    prevpos := p, junc := junc1, record := rec1 ++ [r] } ∧
      r.type = "jend" ∧ r.pos = p ∧
      (rec1 = st.record ∨ ∃ x, rec1 = add_cov_to_last st.record x) ∧
      Retracts st.junc junc1 ∧
      (flank_cov covg nb st.ib (p - delta_param) p (p + delta_param - 1)).1
        < (flank_cov covg nb st.ib (p - delta_param) p (p + delta_param - 1)).2) := by
  unfold get_record_jend
  simp only []
  by_cases hcount : (collect_ends st.junc jend nj p (nj - st.je) st.je [] 0).2.2 > 0
  · rw [if_pos hcount]
    by_cases hprev : st.prevpos > p - 2
    · simp only [if_pos hprev]
      split_ifs with h1 h2 h3 h3
      all_goals first
        | exact Or.inr (Or.inl rfl)
        | refine Or.inr (Or.inr ⟨_, _, _, rfl, rfl, rfl, ?_, ?_, h1.1⟩)
      all_goals first
        | exact Or.inl rfl
        | exact Or.inr ⟨_, rfl⟩
        | exact junc_zero_all_retracts _ _
        | exact Retracts.refl _
    · simp only [if_neg hprev]
      split_ifs with h1 h2 h3 h3
      all_goals first
        | exact Or.inr (Or.inl rfl)
        | refine Or.inr (Or.inr ⟨_, _, _, rfl, rfl, rfl, ?_, ?_, h1.1⟩)
      all_goals first
        | exact Or.inl rfl
        | exact Or.inr ⟨_, rfl⟩
        | exact junc_zero_all_retracts _ _
        | exact Retracts.refl _
  · rw [if_neg hcount]
    exact Or.inl ⟨rfl, hcount⟩
/-- A junction start seen while every record so far lies inside its window, the
first of them being the confidence-0 `tstart`, has its count cleared by the
backward scan. -/
theorem prev_jstart_scan_blocked (junc : List JuncEntry) (record : List RecordEntry) (p : Int)
    (hfirst : (recAt record 0).type = "tstart" ∧ (recAt record 0).change_perc = 0)
    (hall : ∀ i, i < record.length → (recAt record i).pos > p - delta_param) :
    ∀ (n : Nat) (s : StartScan), 1 ≤ n → n ≤ record.length →
      (prev_jstart_scan junc record p n s).count = 0 := by
  intro n
  induction n with
  | zero => intro s h; omega
  | succ m ih =>
    intro s _ hle
    rw [prev_jstart_scan, if_pos (hall m (by omega))]
    split
    · rfl
    · rename_i hnot
      have hm : 1 ≤ m := by
        by_contra hcon
        have : m = 0 := by omega
        subst this
        exact hnot (Or.inl ⟨hfirst.2, hfirst.1⟩)
      split
      · exact ih _ hm (by omega)
      · exact ih _ hm (by omega)

theorem recAt_append_zero (rec1 : List RecordEntry) (r : RecordEntry) (h : rec1 ≠ []) :
    recAt (rec1 ++ [r]) 0 = recAt rec1 0 := by
  cases rec1 with
  | nil => exact absurd rfl h
  | cons a rest => rfl

/-- Pushing a record at a position that is at least every earlier position keeps
the record buffer ordered, keeps its first record, and keeps its bounds. -/
theorem push_keeps_order (record rec1 : List RecordEntry) (r : RecordEntry) (p c0 : Int)
    (hrec1 : rec1 = record ∨ ∃ x, rec1 = add_cov_to_last record x)
    (hne : record ≠ [])
    (hfirst : (recAt record 0).type = "tstart" ∧ (recAt record 0).change_perc = 0)
    (hsorted : RecSorted record) (hlo : ∀ a ∈ record, c0 ≤ a.pos)
    (hhi : ∀ a ∈ record, a.pos ≤ p) (hp : c0 ≤ p) (hr : r.pos = p) :
    rec1 ++ [r] ≠ [] ∧
    ((recAt (rec1 ++ [r]) 0).type = "tstart" ∧ (recAt (rec1 ++ [r]) 0).change_perc = 0) ∧
    RecSorted (rec1 ++ [r]) ∧ (∀ a ∈ rec1 ++ [r], c0 ≤ a.pos) ∧
    (∀ a ∈ rec1 ++ [r], a.pos ≤ p) := by
  have hpos : rec1.map (fun r => r.pos) = record.map (fun r => r.pos) := by
    rcases hrec1 with h | ⟨x, h⟩
    · rw [h]
    · rw [h, add_cov_to_last_pos]
  have hne1 : rec1 ≠ [] := by
    intro h
    rw [h] at hpos
    exact hne (List.map_eq_nil_iff.mp hpos.symm)
  have hf1 : (recAt rec1 0).type = "tstart" ∧ (recAt rec1 0).change_perc = 0 := by
    rcases hrec1 with h | ⟨x, h⟩
    · rw [h]; exact hfirst
    · rw [h]
      obtain ⟨a1, a2, _⟩ := add_cov_to_last_first record x
      rw [a1, a2]
      exact hfirst
  have hmem : ∀ a ∈ rec1, ∃ a0 ∈ record, a0.pos = a.pos := by
    intro a ha
    have : a.pos ∈ rec1.map (fun r => r.pos) := List.mem_map_of_mem _ ha
    rw [hpos] at this
    obtain ⟨a0, h0, h1⟩ := List.mem_map.mp this
    exact ⟨a0, h0, h1⟩
  refine ⟨by simp, ?_, ?_, ?_, ?_⟩
  · rw [recAt_append_zero rec1 r hne1]; exact hf1
  · unfold RecSorted at hsorted ⊢
    rw [List.map_append, hpos, List.pairwise_append]
    refine ⟨hsorted, by simp, ?_⟩
    intro a ha b hb
    obtain ⟨a0, h0, rfl⟩ := List.mem_map.mp ha
    simp only [List.map_cons, List.map_nil, List.mem_singleton] at hb
    rw [hb, hr]
    exact hhi a0 h0
  · intro a ha
    rcases List.mem_append.mp ha with h | h
    · obtain ⟨a0, h0, h1⟩ := hmem a h
      rw [← h1]; exact hlo a0 h0
    · rw [List.mem_singleton.mp h, hr]; exact hp
  · intro a ha
    rcases List.mem_append.mp ha with h | h
    · obtain ⟨a0, h0, h1⟩ := hmem a h
      rw [← h1]; exact hhi a0 h0
    · rw [List.mem_singleton.mp h, hr]
/-- The `jstart` branch keeps the merge invariant when the group's position is at
most every drop and every live junction end still to come. -/
theorem get_record_jstart_inv (covg : List CovgEntry) (drop_arr : List DropEntry)
    (jend : List Nat) (nd nj : Nat) (st : MergeState)
    (inv : MergeInv covg drop_arr jend nd nj st)
    (hjs : st.js < nj) (hlive : (juncAt st.junc st.js).cov > 0)
    (hd : ∀ k, st.id ≤ k → k < nd → (juncAt st.junc st.js).start ≤ |(dropAt drop_arr k).pos|)
    (he : ∀ k, st.je ≤ k → k < nj → (juncAt st.junc (jendAt jend k)).cov > 0 →
      (juncAt st.junc st.js).start ≤ (juncAt st.junc (jendAt jend k)).end_) :
    MergeInv covg drop_arr jend nd nj
      (get_record_jstart covg covg.length nj (juncAt st.junc st.js).start st) := by
  obtain ⟨c1, c2, _, _, _⟩ :=
    collect_starts_spec st.junc nj (juncAt st.junc st.js).start (nj - st.js) st.js [] 0 rfl
  have adv := collect_starts_advance st.junc nj (juncAt st.junc st.js).start st.js [] 0 hjs rfl
  rcases get_record_jstart_cases covg covg.length nj (juncAt st.junc st.js).start st with
    ⟨_, hcnt⟩ | heq | ⟨rec1, junc1, r, heq, _, hp, hrec1, hretr, hacc⟩
  · exact absurd (c2 st.js (le_refl _) adv hlive).2 hcnt
  · -- the group is rejected and retracted
    rw [heq]
    have hr := junc_zero_all_retracts
      (collect_starts st.junc nj (juncAt st.junc st.js).start (nj - st.js) st.js [] 0).2.1 st.junc
    refine ⟨inv.static.retracts hr, inv.rec_ne, inv.rec_first, inv.rec_sorted, inv.rec_lo,
      inv.rec_hi, inv.prev_hi, inv.ib_le, inv.id_pos, inv.drops_ge, ?_, ?_⟩
    · intro j hj1 hj2 hj3
      have := inv.starts_ge j (by simp only [] at hj1; omega) hj2 (hr.live j hj3)
      simp only []
      rw [(hr.2 j).1]
      exact this
    · intro k hk1 hk2 hk3 hk4
      simp only [] at hk3 hk4 ⊢
      rw [(hr.2 _).2.1]
      by_cases hlt : jendAt jend k < st.js
      · exact inv.ends_ge k hk1 hk2 (hr.live _ hk3) hlt
      · have hmem := (c2 (jendAt jend k) (by omega) hk4 (hr.live _ hk3)).1
        have := junc_zero_all_at _ st.junc _ hmem
        rw [this] at hk3
        exact absurd hk3 (lt_irrefl _)
  · -- the group is accepted
    rw [heq]
    have hc0 : (covgAt covg 0).start ≤ (juncAt st.junc st.js).start := by
      by_contra hcon
      have hlo := inv.prev_lo
      have hblock := prev_jstart_scan_blocked st.junc st.record (juncAt st.junc st.js).start
        inv.rec_first (fun i hi => by
          have := inv.rec_lo _ (recAt_mem st.record i hi)
          simp only [delta_param]; omega)
        st.record.length
        ⟨(collect_starts st.junc nj (juncAt st.junc st.js).start (nj - st.js) st.js [] 0).2.2, 0, 0⟩
        (List.length_pos.mpr inv.rec_ne) (le_refl _)
      have := hacc (by simp only [delta_param]; omega)
      rw [hblock] at this
      exact absurd this (lt_irrefl _)
    have hprev : st.prevpos ≤ (juncAt st.junc st.js).start := by
      rcases inv.starts_ge st.js (le_refl _) hjs hlive with h | h
      · exact h
      · omega
    obtain ⟨r1, r2, r3, r4, r5⟩ := push_keeps_order st.record rec1 r (juncAt st.junc st.js).start
      (covgAt covg 0).start hrec1 inv.rec_ne inv.rec_first inv.rec_sorted inv.rec_lo
      (fun a ha => le_trans (inv.rec_hi a ha) hprev) hc0 hp
    refine ⟨inv.static.retracts hretr, r1, r2, r3, r4, r5, (inv.static.wf st.js hjs).2.2,
      get_cov_cursor_le covg _ _ _ inv.ib_le, inv.id_pos, hd, ?_, ?_⟩
    · intro j hj1 hj2 _
      simp only [] at hj1 ⊢
      left
      rw [(hretr.2 j).1]
      exact inv.static.starts_sorted st.js j (by omega) hj2
    · intro k hk1 hk2 hk3 _
      simp only [] at hk3 ⊢
      rw [(hretr.2 _).2.1]
      exact he k hk1 hk2 (hretr.live _ hk3)
/-- The `jend` branch keeps the merge invariant when the group's first junction has
had its start consumed and the group's position is at most every drop and every
live junction start still to come. -/
theorem get_record_jend_inv (covg : List CovgEntry) (drop_arr : List DropEntry)
    (jend : List Nat) (nd nj : Nat) (st : MergeState)
    (env : MergeEnv covg drop_arr nd) (inv : MergeInv covg drop_arr jend nd nj st)
    (hje : st.je < nj) (hlive : (juncAt st.junc (jendAt jend st.je)).cov > 0)
    (hidx : jendAt jend st.je < st.js)
    (hd : ∀ k, st.id ≤ k → k < nd →
      (juncAt st.junc (jendAt jend st.je)).end_ ≤ |(dropAt drop_arr k).pos|)
    (hs : ∀ j, st.js ≤ j → j < nj → (juncAt st.junc j).cov > 0 →
      (juncAt st.junc (jendAt jend st.je)).end_ ≤ (juncAt st.junc j).start) :
    MergeInv covg drop_arr jend nd nj
      (get_record_jend covg jend covg.length nj (juncAt st.junc (jendAt jend st.je)).end_ st) := by
  obtain ⟨c2, _, _⟩ := collect_ends_spec st.junc jend nj
    (juncAt st.junc (jendAt jend st.je)).end_ (nj - st.je) st.je [] 0 rfl
  have adv := collect_ends_advance st.junc jend nj
    (juncAt st.junc (jendAt jend st.je)).end_ st.je [] 0 hje rfl
  rcases get_record_jend_cases covg jend covg.length nj
      (juncAt st.junc (jendAt jend st.je)).end_ st with
    ⟨_, hcnt⟩ | heq | ⟨rec1, junc1, r, heq, _, hp, hrec1, hretr, hacc⟩
  · exact absurd (c2 st.je (le_refl _) adv hlive).2 hcnt
  · rw [heq]
    have hr := junc_zero_all_retracts
      (collect_ends st.junc jend nj (juncAt st.junc (jendAt jend st.je)).end_
        (nj - st.je) st.je [] 0).2.1 st.junc
    refine ⟨inv.static.retracts hr, inv.rec_ne, inv.rec_first, inv.rec_sorted, inv.rec_lo,
      inv.rec_hi, inv.prev_hi, inv.ib_le, inv.id_pos, inv.drops_ge, ?_, ?_⟩
    · intro j hj1 hj2 hj3
      simp only [] at hj1 hj3 ⊢
      rw [(hr.2 j).1]
      exact inv.starts_ge j hj1 hj2 (hr.live j hj3)
    · intro k hk1 hk2 hk3 hk4
      simp only [] at hk1 hk3 hk4 ⊢
      rw [(hr.2 _).2.1]
      exact inv.ends_ge k (by omega) hk2 (hr.live _ hk3) hk4
  · rw [heq]
    have hprev : st.prevpos ≤ (juncAt st.junc (jendAt jend st.je)).end_ :=
      inv.ends_ge st.je (le_refl _) hje hlive hidx
    have hlast : (juncAt st.junc (jendAt jend st.je)).end_
        ≤ (covgAt covg (covg.length - 1)).end_ := by
      by_contra hcon
      exact flank_cov_past_end covg st.ib _ _ _ inv.ib_le env.covg_wf env.covg_nonneg
        (fun i hi => lt_of_le_of_lt (env.covg_le_last i hi) (not_le.mp hcon)) hacc
    obtain ⟨r1, r2, r3, r4, r5⟩ := push_keeps_order st.record rec1 r
      (juncAt st.junc (jendAt jend st.je)).end_ (covgAt covg 0).start hrec1 inv.rec_ne
      inv.rec_first inv.rec_sorted inv.rec_lo (fun a ha => le_trans (inv.rec_hi a ha) hprev)
      (le_trans inv.prev_lo hprev) hp
    refine ⟨inv.static.retracts hretr, r1, r2, r3, r4, r5, hlast,
      get_cov_cursor_le covg _ _ _ inv.ib_le, inv.id_pos, hd, ?_, ?_⟩
    · intro j hj1 hj2 hj3
      simp only [] at hj1 hj3 ⊢
      left
      rw [(hretr.2 j).1]
      exact hs j hj1 hj2 (hretr.live j hj3)
    · intro k hk1 hk2 _ _
      simp only [] at hk1 ⊢
      rw [(hretr.2 _).2.1]
      exact inv.static.ends_sorted st.je k (by omega) hk2
theorem retract_jend_back_retracts (record : List RecordEntry) (bound : Int) :
    ∀ (n : Nat) (junc : List JuncEntry), Retracts junc (retract_jend_back record bound n junc) := by
  intro n
  induction n with
  | zero => intro junc; exact Retracts.refl junc
  | succ m ih =>
    intro junc
    rw [retract_jend_back]
    split
    · split
      · exact (junc_zero_all_retracts _ junc).trans (ih _)
      · exact ih junc
    · exact Retracts.refl junc

/-- What the loop over the drops at one position does: it advances `id` past them,
only retracts junctions, and appends records that all lie at that position. -/
theorem push_drops_spec (drop_arr : List DropEntry) (nd : Nat) (nextd prevpos : Int)
    (pos_cov : ℚ) :
    ∀ (fuel id : Nat) (junc : List JuncEntry) (record : List RecordEntry),
      id ≤ (push_drops drop_arr nd nextd prevpos pos_cov fuel id junc record).1 ∧
      Retracts junc (push_drops drop_arr nd nextd prevpos pos_cov fuel id junc record).2.1 ∧
      ∃ pushed, (push_drops drop_arr nd nextd prevpos pos_cov fuel id junc record).2.2
          = record ++ pushed ∧ ∀ x ∈ pushed, x.pos = nextd := by
  intro fuel
  induction fuel with
  | zero =>
    intro id junc record
    simp only [push_drops]
    exact ⟨le_refl _, Retracts.refl junc, [], by simp, by simp⟩
  | succ n ih =>
    intro id junc record
    rw [push_drops]
    split
    · simp only []
      generalize hJ : (if (dropAt drop_arr id).perc = 0 ∧ prevpos > nextd - delta_param then
          if (if (dropAt drop_arr id).pos < 0 then "tend" else "tstart") = "tstart" then
            if (recAt record (record.length - 1)).pos = nextd ∧
                (recAt record (record.length - 1)).type = "jstart" then
              junc_zero_all junc (recAt record (record.length - 1)).indices
            else junc
          else retract_jend_back record (nextd - delta_param) record.length junc
        else junc) = junc1
      have hretr : Retracts junc junc1 := by
        rw [← hJ]
        split_ifs
        all_goals first
          | exact Retracts.refl junc
          | exact junc_zero_all_retracts _ junc
          | exact retract_jend_back_retracts record _ _ junc
      obtain ⟨h1, h2, pushed, h3, h4⟩ := ih (id + 1) junc1
        (push_record record (if (dropAt drop_arr id).pos < 0 then "tend" else "tstart") nextd [id]
          (dropAt drop_arr id).perc pos_cov 0)
      refine ⟨by omega, hretr.trans h2,
        (⟨(if (dropAt drop_arr id).pos < 0 then "tend" else "tstart"), nextd, [id],
          (dropAt drop_arr id).perc, pos_cov, 0⟩ : RecordEntry) :: pushed, ?_, ?_⟩
      · rw [h3, push_record, List.append_assoc, List.singleton_append]
      · intro x hx
        rcases List.mem_cons.mp hx with rfl | hx
        · rfl
        · exact h4 x hx
    · exact ⟨le_refl _, Retracts.refl junc, [], by simp, by simp⟩

theorem push_drops_advance (drop_arr : List DropEntry) (nd : Nat) (nextd prevpos : Int)
    (pos_cov : ℚ) (id : Nat) (junc : List JuncEntry) (record : List RecordEntry)
    (h1 : id < nd) (h2 : |(dropAt drop_arr id).pos| = nextd) :
    id < (push_drops drop_arr nd nextd prevpos pos_cov (nd - id) id junc record).1 := by
  obtain ⟨n, hn⟩ : ∃ n, nd - id = n + 1 := ⟨nd - id - 1, by omega⟩
  rw [hn, push_drops, if_pos ⟨h1, h2⟩]
  exact (push_drops_spec drop_arr nd nextd prevpos pos_cov n (id + 1) _ _).1

/-- Appending records that all lie at a position at least every earlier position
keeps the record buffer ordered, keeps its first record, and keeps its bounds. -/
theorem push_list_keeps_order (record rec1 pushed : List RecordEntry) (p c0 : Int)
    (hrec1 : rec1 = record ∨ ∃ x, rec1 = add_cov_to_last record x)
    (hne : record ≠ [])
    (hfirst : (recAt record 0).type = "tstart" ∧ (recAt record 0).change_perc = 0)
    (hsorted : RecSorted record) (hlo : ∀ a ∈ record, c0 ≤ a.pos)
    (hhi : ∀ a ∈ record, a.pos ≤ p) (hp : c0 ≤ p) (hr : ∀ x ∈ pushed, x.pos = p) :
    rec1 ++ pushed ≠ [] ∧
    ((recAt (rec1 ++ pushed) 0).type = "tstart" ∧
      (recAt (rec1 ++ pushed) 0).change_perc = 0) ∧
    RecSorted (rec1 ++ pushed) ∧ (∀ a ∈ rec1 ++ pushed, c0 ≤ a.pos) ∧
    (∀ a ∈ rec1 ++ pushed, a.pos ≤ p) := by
  induction pushed using List.reverseRecOn with
  | nil =>
    have hpos : rec1.map (fun r => r.pos) = record.map (fun r => r.pos) := by
      rcases hrec1 with h | ⟨x, h⟩
      · rw [h]
      · rw [h, add_cov_to_last_pos]
    have hmem : ∀ a ∈ rec1, ∃ a0 ∈ record, a0.pos = a.pos := by
      intro a ha
      have : a.pos ∈ rec1.map (fun r => r.pos) := List.mem_map_of_mem _ ha
      rw [hpos] at this
      obtain ⟨a0, h0, h1⟩ := List.mem_map.mp this
      exact ⟨a0, h0, h1⟩
    rw [List.append_nil]
    refine ⟨?_, ?_, ?_, ?_, ?_⟩
    · intro h
      rw [h] at hpos
      exact hne (List.map_eq_nil_iff.mp hpos.symm)
    · rcases hrec1 with h | ⟨x, h⟩
      · rw [h]; exact hfirst
      · rw [h]
        obtain ⟨a1, a2, _⟩ := add_cov_to_last_first record x
        rw [a1, a2]
        exact hfirst
    · unfold RecSorted at hsorted ⊢
      rw [hpos]; exact hsorted
    · intro a ha
      obtain ⟨a0, h0, h1⟩ := hmem a ha
      rw [← h1]; exact hlo a0 h0
    · intro a ha
      obtain ⟨a0, h0, h1⟩ := hmem a ha
      rw [← h1]; exact hhi a0 h0
  | append_singleton rest x ih =>
    obtain ⟨i1, i2, i3, i4, i5⟩ := ih (fun y hy => hr y (List.mem_append_left _ hy))
    have hx : x.pos = p := hr x (List.mem_append_right _ (List.mem_singleton_self _))
    rw [← List.append_assoc]
    exact push_keeps_order (rec1 ++ rest) (rec1 ++ rest) x p c0 (Or.inl rfl) i1 i2 i3 i4 i5 hp hx
/-- The drop branch keeps the merge invariant when the drop's position is at most
every live junction start and end still to come. -/
theorem get_record_drop_inv (covg : List CovgEntry) (drop_arr : List DropEntry)
    (jend : List Nat) (nd nj : Nat) (st : MergeState)
    (env : MergeEnv covg drop_arr nd) (inv : MergeInv covg drop_arr jend nd nj st)
    (hid : st.id < nd)
    (hs : ∀ j, st.js ≤ j → j < nj → (juncAt st.junc j).cov > 0 →
      |(dropAt drop_arr st.id).pos| ≤ (juncAt st.junc j).start)
    (he : ∀ k, st.je ≤ k → k < nj → (juncAt st.junc (jendAt jend k)).cov > 0 →
      |(dropAt drop_arr st.id).pos| ≤ (juncAt st.junc (jendAt jend k)).end_) :
    MergeInv covg drop_arr jend nd nj
      (get_record_drop covg drop_arr covg.length nd |(dropAt drop_arr st.id).pos| st) := by
  unfold get_record_drop
  simp only []
  generalize hrec1 : (if |(dropAt drop_arr st.id).pos| > st.prevpos + 1 then
      add_cov_to_last st.record
        (get_cov covg (st.prevpos + 1) (|(dropAt drop_arr st.id).pos| - 1) st.ib covg.length).1
    else st.record) = record1
  have hr1 : record1 = st.record ∨ ∃ x, record1 = add_cov_to_last st.record x := by
    rw [← hrec1]
    split
    · exact Or.inr ⟨_, rfl⟩
    · exact Or.inl rfl
  obtain ⟨p1, p2, pushed, p3, p4⟩ := push_drops_spec drop_arr nd |(dropAt drop_arr st.id).pos|
    st.prevpos (get_cov covg |(dropAt drop_arr st.id).pos| |(dropAt drop_arr st.id).pos|
      st.ib covg.length).1 (nd - st.id) st.id st.junc record1
  have hprev : st.prevpos ≤ |(dropAt drop_arr st.id).pos| := inv.drops_ge st.id (le_refl _) hid
  obtain ⟨hlo, hhi⟩ := env.drops_range st.id inv.id_pos hid
  obtain ⟨r1, r2, r3, r4, r5⟩ := push_list_keeps_order st.record record1 pushed
    |(dropAt drop_arr st.id).pos| (covgAt covg 0).start hr1 inv.rec_ne inv.rec_first
    inv.rec_sorted inv.rec_lo (fun a ha => le_trans (inv.rec_hi a ha) hprev) hlo p4
  refine ⟨inv.static.retracts p2, ?_, ?_, ?_, ?_, ?_, hhi,
    get_cov_cursor_le covg _ _ _ inv.ib_le, le_trans inv.id_pos p1, ?_, ?_, ?_⟩
  · simp only [p3]; exact r1
  · simp only [p3]; exact r2
  · simp only [p3]; exact r3
  · simp only [p3]; exact r4
  · simp only [p3]; exact r5
  · intro k hk1 hk2
    simp only [] at hk1 ⊢
    exact env.drops_sorted st.id k inv.id_pos (by omega) hk2
  · intro j hj1 hj2 hj3
    simp only [] at hj1 hj3 ⊢
    left
    rw [(p2.2 j).1]
    exact hs j hj1 hj2 (p2.live j hj3)
  · intro k hk1 hk2 hk3 _
    simp only [] at hk1 hk3 ⊢
    rw [(p2.2 _).2.1]
    exact he k hk1 hk2 (p2.live _ hk3)
theorem skip_keeps_inv (covg : List CovgEntry) (drop_arr : List DropEntry) (jend : List Nat)
    (nd nj : Nat) (st : MergeState) (inv : MergeInv covg drop_arr jend nd nj st) :
    MergeInv covg drop_arr jend nd nj
      { st with js := (next_start st.junc nj (nj - st.js) st.js).1,
                je := (next_end st.junc jend nj (nj - st.je) st.je).1 } := by
  obtain ⟨s1, s2, _, _, _⟩ := next_start_spec st.junc nj (nj - st.js) st.js rfl
  obtain ⟨e1, _, _, _, _⟩ := next_end_spec st.junc jend nj (nj - st.je) st.je rfl
  refine ⟨inv.static, inv.rec_ne, inv.rec_first, inv.rec_sorted, inv.rec_lo, inv.rec_hi,
    inv.prev_hi, inv.ib_le, inv.id_pos, inv.drops_ge, ?_, ?_⟩
  · intro j hj1 hj2 hj3
    simp only [] at hj1 hj3 ⊢
    exact inv.starts_ge j (by omega) hj2 hj3
  · intro k hk1 hk2 hk3 hk4
    simp only [] at hk1 hk3 hk4 ⊢
    by_cases hlt : jendAt jend k < st.js
    · exact inv.ends_ge k (by omega) hk2 hk3 hlt
    · exact absurd hk3 (s2 _ (by omega) hk4)

/-- Every call of `get_record` that returns keeps the merge invariant. -/
theorem get_record_inv (covg : List CovgEntry) (drop_arr : List DropEntry) (jend : List Nat)
    (nd nj : Nat) (st st2 : MergeState)
    (env : MergeEnv covg drop_arr nd) (inv : MergeInv covg drop_arr jend nd nj st)
    (h : get_record covg drop_arr jend covg.length nd nj st = some st2) :
    MergeInv covg drop_arr jend nd nj st2 := by
  have inv1 := skip_keeps_inv covg drop_arr jend nd nj st inv
  obtain ⟨_, _, s3, s4, _⟩ := next_start_spec st.junc nj (nj - st.js) st.js rfl
  obtain ⟨_, _, e3, e4, _⟩ := next_end_spec st.junc jend nj (nj - st.je) st.je rfl
  unfold get_record at h
  simp only [] at h
  generalize hs : next_start st.junc nj (nj - st.js) st.js = s at *
  generalize he : next_end st.junc jend nj (nj - st.je) st.je = e at *
  generalize hnd : (if st.id < nd then |(dropAt drop_arr st.id).pos| else 0) = nextd at *
  -- the three streams
  have HS0 : s.2 ≠ 0 → s.1 < nj ∧ (juncAt st.junc s.1).cov > 0 ∧ s.2 = (juncAt st.junc s.1).start := by
    intro h0
    have hlt : s.1 < nj := by
      by_contra hcon
      exact h0 (s4 hcon)
    exact ⟨hlt, (s3 hlt).1, (s3 hlt).2⟩
  have HS : ∀ j, s.1 ≤ j → j < nj → s.2 ≠ 0 ∧ s.2 ≤ (juncAt st.junc j).start := by
    intro j hj1 hj2
    have hlt : s.1 < nj := by omega
    have h1 := (s3 hlt).2
    have h2 := (inv.static.wf s.1 hlt).1
    have h3 := inv.static.starts_sorted s.1 j hj1 hj2
    exact ⟨by omega, by omega⟩
  have HE0 : e.2 ≠ 0 → e.1 < nj ∧ (juncAt st.junc (jendAt jend e.1)).cov > 0 ∧
      e.2 = (juncAt st.junc (jendAt jend e.1)).end_ := by
    intro h0
    have hlt : e.1 < nj := by
      by_contra hcon
      exact h0 (e4 hcon)
    exact ⟨hlt, (e3 hlt).1, (e3 hlt).2⟩
  have HE : ∀ k, e.1 ≤ k → k < nj → e.2 ≠ 0 ∧ e.2 ≤ (juncAt st.junc (jendAt jend k)).end_ := by
    intro k hk1 hk2
    have hlt : e.1 < nj := by omega
    have h1 := (e3 hlt).2
    have h2 := inv.static.wf _ (inv.static.jend_lt e.1 hlt)
    have h3 := inv.static.ends_sorted e.1 k hk1 hk2
    exact ⟨by omega, by omega⟩
  have HD0 : nextd ≠ 0 → st.id < nd ∧ nextd = |(dropAt drop_arr st.id).pos| := by
    intro h0
    by_cases hid : st.id < nd
    · rw [if_pos hid] at hnd
      exact ⟨hid, hnd.symm⟩
    · rw [if_neg hid] at hnd
      exact absurd hnd.symm h0
  have HD : ∀ k, st.id ≤ k → k < nd → nextd ≠ 0 ∧ nextd ≤ |(dropAt drop_arr k).pos| := by
    intro k hk1 hk2
    have hid : st.id < nd := by omega
    rw [if_pos hid] at hnd
    have h1 := (env.drops_range st.id inv.id_pos hid).1
    have h2 := env.drops_sorted st.id k inv.id_pos hk1 hk2
    have h3 := env.c0_pos
    rw [← hnd]
    exact ⟨by omega, h2⟩
  -- a live junction end whose start has not been consumed cannot be the next event
  have hidx : e.2 ≠ 0 → (s.2 = 0 ∨ e.2 ≤ s.2) → jendAt jend e.1 < s.1 := by
    intro h0 hcmp
    obtain ⟨hlt, _, heq⟩ := HE0 h0
    by_contra hcon
    have hj := inv.static.jend_lt e.1 hlt
    have h1 := HS (jendAt jend e.1) (by omega) hj
    have h2 := (inv.static.wf _ hj).2.1
    rcases hcmp with h | h
    · exact h1.1 h
    · omega
  split at h
  · -- nothing left in any stream
    split at h
    · cases h; exact inv1
    · exact absurd h (by simp)
  · split at h
    · rename_i hlt1
      obtain ⟨hd0, hcmp1⟩ := (less_than_true_iff _ _).mp hlt1
      obtain ⟨hid, hdeq⟩ := HD0 hd0
      split at h
      · -- the drop is smallest
        rename_i hlt2
        obtain ⟨_, hcmp2⟩ := (less_than_true_iff _ _).mp hlt2
        cases h
        rw [hdeq]
        apply get_record_drop_inv covg drop_arr jend nd nj _ env inv1 hid
        · intro j hj1 hj2 _
          try simp only [] at hj1 ⊢
          have := HS j hj1 hj2
          rw [← hdeq]
          rcases hcmp1 with h | h
          · exact absurd h this.1
          · omega
        · intro k hk1 hk2 _
          try simp only [] at hk1 ⊢
          have := HE k hk1 hk2
          rw [← hdeq]
          rcases hcmp2 with h | h
          · exact absurd h this.1
          · omega
      · rename_i hlt2
        have hcmp2 : e.2 ≠ 0 ∧ e.2 ≤ nextd := by
          have := (less_than_true_iff nextd e.2).not.mp hlt2
          constructor
          · intro h0; exact this ⟨hd0, Or.inl h0⟩
          · by_contra hcon; exact this ⟨hd0, Or.inr (by omega)⟩
        rw [if_pos hcmp2.1] at h
        cases h
        obtain ⟨hlt, hlive, heq⟩ := HE0 hcmp2.1
        rw [heq]
        have hidx1 := hidx hcmp2.1 (by
          rcases hcmp1 with h | h
          · exact Or.inl h
          · exact Or.inr (by omega))
        apply get_record_jend_inv covg drop_arr jend nd nj _ env inv1 hlt hlive hidx1
        · intro k hk1 hk2
          try simp only [] at hk1 ⊢
          have := HD k hk1 hk2
          rw [← heq]; omega
        · intro j hj1 hj2 _
          try simp only [] at hj1 ⊢
          have := HS j hj1 hj2
          rw [← heq]
          rcases hcmp1 with h | h
          · exact absurd h this.1
          · omega
    · rename_i hlt1
      have hcmp1 : nextd = 0 ∨ (s.2 ≠ 0 ∧ s.2 ≤ nextd) := by
        have := (less_than_true_iff nextd s.2).not.mp hlt1
        by_cases h0 : nextd = 0
        · exact Or.inl h0
        · right
          constructor
          · intro hs0; exact this ⟨h0, Or.inl hs0⟩
          · by_contra hcon; exact this ⟨h0, Or.inr (by omega)⟩
      split at h
      · -- the junction start is smallest
        rename_i hlt2
        obtain ⟨hs0, hcmp2⟩ := (less_than_true_iff _ _).mp hlt2
        obtain ⟨hlt, hlive, heq⟩ := HS0 hs0
        cases h
        rw [heq]
        apply get_record_jstart_inv covg drop_arr jend nd nj _ inv1 hlt hlive
        · intro k hk1 hk2
          try simp only [] at hk1 ⊢
          have := HD k hk1 hk2
          rw [← heq]
          rcases hcmp1 with h | h
          · exact absurd h this.1
          · omega
        · intro k hk1 hk2 _
          try simp only [] at hk1 ⊢
          have := HE k hk1 hk2
          rw [← heq]
          rcases hcmp2 with h | h
          · exact absurd h this.1
          · omega
      · rename_i hlt2
        have hcmp2 : s.2 = 0 ∨ (e.2 ≠ 0 ∧ e.2 ≤ s.2) := by
          have := (less_than_true_iff s.2 e.2).not.mp hlt2
          by_cases h0 : s.2 = 0
          · exact Or.inl h0
          · right
            constructor
            · intro he0; exact this ⟨h0, Or.inl he0⟩
            · by_contra hcon; exact this ⟨h0, Or.inr (by omega)⟩
        split at h
        · rename_i he0
          cases h
          obtain ⟨hlt, hlive, heq⟩ := HE0 he0
          rw [heq]
          have hidx1 := hidx he0 (by
            rcases hcmp2 with h | h
            · exact Or.inl h
            · exact Or.inr h.2)
          apply get_record_jend_inv covg drop_arr jend nd nj _ env inv1 hlt hlive hidx1
          · intro k hk1 hk2
            try simp only [] at hk1 ⊢
            have := HD k hk1 hk2
            rw [← heq]
            rcases hcmp1 with h | h
            · exact absurd h this.1
            · rcases hcmp2 with g | g
              · exact absurd g h.1
              · omega
          · intro j hj1 hj2 _
            try simp only [] at hj1 ⊢
            have := HS j hj1 hj2
            rw [← heq]
            rcases hcmp2 with g | g
            · exact absurd g this.1
            · omega
        · cases h; exact inv1
theorem merge_loop_inv (covg : List CovgEntry) (drop_arr : List DropEntry) (jend : List Nat)
    (nd nj : Nat) (env : MergeEnv covg drop_arr nd) :
    ∀ (fuel : Nat) (st st2 : MergeState), MergeInv covg drop_arr jend nd nj st →
      merge_loop covg drop_arr jend covg.length nd nj fuel st = some st2 →
      MergeInv covg drop_arr jend nd nj st2 := by
  intro fuel
  induction fuel with
  | zero =>
    intro st st2 inv h
    rw [merge_loop] at h
    split at h
    · exact absurd h (by simp)
    · cases h; exact inv
  | succ n ih =>
    intro st st2 inv h
    rw [merge_loop] at h
    split at h
    · split at h
      · exact absurd h (by simp)
      · rename_i st1 hst1
        exact ih st1 st2 (get_record_inv covg drop_arr jend nd nj st st1 env inv hst1) h
    · cases h; exact inv

/-- Junctions sorted by start with `0 < start < end` that start at or before
`last_end`, with an index permutation sorted by end, give the static junction facts
of the merge, also after the NoiseFilter. -/
theorem juncStatic_of_sorted (junc : List JuncEntry) (jend : List Nat) (last_end : Int)
    (hj : JuncSorted junc) (hlast : ∀ j ∈ junc, j.start ≤ last_end)
    (hjend : ∀ k, k < junc.length → jendAt jend k < junc.length)
    (hends : ∀ k1 k2, k1 ≤ k2 → k2 < junc.length →
      (juncAt junc (jendAt jend k1)).end_ ≤ (juncAt junc (jendAt jend k2)).end_) :
    JuncStatic jend junc.length last_end junc := by
  have hmem : ∀ j, j < junc.length → juncAt junc j ∈ junc := by
    intro j hj
    rw [juncAt, List.getD_eq_getElem _ _ hj]
    exact List.getElem_mem hj
  refine ⟨?_, hends, ?_, hjend⟩
  · intro i j hij hj2
    rcases Nat.eq_or_lt_of_le hij with rfl | hlt
    · exact le_refl _
    · have hi : i < junc.length := by omega
      rw [juncAt, juncAt, List.getD_eq_getElem _ _ hi, List.getD_eq_getElem _ _ hj2]
      exact List.pairwise_iff_getElem.mp hj.1 i j hi hj2 hlt
  · intro j hj2
    exact ⟨(hj.2 _ (hmem j hj2)).1, (hj.2 _ (hmem j hj2)).2, hlast _ (hmem j hj2)⟩

/-- The records built by the merge and the final `tend` are in non-decreasing
position order, given the facts about the drop buffer. -/
theorem build_records_sorted_of_env (covg : List CovgEntry) (junc : List JuncEntry)
    (jend : List Nat) (s_arr : List ContRegion) (b : Built)
    (henv : ∀ d, drop_loop covg (process_junctions junc jend junc.length) jend covg.length
        junc.length s_arr ⟨[], 0, 0⟩ = some d →
      MergeEnv covg d.drop_arr (d.drop_arr.length - 1))
    (hstatic : JuncStatic jend junc.length (covgAt covg (covg.length - 1)).end_ junc)
    (h : build_records covg junc jend s_arr = some b) : RecSorted b.record := by
  unfold build_records at h
  simp only [] at h
  split at h
  · exact absurd h (by simp)
  · rename_i d hd
    have env := henv d hd
    split at h
    · exact absurd h (by simp)
    · rename_i st hst
      have inv0 : MergeInv covg d.drop_arr jend (d.drop_arr.length - 1) junc.length
          ⟨0, 1, 0, 0, (covgAt covg 0).start, process_junctions junc jend junc.length,
            push_record [] "tstart" (covgAt covg 0).start [0] 0 (covgAt covg 0).cov 0⟩ := by
        refine ⟨hstatic.retracts (process_junctions_retracts junc jend junc.length),
          by simp [push_record], ⟨rfl, rfl⟩, by simp [RecSorted, push_record], ?_, ?_,
          env.c0_le_last, Nat.zero_le _, le_refl _, ?_, ?_, ?_⟩
        · intro r hr
          simp only [push_record, List.nil_append, List.mem_singleton] at hr
          rw [hr]
        · intro r hr
          simp only [push_record, List.nil_append, List.mem_singleton] at hr
          rw [hr]
        · intro k hk1 hk2
          exact (env.drops_range k hk1 hk2).1
        · intro j _ _ _
          exact le_or_lt _ _
        · intro k _ _ _ hk
          exact absurd hk (Nat.not_lt_zero _)
      have inv := merge_loop_inv covg d.drop_arr jend _ junc.length env _ _ st inv0 hst
      cases h
      simp only []
      have hrec1 : (if (covgAt covg (covg.length - 1)).end_ > st.prevpos + 1 then
            add_cov_to_last st.record
              (get_cov covg (st.prevpos + 1) ((covgAt covg (covg.length - 1)).end_ - 1) st.ib
                covg.length).1
          else st.record) = st.record ∨ ∃ x, (if (covgAt covg (covg.length - 1)).end_ > st.prevpos + 1 then
            add_cov_to_last st.record
              (get_cov covg (st.prevpos + 1) ((covgAt covg (covg.length - 1)).end_ - 1) st.ib
                covg.length).1
          else st.record) = add_cov_to_last st.record x := by
        split
        · exact Or.inr ⟨_, rfl⟩
        · exact Or.inl rfl
      exact (push_keeps_order st.record _ _ (covgAt covg (covg.length - 1)).end_
        (covgAt covg 0).start hrec1 inv.rec_ne inv.rec_first inv.rec_sorted inv.rec_lo
        (fun a ha => le_trans (inv.rec_hi a ha) inv.prev_hi) env.c0_le_last rfl).2.2.1
/-! ### Positions of the drop candidates -/

theorem tmp_deactivate_pos (tmp : List TmpEntry) (k : Nat) :
    (tmp_deactivate tmp k).map (fun t => t.pos) = tmp.map (fun t => t.pos) := by
  unfold tmp_deactivate
  rw [List.map_set]
  apply List.ext_getElem
  · simp
  · intro n h1 h2
    rw [List.getElem_set]
    split
    · rename_i heq
      subst heq
      simp only [List.getElem_map]
      rw [tmpAt, List.getD_eq_getElem]
    · rfl

theorem dedup_back_pos (i : Int) (perc : ℚ) :
    ∀ (n : Nat) (tmp : List TmpEntry) (maxs : Nat),
      (dedup_back i perc n tmp maxs).1.map (fun t => t.pos) = tmp.map (fun t => t.pos) := by
  intro n
  induction n with
  | zero => intro tmp maxs; rfl
  | succ k ih =>
    intro tmp maxs
    rw [dedup_back]
    split
    · split
      · rw [ih, tmp_deactivate_pos]
      · rw [ih, tmp_deactivate_pos]
    · rfl

/-- Recording a candidate appends its scan position and changes no other position. -/
theorem add_candidate_pos (tmp : List TmpEntry) (maxs : Nat) (i : Int) (perc avg : ℚ) :
    (add_candidate tmp maxs i perc avg).1.map (fun t => t.pos)
      = tmp.map (fun t => t.pos) ++ [i] := by
  unfold add_candidate
  simp only []
  split_ifs
  all_goals
    simp only [dedup_back_pos, tmp_deactivate_pos, List.map_append, List.map_cons, List.map_nil]

theorem cand_if (cnd : Prop) [Decidable cnd] (tmp : List TmpEntry) (maxs : Nat) (i : Int)
    (perc avg : ℚ) :
    (if cnd then add_candidate tmp maxs i perc avg else (tmp, maxs)).1.map (fun t => t.pos)
      = if cnd then tmp.map (fun t => t.pos) ++ [i] else tmp.map (fun t => t.pos) := by
  split
  · exact add_candidate_pos tmp maxs i perc avg
  · rfl

theorem CandOK.mono {len i i2 : Int} {l : List Int} (h : CandOK len i l) (hi : i ≤ i2) :
    CandOK len i2 l :=
  ⟨h.1, fun x hx => ⟨(h.2 x hx).1, lt_of_lt_of_le (h.2 x hx).2.1 hi, (h.2 x hx).2.2⟩⟩

theorem CandOK.snoc {len i i2 : Int} {l : List Int} (h : CandOK len i l) (hi : i < i2)
    (h1 : smallwin + 1 ≤ i) (h2 : i < len - smallwin) : CandOK len i2 (l ++ [i]) := by
  refine ⟨?_, ?_⟩
  · rw [List.pairwise_append]
    refine ⟨h.1, by simp, ?_⟩
    intro a ha b hb
    rw [List.mem_singleton.mp hb]
    exact (h.2 a ha).2.1
  · intro x hx
    rcases List.mem_append.mp hx with hx | hx
    · exact ⟨(h.2 x hx).1, lt_trans (h.2 x hx).2.1 hi, (h.2 x hx).2.2⟩
    · rw [List.mem_singleton.mp hx]
      exact ⟨h1, hi, h2⟩

theorem scan_step_cand (c as ae : Int → ℚ) (jp : List Int) (len : Int) (st : ScanState)
    (h1 : smallwin + 1 ≤ st.i) (h2 : st.i < len - smallwin)
    (hs : CandOK len st.i (st.tmps.map (fun t => t.pos)))
    (he : CandOK len st.i (st.tmpe.map (fun t => t.pos))) :
    smallwin + 1 ≤ (scan_step c as ae jp len st).i ∧
    CandOK len (scan_step c as ae jp len st).i
      ((scan_step c as ae jp len st).tmps.map (fun t => t.pos)) ∧
    CandOK len (scan_step c as ae jp len st).i
      ((scan_step c as ae jp len st).tmpe.map (fun t => t.pos)) := by
  have hi : st.i < (scan_step c as ae jp len st).i := by
    unfold scan_step
    simp only []
    split_ifs <;> simp [delta_param]
  refine ⟨by omega, ?_, ?_⟩
  · generalize (scan_step c as ae jp len st).i = i2 at hi
    unfold scan_step
    simp only [cand_if]
    split_ifs
    all_goals first
      | exact hs.snoc hi h1 h2
      | exact hs.mono (le_of_lt hi)
  · generalize (scan_step c as ae jp len st).i = i2 at hi
    unfold scan_step
    simp only [cand_if]
    split_ifs
    all_goals first
      | exact he.snoc hi h1 h2
      | exact he.mono (le_of_lt hi)

theorem scan_loop_cand (c as ae : Int → ℚ) (jp : List Int) (len : Int) :
    ∀ (fuel : Nat) (st : ScanState), smallwin + 1 ≤ st.i →
      CandOK len st.i (st.tmps.map (fun t => t.pos)) →
      CandOK len st.i (st.tmpe.map (fun t => t.pos)) →
      CandOK len (scan_loop c as ae jp len fuel st).i
        ((scan_loop c as ae jp len fuel st).tmps.map (fun t => t.pos)) ∧
      CandOK len (scan_loop c as ae jp len fuel st).i
        ((scan_loop c as ae jp len fuel st).tmpe.map (fun t => t.pos)) := by
  intro fuel
  induction fuel with
  | zero => intro st _ hs he; exact ⟨hs, he⟩
  | succ n ih =>
    intro st h1 hs he
    rw [scan_loop]
    split
    · rename_i hlt
      obtain ⟨a1, a2, a3⟩ := scan_step_cand c as ae jp len st h1 hlt hs he
      exact ih _ a1 a2 a3
    · exact ⟨hs, he⟩
theorem DropsIn.nil (lo hi : Int) : DropsIn lo hi [] :=
  ⟨by simp [AbsSorted], by simp⟩

theorem DropsIn.mono_lo {lo lo2 hi : Int} {d : List DropEntry} (h : DropsIn lo2 hi d)
    (hlo : lo ≤ lo2) : DropsIn lo hi d :=
  ⟨h.1, fun x hx => ⟨le_trans hlo (h.2 x hx).1, (h.2 x hx).2⟩⟩

theorem DropsIn.cons {lo hi a : Int} {x : DropEntry} {d : List DropEntry}
    (hx : |x.pos| = a) (h1 : lo ≤ a) (h2 : a ≤ hi) (h : DropsIn a hi d) :
    DropsIn lo hi (x :: d) := by
  refine ⟨?_, ?_⟩
  · unfold AbsSorted
    rw [List.map_cons, List.pairwise_cons]
    refine ⟨?_, h.1⟩
    intro b hb
    obtain ⟨y, hy, rfl⟩ := List.mem_map.mp hb
    rw [hx]
    exact (h.2 y hy).1
  · intro y hy
    rcases List.mem_cons.mp hy with rfl | hy
    · rw [hx]; exact ⟨h1, h2⟩
    · exact ⟨le_trans h1 (h.2 y hy).1, (h.2 y hy).2⟩

theorem DropsIn.append {lo mid hi : Int} {d1 d2 : List DropEntry}
    (h1 : DropsIn lo mid d1) (h2 : DropsIn mid hi d2) (hlm : lo ≤ mid) (hmh : mid ≤ hi) :
    DropsIn lo hi (d1 ++ d2) := by
  refine ⟨?_, ?_⟩
  · unfold AbsSorted
    rw [List.map_append, List.pairwise_append]
    refine ⟨h1.1, h2.1, ?_⟩
    intro a ha b hb
    obtain ⟨x, hx, rfl⟩ := List.mem_map.mp ha
    obtain ⟨y, hy, rfl⟩ := List.mem_map.mp hb
    exact le_trans (h1.2 x hx).2 (h2.2 y hy).1
  · intro x hx
    rcases List.mem_append.mp hx with hx | hx
    · exact ⟨(h1.2 x hx).1, le_trans (h1.2 x hx).2 hmh⟩
    · exact ⟨le_trans hlm (h2.2 x hx).1, (h2.2 x hx).2⟩

/-- The two-pointer merge of the candidate lists appends drops whose absolute
positions are in non-decreasing order. -/
theorem merge_candidates_spec (start M : Int) :
    ∀ (n : Nat) (ts te : List TmpEntry) (d d2 : List DropEntry) (m : Int),
      ts.length + te.length = n → 0 ≤ m →
      (ts.map (fun t => t.pos)).Pairwise (fun a b => a < b) →
      (te.map (fun t => t.pos)).Pairwise (fun a b => a < b) →
      (∀ s ∈ ts, m ≤ s.pos + start - 1 ∧ s.pos + start - 1 ≤ M) →
      (∀ e ∈ te, (e.active = true → m ≤ e.pos + start - 2) ∧ 0 ≤ e.pos + start - 2 ∧
        e.pos + start - 2 ≤ M) →
      merge_candidates start ts te d = some d2 →
      ∃ new, d2 = d ++ new ∧ DropsIn m M new := by
  intro n
  induction n with
  | zero =>
    intro ts te d d2 m hn _ _ _ _ _ h
    have h1 : ts = [] := List.length_eq_zero.mp (by omega)
    have h2 : te = [] := List.length_eq_zero.mp (by omega)
    subst h1 h2
    rw [merge_candidates] at h
    cases h
    exact ⟨[], by simp, DropsIn.nil _ _⟩
  | succ n ih =>
    intro ts te d d2 m hn hm hts hte hs he h
    cases ts with
    | nil =>
      cases te with
      | nil => simp at hn
      | cons e es =>
        rw [merge_candidates] at h
        rw [List.map_cons, List.pairwise_cons] at hte
        have hE := he e (List.mem_cons_self _ _)
        by_cases hact : e.active = true
        · rw [if_pos hact] at h
          obtain ⟨new, h1, h2⟩ := ih [] es _ d2 (e.pos + start - 2) (by simpa using hn) hE.2.1
            (by simp) hte.2 (by simp) (fun e2 he2 => by
              have := he e2 (List.mem_cons_of_mem _ he2)
              have hlt := hte.1 e2.pos (List.mem_map_of_mem _ he2)
              exact ⟨fun _ => by omega, this.2.1, this.2.2⟩) h
          refine ⟨⟨-(e.pos + start - 2), e.perc, e.cov⟩ :: new, ?_, ?_⟩
          · rw [h1, push_drop, List.append_assoc, List.singleton_append]
          · exact DropsIn.cons (by rw [abs_neg, abs_of_nonneg hE.2.1]) (hE.1 hact) hE.2.2 h2
        · rw [if_neg hact] at h
          exact ih [] es _ d2 m (by simpa using hn) hm (by simp) hte.2 (by simp)
            (fun e2 he2 => he e2 (List.mem_cons_of_mem _ he2)) h
    | cons s ss =>
      rw [List.map_cons, List.pairwise_cons] at hts
      have hS := hs s (List.mem_cons_self _ _)
      have hS0 : 0 ≤ s.pos + start - 1 := le_trans hm hS.1
      cases te with
      | nil =>
        rw [merge_candidates] at h
        by_cases hact : s.active = true
        · rw [if_pos hact] at h
          obtain ⟨new, h1, h2⟩ := ih ss [] _ d2 (s.pos + start - 1) (by simpa using hn) hS0
            hts.2 (by simp) (fun s2 hs2 => by
              have := hs s2 (List.mem_cons_of_mem _ hs2)
              have hlt := hts.1 s2.pos (List.mem_map_of_mem _ hs2)
              exact ⟨by omega, this.2⟩) (by simp) h
          refine ⟨⟨s.pos + start - 1, s.perc, s.cov⟩ :: new, ?_, ?_⟩
          · rw [h1, push_drop, List.append_assoc, List.singleton_append]
          · exact DropsIn.cons (abs_of_nonneg hS0) hS.1 hS.2 h2
        · rw [if_neg hact] at h
          exact ih ss [] _ d2 m (by simpa using hn) hm hts.2 (by simp)
            (fun s2 hs2 => hs s2 (List.mem_cons_of_mem _ hs2)) (by simp) h
      | cons e es =>
        rw [List.map_cons, List.pairwise_cons] at hte
        have hE := he e (List.mem_cons_self _ _)
        have hts2 : ((s :: ss).map (fun t => t.pos)).Pairwise (fun a b => a < b) := by
          rw [List.map_cons, List.pairwise_cons]; exact hts
        have hte2 : ((e :: es).map (fun t => t.pos)).Pairwise (fun a b => a < b) := by
          rw [List.map_cons, List.pairwise_cons]; exact hte
        have hlen1 : (s :: ss).length + es.length = n := by
          simp only [List.length_cons] at hn ⊢; omega
        have hlen2 : ss.length + (e :: es).length = n := by
          simp only [List.length_cons] at hn ⊢; omega
        rw [merge_candidates] at h
        by_cases hlt : e.pos < s.pos
        · rw [if_pos hlt] at h
          by_cases hact : e.active = true
          · rw [if_pos hact] at h
            obtain ⟨new, h1, h2⟩ := ih (s :: ss) es _ d2 (e.pos + start - 2) hlen1 hE.2.1
              hts2 hte.2 (fun s2 hs2 => by
                have := hs s2 hs2
                rcases List.mem_cons.mp hs2 with rfl | hs3
                · exact ⟨by omega, this.2⟩
                · have hl2 := hts.1 s2.pos (List.mem_map_of_mem _ hs3)
                  exact ⟨by omega, this.2⟩)
              (fun e2 he2 => by
                have := he e2 (List.mem_cons_of_mem _ he2)
                have hl2 := hte.1 e2.pos (List.mem_map_of_mem _ he2)
                exact ⟨fun _ => by omega, this.2.1, this.2.2⟩) h
            refine ⟨⟨-(e.pos + start - 2), e.perc, e.cov⟩ :: new, ?_, ?_⟩
            · rw [h1, push_drop, List.append_assoc, List.singleton_append]
            · exact DropsIn.cons (by rw [abs_neg, abs_of_nonneg hE.2.1]) (hE.1 hact) hE.2.2 h2
          · rw [if_neg hact] at h
            exact ih (s :: ss) es _ d2 m hlen1 hm hts2 hte.2 hs
              (fun e2 he2 => he e2 (List.mem_cons_of_mem _ he2)) h
        · rw [if_neg hlt] at h
          by_cases hact : s.active = true
          · rw [if_pos hact] at h
            by_cases hco : e.active = true ∧ e.pos = s.pos
            · rw [if_pos hco] at h
              exact absurd h (by simp)
            · rw [if_neg hco] at h
              obtain ⟨new, h1, h2⟩ := ih ss (e :: es) _ d2 (s.pos + start - 1) hlen2 hS0
                hts.2 hte2 (fun s2 hs2 => by
                  have := hs s2 (List.mem_cons_of_mem _ hs2)
                  have hl2 := hts.1 s2.pos (List.mem_map_of_mem _ hs2)
                  exact ⟨by omega, this.2⟩)
                (fun e2 he2 => by
                  have := he e2 he2
                  rcases List.mem_cons.mp he2 with rfl | he3
                  · refine ⟨fun ha => ?_, this.2.1, this.2.2⟩
                    have : e2.pos ≠ s.pos := fun heq => hco ⟨ha, heq⟩
                    omega
                  · have hl2 := hte.1 e2.pos (List.mem_map_of_mem _ he3)
                    exact ⟨fun _ => by omega, this.2.1, this.2.2⟩) h
              refine ⟨⟨s.pos + start - 1, s.perc, s.cov⟩ :: new, ?_, ?_⟩
              · rw [h1, push_drop, List.append_assoc, List.singleton_append]
              · exact DropsIn.cons (abs_of_nonneg hS0) hS.1 hS.2 h2
          · rw [if_neg hact] at h
            exact ih ss (e :: es) _ d2 m hlen2 hm hts.2 hte2
              (fun s2 hs2 => hs s2 (List.mem_cons_of_mem _ hs2)) he h
theorem get_drop_window_spec (covg : List CovgEntry) (junc : List JuncEntry) (jend : List Nat)
    (drop_arr : List DropEntry) (si nb nj : Nat) (start len : Int) (js je : Nat)
    (r : DropResult) (hstart : 1 ≤ start)
    (h : get_drop_window covg junc jend drop_arr si nb nj start len js je = some r) :
    ∃ new, r.drop_arr = drop_arr ++ new ∧ DropsIn start (start + len - 1) new := by
  unfold get_drop_window at h
  simp only [] at h
  generalize build_arrays covg junc jend nb nj start len.toNat 0
    ⟨si, fun _ => 0, fun _ => 0, fun _ => 0, js, je, []⟩ = b at h
  obtain ⟨cs, ce⟩ := scan_loop_cand b.c b.as b.ae b.jp len len.toNat
    ⟨smallwin + 1, 0, [], [], 0, 0⟩ (le_refl _) ⟨by simp, by simp⟩ ⟨by simp, by simp⟩
  generalize scan_loop b.c b.as b.ae b.jp len len.toNat ⟨smallwin + 1, 0, [], [], 0, 0⟩ = sc at *
  split at h
  · exact absurd h (by simp)
  · rename_i d hd
    cases h
    unfold CandOK at cs ce
    simp only [smallwin] at cs ce
    exact merge_candidates_spec start (start + len - 1) _ sc.tmps sc.tmpe drop_arr d start rfl
      (by omega) cs.1 ce.1
      (fun s hs => by
        have := cs.2 s.pos (List.mem_map_of_mem _ hs)
        constructor <;> omega)
      (fun e he => by
        have := ce.2 e.pos (List.mem_map_of_mem _ he)
        refine ⟨fun _ => ?_, ?_, ?_⟩ <;> omega) hd

/-- The drops `get_drop` appends for a region have absolute positions in
non-decreasing order between the region's start and end. -/
theorem get_drop_spec (covg : List CovgEntry) (junc : List JuncEntry) (jend : List Nat)
    (drop_arr : List DropEntry) (si se nb js je nj : Nat) (r : DropResult)
    (hstart : 1 ≤ (covgAt covg si).start)
    (hse : (covgAt covg si).start ≤ (covgAt covg se).end_)
    (h : get_drop covg junc jend drop_arr si se nb js je nj = some r) :
    ∃ new, r.drop_arr = drop_arr ++ new ∧
      DropsIn (covgAt covg si).start (covgAt covg se).end_ new := by
  unfold get_drop at h
  simp only [] at h
  have hend0 : 0 ≤ (covgAt covg se).end_ := by omega
  have hlast : DropsIn (covgAt covg se).end_ (covgAt covg se).end_
      [⟨-(covgAt covg se).end_, 0, (covgAt covg se).cov⟩] :=
    DropsIn.cons (by rw [abs_neg, abs_of_nonneg hend0]) (le_refl _) (le_refl _) (DropsIn.nil _ _)
  split at h
  · exact absurd h (by simp)
  · rename_i w r1 hw
    cases h
    simp only [push_drop]
    split at hw
    · obtain ⟨mid, h1, h2⟩ := get_drop_window_spec covg junc jend _ si nb nj _ _ _ _ r1 hstart hw
      have hmid : DropsIn (covgAt covg si).start (covgAt covg se).end_ mid := by
        have : (covgAt covg si).start + ((covgAt covg se).end_ - (covgAt covg si).start + 1) - 1
            = (covgAt covg se).end_ := by ring
        rw [this] at h2
        exact h2
      refine ⟨⟨(covgAt covg si).start, 0, (covgAt covg si).cov⟩ ::
        (mid ++ [⟨-(covgAt covg se).end_, 0, (covgAt covg se).cov⟩]), ?_, ?_⟩
      · rw [h1, push_drop]; simp
      · exact DropsIn.cons (abs_of_nonneg (show (0 : Int) ≤ (covgAt covg si).start by omega))
          (le_refl _) hse (DropsIn.append hmid hlast hse (le_refl _))
    · cases hw
      refine ⟨[⟨(covgAt covg si).start, 0, (covgAt covg si).cov⟩,
        ⟨-(covgAt covg se).end_, 0, (covgAt covg se).cov⟩], by simp [push_drop], ?_⟩
      exact DropsIn.cons (abs_of_nonneg (show (0 : Int) ≤ (covgAt covg si).start by omega))
        (le_refl _) hse (DropsIn.mono_lo hlast hse)
theorem CovgSorted.end_le {covg : List CovgEntry} (hs : CovgSorted covg) {i j : Nat}
    (hij : i ≤ j) (hj : j < covg.length) : (covgAt covg i).end_ ≤ (covgAt covg j).end_ := by
  rcases Nat.eq_or_lt_of_le hij with rfl | hlt
  · exact le_refl _
  · have h1 := hs.lt_of_lt hlt hj
    have h2 := hs.start_le_end hj
    omega

theorem CovgSorted.start_le {covg : List CovgEntry} (hs : CovgSorted covg) {i j : Nat}
    (hij : i ≤ j) (hj : j < covg.length) : (covgAt covg i).start ≤ (covgAt covg j).start := by
  rcases Nat.eq_or_lt_of_le hij with rfl | hlt
  · exact le_refl _
  · have h1 := hs.lt_of_lt hlt hj
    have h2 := hs.start_le_end (show i < covg.length by omega)
    omega

theorem region_step_ok (covg : List CovgEntry) (i : Nat) (st : RegionState)
    (h : RegionsOK i st.s_arr) : RegionsOK (i + 1) (region_step covg i st).s_arr := by
  unfold region_step
  simp only []
  by_cases hgap : (covgAt covg i).start - 1 > st.preve
  · simp only [if_pos hgap, List.length_append, List.length_singleton, Nat.add_sub_cancel]
    have hget : (st.s_arr ++ [(⟨i, i⟩ : ContRegion)]).getD st.s_arr.length default = ⟨i, i⟩ := by
      rw [List.getD_eq_getElem?_getD]
      simp
    rw [hget, set_append_length]
    refine ⟨?_, ?_⟩
    · intro reg hreg
      rcases List.mem_append.mp hreg with hr | hr
      · have := h.1 reg hr
        exact ⟨this.1, by omega⟩
      · rw [List.mem_singleton.mp hr]
        exact ⟨le_refl _, Nat.lt_succ_self _⟩
    · rw [List.pairwise_append]
      refine ⟨h.2, by simp, ?_⟩
      intro a ha b hb
      rw [List.mem_singleton.mp hb]
      exact (h.1 a ha).2
  · simp only [if_neg hgap]
    rcases List.eq_nil_or_concat st.s_arr with hnil | ⟨init, last, hcat⟩
    · rw [hnil]
      exact ⟨by simp, by simp⟩
    · rw [List.concat_eq_append] at hcat
      rw [hcat] at h ⊢
      have hget : (init ++ [last]).getD ((init ++ [last]).length - 1) default = last := by
        rw [List.getD_eq_getElem?_getD]
        simp
      have hlen : (init ++ [last]).length - 1 = init.length := by simp
      rw [hget, hlen, set_append_length]
      have hlast := h.1 last (List.mem_append_right _ (List.mem_singleton_self _))
      obtain ⟨p1, _, p3⟩ := List.pairwise_append.mp h.2
      refine ⟨?_, ?_⟩
      · intro reg hreg
        rcases List.mem_append.mp hreg with hr | hr
        · have := h.1 reg (List.mem_append_left _ hr)
          exact ⟨this.1, by omega⟩
        · rw [List.mem_singleton.mp hr]
          exact ⟨by simp only []; omega, by simp⟩
      · rw [List.pairwise_append]
        refine ⟨p1, by simp, ?_⟩
        intro a ha b hb
        rw [List.mem_singleton.mp hb]
        exact p3 a ha last (List.mem_singleton_self _)

theorem region_loop_ok (covg : List CovgEntry) :
    ∀ (n i : Nat) (st : RegionState), RegionsOK i st.s_arr →
      RegionsOK (i + n) (region_loop covg n i st).s_arr := by
  intro n
  induction n with
  | zero => intro i st h; exact h
  | succ n ih =>
    intro i st h
    rw [region_loop]
    have := ih (i + 1) _ (region_step_ok covg i st h)
    rw [show i + (n + 1) = i + 1 + n by omega]
    exact this

/-- Over ascending disjoint regions of sorted segments, the drop buffer built by
`process_bundle` has absolute positions in non-decreasing order. -/
theorem drop_loop_spec (covg : List CovgEntry) (junc : List JuncEntry) (jend : List Nat)
    (nj : Nat) (hs : CovgSorted covg) :
    ∀ (regs : List ContRegion) (r d : DropResult) (lo : Int), 1 ≤ lo →
      RegionsOK covg.length regs →
      (∀ reg ∈ regs, lo ≤ (covgAt covg reg.si).start) →
      drop_loop covg junc jend covg.length nj regs r = some d →
      ∃ new, d.drop_arr = r.drop_arr ++ new ∧
        DropsIn lo (covgAt covg (covg.length - 1)).end_ new := by
  intro regs
  induction regs with
  | nil =>
    intro r d lo _ _ _ h
    rw [drop_loop] at h
    cases h
    exact ⟨[], by simp, DropsIn.nil _ _⟩
  | cons reg rest ih =>
    intro r d lo hlo hok hge h
    rw [drop_loop] at h
    split at h
    · exact absurd h (by simp)
    · rename_i r1 hr1
      obtain ⟨hreg1, hreg2⟩ := hok.1 reg (List.mem_cons_self _ _)
      have hstart := hge reg (List.mem_cons_self _ _)
      have hse : (covgAt covg reg.si).start ≤ (covgAt covg reg.ei).end_ :=
        le_trans (hs.start_le_end (show reg.si < covg.length by omega)) (hs.end_le hreg1 hreg2)
      have hlast : (covgAt covg reg.ei).end_ ≤ (covgAt covg (covg.length - 1)).end_ :=
        hs.end_le (by omega) (by omega)
      obtain ⟨new1, a1, a2⟩ := get_drop_spec covg junc jend r.drop_arr reg.si reg.ei covg.length
        r.js r.je nj r1 (by omega) hse hr1
      obtain ⟨p1, p2⟩ := List.pairwise_cons.mp hok.2
      obtain ⟨new2, b1, b2⟩ := ih r1 d (covgAt covg reg.ei).end_ (by omega)
        ⟨fun x hx => hok.1 x (List.mem_cons_of_mem _ hx), p2⟩
        (fun x hx => by
          have hx1 := p1 x hx
          have hx2 := hok.1 x (List.mem_cons_of_mem _ hx)
          exact le_of_lt (hs.lt_of_lt hx1 (by omega))) h
      refine ⟨new1 ++ new2, by rw [b1, a1, List.append_assoc], ?_⟩
      exact DropsIn.append (a2.mono_lo hstart) b2 (le_trans hstart hse) hlast
theorem covgAt_default (covg : List CovgEntry) (i : Nat) (h : covg.length ≤ i) :
    covgAt covg i = default := by
  unfold covgAt
  rw [List.getD_eq_default _ _ h]

theorem dropsIn_getD (lo hi : Int) (d : List DropEntry) (h : DropsIn lo hi d) :
    (∀ k1 k2, k1 ≤ k2 → k2 < d.length → |(dropAt d k1).pos| ≤ |(dropAt d k2).pos|) ∧
    (∀ k, k < d.length → lo ≤ |(dropAt d k).pos| ∧ |(dropAt d k).pos| ≤ hi) := by
  have hget : ∀ k (hk : k < d.length), dropAt d k = d[k] := by
    intro k hk
    unfold dropAt
    rw [List.getD_eq_getElem _ _ hk]
  refine ⟨?_, ?_⟩
  · intro k1 k2 h12 h2
    rcases Nat.eq_or_lt_of_le h12 with rfl | hlt
    · exact le_refl _
    · have hp := h.1
      unfold AbsSorted at hp
      rw [List.pairwise_iff_getElem] at hp
      have := hp k1 k2 (by simp; omega) (by simp; omega) hlt
      simp only [List.getElem_map] at this
      rw [hget k1 (by omega), hget k2 h2]
      exact this
  · intro k hk
    rw [hget k hk]
    exact h.2 _ (List.getElem_mem _)

theorem mergeEnv_of_sorted (covg : List CovgEntry) (d : List DropEntry)
    (hs : CovgSorted covg) (hne : covg ≠ []) (h0 : 0 < (covgAt covg 0).start)
    (hcov : ∀ seg ∈ covg, 0 ≤ seg.cov)
    (hd : DropsIn (covgAt covg 0).start (covgAt covg (covg.length - 1)).end_ d) :
    MergeEnv covg d (d.length - 1) := by
  have hlen : 0 < covg.length := List.length_pos.mpr hne
  obtain ⟨d1, d2⟩ := dropsIn_getD _ _ d hd
  refine ⟨h0, ?_, ?_, ?_, ?_, ?_, ?_⟩
  · intro i
    by_cases hi : i < covg.length
    · exact hs.start_le_end hi
    · rw [covgAt_default covg i (by omega)]
      exact le_refl _
  · intro i
    by_cases hi : i < covg.length
    · exact hcov _ (covgAt_mem covg i hi)
    · rw [covgAt_default covg i (by omega)]
      exact le_refl _
  · intro i hi
    exact hs.end_le (by omega) (by omega)
  · exact le_trans (hs.start_le_end hlen) (hs.end_le (by omega) (by omega))
  · intro k1 k2 _ h12 h2
    exact d1 k1 k2 h12 (by omega)
  · intro k _ hk
    exact d2 k (by omega)
/-- Every call of `get_record` that returns while the loop condition of
`process_bundle` holds consumes at least one event. -/
theorem get_record_progress (covg : List CovgEntry) (drop_arr : List DropEntry)
    (jend : List Nat) (nb nd nj : Nat) (st st2 : MergeState)
    (hc : st.id < nd ∨ st.js < nj ∨ st.je < nj)
    (h : get_record covg drop_arr jend nb nd nj st = some st2) :
    merge_measure nd nj st2 < merge_measure nd nj st := by
  obtain ⟨s1, _, s3, s4, _⟩ := next_start_spec st.junc nj (nj - st.js) st.js rfl
  obtain ⟨e1, _, e3, e4, _⟩ := next_end_spec st.junc jend nj (nj - st.je) st.je rfl
  unfold get_record at h
  simp only [] at h
  generalize hs : next_start st.junc nj (nj - st.js) st.js = s at *
  generalize he : next_end st.junc jend nj (nj - st.je) st.je = e at *
  generalize hnd : (if st.id < nd then |(dropAt drop_arr st.id).pos| else 0) = nextd at *
  have HS : s.2 ≠ 0 → s.1 < nj ∧ (juncAt st.junc s.1).start = s.2 := by
    intro h0
    by_cases hlt : s.1 < nj
    · exact ⟨hlt, (s3 hlt).2.symm⟩
    · exact absurd (s4 hlt) h0
  have HE : e.2 ≠ 0 → e.1 < nj ∧ (juncAt st.junc (jendAt jend e.1)).end_ = e.2 := by
    intro h0
    by_cases hlt : e.1 < nj
    · exact ⟨hlt, (e3 hlt).2.symm⟩
    · exact absurd (e4 hlt) h0
  have HD : nextd ≠ 0 → st.id < nd ∧ |(dropAt drop_arr st.id).pos| = nextd := by
    intro h0
    by_cases hid : st.id < nd
    · rw [if_pos hid] at hnd
      exact ⟨hid, hnd⟩
    · rw [if_neg hid] at hnd
      exact absurd hnd.symm h0
  have Hjend : e.2 ≠ 0 →
      merge_measure nd nj (get_record_jend covg jend nb nj e.2 { st with js := s.1, je := e.1 })
        < merge_measure nd nj st := by
    intro h0
    obtain ⟨f1, f2, f3, _, _⟩ := get_record_jend_frame covg jend nb nj e.2
      { st with js := s.1, je := e.1 }
    obtain ⟨a1, a2⟩ := HE h0
    have adv := collect_ends_advance st.junc jend nj e.2 e.1 [] 0 a1 a2
    simp only [] at f1 f2 f3
    unfold merge_measure
    rw [f1, f2, f3]
    omega
  split at h
  · split at h
    · cases h
      rename_i hz hx
      try simp only [] at hx
      unfold merge_measure
      try simp only []
      omega
    · exact absurd h (by simp)
  · rename_i hnz
    split at h
    · rename_i hds
      have hd0 := less_than_true_ne_zero hds
      split at h
      · cases h
        obtain ⟨d1, d2⟩ := HD hd0
        have adv := push_drops_advance drop_arr nd nextd st.prevpos
          (get_cov covg nextd nextd st.ib nb).1 st.id st.junc
          (if nextd > st.prevpos + 1 then
            add_cov_to_last st.record (get_cov covg (st.prevpos + 1) (nextd - 1) st.ib nb).1
          else st.record) d1 d2
        unfold merge_measure get_record_drop
        simp only []
        omega
      · split at h
        · cases h
          rename_i hne
          exact Hjend hne
        · rename_i hde hne
          exact absurd (less_than_zero_right nextd hd0) (by
            have : e.2 = 0 := by
              by_contra hcon
              exact hne hcon
            rw [← this]
            exact hde)
    · rename_i hds
      split at h
      · cases h
        rename_i hse
        have hs0 := less_than_true_ne_zero hse
        obtain ⟨f1, f2, f3, _, _⟩ := get_record_jstart_frame covg nb nj s.2
          { st with js := s.1, je := e.1 }
        obtain ⟨a1, a2⟩ := HS hs0
        have adv := collect_starts_advance st.junc nj s.2 s.1 [] 0 a1 a2
        simp only [] at f1 f2 f3
        unfold merge_measure
        rw [f1, f2, f3]
        omega
      · split at h
        · cases h
          rename_i hne
          exact Hjend hne
        · rename_i hse hne
          exfalso
          have he0 : e.2 = 0 := by
            by_contra hcon
            exact hne hcon
          rw [he0] at hse
          have hs0 : s.2 = 0 := by
            by_contra hcon
            exact hse (less_than_zero_right _ hcon)
          rw [hs0] at hds
          have hd0 : nextd = 0 := by
            by_contra hcon
            exact hds (less_than_zero_right _ hcon)
          exact hnz ⟨hd0, hs0, he0⟩

/-- The merge loop's result does not depend on the bound once the bound is at least
the number of events left, so with the bound `process_bundle` is given, `none` is
always an `exit(1)` of `get_record`. -/
theorem merge_loop_fuel (covg : List CovgEntry) (drop_arr : List DropEntry) (jend : List Nat)
    (nb nd nj : Nat) :
    ∀ (fuel fuel2 : Nat) (st : MergeState), merge_measure nd nj st ≤ fuel → fuel ≤ fuel2 →
      merge_loop covg drop_arr jend nb nd nj fuel2 st
        = merge_loop covg drop_arr jend nb nd nj fuel st := by
  intro fuel
  induction fuel with
  | zero =>
    intro fuel2 st hm _
    have hc : ¬ (st.id < nd ∨ st.js < nj ∨ st.je < nj) := by
      unfold merge_measure at hm
      omega
    cases fuel2 with
    | zero => rfl
    | succ m => rw [merge_loop, merge_loop, if_neg hc, if_neg hc]
  | succ n ih =>
    intro fuel2 st hm hle
    obtain ⟨m, rfl⟩ : ∃ m, fuel2 = m + 1 := ⟨fuel2 - 1, by omega⟩
    rw [merge_loop, merge_loop]
    by_cases hc : st.id < nd ∨ st.js < nj ∨ st.je < nj
    · rw [if_pos hc, if_pos hc]
      cases hg : get_record covg drop_arr jend nb nd nj st with
      | none => rfl
      | some st1 =>
        simp only []
        have := get_record_progress covg drop_arr jend nb nd nj st st1 hc hg
        exact ih m st1 (by omega) (by omega)
    · rw [if_neg hc, if_neg hc]
theorem recAt_set (record : List RecordEntry) (k j : Nat) (x : RecordEntry) :
    recAt (record.set k x) j = if k = j ∧ k < record.length then x else recAt record j := by
  unfold recAt
  rw [List.getD_eq_getElem?_getD, List.getD_eq_getElem?_getD, List.getElem?_set]
  by_cases h1 : k = j
  · by_cases h2 : k < record.length
    · subst h1
      simp [h2]
    · subst h1
      have : record[k]? = none := List.getElem?_eq_none (by omega)
      simp [h2, this]
  · simp [h1]

theorem Zeroed.same (orig : List RecordEntry) : Zeroed orig orig := fun _ => Or.inl rfl

theorem Zeroed.set {orig cur : List RecordEntry} (h : Zeroed orig cur) (k : Nat)
    (x : RecordEntry) (hx : x.pos = 0) : Zeroed orig (cur.set k x) := by
  intro j
  rw [recAt_set]
  split
  · exact Or.inr hx
  · exact h j

theorem retract_record_zeroed {orig cur : List RecordEntry} (h : Zeroed orig cur) (k : Nat) :
    Zeroed orig (retract_record cur k) := by
  unfold retract_record
  exact h.set k _ rfl

theorem rec_zero_pos_zeroed {orig cur : List RecordEntry} (h : Zeroed orig cur) (k : Nat) :
    Zeroed orig (rec_zero_pos cur k) := by
  unfold rec_zero_pos
  exact h.set k _ rfl

theorem retract_range_zeroed (orig : List RecordEntry) :
    ∀ (n : Nat) (j : Int) (cur : List RecordEntry) (nl : Int), Zeroed orig cur →
      Zeroed orig (retract_range n j cur nl).1 := by
  intro n
  induction n with
  | zero => intro j cur nl h; exact h
  | succ n ih =>
    intro j cur nl h
    rw [retract_range]
    split
    · exact ih _ _ _ (rec_zero_pos_zeroed h _)
    · exact ih _ _ _ h

theorem small_step_zeroed (orig : List RecordEntry) (i : Nat) (st : SmallState)
    (h : Zeroed orig st.record) : Zeroed orig (small_step i st).record := by
  unfold small_step
  simp only []
  split_ifs
  all_goals first
    | exact h
    | exact retract_range_zeroed orig _ _ _ _ h

theorem small_loop_zeroed (orig : List RecordEntry) :
    ∀ (n i : Nat) (st : SmallState), Zeroed orig st.record →
      Zeroed orig (small_loop n i st).record := by
  intro n
  induction n with
  | zero => intro i st h; exact h
  | succ n ih =>
    intro i st h
    rw [small_loop]
    exact ih _ _ (small_step_zeroed orig i st h)

theorem outPositions_append (a b : List OutLine) :
    outPositions (a ++ b) = outPositions a ++ outPositions b := by
  induction a with
  | nil => rfl
  | cons x a ih =>
    cases x with
    | bundle _ _ _ _ _ => simpa [outPositions] using ih
    | record _ _ _ _ _ _ => simp [outPositions, ih]

theorem print_records_sublist (junc : List JuncEntry) (drop_arr : List DropEntry)
    (orig cur : List RecordEntry) (e : Nat) (h : Zeroed orig cur) :
    ∀ (n i : Nat), (outPositions (print_records junc drop_arr cur e n i)).Sublist
      (origPositions orig i n) := by
  intro n
  induction n with
  | zero => intro i; simp [print_records, outPositions, origPositions]
  | succ n ih =>
    intro i
    have hcons : origPositions orig i (n + 1)
        = (recAt orig i).pos :: origPositions orig (i + 1) n := by
      simp [origPositions, List.range'_succ]
    rw [print_records, hcons]
    split
    · rename_i hz
      have hp : (recAt cur i).pos = (recAt orig i).pos := by
        rcases h i with h1 | h1
        · exact h1
        · exact absurd h1 hz
      simp only [record_line, outPositions]
      rw [hp]
      exact (ih (i + 1)).cons₂ _
    · exact (ih (i + 1)).cons _

theorem print_small_bundle_zeroed (junc : List JuncEntry) (drop_arr : List DropEntry)
    (orig cur : List RecordEntry) (chr : String) (bundleno : Int) (s e : Nat)
    (h : Zeroed orig cur) :
    Zeroed orig (print_small_bundle junc drop_arr cur chr bundleno s e).1 ∧
    (outPositions (print_small_bundle junc drop_arr cur chr bundleno s e).2.2).Sublist
      (origPositions orig s (e - s)) := by
  have hz := small_loop_zeroed orig (e - s) s ⟨cur, s, 0, 0, false, 0, e - 1⟩ h
  unfold print_small_bundle
  simp only []
  split
  · refine ⟨hz, ?_⟩
    simp only [outPositions]
    exact print_records_sublist junc drop_arr orig _ e hz (e - s) s
  · refine ⟨hz, ?_⟩
    simp [outPositions]

theorem origPositions_append (orig : List RecordEntry) (s i : Nat) (h : s ≤ i) :
    origPositions orig 0 s ++ origPositions orig s (i - s) = origPositions orig 0 i := by
  unfold origPositions
  rw [← List.map_append]
  congr 1
  have := List.range'_append 0 s (i - s) 1
  simp only [mul_one, one_mul, Nat.zero_add] at this
  rw [this]
  congr 1
  omega
theorem proc_step_zeroed (junc : List JuncEntry) (drop_arr : List DropEntry) (chr : String)
    (orig : List RecordEntry) (i : Nat) (st : ProcState)
    (hz : Zeroed orig st.record) (hs : st.s ≤ i)
    (ho : (outPositions st.out).Sublist (origPositions orig 0 st.s)) :
    Zeroed orig (proc_step junc drop_arr chr i st).record ∧
    (proc_step junc drop_arr chr i st).s ≤ i + 1 ∧
    (outPositions (proc_step junc drop_arr chr i st).out).Sublist
      (origPositions orig 0 (proc_step junc drop_arr chr i st).s) := by
  have hp := print_small_bundle_zeroed junc drop_arr orig st.record chr st.bundleno st.s i hz
  unfold proc_step
  simp only []
  split_ifs
  all_goals first
    | exact ⟨hz, Nat.le_succ_of_le hs, ho⟩
    | exact ⟨retract_record_zeroed hz _, Nat.le_succ_of_le hs, ho⟩
    | exact ⟨rec_zero_pos_zeroed hz _, Nat.le_succ_of_le hs, ho⟩
    | exact ⟨hz.set _ _ rfl, Nat.le_succ_of_le hs, ho⟩
    | (refine ⟨hp.1, Nat.le_succ _, ?_⟩
       simp only []
       rw [outPositions_append, ← origPositions_append orig st.s i hs]
       exact ho.append hp.2)

theorem proc_loop_zeroed (junc : List JuncEntry) (drop_arr : List DropEntry) (chr : String)
    (orig : List RecordEntry) :
    ∀ (k i : Nat) (st : ProcState), Zeroed orig st.record → st.s ≤ i →
      (outPositions st.out).Sublist (origPositions orig 0 st.s) →
      Zeroed orig (proc_loop junc drop_arr chr k i st).record ∧
      (proc_loop junc drop_arr chr k i st).s ≤ i + k ∧
      (outPositions (proc_loop junc drop_arr chr k i st).out).Sublist
        (origPositions orig 0 (proc_loop junc drop_arr chr k i st).s) := by
  intro k
  induction k with
  | zero => intro i st hz hs ho; exact ⟨hz, hs, ho⟩
  | succ k ih =>
    intro i st hz hs ho
    rw [proc_loop]
    obtain ⟨a1, a2, a3⟩ := proc_step_zeroed junc drop_arr chr orig i st hz hs ho
    obtain ⟨b1, b2, b3⟩ := ih (i + 1) _ a1 a2 a3
    exact ⟨b1, by omega, b3⟩

theorem origPositions_all (orig : List RecordEntry) :
    origPositions orig 0 orig.length = orig.map (fun r => r.pos) := by
  apply List.ext_getElem
  · simp [origPositions]
  · intro n h1 h2
    simp only [origPositions, List.getElem_map, List.getElem_range', Nat.zero_add, one_mul,
      recAt]
    rw [List.getD_eq_getElem]

/-- The record lines `process_records` prints are records of the buffer it is
given, in buffer order, so a sorted buffer is printed in non-decreasing position
order. -/
theorem process_records_sorted (junc : List JuncEntry) (drop_arr : List DropEntry)
    (record : List RecordEntry) (chr : String) (bundleno : Int)
    (p : List RecordEntry × Int × List OutLine) (hsorted : RecSorted record)
    (h : process_records junc drop_arr record chr bundleno = some p) :
    OutSorted p.2.2 := by
  unfold process_records at h
  simp only [] at h
  split at h
  · exact absurd h (by simp)
  · rename_i htend
    cases h
    have hlen : 1 ≤ record.length := by
      by_contra hcon
      have h0 : record = [] := List.length_eq_zero.mp (by omega)
      rw [h0] at htend
      exact htend (by decide)
    obtain ⟨a1, a2, a3⟩ := proc_loop_zeroed junc drop_arr chr record (record.length - 1) 1
      ⟨record, bundleno, [], 0, 0, 0, 0, (recAt record 0).pos, 0⟩ (Zeroed.same _)
      (Nat.zero_le _) (by simp [outPositions])
    have a2n : (proc_loop junc drop_arr chr (record.length - 1) 1
      ⟨record, bundleno, [], 0, 0, 0, 0, (recAt record 0).pos, 0⟩).s ≤ record.length := by
      omega
    obtain ⟨b1, b2⟩ := print_small_bundle_zeroed junc drop_arr record _ chr
      (proc_loop junc drop_arr chr (record.length - 1) 1
        ⟨record, bundleno, [], 0, 0, 0, 0, (recAt record 0).pos, 0⟩).bundleno
      (proc_loop junc drop_arr chr (record.length - 1) 1
        ⟨record, bundleno, [], 0, 0, 0, 0, (recAt record 0).pos, 0⟩).s record.length a1
    unfold OutSorted
    simp only []
    rw [outPositions_append]
    have hsub := a3.append b2
    rw [origPositions_append record _ _ a2n, origPositions_all] at hsub
    exact List.Pairwise.sublist hsub hsorted
/-- C6 (amended): ordering invariant. For every region whose coverage segments are
sorted and non-overlapping, start at a positive coordinate and have non-negative
coverage, and whose junctions are sorted by start with `0 < start < end` and start
no later than the last segment's end (`jend` being an index list that orders the
junction ends), the record sequence built by `process_bundle` (initial `tstart`,
every record pushed by `get_record`, final `tend`) has non-decreasing positions, so
the record lines `process_bundle` emits appear in non-decreasing position order. -/
theorem build_records_sorted (covg : List CovgEntry) (junc : List JuncEntry) (jend : List Nat)
    (hs : CovgSorted covg) (hne : covg ≠ []) (h0 : 0 < (covgAt covg 0).start)
    (hcov : ∀ seg ∈ covg, 0 ≤ seg.cov)
    (hj : JuncSorted junc)
    (hlast : ∀ j ∈ junc, j.start ≤ (covgAt covg (covg.length - 1)).end_)
    (hjend : ∀ k, k < junc.length → jendAt jend k < junc.length)
    (hends : ∀ k1 k2, k1 ≤ k2 → k2 < junc.length →
      (juncAt junc (jendAt jend k1)).end_ ≤ (juncAt junc (jendAt jend k2)).end_) :
    (∀ b, build_records covg junc jend
        (region_loop covg covg.length 0 ⟨[], -1, false, 0, 0, 0⟩).s_arr = some b →
      RecSorted b.record) ∧
    (∀ chr bundleno bn out, process_bundle covg junc jend chr bundleno = some (bn, out) →
      OutSorted out) := by
  have hrec : ∀ b, build_records covg junc jend
      (region_loop covg covg.length 0 ⟨[], -1, false, 0, 0, 0⟩).s_arr = some b →
      RecSorted b.record := by
    intro b h
    refine build_records_sorted_of_env covg junc jend _ b ?_
      (juncStatic_of_sorted junc jend _ hj hlast hjend hends) h
    intro d hd
    have hreg := region_loop_ok covg covg.length 0 ⟨[], -1, false, 0, 0, 0⟩
      ⟨by simp, by simp⟩
    rw [Nat.zero_add] at hreg
    obtain ⟨new, e1, e2⟩ := drop_loop_spec covg (process_junctions junc jend junc.length) jend
      junc.length hs _ ⟨[], 0, 0⟩ d (covgAt covg 0).start (by omega) hreg
      (fun reg hr => hs.start_le (Nat.zero_le _) (by have := (hreg.1 reg hr); omega)) hd
    rw [e1]
    exact mergeEnv_of_sorted covg _ hs hne h0 hcov (by simpa using e2)
  refine ⟨hrec, ?_⟩
  intro chr bundleno bn out h
  unfold process_bundle at h
  simp only [] at h
  have hnil : OutSorted [] := by simp [OutSorted, outPositions]
  have hmatch : (match build_records covg junc jend
        (region_loop covg covg.length 0 ⟨[], -1, false, 0, 0, 0⟩).s_arr with
      | none => none
      | some b =>
        match process_records b.junc b.drop_arr b.record chr bundleno with
        | none => none
        | some p => some (p.2.1, p.2.2)) = some (bn, out) → OutSorted out := by
    intro hm
    cases hb : build_records covg junc jend
        (region_loop covg covg.length 0 ⟨[], -1, false, 0, 0, 0⟩).s_arr with
    | none =>
      rw [hb] at hm
      exact absurd hm (by simp)
    | some b =>
      rw [hb] at hm
      simp only [] at hm
      cases hp : process_records b.junc b.drop_arr b.record chr bundleno with
      | none =>
        rw [hp] at hm
        exact absurd hm (by simp)
      | some p =>
        rw [hp] at hm
        simp only [Option.some.injEq, Prod.mk.injEq] at hm
        rw [← hm.2]
        exact process_records_sorted b.junc b.drop_arr b.record chr bundleno p (hrec b hb) hp
  split_ifs at h
  all_goals first
    | exact hmatch h
    | (simp only [Option.some.injEq, Prod.mk.injEq] at h
       rw [← h.2]
       exact hnil)
/-- C6 (amended), instance: for the segment `[100,260]` and a junction starting on its
last base the records built are a `tstart` at 100, a `jstart` at 260 and the `tend`
at 260, and the lines emitted are in position order. -/
theorem build_records_sorted_witness :
    (∃ b, build_records lateCovg edgeJunc [0]
        (region_loop lateCovg lateCovg.length 0 ⟨[], -1, false, 0, 0, 0⟩).s_arr = some b ∧
      b.record.map (fun r => (r.type, r.pos)) = [("tstart", 100), ("jstart", 260), ("tend", 260)] ∧
      RecSorted b.record) ∧
    (∀ chr bundleno bn out, process_bundle lateCovg edgeJunc [0] chr bundleno = some (bn, out) →
      OutSorted out) := by
  have hreg : (region_loop lateCovg lateCovg.length 0 ⟨[], -1, false, 0, 0, 0⟩).s_arr
      = [⟨0, 0⟩] := by
    simp [region_loop, region_step, region_good, covgAt, lateCovg]
  have hdrop : get_drop lateCovg (process_junctions edgeJunc [0] 1) [0] [] 0 0 1 0 0 1
      = some ⟨[⟨100, 0, 20⟩, ⟨-260, 0, 20⟩], 0, 0⟩ := by
    norm_num [get_drop, lateCovg, edgeJunc, process_junctions, pj_sweep, pj_close, pj_check,
      pj_apply, covgAt, juncAt, jendAt, skip_starts_before, skip_ends_before, push_drop, win,
      smallwin]
  have hb : build_records lateCovg edgeJunc [0] [⟨0, 0⟩] = some
      ⟨[⟨"chr1", 260, 300, 0, '+', 0⟩], [⟨100, 0, 20⟩, ⟨-260, 0, 20⟩],
        [⟨"tstart", 100, [0], 0, 20, 3180⟩, ⟨"jstart", 260, [0], 0, 20, 0⟩,
         ⟨"tend", 260, [1], 0, 20, 0⟩]⟩ := by
    unfold build_records
    simp only [drop_loop, show lateCovg.length = 1 from rfl, show edgeJunc.length = 1 from rfl, hdrop]
    norm_num [lateCovg, edgeJunc, process_junctions, pj_sweep, pj_close, pj_check,
      pj_apply, covgAt, juncAt, jendAt, merge_loop, get_record, next_start, next_end, dropAt,
      less_than, get_record_jstart, get_record_jend, collect_starts, collect_ends, flank_cov,
      cursor_back, get_cov, get_cov_skip, get_cov_acc, delta_param, push_record,
      add_cov_to_last, recAt, junc_zero_all, junc_zero, prev_jend_scan, prev_jstart_scan]
  rw [← hreg] at hb
  have hall := build_records_sorted lateCovg edgeJunc [0] (by decide) (by decide) (by decide)
    (by simp [lateCovg]) (by decide) (by decide)
    (fun k hk => by
      have hk0 : k = 0 := by simpa [edgeJunc] using hk
      subst hk0
      decide)
    (fun k1 k2 h12 hk => by
      have hk2 : k2 = 0 := by simpa [edgeJunc] using hk
      subst hk2
      have hk1 : k1 = 0 := by omega
      subst hk1
      exact le_refl _)
  exact ⟨⟨_, hb, by simp, hall.1 _ hb⟩, hall.2⟩

/-! ## The sentinel order `less_than` and strand compatibility -/

/-- C11: `less_than(0, n)` is false for every `n` (0 included), `less_than(n, 0)` is
true for every `n ≠ 0`, and for non-zero `n1`, `n2` `less_than(n1, n2)` holds
exactly when `n1 < n2`; so `less_than` is a strict total order on the integers and
0 is its greatest element. -/
theorem less_than_sentinel_order :
    (∀ n : Int, less_than 0 n = false) ∧
    (∀ n : Int, n ≠ 0 → less_than n 0 = true) ∧
    (∀ n1 n2 : Int, n1 ≠ 0 → n2 ≠ 0 → (less_than n1 n2 = true ↔ n1 < n2)) ∧
    IsStrictTotalOrder Int (fun a b => less_than a b = true) ∧
    (∀ n : Int, n = 0 ∨ less_than n 0 = true) := by
  refine ⟨?_, less_than_zero_right, ?_, ?_, ?_⟩
  · intro n
    simp [less_than]
  · intro n1 n2 h1 h2
    rw [less_than_true_iff]
    constructor
    · rintro ⟨_, h | h⟩
      · exact absurd h h2
      · exact h
    · intro h
      exact ⟨h1, Or.inr h⟩
  · refine { trichotomous := ?_, irrefl := ?_, trans := ?_ }
    · intro a b
      simp only [less_than_true_iff]
      by_cases ha : a = 0
      · by_cases hb : b = 0
        · exact Or.inr (Or.inl (by rw [ha, hb]))
        · exact Or.inr (Or.inr ⟨hb, Or.inl ha⟩)
      · by_cases hb : b = 0
        · exact Or.inl ⟨ha, Or.inl hb⟩
        · rcases lt_trichotomy a b with h | h | h
          · exact Or.inl ⟨ha, Or.inr h⟩
          · exact Or.inr (Or.inl h)
          · exact Or.inr (Or.inr ⟨hb, Or.inr h⟩)
    · intro a h
      rw [less_than_self] at h
      exact absurd h (by decide)
    · intro a b c hab hbc
      have hb := less_than_true_ne_zero hbc
      rw [less_than_true_iff] at hab hbc ⊢
      refine ⟨hab.1, ?_⟩
      rcases hab.2 with h | h
      · exact absurd h hb
      · rcases hbc.2 with h2 | h2
        · exact Or.inl h2
        · exact Or.inr (lt_trans h h2)
  · intro n
    by_cases h : n = 0
    · exact Or.inl h
    · exact Or.inr (less_than_zero_right n h)

/-- C19: `equal_strand(s1, s2)` is 1 exactly when `s1 = s2` or one of the two is
`'.'`; so `'.'` is compatible with every strand, and the relation is reflexive and
symmetric. -/
theorem equal_strand_compatible :
    (∀ s1 s2 : Char, equal_strand s1 s2 = true ↔ (s1 = s2 ∨ s1 = '.' ∨ s2 = '.')) ∧
    (∀ s : Char, equal_strand '.' s = true ∧ equal_strand s '.' = true) ∧
    (∀ s : Char, equal_strand s s = true) ∧
    (∀ s1 s2 : Char, equal_strand s1 s2 = equal_strand s2 s1) := by
  have hiff : ∀ s1 s2 : Char, equal_strand s1 s2 = true ↔ (s1 = s2 ∨ s1 = '.' ∨ s2 = '.') := by
    intro s1 s2
    unfold equal_strand
    by_cases h1 : s1 = s2
    · simp [h1]
    · by_cases h2 : s1 = '.' ∨ s2 = '.'
      · simp [h1, h2]
      · simp [h1, h2]
  refine ⟨hiff, ?_, ?_, ?_⟩
  · intro s
    exact ⟨(hiff _ _).mpr (Or.inr (Or.inl rfl)), (hiff _ _).mpr (Or.inr (Or.inr rfl))⟩
  · intro s
    exact (hiff _ _).mpr (Or.inl rfl)
  · intro s1 s2
    by_cases h : equal_strand s1 s2 = true
    · rw [h]
      symm
      rw [hiff] at h ⊢
      rcases h with h | h | h
      · exact Or.inl h.symm
      · exact Or.inr (Or.inr h)
      · exact Or.inr (Or.inl h)
    · have h2 : ¬ equal_strand s2 s1 = true := by
        intro hc
        apply h
        rw [hiff] at hc ⊢
        rcases hc with h | h | h
        · exact Or.inl h.symm
        · exact Or.inr (Or.inr h)
        · exact Or.inr (Or.inl h)
      rw [Bool.not_eq_true] at h h2
      rw [h, h2]

/-! ## The end-sorted permutation (`sort_jend`) -/

theorem wrap32_id (x : Int) (h1 : -2147483648 ≤ x) (h2 : x < 2147483648) : wrap32 x = x := by
  unfold wrap32
  omega

theorem juncAt_end_range (junc : List JuncEntry)
    (hends : ∀ j ∈ junc, 0 ≤ j.end_ ∧ j.end_ < 2147483648) (k : Nat) :
    0 ≤ (juncAt junc k).end_ ∧ (juncAt junc k).end_ < 2147483648 := by
  unfold juncAt
  by_cases hk : k < junc.length
  · rw [List.getD_eq_getElem _ _ hk]
    exact hends _ (List.getElem_mem _)
  · rw [List.getD_eq_default _ _ (by omega)]
    exact ⟨le_refl _, by decide⟩

/-- With junction ends that are non-negative `int` values the subtraction in
`compare_jend` does not wrap, so the comparison is the difference of the ends. -/
theorem compare_jend_eq (junc : List JuncEntry)
    (hends : ∀ j ∈ junc, 0 ≤ j.end_ ∧ j.end_ < 2147483648) (a b : Nat) :
    compare_jend junc a b = (juncAt junc a).end_ - (juncAt junc b).end_ := by
  have ha := juncAt_end_range junc hends a
  have hb := juncAt_end_range junc hends b
  unfold compare_jend
  exact wrap32_id _ (by omega) (by omega)

theorem compare_jend_consistent (junc : List JuncEntry)
    (hends : ∀ j ∈ junc, 0 ≤ j.end_ ∧ j.end_ < 2147483648) :
    ConsistentCmp (compare_jend junc) := by
  refine ⟨?_, ?_, ?_⟩
  · intro a b
    rw [compare_jend_eq junc hends, compare_jend_eq junc hends]
    omega
  · intro a b
    rw [compare_jend_eq junc hends, compare_jend_eq junc hends]
    omega
  · intro a b c
    rw [compare_jend_eq junc hends, compare_jend_eq junc hends, compare_jend_eq junc hends]
    omega

/-- What `sort_jend` returns under the `qsort` contract: a rearrangement of
`0, …, nj - 1`, of length `nj`, whose entries are pairwise ordered by junction end. -/
theorem sort_jend_spec (qsort : (Nat → Nat → Int) → List Nat → List Nat)
    (junc : List JuncEntry) (nj : Nat) (hq : QsortContract qsort)
    (hends : ∀ j ∈ junc, 0 ≤ j.end_ ∧ j.end_ < 2147483648) :
    (sort_jend qsort junc nj).Perm (List.range nj) ∧
    (sort_jend qsort junc nj).length = nj ∧
    ∀ k1 k2, k1 < k2 → k2 < nj →
      (juncAt junc (jendAt (sort_jend qsort junc nj) k1)).end_
        ≤ (juncAt junc (jendAt (sort_jend qsort junc nj) k2)).end_ := by
  obtain ⟨hp, hs⟩ := hq (compare_jend junc) (List.range nj) (compare_jend_consistent junc hends)
  have hlen : (sort_jend qsort junc nj).length = nj := by
    unfold sort_jend
    rw [hp.length_eq, List.length_range]
  refine ⟨hp, hlen, ?_⟩
  intro k1 k2 h12 h2
  have hs2 : (sort_jend qsort junc nj).Pairwise (fun a b => compare_jend junc a b ≤ 0) := hs
  rw [List.pairwise_iff_getElem] at hs2
  have := hs2 k1 k2 (by omega) (by omega) h12
  rw [compare_jend_eq junc hends] at this
  unfold jendAt
  rw [List.getD_eq_getElem _ _ (show k1 < _ by omega), List.getD_eq_getElem _ _ (show k2 < _ by omega)]
  omega

theorem insertion_qsort_contract : QsortContract insertion_qsort := by
  intro cmp l hc
  haveI : IsTotal Nat (fun a b => cmp a b ≤ 0) := ⟨fun a b => by
    by_cases h : cmp a b ≤ 0
    · exact Or.inl h
    · right
      have := (hc.1 b a).mpr (by omega)
      omega⟩
  haveI : IsTrans Nat (fun a b => cmp a b ≤ 0) := ⟨fun a b c => hc.2.2 a b c⟩
  exact ⟨List.perm_insertionSort _ l, List.sorted_insertionSort _ l⟩

theorem reversing_qsort_contract : QsortContract reversing_qsort := by
  intro cmp l hc
  haveI : IsTotal Nat (fun a b => cmp a b ≤ 0) := ⟨fun a b => by
    by_cases h : cmp a b ≤ 0
    · exact Or.inl h
    · right
      have := (hc.1 b a).mpr (by omega)
      omega⟩
  haveI : IsTrans Nat (fun a b => cmp a b ≤ 0) := ⟨fun a b c => hc.2.2 a b c⟩
  exact ⟨(List.perm_insertionSort _ l.reverse).trans (List.reverse_perm l),
    List.sorted_insertionSort _ l.reverse⟩

/-- C13: for every `nj` and every junction array whose ends are non-negative `int`
values, after `sort_jend(nj)` (with a `qsort` that keeps the C library's contract)
the array `jend` is a permutation of `0, …, nj - 1` and `junc[jend[k]].end` is
non-decreasing in `k`. -/
theorem sort_jend_sorted_perm (qsort : (Nat → Nat → Int) → List Nat → List Nat)
    (junc : List JuncEntry) (nj : Nat) (hq : QsortContract qsort)
    (hends : ∀ j ∈ junc, 0 ≤ j.end_ ∧ j.end_ < 2147483648) :
    (sort_jend qsort junc nj).Perm (List.range nj) ∧
    ∀ k1 k2, k1 ≤ k2 → k2 < nj →
      (juncAt junc (jendAt (sort_jend qsort junc nj) k1)).end_
        ≤ (juncAt junc (jendAt (sort_jend qsort junc nj) k2)).end_ := by
  obtain ⟨hp, _, hs⟩ := sort_jend_spec qsort junc nj hq hends
  refine ⟨hp, ?_⟩
  intro k1 k2 h12 h2
  rcases Nat.eq_or_lt_of_le h12 with rfl | hlt
  · exact le_refl _
  · exact hs k1 k2 hlt h2

/-- C13, instance: three junctions with ends 500, 300, 400 get `jend = [1, 2, 0]`. -/
theorem sort_jend_sorted_perm_witness :
    sort_jend insertion_qsort mixedJunc 3 = [1, 2, 0] ∧
    (sort_jend insertion_qsort mixedJunc 3).Perm (List.range 3) ∧
    ∀ k1 k2, k1 ≤ k2 → k2 < 3 →
      (juncAt mixedJunc (jendAt (sort_jend insertion_qsort mixedJunc 3) k1)).end_
        ≤ (juncAt mixedJunc (jendAt (sort_jend insertion_qsort mixedJunc 3) k2)).end_ :=
  ⟨by decide, sort_jend_sorted_perm insertion_qsort mixedJunc 3 insertion_qsort_contract
    (by decide)⟩

/-- C14 (as stated, refuted): `compare_jend` looks at the end alone and `qsort` does
not promise an order for elements that compare equal; with a sorting routine that
keeps the `qsort` contract, two junctions with the same end 300 come out as
`jend = [1, 0]`, the later index first. -/
theorem sort_jend_unstable_example :
    QsortContract reversing_qsort ∧
    (juncAt tieJunc 0).end_ = (juncAt tieJunc 1).end_ ∧
    sort_jend reversing_qsort tieJunc 2 = [1, 0] :=
  ⟨reversing_qsort_contract, by decide, by decide⟩

/-- C14 (amended): after `sort_jend(nj)` (ends non-negative `int` values, `qsort`
keeping the C library's contract) a junction with a smaller end stands before every
junction with a larger end, so the junctions with one and the same end occupy
consecutive positions of `jend`; the order inside such a group is the one `qsort`
leaves. -/
theorem sort_jend_groups_ties (qsort : (Nat → Nat → Int) → List Nat → List Nat)
    (junc : List JuncEntry) (nj : Nat) (hq : QsortContract qsort)
    (hends : ∀ j ∈ junc, 0 ≤ j.end_ ∧ j.end_ < 2147483648) :
    (∀ k1 k2, k1 < nj → k2 < nj →
      (juncAt junc (jendAt (sort_jend qsort junc nj) k1)).end_
        < (juncAt junc (jendAt (sort_jend qsort junc nj) k2)).end_ → k1 < k2) ∧
    (∀ k1 k2 k3, k1 ≤ k2 → k2 ≤ k3 → k3 < nj →
      (juncAt junc (jendAt (sort_jend qsort junc nj) k1)).end_
        = (juncAt junc (jendAt (sort_jend qsort junc nj) k3)).end_ →
      (juncAt junc (jendAt (sort_jend qsort junc nj) k2)).end_
        = (juncAt junc (jendAt (sort_jend qsort junc nj) k1)).end_) := by
  obtain ⟨_, _, hs⟩ := sort_jend_spec qsort junc nj hq hends
  have hle : ∀ k1 k2, k1 ≤ k2 → k2 < nj →
      (juncAt junc (jendAt (sort_jend qsort junc nj) k1)).end_
        ≤ (juncAt junc (jendAt (sort_jend qsort junc nj) k2)).end_ := by
    intro k1 k2 h12 h2
    rcases Nat.eq_or_lt_of_le h12 with rfl | hlt
    · exact le_refl _
    · exact hs k1 k2 hlt h2
  refine ⟨?_, ?_⟩
  · intro k1 k2 h1 h2 hlt
    by_contra hcon
    have := hle k2 k1 (by omega) h1
    omega
  · intro k1 k2 k3 h12 h23 h3 heq
    have a := hle k1 k2 h12 (by omega)
    have b := hle k2 k3 h23 h3
    omega

/-- C14 (amended), instance: the two junctions with the same end under the routine
that reverses ties. -/
theorem sort_jend_groups_ties_witness :
    (∀ k1 k2, k1 < 2 → k2 < 2 →
      (juncAt tieJunc (jendAt (sort_jend reversing_qsort tieJunc 2) k1)).end_
        < (juncAt tieJunc (jendAt (sort_jend reversing_qsort tieJunc 2) k2)).end_ → k1 < k2) ∧
    (∀ k1 k2 k3, k1 ≤ k2 → k2 ≤ k3 → k3 < 2 →
      (juncAt tieJunc (jendAt (sort_jend reversing_qsort tieJunc 2) k1)).end_
        = (juncAt tieJunc (jendAt (sort_jend reversing_qsort tieJunc 2) k3)).end_ →
      (juncAt tieJunc (jendAt (sort_jend reversing_qsort tieJunc 2) k2)).end_
        = (juncAt tieJunc (jendAt (sort_jend reversing_qsort tieJunc 2) k1)).end_) :=
  sort_jend_groups_ties reversing_qsort tieJunc 2 reversing_qsort_contract (by decide)

/-! ## Merge termination (`get_record`) -/

/-- C16: when `get_record` finds no next position in any of the three streams
(`nextd`, `nextjs` and `nextje` are all 0 after the two skip loops), it returns with
the record buffer, the junction pool, `ib`, `id` and `prevpos` unchanged if the drop
index equals `nd` and both junction indices (as the skip loops left them) equal
`nj`, and it exits otherwise. -/
theorem get_record_idle (covg : List CovgEntry) (drop_arr : List DropEntry) (jend : List Nat)
    (nb nd nj : Nat) (st : MergeState)
    (hd : (if st.id < nd then |(dropAt drop_arr st.id).pos| else 0) = 0)
    (hs : (next_start st.junc nj (nj - st.js) st.js).2 = 0)
    (he : (next_end st.junc jend nj (nj - st.je) st.je).2 = 0) :
    ((st.id = nd ∧ (next_start st.junc nj (nj - st.js) st.js).1 = nj ∧
        (next_end st.junc jend nj (nj - st.je) st.je).1 = nj) →
      get_record covg drop_arr jend nb nd nj st = some { st with js := nj, je := nj }) ∧
    (¬ (st.id = nd ∧ (next_start st.junc nj (nj - st.js) st.js).1 = nj ∧
        (next_end st.junc jend nj (nj - st.je) st.je).1 = nj) →
      get_record covg drop_arr jend nb nd nj st = none) := by
  unfold get_record
  simp only [hd, hs, he, and_self, if_true]
  constructor
  · intro h
    rw [if_pos h, h.2.1, h.2.2]
  · intro h
    rw [if_neg h]

/-- C16, instance: one consumed drop and one retracted junction; the skip loops run
both junction indices to `nj = 1` and the call returns. -/
theorem get_record_idle_witness :
    get_record [] [⟨100, 0, 20⟩] [0] 0 1 1 idleState
      = some { idleState with js := 1, je := 1 } :=
  (get_record_idle [] [⟨100, 0, 20⟩] [0] 0 1 1 idleState (by decide)
    (by simp [idleState, next_start, juncAt])
    (by simp [idleState, next_end, juncAt, jendAt])).1
    ⟨by decide, by simp [idleState, next_start, juncAt],
      by simp [idleState, next_end, juncAt, jendAt]⟩

/-! ## The opening and the closing record -/

theorem RecHead.add_cov {p : Int} {record : List RecordEntry} (h : RecHead p record) (x : ℚ) :
    RecHead p (add_cov_to_last record x) := by
  obtain ⟨a1, a2, a3⟩ := add_cov_to_last_first record x
  refine ⟨?_, a1.trans h.2.1, a3.trans h.2.2.1, a2.trans h.2.2.2⟩
  intro hnil
  have := add_cov_to_last_length record x
  rw [hnil] at this
  exact h.1 (List.length_eq_zero.mp this.symm)

theorem RecHead.push {p : Int} {record : List RecordEntry} (h : RecHead p record)
    (l : List RecordEntry) : RecHead p (record ++ l) := by
  have h0 : recAt (record ++ l) 0 = recAt record 0 := by
    cases hrec : record with
    | nil => exact absurd hrec h.1
    | cons a rest => rfl
  refine ⟨?_, ?_, ?_, ?_⟩
  · intro hnil
    exact h.1 (List.append_eq_nil.mp hnil).1
  · rw [h0]; exact h.2.1
  · rw [h0]; exact h.2.2.1
  · rw [h0]; exact h.2.2.2

theorem RecHead.of_or {p : Int} {record rec1 : List RecordEntry} (h : RecHead p record)
    (hrec1 : rec1 = record ∨ ∃ x, rec1 = add_cov_to_last record x) : RecHead p rec1 := by
  rcases hrec1 with h1 | ⟨x, h1⟩
  · rw [h1]; exact h
  · rw [h1]; exact h.add_cov x

/-- No call of `get_record` touches the first record's type, position or
confidence. -/
theorem get_record_head (covg : List CovgEntry) (drop_arr : List DropEntry) (jend : List Nat)
    (nb nd nj : Nat) (st st2 : MergeState) (p : Int) (hh : RecHead p st.record)
    (h : get_record covg drop_arr jend nb nd nj st = some st2) : RecHead p st2.record := by
  unfold get_record at h
  simp only [] at h
  generalize next_start st.junc nj (nj - st.js) st.js = s at h
  generalize next_end st.junc jend nj (nj - st.je) st.je = e at h
  generalize (if st.id < nd then |(dropAt drop_arr st.id).pos| else 0) = nextd at h
  have hjs : RecHead p (get_record_jstart covg nb nj s.2 { st with js := s.1, je := e.1 }).record := by
    rcases get_record_jstart_cases covg nb nj s.2 { st with js := s.1, je := e.1 } with
      ⟨h1, _⟩ | h1 | ⟨rec1, junc1, r, h1, _, _, h4, _⟩
    · rw [h1]; exact hh
    · rw [h1]; exact hh
    · rw [h1]; exact (hh.of_or h4).push _
  have hje : RecHead p (get_record_jend covg jend nb nj e.2 { st with js := s.1, je := e.1 }).record := by
    rcases get_record_jend_cases covg jend nb nj e.2 { st with js := s.1, je := e.1 } with
      ⟨h1, _⟩ | h1 | ⟨rec1, junc1, r, h1, _, _, h4, _⟩
    · rw [h1]; exact hh
    · rw [h1]; exact hh
    · rw [h1]; exact (hh.of_or h4).push _
  have hdr : RecHead p (get_record_drop covg drop_arr nb nd nextd { st with js := s.1, je := e.1 }).record := by
    unfold get_record_drop
    simp only []
    obtain ⟨_, _, pushed, hp, _⟩ := push_drops_spec drop_arr nd nextd st.prevpos
      (get_cov covg nextd nextd st.ib nb).1 (nd - st.id) st.id st.junc
      (if nextd > st.prevpos + 1 then
          add_cov_to_last st.record (get_cov covg (st.prevpos + 1) (nextd - 1) st.ib nb).1
        else st.record)
    rw [hp]
    refine RecHead.push ?_ _
    split
    · exact hh.add_cov _
    · exact hh
  split_ifs at h
  all_goals first
    | (cases h; exact hh)
    | (cases h; exact hjs)
    | (cases h; exact hje)
    | (cases h; exact hdr)

theorem merge_loop_head (covg : List CovgEntry) (drop_arr : List DropEntry) (jend : List Nat)
    (nb nd nj : Nat) (p : Int) :
    ∀ (fuel : Nat) (st st2 : MergeState), RecHead p st.record →
      merge_loop covg drop_arr jend nb nd nj fuel st = some st2 → RecHead p st2.record := by
  intro fuel
  induction fuel with
  | zero =>
    intro st st2 hh h
    rw [merge_loop] at h
    split at h
    · exact absurd h (by simp)
    · cases h; exact hh
  | succ n ih =>
    intro st st2 hh h
    rw [merge_loop] at h
    split at h
    · split at h
      · exact absurd h (by simp)
      · rename_i st1 hst1
        exact ih st1 st2 (get_record_head covg drop_arr jend nb nd nj st st1 p hh hst1) h
    · cases h; exact hh

/-- The records built for the segment `[100,260]` of coverage 20 with a junction
starting on its last base. -/
theorem build_records_edge :
    build_records lateCovg edgeJunc [0] [⟨0, 0⟩] = some
      ⟨[⟨"chr1", 260, 300, 0, '+', 0⟩], [⟨100, 0, 20⟩, ⟨-260, 0, 20⟩],
        [⟨"tstart", 100, [0], 0, 20, 3180⟩, ⟨"jstart", 260, [0], 0, 20, 0⟩,
         ⟨"tend", 260, [1], 0, 20, 0⟩]⟩ := by
  have hdrop : get_drop lateCovg (process_junctions edgeJunc [0] 1) [0] [] 0 0 1 0 0 1
      = some ⟨[⟨100, 0, 20⟩, ⟨-260, 0, 20⟩], 0, 0⟩ := by
    norm_num [get_drop, lateCovg, edgeJunc, process_junctions, pj_sweep, pj_close, pj_check,
      pj_apply, covgAt, juncAt, jendAt, skip_starts_before, skip_ends_before, push_drop, win,
      smallwin]
  unfold build_records
  simp only [drop_loop, show lateCovg.length = 1 from rfl, show edgeJunc.length = 1 from rfl, hdrop]
  norm_num [lateCovg, edgeJunc, process_junctions, pj_sweep, pj_close, pj_check,
    pj_apply, covgAt, juncAt, jendAt, merge_loop, get_record, next_start, next_end, dropAt,
    less_than, get_record_jstart, get_record_jend, collect_starts, collect_ends, flank_cov,
    cursor_back, get_cov, get_cov_skip, get_cov_acc, delta_param, push_record,
    add_cov_to_last, recAt, junc_zero_all, junc_zero, prev_jend_scan, prev_jstart_scan]

/-- C17: the record sequence `process_bundle` hands to `process_records` has as its
first record a `tstart` at the first segment's start with confidence 0 and as its
last record a `tend` at the last segment's end with confidence 0, so
`process_records` does not take the exit at its top. -/
theorem build_records_open_close (covg : List CovgEntry) (junc : List JuncEntry)
    (jend : List Nat) (s_arr : List ContRegion) (b : Built)
    (h : build_records covg junc jend s_arr = some b) :
    RecHead (covgAt covg 0).start b.record ∧
    RecLast (covgAt covg (covg.length - 1)).end_ b.record ∧
    ∀ chr bundleno, ∃ p, process_records b.junc b.drop_arr b.record chr bundleno = some p := by
  unfold build_records at h
  simp only [] at h
  split at h
  · exact absurd h (by simp)
  · rename_i d hd
    split at h
    · exact absurd h (by simp)
    · rename_i st hst
      have hh0 : RecHead (covgAt covg 0).start
          (push_record [] "tstart" (covgAt covg 0).start [0] 0 (covgAt covg 0).cov 0) :=
        ⟨by simp [push_record], by simp [push_record, recAt], by simp [push_record, recAt],
          by simp [push_record, recAt]⟩
      have hh := merge_loop_head covg d.drop_arr jend covg.length (d.drop_arr.length - 1)
        junc.length (covgAt covg 0).start _ _ st hh0 hst
      simp only [Option.some.injEq] at h
      rw [← h]
      simp only []
      generalize hr1 : (if (covgAt covg (covg.length - 1)).end_ > st.prevpos + 1 then
          add_cov_to_last st.record
            (get_cov covg (st.prevpos + 1) ((covgAt covg (covg.length - 1)).end_ - 1) st.ib
              covg.length).1
        else st.record) = rec1
      have hh1 : RecHead (covgAt covg 0).start rec1 := by
        rw [← hr1]
        split
        · exact hh.add_cov _
        · exact hh
      have hlast : RecLast (covgAt covg (covg.length - 1)).end_
          (push_record rec1 "tend" (covgAt covg (covg.length - 1)).end_
            [d.drop_arr.length - 1] 0 (covgAt covg (covg.length - 1)).cov 0) := by
        unfold RecLast push_record
        have hl : (rec1 ++ [(⟨"tend", (covgAt covg (covg.length - 1)).end_,
            [d.drop_arr.length - 1], 0, (covgAt covg (covg.length - 1)).cov, 0⟩ : RecordEntry)]).length - 1
            = rec1.length := by simp
        rw [hl]
        have := recAt_append_length rec1 (⟨"tend", (covgAt covg (covg.length - 1)).end_,
            [d.drop_arr.length - 1], 0, (covgAt covg (covg.length - 1)).cov, 0⟩ : RecordEntry) []
        rw [this]
        exact ⟨rfl, rfl, rfl⟩
      refine ⟨?_, hlast, ?_⟩
      · unfold push_record
        exact hh1.push _
      · intro chr bundleno
        unfold process_records
        simp only []
        rw [if_neg (by rw [not_not]; exact hlast.1)]
        exact ⟨_, rfl⟩

/-- C17, instance: the segment `[100,260]` with a junction starting on its last
base. -/
theorem build_records_open_close_witness :
    ∃ b, build_records lateCovg edgeJunc [0] [⟨0, 0⟩] = some b ∧
      RecHead 100 b.record ∧ RecLast 260 b.record ∧
      ∀ chr bundleno, ∃ p, process_records b.junc b.drop_arr b.record chr bundleno = some p :=
  ⟨_, build_records_edge,
    build_records_open_close lateCovg edgeJunc [0] [⟨0, 0⟩] _ build_records_edge⟩

/-! ## The gate of `process_bundle` -/

/-- The drops of the spike region: a start candidate at 126 and an end candidate at
126 between the two boundary drops. -/
theorem get_drop_spike :
    (get_drop spikeCovg [] [] [] 0 2 3 0 0 0).map (fun r => (r.drop_arr, r.js, r.je))
      = some ([⟨101, 0, 20⟩, ⟨126, 25 / 132, 428 / 5⟩, ⟨-126, 26 / 133, 1070 / 13⟩,
          ⟨-275, 0, 20⟩], 0, 0) := by
  decide!

theorem merge_outcome_step (start : Int) (ts te ts2 te2 : List TmpEntry)
    (d pushed : List DropEntry) (res : Option (List DropEntry))
    (hco : Coincide ts te ↔ Coincide ts2 te2)
    (hs : ∀ s ∈ ts2, s ∈ ts) (he : ∀ e ∈ te2, e ∈ te)
    (hp : ∀ x ∈ pushed, FromCand start ts te x)
    (ih : (Coincide ts2 te2 → res = none) ∧
      (¬ Coincide ts2 te2 → ∃ new, res = some ((d ++ pushed) ++ new) ∧
        ∀ x ∈ new, FromCand start ts2 te2 x)) :
    (Coincide ts te → res = none) ∧
    (¬ Coincide ts te → ∃ new, res = some (d ++ new) ∧ ∀ x ∈ new, FromCand start ts te x) := by
  refine ⟨fun h => ih.1 (hco.mp h), fun h => ?_⟩
  obtain ⟨new, h1, h2⟩ := ih.2 (fun hc => h (hco.mpr hc))
  refine ⟨pushed ++ new, by rw [h1, List.append_assoc], ?_⟩
  intro x hx
  rcases List.mem_append.mp hx with hx | hx
  · exact hp x hx
  · rcases h2 x hx with ⟨s, m1, m2, m3⟩ | ⟨e, m1, m2, m3⟩
    · exact Or.inl ⟨s, hs s m1, m2, m3⟩
    · exact Or.inr ⟨e, he e m1, m2, m3⟩

/-- The merge loops of `get_drop` exit exactly when an active start candidate and an
active end candidate have the same scan position; otherwise they append the drops
of active candidates only. -/
theorem merge_candidates_outcome (start : Int) :
    ∀ (n : Nat) (ts te : List TmpEntry) (d : List DropEntry),
      ts.length + te.length = n →
      (ts.map (fun t => t.pos)).Pairwise (fun a b => a < b) →
      (te.map (fun t => t.pos)).Pairwise (fun a b => a < b) →
      (Coincide ts te → merge_candidates start ts te d = none) ∧
      (¬ Coincide ts te → ∃ new, merge_candidates start ts te d = some (d ++ new) ∧
        ∀ x ∈ new, FromCand start ts te x) := by
  intro n
  induction n with
  | zero =>
    intro ts te d hn _ _
    have h1 : ts = [] := List.length_eq_zero.mp (by omega)
    have h2 : te = [] := List.length_eq_zero.mp (by omega)
    subst h1 h2
    rw [merge_candidates]
    refine ⟨?_, fun _ => ⟨[], by simp, by simp⟩⟩
    rintro ⟨s, hs, _⟩
    simp at hs
  | succ n ih =>
    intro ts te d hn hts hte
    cases ts with
    | nil =>
      cases te with
      | nil => simp at hn
      | cons e es =>
        rw [merge_candidates]
        rw [List.map_cons, List.pairwise_cons] at hte
        have hco : Coincide [] (e :: es) ↔ Coincide [] es := by
          constructor <;> (rintro ⟨s, hs, _⟩; simp at hs)
        by_cases hact : e.active = true
        · rw [if_pos hact]
          exact merge_outcome_step start [] (e :: es) [] es d
            [⟨-(e.pos + start - 2), e.perc, e.cov⟩] _ hco (fun s hs => hs)
            (fun e2 he2 => List.mem_cons_of_mem _ he2)
            (fun x hx => by
              rw [List.mem_singleton.mp hx]
              exact Or.inr ⟨e, List.mem_cons_self _ _, hact, rfl⟩)
            (ih [] es _ (by simpa using hn) (by simp) hte.2)
        · rw [if_neg hact]
          have := merge_outcome_step start [] (e :: es) [] es d [] _ hco (fun s hs => hs)
            (fun e2 he2 => List.mem_cons_of_mem _ he2) (fun x hx => by simp at hx)
            (by rw [List.append_nil]; exact ih [] es d (by simpa using hn) (by simp) hte.2)
          exact this
    | cons s ss =>
      rw [List.map_cons, List.pairwise_cons] at hts
      cases te with
      | nil =>
        rw [merge_candidates]
        have hco : Coincide (s :: ss) [] ↔ Coincide ss [] := by
          constructor <;> (rintro ⟨_, _, e, he, _⟩; simp at he)
        by_cases hact : s.active = true
        · rw [if_pos hact]
          exact merge_outcome_step start (s :: ss) [] ss [] d
            [⟨s.pos + start - 1, s.perc, s.cov⟩] _ hco
            (fun s2 hs2 => List.mem_cons_of_mem _ hs2) (fun e he => he)
            (fun x hx => by
              rw [List.mem_singleton.mp hx]
              exact Or.inl ⟨s, List.mem_cons_self _ _, hact, rfl⟩)
            (ih ss [] _ (by simpa using hn) hts.2 (by simp))
        · rw [if_neg hact]
          exact merge_outcome_step start (s :: ss) [] ss [] d [] _ hco
            (fun s2 hs2 => List.mem_cons_of_mem _ hs2) (fun e he => he)
            (fun x hx => by simp at hx)
            (by rw [List.append_nil]; exact ih ss [] d (by simpa using hn) hts.2 (by simp))
      | cons e es =>
        rw [List.map_cons, List.pairwise_cons] at hte
        have hts2 : ((s :: ss).map (fun t => t.pos)).Pairwise (fun a b => a < b) := by
          rw [List.map_cons, List.pairwise_cons]; exact hts
        have hte2 : ((e :: es).map (fun t => t.pos)).Pairwise (fun a b => a < b) := by
          rw [List.map_cons, List.pairwise_cons]; exact hte
        have hlen1 : (s :: ss).length + es.length = n := by
          simp only [List.length_cons] at hn ⊢; omega
        have hlen2 : ss.length + (e :: es).length = n := by
          simp only [List.length_cons] at hn ⊢; omega
        rw [merge_candidates]
        by_cases hlt : e.pos < s.pos
        · rw [if_pos hlt]
          have hco : Coincide (s :: ss) (e :: es) ↔ Coincide (s :: ss) es := by
            constructor
            · rintro ⟨s2, hs2, e2, he2, a1, a2, a3⟩
              rcases List.mem_cons.mp he2 with rfl | he3
              · exfalso
                rcases List.mem_cons.mp hs2 with rfl | hs3
                · omega
                · have := hts.1 s2.pos (List.mem_map_of_mem _ hs3)
                  omega
              · exact ⟨s2, hs2, e2, he3, a1, a2, a3⟩
            · rintro ⟨s2, hs2, e2, he2, a⟩
              exact ⟨s2, hs2, e2, List.mem_cons_of_mem _ he2, a⟩
          by_cases hact : e.active = true
          · rw [if_pos hact]
            exact merge_outcome_step start (s :: ss) (e :: es) (s :: ss) es d
              [⟨-(e.pos + start - 2), e.perc, e.cov⟩] _ hco (fun s2 hs2 => hs2)
              (fun e2 he2 => List.mem_cons_of_mem _ he2)
              (fun x hx => by
                rw [List.mem_singleton.mp hx]
                exact Or.inr ⟨e, List.mem_cons_self _ _, hact, rfl⟩)
              (ih (s :: ss) es _ hlen1 hts2 hte.2)
          · rw [if_neg hact]
            exact merge_outcome_step start (s :: ss) (e :: es) (s :: ss) es d [] _ hco
              (fun s2 hs2 => hs2) (fun e2 he2 => List.mem_cons_of_mem _ he2)
              (fun x hx => by simp at hx)
              (by rw [List.append_nil]; exact ih (s :: ss) es d hlen1 hts2 hte.2)
        · rw [if_neg hlt]
          by_cases hact : s.active = true
          · rw [if_pos hact]
            by_cases hboth : e.active = true ∧ e.pos = s.pos
            · rw [if_pos hboth]
              refine ⟨fun _ => rfl, fun h => ?_⟩
              exact absurd ⟨s, List.mem_cons_self _ _, e, List.mem_cons_self _ _, hact,
                hboth.1, hboth.2⟩ h
            · rw [if_neg hboth]
              have hco : Coincide (s :: ss) (e :: es) ↔ Coincide ss (e :: es) := by
                constructor
                · rintro ⟨s2, hs2, e2, he2, a1, a2, a3⟩
                  rcases List.mem_cons.mp hs2 with rfl | hs3
                  · exfalso
                    rcases List.mem_cons.mp he2 with rfl | he3
                    · exact hboth ⟨a2, a3⟩
                    · have := hte.1 e2.pos (List.mem_map_of_mem _ he3)
                      omega
                  · exact ⟨s2, hs3, e2, he2, a1, a2, a3⟩
                · rintro ⟨s2, hs2, a⟩
                  exact ⟨s2, List.mem_cons_of_mem _ hs2, a⟩
              exact merge_outcome_step start (s :: ss) (e :: es) ss (e :: es) d
                [⟨s.pos + start - 1, s.perc, s.cov⟩] _ hco
                (fun s2 hs2 => List.mem_cons_of_mem _ hs2) (fun e2 he2 => he2)
                (fun x hx => by
                  rw [List.mem_singleton.mp hx]
                  exact Or.inl ⟨s, List.mem_cons_self _ _, hact, rfl⟩)
                (ih ss (e :: es) _ hlen2 hts.2 hte2)
          · rw [if_neg hact]
            have hco : Coincide (s :: ss) (e :: es) ↔ Coincide ss (e :: es) := by
              constructor
              · rintro ⟨s2, hs2, e2, he2, a1, a2, a3⟩
                rcases List.mem_cons.mp hs2 with rfl | hs3
                · exact absurd a1 hact
                · exact ⟨s2, hs3, e2, he2, a1, a2, a3⟩
              · rintro ⟨s2, hs2, a⟩
                exact ⟨s2, List.mem_cons_of_mem _ hs2, a⟩
            exact merge_outcome_step start (s :: ss) (e :: es) ss (e :: es) d [] _ hco
              (fun s2 hs2 => List.mem_cons_of_mem _ hs2) (fun e2 he2 => he2)
              (fun x hx => by simp at hx)
              (by rw [List.append_nil]; exact ih ss (e :: es) d hlen2 hts.2 hte2)
/-- C12 (as stated, refuted): on the region `[101,275]` with a one-base spike of
coverage at 126, `get_drop` returns, and between the two boundary drops it appends a
start candidate at 126 and an end candidate at -126, which have the same absolute
position. -/
theorem get_drop_coincident_example :
    (get_drop spikeCovg [] [] [] 0 2 3 0 0 0).map (fun r => r.drop_arr)
      = some [⟨101, 0, 20⟩, ⟨126, 25 / 132, 428 / 5⟩, ⟨-126, 26 / 133, 1070 / 13⟩,
          ⟨-275, 0, 20⟩] ∧
    |(126 : Int)| = |(-126 : Int)| := by
  refine ⟨?_, by decide⟩
  have h := get_drop_spike
  cases hg : get_drop spikeCovg [] [] [] 0 2 3 0 0 0 with
  | none => rw [hg] at h; simp at h
  | some r =>
    rw [hg] at h
    simp only [Option.map_some', Option.some.injEq, Prod.mk.injEq] at h ⊢
    exact h.1

/-- C12 (amended): for every contiguous region that starts at a positive
coordinate, what `get_drop` appends is the boundary start drop, candidate drops, and
the boundary end drop, and the candidate drops contain no start-polarity candidate
and end-polarity candidate of one and the same scan position (a start drop at `p`
together with an end drop at `p - 1`); whenever an active start candidate and an
active end candidate have the same scan position, `get_drop` terminates the process
instead. -/
theorem get_drop_no_coincident (covg : List CovgEntry) (junc : List JuncEntry) (jend : List Nat)
    (drop_arr : List DropEntry) (si se nb js je nj : Nat)
    (hstart : 1 ≤ (covgAt covg si).start) :
    (((covgAt covg se).end_ - (covgAt covg si).start + 1 ≥ win + smallwin ∧
        Coincide (get_drop_scan covg junc jend si se nb js je nj).tmps
          (get_drop_scan covg junc jend si se nb js je nj).tmpe) →
      get_drop covg junc jend drop_arr si se nb js je nj = none) ∧
    (∀ r, get_drop covg junc jend drop_arr si se nb js je nj = some r →
      ∃ cands, r.drop_arr = drop_arr ++ ⟨(covgAt covg si).start, 0, (covgAt covg si).cov⟩ ::
          cands ++ [⟨-(covgAt covg se).end_, 0, (covgAt covg se).cov⟩] ∧
        ∀ x ∈ cands, ∀ y ∈ cands, 0 < x.pos → y.pos < 0 → x.pos - 1 ≠ -y.pos) := by
  unfold get_drop get_drop_scan
  simp only []
  by_cases hlen : (covgAt covg se).end_ - (covgAt covg si).start + 1 ≥ win + smallwin
  · rw [if_pos hlen]
    unfold get_drop_window
    simp only []
    generalize build_arrays covg junc jend nb nj (covgAt covg si).start
      ((covgAt covg se).end_ - (covgAt covg si).start + 1).toNat 0
      ⟨si, fun _ => 0, fun _ => 0, fun _ => 0,
        skip_starts_before junc nj (covgAt covg si).start (nj - js) js,
        skip_ends_before junc jend nj (covgAt covg si).start (nj - je) je, []⟩ = b
    obtain ⟨cs, ce⟩ := scan_loop_cand b.c b.as b.ae b.jp
      ((covgAt covg se).end_ - (covgAt covg si).start + 1)
      ((covgAt covg se).end_ - (covgAt covg si).start + 1).toNat
      ⟨smallwin + 1, 0, [], [], 0, 0⟩ (le_refl _) ⟨by simp, by simp⟩ ⟨by simp, by simp⟩
    generalize scan_loop b.c b.as b.ae b.jp ((covgAt covg se).end_ - (covgAt covg si).start + 1)
      ((covgAt covg se).end_ - (covgAt covg si).start + 1).toNat
      ⟨smallwin + 1, 0, [], [], 0, 0⟩ = sc at cs ce ⊢
    obtain ⟨o1, o2⟩ := merge_candidates_outcome (covgAt covg si).start _ sc.tmps sc.tmpe
      (push_drop drop_arr (covgAt covg si).start 0 (covgAt covg si).cov) rfl cs.1 ce.1
    by_cases hc : Coincide sc.tmps sc.tmpe
    · rw [o1 hc]
      exact ⟨fun _ => rfl, fun r h => absurd h (by simp)⟩
    · obtain ⟨new, hnew, hfrom⟩ := o2 hc
      rw [hnew]
      refine ⟨fun h => absurd h.2 hc, ?_⟩
      intro r hr
      simp only [Option.some.injEq] at hr
      rw [← hr]
      refine ⟨new, by simp [push_drop], ?_⟩
      intro x hx y hy hxpos hyneg
      unfold CandOK at cs ce
      simp only [smallwin] at cs ce
      have hxs : ∃ s ∈ sc.tmps, s.active = true ∧ x.pos = s.pos + (covgAt covg si).start - 1 := by
        rcases hfrom x hx with h | ⟨e, m1, _, m3⟩
        · exact h
        · have := (ce.2 e.pos (List.mem_map_of_mem _ m1)).1
          omega
      have hye : ∃ e ∈ sc.tmpe, e.active = true ∧ y.pos = -(e.pos + (covgAt covg si).start - 2) := by
        rcases hfrom y hy with ⟨s, m1, _, m3⟩ | h
        · have := (cs.2 s.pos (List.mem_map_of_mem _ m1)).1
          omega
        · exact h
      obtain ⟨s, s1, s2, s3⟩ := hxs
      obtain ⟨e, e1, e2, e3⟩ := hye
      intro heq
      exact hc ⟨s, s1, e, e1, s2, e2, by omega⟩
  · rw [if_neg hlen]
    refine ⟨fun h => absurd h.1 hlen, ?_⟩
    intro r hr
    simp only [Option.some.injEq] at hr
    rw [← hr]
    exact ⟨[], by simp [push_drop], by simp⟩

/-- C12 (amended), instance: on the spike region `get_drop` returns; its start
candidate at 126 and its end candidate at -126 come from the scan positions 26 and
27. -/
theorem get_drop_no_coincident_witness :
    ∃ r, get_drop spikeCovg [] [] [] 0 2 3 0 0 0 = some r ∧
      ∃ cands, r.drop_arr = [] ++ ⟨101, 0, 20⟩ :: cands ++ [⟨-275, 0, 20⟩] ∧
        ∀ x ∈ cands, ∀ y ∈ cands, 0 < x.pos → y.pos < 0 → x.pos - 1 ≠ -y.pos := by
  have h := get_drop_spike
  cases hg : get_drop spikeCovg [] [] [] 0 2 3 0 0 0 with
  | none => rw [hg] at h; simp at h
  | some r =>
    exact ⟨r, rfl, (get_drop_no_coincident spikeCovg [] [] [] 0 2 3 0 0 0 (by decide)).2 r hg⟩

/-! ## The sub-bundle start index of `print_small_bundle` -/

/-- C18 (evaluation at the failing input): for the regions `[100,260]`, `[400,500]`
at coverage 20 with one junction from 259 to 400 (sorted coverage, sorted junction,
the gate passed), `process_bundle` builds six records; `process_records` retracts
the confidence-0 `tstart` at 400 because the `jend` record at 400 stands before it,
and its last call of `print_small_bundle` reaches the non-retracted confidence-0
`tend` at 500 (index 5) with `b = -1`. -/
theorem print_small_bundle_bad_close_example :
    CovgSorted gapCovg ∧ JuncSorted gapJunc ∧ GatePasses gapCovg ∧
    (build_records gapCovg gapJunc [0]
        (region_loop gapCovg gapCovg.length 0 ⟨[], -1, false, 0, 0, 0⟩).s_arr).map
      (fun b =>
        (b.record.map (fun r => (r.type, r.pos, r.change_perc)),
         (final_print_args b.junc b.drop_arr b.record "chr1" 1).2,
         (recAt (final_print_args b.junc b.drop_arr b.record "chr1" 1).1 4).pos,
         (recAt (small_state_before (final_print_args b.junc b.drop_arr b.record "chr1" 1).1
            (final_print_args b.junc b.drop_arr b.record "chr1" 1).2 6 5).record 5).pos,
         (small_state_before (final_print_args b.junc b.drop_arr b.record "chr1" 1).1
            (final_print_args b.junc b.drop_arr b.record "chr1" 1).2 6 5).b))
      = some ([("tstart", 100, 0), ("jstart", 259, 1 / 5), ("tend", 260, 0), ("jend", 400, 0),
          ("tstart", 400, 0), ("tend", 500, 0)], 0, 0, 500, -1) := by
  refine ⟨by decide, by decide, ?_, by decide!⟩
  refine ⟨by decide, 0, 0, ⟨⟨le_refl _, by decide, fun k h1 h2 => by omega⟩, Or.inl rfl,
    Or.inr (by unfold gapAfter; decide)⟩, ?_⟩
  norm_num [GoodRun, covSum, lenSum, segLen, covgAt, gapCovg, lowcov]

/-- On a contiguous region whose coverage falls to exactly 0, the scan of `get_drop`
yields an end candidate of confidence 0 at 200; `print_small_bundle` closes a
sub-bundle there and then reaches the boundary `tend` at 280 with `b = -1` and no
junction record seen (`found = 0`), the case in which the value read through `b`
decides whether records are retracted. -/
theorem print_small_bundle_bad_close_zero_cov :
    CovgSorted zeroTailCovg ∧
    (build_records zeroTailCovg [] []
        (region_loop zeroTailCovg zeroTailCovg.length 0 ⟨[], -1, false, 0, 0, 0⟩).s_arr).map
      (fun b =>
        (b.record.map (fun r => (r.type, r.pos, r.change_perc)),
         (final_print_args b.junc b.drop_arr b.record "chr1" 1).2,
         (small_state_before (final_print_args b.junc b.drop_arr b.record "chr1" 1).1
            (final_print_args b.junc b.drop_arr b.record "chr1" 1).2 3 2).b,
         (small_state_before (final_print_args b.junc b.drop_arr b.record "chr1" 1).1
            (final_print_args b.junc b.drop_arr b.record "chr1" 1).2 3 2).found))
      = some ([("tstart", 100, 0), ("tend", 200, 0), ("tend", 280, 0)], 0, -1, false) := by
  refine ⟨by decide, by decide!⟩

/-! ## Junctions with the same start in `process_junctions` -/

/-- C20 (evaluation at the failing input): on the region `[50,500]` at coverage 20,
which passes the gate of `process_bundle`, `add_junc_to_bundle` stores the three
junction lines of `keyClashLines` as the pool `[100,300]`, `[100,200]`, `[250,400]`
on one chromosome and strand with coverages 15, 15, 20, each at least `lowcov`.
The pool is sorted by start, `jend = [1, 0, 2]` sorts it by end, and the first
junction is still open when the third is scanned (300 is not before 250) with
coverages `15 < 20 < smallcov`; yet `process_junctions` leaves the first junction
at coverage 15 and sets the coverage of the second one, which ended before the
third starts, to 0: closing `[100,200]` removes the first active entry with the key
`chr1:100:+`, which is the entry of `[100,300]`. -/
theorem process_junctions_key_clash_example :
    GatePasses keyClashCovg ∧
    add_procjunc_to_bundle "chr1" 500 [] [] = (500, [], [], true) ∧
    add_junc_to_bundle "chr1" 500 [] [] keyClashLines = (500, keyClashJunc, [], []) ∧
    (∀ j ∈ keyClashJunc, lowcov ≤ j.cov) ∧
    JuncSorted keyClashJunc ∧
    sort_jend insertion_qsort keyClashJunc 3 = [1, 0, 2] ∧
    ¬ (juncAt keyClashJunc 0).end_ < (juncAt keyClashJunc 2).start ∧
    (juncAt keyClashJunc 1).end_ < (juncAt keyClashJunc 2).start ∧
    equal_strand (juncAt keyClashJunc 0).strand (juncAt keyClashJunc 2).strand = true ∧
    (juncAt keyClashJunc 0).cov < (juncAt keyClashJunc 2).cov ∧
    (juncAt keyClashJunc 2).cov < smallcov ∧
    process_junctions keyClashJunc [1, 0, 2] 3
      = [⟨"chr1", 100, 300, 15, '+', 1 / 2⟩, ⟨"chr1", 100, 200, 0, '+', 1 / 2⟩,
         ⟨"chr1", 250, 400, 20, '+', 1 / 2⟩] := by
  refine ⟨⟨by decide, 0, 0, ⟨⟨le_refl _, by decide, fun k h1 h2 => by omega⟩, Or.inl rfl,
    Or.inl rfl⟩, ?_⟩, by decide!, by decide!, by decide!, by decide, by decide, by decide,
    by decide, by decide, by decide!, by decide!, by decide!⟩
  norm_num [GoodRun, covSum, lenSum, segLen, covgAt, keyClashCovg, lowcov]

/-! ### The pairwise rule when the keys are distinct -/

theorem active_remove_keep (key : JuncKey) (a : ActiveEntry) :
    ∀ active : List ActiveEntry, a ∈ active → a.key ≠ key → a ∈ active_remove key active := by
  intro active
  induction active with
  | nil => intro h; exact absurd h (List.not_mem_nil _)
  | cons b rest ih =>
    intro h hne
    rw [active_remove]
    rcases List.mem_cons.mp h with hab | hrest
    · subst hab
      rw [if_neg hne]
      exact List.mem_cons_self _ _
    · split
      · exact hrest
      · exact List.mem_cons_of_mem _ (ih hrest hne)

theorem pj_close_keep (junc : List JuncEntry) (jend : List Nat) (nj js : Nat) (a : ActiveEntry)
    (hk : ∀ k, k < nj → (juncAt junc (jendAt jend k)).end_ < (juncAt junc js).start →
      a.key ≠ junc_key (juncAt junc (jendAt jend k))) :
    ∀ (fuel je : Nat) (active : List ActiveEntry), a ∈ active →
      a ∈ (pj_close junc jend nj js fuel je active).2 := by
  intro fuel
  induction fuel with
  | zero => intro je active h; exact h
  | succ n ih =>
    intro je active h
    rw [pj_close]
    split
    · rename_i hc
      exact ih _ _ (active_remove_keep _ a active h (hk je hc.1 hc.2))
    · exact h

theorem mark_set_mono (mark : List Bool) (k i : Nat) (h : mark.getD i false = true) :
    (mark.set k true).getD i false = true := by
  rw [List.getD_eq_getElem?_getD] at h ⊢
  rw [List.getElem?_set]
  by_cases hki : k = i
  · subst hki
    by_cases hlt : k < mark.length
    · simp [hlt]
    · have : mark[k]? = none := List.getElem?_eq_none (by omega)
      rw [this] at h
      simp at h
  · simp [hki, h]

theorem mark_set_self (mark : List Bool) (k : Nat) (hk : k < mark.length) :
    (mark.set k true).getD k false = true := by
  rw [List.getD_eq_getElem?_getD, List.getElem?_set]
  simp [hk]

theorem pj_check_length (junc : List JuncEntry) (js : Nat) :
    ∀ (active : List ActiveEntry) (mark : List Bool),
      (pj_check junc js active mark).length = mark.length := by
  intro active
  induction active with
  | nil => intro mark; rfl
  | cons a rest ih =>
    intro mark
    rw [pj_check]
    try simp only []
    rw [ih]
    split_ifs <;> simp

theorem pj_check_mono (junc : List JuncEntry) (js i : Nat) :
    ∀ (active : List ActiveEntry) (mark : List Bool), mark.getD i false = true →
      (pj_check junc js active mark).getD i false = true := by
  intro active
  induction active with
  | nil => intro mark h; exact h
  | cons a rest ih =>
    intro mark h
    rw [pj_check]
    try simp only []
    apply ih
    split_ifs
    all_goals first
      | exact h
      | exact mark_set_mono mark _ i h

/-- The check of the junction being scanned against one open junction marks the
weaker of the two when the strands are compatible and the stronger coverage is
below `smallcov`. -/
theorem pj_check_marks (junc : List JuncEntry) (js w : Nat) (a : ActiveEntry)
    (hstrand : equal_strand (juncAt junc a.idx).strand (juncAt junc js).strand = true)
    (hcov : ((juncAt junc a.idx).cov < (juncAt junc js).cov ∧ (juncAt junc js).cov < smallcov ∧
        w = a.idx) ∨
      ((juncAt junc js).cov < (juncAt junc a.idx).cov ∧ (juncAt junc a.idx).cov < smallcov ∧
        w = js)) :
    ∀ (active : List ActiveEntry) (mark : List Bool), a ∈ active → w < mark.length →
      (pj_check junc js active mark).getD w false = true := by
  intro active
  induction active with
  | nil => intro mark h; exact absurd h (List.not_mem_nil _)
  | cons b rest ih =>
    intro mark h hw
    rw [pj_check]
    try simp only []
    rcases List.mem_cons.mp h with hab | hrest
    · subst hab
      apply pj_check_mono
      rw [if_pos hstrand]
      rcases hcov with ⟨c1, c2, c3⟩ | ⟨c1, c2, c3⟩
      · rw [if_pos c1, if_pos c2, ← c3]
        exact mark_set_self mark w hw
      · rw [if_neg (not_lt.mpr (le_of_lt c1)), if_pos c1, if_pos c2, ← c3]
        exact mark_set_self mark w hw
    · apply ih _ hrest
      split_ifs <;> simp [hw]

theorem pj_sweep_mono (junc : List JuncEntry) (jend : List Nat) (nj i : Nat) :
    ∀ (fuel js je : Nat) (active : List ActiveEntry) (mark : List Bool),
      mark.getD i false = true →
      (pj_sweep junc jend nj fuel js je active mark).getD i false = true := by
  intro fuel
  induction fuel with
  | zero => intro js je active mark h; exact h
  | succ n ih =>
    intro js je active mark h
    rw [pj_sweep]
    split
    · simp only []
      exact ih _ _ _ _ (pj_check_mono junc js i _ mark h)
    · exact h

theorem pj_apply_marked (nj : Nat) (mark : List Bool) :
    ∀ (junc : List JuncEntry) (j i : Nat), i < junc.length → j + i < nj →
      mark.getD (j + i) false = true → (juncAt (pj_apply nj mark j junc) i).cov = 0 := by
  intro junc
  induction junc with
  | nil => intro j i hi; simp at hi
  | cons e rest ih =>
    intro j i hi hlt hm
    cases i with
    | zero =>
      simp only [pj_apply, juncAt, List.getD_cons_zero]
      rw [if_pos ⟨by simpa using hlt, by simpa using hm⟩]
    | succ i =>
      have := ih (j + 1) i (by simpa using hi) (by omega) (by
        rw [show j + 1 + i = j + (i + 1) by omega]; exact hm)
      simpa [pj_apply, juncAt] using this

/-- The sweep of `process_junctions` marks the weaker junction of a pair `i1 < i2`
in which the first is still open when the second is scanned, when no other junction
that gets closed has the key of the first. -/
theorem pj_sweep_marks (junc : List JuncEntry) (jend : List Nat) (nj i1 i2 w : Nat)
    (h12 : i1 < i2) (h2 : i2 < nj)
    (hsorted : ∀ i j, i ≤ j → j < nj → (juncAt junc i).start ≤ (juncAt junc j).start)
    (hopen : ¬ (juncAt junc i1).end_ < (juncAt junc i2).start)
    (hkeys : ∀ k, k < nj → junc_key (juncAt junc (jendAt jend k)) = junc_key (juncAt junc i1) →
      jendAt jend k = i1)
    (hstrand : equal_strand (juncAt junc i1).strand (juncAt junc i2).strand = true)
    (hcov : ((juncAt junc i1).cov < (juncAt junc i2).cov ∧ (juncAt junc i2).cov < smallcov ∧
        w = i1) ∨
      ((juncAt junc i2).cov < (juncAt junc i1).cov ∧ (juncAt junc i1).cov < smallcov ∧
        w = i2)) :
    ∀ (fuel js je : Nat) (active : List ActiveEntry) (mark : List Bool),
      js ≤ i2 → i2 < js + fuel → mark.length = nj →
      (i1 < js → (⟨junc_key (juncAt junc i1), i1⟩ : ActiveEntry) ∈ active) →
      (pj_sweep junc jend nj fuel js je active mark).getD w false = true := by
  have hw : w < nj := by
    rcases hcov with ⟨_, _, c⟩ | ⟨_, _, c⟩ <;> omega
  have hkeep : ∀ js, js ≤ i2 → ∀ k, k < nj →
      (juncAt junc (jendAt jend k)).end_ < (juncAt junc js).start →
      (⟨junc_key (juncAt junc i1), i1⟩ : ActiveEntry).key
        ≠ junc_key (juncAt junc (jendAt jend k)) := by
    intro js hjs k hk hend heq
    have := hkeys k hk heq.symm
    rw [this] at hend
    have := hsorted js i2 hjs h2
    omega
  intro fuel
  induction fuel with
  | zero => intro js je active mark h1 h3; omega
  | succ n ih =>
    intro js je active mark h1 h3 hlen hact
    rw [pj_sweep, if_pos (by omega)]
    try simp only []
    by_cases hjs : js = i2
    · apply pj_sweep_mono
      subst hjs
      exact pj_check_marks junc js w ⟨junc_key (juncAt junc i1), i1⟩ hstrand hcov _ mark
        (pj_close_keep junc jend nj js _ (hkeep js (le_refl _)) _ _ _ (hact h12))
        (by omega)
    · apply ih (js + 1) _ _ _ (by omega) (by omega)
      · rw [pj_check_length]; exact hlen
      · intro hlt
        by_cases hi : i1 < js
        · exact List.mem_append_left _
            (pj_close_keep junc jend nj js _ (hkeep js h1) _ _ _ (hact hi))
        · have : i1 = js := by omega
          rw [this]
          exact List.mem_append_right _ (List.mem_singleton_self _)

/-- The pairwise rule of the NoiseFilter holds for a pair in which the first
junction is still open when the second is scanned, when no junction that gets
closed shares chromosome, start and strand with the first. -/
theorem process_junctions_pairwise (junc : List JuncEntry) (jend : List Nat) (i1 i2 w : Nat)
    (h12 : i1 < i2) (h2 : i2 < junc.length)
    (hsorted : ∀ i j, i ≤ j → j < junc.length → (juncAt junc i).start ≤ (juncAt junc j).start)
    (hopen : ¬ (juncAt junc i1).end_ < (juncAt junc i2).start)
    (hkeys : ∀ k, k < junc.length →
      junc_key (juncAt junc (jendAt jend k)) = junc_key (juncAt junc i1) → jendAt jend k = i1)
    (hstrand : equal_strand (juncAt junc i1).strand (juncAt junc i2).strand = true)
    (hcov : ((juncAt junc i1).cov < (juncAt junc i2).cov ∧ (juncAt junc i2).cov < smallcov ∧
        w = i1) ∨
      ((juncAt junc i2).cov < (juncAt junc i1).cov ∧ (juncAt junc i1).cov < smallcov ∧
        w = i2)) :
    (juncAt (process_junctions junc jend junc.length) w).cov = 0 := by
  have hw : w < junc.length := by
    rcases hcov with ⟨_, _, c⟩ | ⟨_, _, c⟩ <;> omega
  unfold process_junctions
  have hm := pj_sweep_marks junc jend junc.length i1 i2 w h12 h2 hsorted hopen hkeys hstrand
    hcov junc.length 0 0 [] (List.replicate junc.length false) (Nat.zero_le _) (by omega)
    (by simp) (fun h => absurd h (Nat.not_lt_zero _))
  exact pj_apply_marked junc.length _ junc 0 w hw (by omega) (by rw [Nat.zero_add]; exact hm)

/-! ## The boundary drops of `get_drop` -/

/-- C26: the drop entries `get_drop` appends for a contiguous region begin with
`(start, 0, coverage of segment si)` and end with `(-end, 0, coverage of segment
se)`; when the region length `end - start + 1` is below `win + smallwin`,
`get_drop` returns and these two are the only entries appended. -/
theorem get_drop_boundary_drops (covg : List CovgEntry) (junc : List JuncEntry)
    (jend : List Nat) (drop_arr : List DropEntry) (si se nb js je nj : Nat) :
    (∀ r, get_drop covg junc jend drop_arr si se nb js je nj = some r →
      ∃ mid, r.drop_arr = drop_arr ++ ⟨(covgAt covg si).start, 0, (covgAt covg si).cov⟩ ::
        (mid ++ [⟨-(covgAt covg se).end_, 0, (covgAt covg se).cov⟩])) ∧
    ((covgAt covg se).end_ - (covgAt covg si).start + 1 < win + smallwin →
      ∃ r, get_drop covg junc jend drop_arr si se nb js je nj = some r ∧
        r.drop_arr = drop_arr ++ [⟨(covgAt covg si).start, 0, (covgAt covg si).cov⟩,
          ⟨-(covgAt covg se).end_, 0, (covgAt covg se).cov⟩]) := by
  constructor
  · intro r h
    unfold get_drop at h
    simp only [] at h
    split at h
    · exact absurd h (by simp)
    · rename_i w r1 hw
      cases h
      simp only [push_drop]
      split at hw
      · unfold get_drop_window at hw
        simp only [] at hw
        generalize build_arrays covg junc jend nb nj (covgAt covg si).start
          ((covgAt covg se).end_ - (covgAt covg si).start + 1).toNat 0
          ⟨si, fun _ => 0, fun _ => 0, fun _ => 0,
            skip_starts_before junc nj (covgAt covg si).start (nj - js) js,
            skip_ends_before junc jend nj (covgAt covg si).start (nj - je) je, []⟩ = b at hw
        obtain ⟨cs, ce⟩ := scan_loop_cand b.c b.as b.ae b.jp
          ((covgAt covg se).end_ - (covgAt covg si).start + 1)
          ((covgAt covg se).end_ - (covgAt covg si).start + 1).toNat
          ⟨smallwin + 1, 0, [], [], 0, 0⟩ (le_refl _) ⟨by simp, by simp⟩ ⟨by simp, by simp⟩
        generalize scan_loop b.c b.as b.ae b.jp
          ((covgAt covg se).end_ - (covgAt covg si).start + 1)
          ((covgAt covg se).end_ - (covgAt covg si).start + 1).toNat
          ⟨smallwin + 1, 0, [], [], 0, 0⟩ = sc at *
        obtain ⟨m1, m2⟩ := merge_candidates_outcome (covgAt covg si).start _ sc.tmps sc.tmpe
          (push_drop drop_arr (covgAt covg si).start 0 (covgAt covg si).cov) rfl cs.1 ce.1
        by_cases hco : Coincide sc.tmps sc.tmpe
        · rw [m1 hco] at hw
          exact absurd hw (by simp)
        · obtain ⟨new, hnew, _⟩ := m2 hco
          rw [hnew] at hw
          simp only [Option.some.injEq] at hw
          subst hw
          exact ⟨new, by simp [push_drop]⟩
      · cases hw
        exact ⟨[], by simp [push_drop]⟩
  · intro hlen
    have hnot : ¬ ((covgAt covg se).end_ - (covgAt covg si).start + 1 ≥ win + smallwin) :=
      not_le.mpr hlen
    unfold get_drop
    simp only [if_neg hnot, push_drop]
    exact ⟨_, rfl, by simp⟩

/-- C26 on the one-segment region `[100, 260]`, of length 161. -/
theorem get_drop_boundary_drops_witness :
    (covgAt lateCovg 0).end_ - (covgAt lateCovg 0).start + 1 < win + smallwin ∧
    (∃ r, get_drop lateCovg [] [] [] 0 0 1 0 0 0 = some r ∧
      r.drop_arr = [] ++ [⟨(covgAt lateCovg 0).start, 0, (covgAt lateCovg 0).cov⟩,
        ⟨-(covgAt lateCovg 0).end_, 0, (covgAt lateCovg 0).cov⟩]) ∧
    ∃ mid, ([⟨100, 0, 20⟩, ⟨-260, 0, 20⟩] : List DropEntry)
      = [] ++ ⟨(covgAt lateCovg 0).start, 0, (covgAt lateCovg 0).cov⟩ ::
        (mid ++ [⟨-(covgAt lateCovg 0).end_, 0, (covgAt lateCovg 0).cov⟩]) :=
  ⟨by decide, (get_drop_boundary_drops lateCovg [] [] [] 0 0 1 0 0 0).2 (by decide),
    (get_drop_boundary_drops lateCovg [] [] [] 0 0 1 0 0 0).1
      ⟨[⟨100, 0, 20⟩, ⟨-260, 0, 20⟩], 0, 0⟩ rfl⟩

/-! ## The percentages of `compute_perc` -/

/-- C29 does not hold as stated. For the region `[100, 275]` with coverage 100 up
to 139 and 10 after it and a junction of coverage 1 starting at 139, the first
window of the scan is `l = 1`, `i = 26`, `r = 50`: the raw sums are 2500 on the
left and 1600 on the right, the adjusted sums 2475 and 1600. `compute_perc` gives
`percl = 1600 / 2475`, the raw right sum over the adjusted left sum; the adjusted
right sum over the raw left sum is `1600 / 2500`. -/
theorem compute_perc_adjusted_over_raw_counterexample :
    sumleft 1 26 stepArrays.c = 2500 ∧
    sumlefta 1 26 stepArrays.c stepArrays.as = 2475 ∧
    sumright 50 26 stepArrays.c = 1600 ∧
    sumrighta 50 26 stepArrays.c stepArrays.ae = 1600 ∧
    (compute_perc 1 50 26 stepArrays.c stepArrays.as stepArrays.ae).percl = 64 / 99 ∧
    percl_adjusted_over_raw 1 50 26 stepArrays.c stepArrays.as stepArrays.ae = 16 / 25 ∧
    (compute_perc 1 50 26 stepArrays.c stepArrays.as stepArrays.ae).percl
      ≠ percl_adjusted_over_raw 1 50 26 stepArrays.c stepArrays.as stepArrays.ae := by
  refine ⟨by decide!, by decide!, by decide!, by decide!, by decide!, by decide!, by decide!⟩

/-- C29 (amended): for every window and all arrays, `compute_perc` sets `percl` to 1
and `avgl` to 0 unless the adjusted left sum exceeds the raw right sum, and then
`percl` is the raw right sum over the adjusted left sum and `avgl` their
difference per base of the left window; symmetrically `percr` is 1 and `avgr` 0
unless the adjusted right sum exceeds the raw left sum, and then `percr` is the raw
left sum over the adjusted right sum and `avgr` their difference over `i - l`. -/
theorem compute_perc_ratios (l r i : Int) (cov adjs adje : Int → ℚ) :
    ((compute_perc l r i cov adjs adje).percl
      = if sumlefta l i cov adjs > sumright r i cov
        then sumright r i cov / sumlefta l i cov adjs else 1) ∧
    ((compute_perc l r i cov adjs adje).avgl
      = if sumlefta l i cov adjs > sumright r i cov
        then (sumlefta l i cov adjs - sumright r i cov) / ((i - l : Int) : ℚ) else 0) ∧
    ((compute_perc l r i cov adjs adje).percr
      = if sumrighta r i cov adje > sumleft l i cov
        then sumleft l i cov / sumrighta r i cov adje else 1) ∧
    ((compute_perc l r i cov adjs adje).avgr
      = if sumrighta r i cov adje > sumleft l i cov
        then (sumrighta r i cov adje - sumleft l i cov) / ((i - l : Int) : ℚ) else 0) := by
  refine ⟨rfl, rfl, rfl, rfl⟩

/-! ## Junctions suppressed by `process_junctions` -/

/-- C21 (evaluation at the failing input): on the region `[50,500]` at coverage 20,
which passes the gate of `process_bundle`, `add_junc_to_bundle` stores the three
junction lines of `keyClashLines` as the pool `[100,300]`, `[100,200]`, `[250,400]`
on one chromosome and strand with coverages 15, 15, 20. The pool is in start
order, and with `jend = [1, 0, 2]` `process_junctions` sets the coverage of
`[100,200]` from 15 to 0, and no other junction dominates it: `[100,300]` overlaps
it with the same coverage 15, and `[250,400]`, with coverage 20, starts after it
has ended. -/
theorem process_junctions_suppresses_undominated_example :
    GatePasses keyClashCovg ∧
    add_junc_to_bundle "chr1" 500 [] [] keyClashLines = (500, keyClashJunc, [], []) ∧
    sort_jend insertion_qsort keyClashJunc 3 = [1, 0, 2] ∧
    JuncSorted keyClashJunc ∧
    (juncAt keyClashJunc 1).cov = 15 ∧
    (juncAt (process_junctions keyClashJunc [1, 0, 2] 3) 1).cov = 0 ∧
    Overlaps (juncAt keyClashJunc 1) (juncAt keyClashJunc 0) ∧
    ¬ (juncAt keyClashJunc 0).cov > (juncAt keyClashJunc 1).cov ∧
    ¬ Overlaps (juncAt keyClashJunc 1) (juncAt keyClashJunc 2) ∧
    ∀ k, k < 3 → k ≠ 1 → ¬ DominatedBy (juncAt keyClashJunc 1) (juncAt keyClashJunc k) := by
  refine ⟨⟨by decide, 0, 0, ⟨⟨le_refl _, by decide, fun k h1 h2 => by omega⟩, Or.inl rfl,
    Or.inl rfl⟩, ?_⟩, by decide!, by decide, by decide, by decide!, by decide!,
    by unfold Overlaps; decide, by decide!, by unfold Overlaps; decide, ?_⟩
  · norm_num [GoodRun, covSum, lenSum, segLen, covgAt, keyClashCovg, lowcov]
  intro k hk hne
  have h02 : k = 0 ∨ k = 2 := by omega
  rcases h02 with rfl | rfl
  · intro h
    exact absurd h.2.2.1 (by decide!)
  · intro h
    exact absurd h.1 (by unfold Overlaps; decide)

/-! ### Suppressed junctions are dominated when the keys are distinct -/

theorem equal_strand_symm (s1 s2 : Char) (h : equal_strand s1 s2 = true) :
    equal_strand s2 s1 = true := by
  unfold equal_strand at h ⊢
  by_cases h1 : s1 = s2
  · rw [if_pos h1.symm]
  · rw [if_neg h1] at h
    rw [if_neg (fun e => h1 e.symm)]
    by_cases h2 : s1 = '.' ∨ s2 = '.'
    · rw [if_pos h2.symm]
    · rw [if_neg h2] at h
      exact absurd h (by decide)

theorem active_remove_mem (key : JuncKey) (a : ActiveEntry) :
    ∀ active : List ActiveEntry, (active.map (fun b => b.key)).Nodup →
      a ∈ active_remove key active → a ∈ active ∧ a.key ≠ key := by
  intro active
  induction active with
  | nil => intro _ h; exact absurd h (List.not_mem_nil _)
  | cons b rest ih =>
    intro hnd h
    rw [active_remove] at h
    rw [List.map_cons, List.nodup_cons] at hnd
    split at h
    · rename_i hb
      refine ⟨List.mem_cons_of_mem _ h, fun e => hnd.1 ?_⟩
      rw [hb, ← e]
      exact List.mem_map_of_mem _ h
    · rename_i hb
      rcases List.mem_cons.mp h with hab | hrest
      · subst hab
        exact ⟨List.mem_cons_self _ _, hb⟩
      · exact ⟨List.mem_cons_of_mem _ (ih hnd.2 hrest).1, (ih hnd.2 hrest).2⟩

theorem active_remove_nodup (key : JuncKey) :
    ∀ active : List ActiveEntry, (active.map (fun b => b.key)).Nodup →
      ((active_remove key active).map (fun b => b.key)).Nodup := by
  intro active
  induction active with
  | nil => intro h; exact h
  | cons b rest ih =>
    intro hnd
    rw [active_remove]
    rw [List.map_cons, List.nodup_cons] at hnd
    split
    · exact hnd.2
    · rw [List.map_cons, List.nodup_cons]
      refine ⟨fun hm => hnd.1 ?_, ih hnd.2⟩
      obtain ⟨c, hc, hck⟩ := List.mem_map.mp hm
      rw [← hck]
      exact List.mem_map_of_mem _ (active_remove_mem key c rest hnd.2 hc).1

theorem pj_close_active (junc : List JuncEntry) (jend : List Nat) (nj js : Nat) :
    ∀ (fuel je : Nat) (active : List ActiveEntry), nj - je ≤ fuel →
      ActiveOK junc jend js je active →
      ActiveOK junc jend js (pj_close junc jend nj js fuel je active).1
        (pj_close junc jend nj js fuel je active).2 ∧
      ¬ ((pj_close junc jend nj js fuel je active).1 < nj ∧
        (juncAt junc (jendAt jend (pj_close junc jend nj js fuel je active).1)).end_
          < (juncAt junc js).start) := by
  intro fuel
  induction fuel with
  | zero =>
    intro je active hf h
    exact ⟨h, fun hc => by simp only [pj_close] at hc; omega⟩
  | succ n ih =>
    intro je active hf h
    rw [pj_close]
    split
    · rename_i hc
      apply ih _ _ (by omega)
      refine ⟨active_remove_nodup _ _ h.1, fun a ha => ?_⟩
      obtain ⟨hmem, hkey⟩ := active_remove_mem _ a active h.1 ha
      obtain ⟨a1, a2, a3⟩ := h.2 a hmem
      refine ⟨a1, a2, fun e he => ?_⟩
      by_cases hlt : e < je
      · exact a3 e hlt
      · have : e = je := by omega
        subst this
        intro heq
        apply hkey
        rw [a2, heq]
    · rename_i hc
      exact ⟨h, hc⟩

theorem pj_close_closed (junc : List JuncEntry) (jend : List Nat) (nj js : Nat)
    (hsorted : ∀ i j, i ≤ j → j < nj → (juncAt junc i).start ≤ (juncAt junc j).start) :
    ∀ (fuel je : Nat) (active : List ActiveEntry),
      (∀ e, e < je → (juncAt junc (jendAt jend e)).end_ < (juncAt junc js).start) →
      ∀ e, e < (pj_close junc jend nj js fuel je active).1 →
        ∀ j, js ≤ j → j < nj → (juncAt junc (jendAt jend e)).end_ < (juncAt junc j).start := by
  intro fuel
  induction fuel with
  | zero =>
    intro je active h e he j hj hjn
    have := h e he
    have := hsorted js j hj hjn
    omega
  | succ n ih =>
    intro je active h
    rw [pj_close]
    split
    · rename_i hc
      apply ih
      intro e he
      by_cases hlt : e < je
      · exact h e hlt
      · have : e = je := by omega
        subst this
        exact hc.2
    · intro e he j hj hjn
      have := h e he
      have := hsorted js j hj hjn
      omega

theorem mark_set_getD (mark : List Bool) (k w : Nat)
    (h : (mark.set k true).getD w false = true) : w = k ∨ mark.getD w false = true := by
  by_cases hkw : k = w
  · exact Or.inl hkw.symm
  · right
    rw [List.getD_eq_getElem?_getD] at h ⊢
    rw [List.getElem?_set] at h
    simpa [hkw] using h

theorem pj_check_marks_ok (junc : List JuncEntry) (nj js : Nat) (hjs : js < nj) :
    ∀ (active : List ActiveEntry) (mark : List Bool),
      (∀ a ∈ active, a.idx < js ∧ Overlaps (juncAt junc a.idx) (juncAt junc js)) →
      MarksOK junc nj mark → MarksOK junc nj (pj_check junc js active mark) := by
  intro active
  induction active with
  | nil => intro mark _ h; exact h
  | cons a rest ih =>
    intro mark hact h
    rw [pj_check]
    try simp only []
    apply ih _ (fun b hb => hact b (List.mem_cons_of_mem _ hb))
    obtain ⟨hlt, hov⟩ := hact a (List.mem_cons_self _ _)
    by_cases hs : equal_strand (juncAt junc a.idx).strand (juncAt junc js).strand = true
    · rw [if_pos hs]
      by_cases c1 : (juncAt junc js).cov > (juncAt junc a.idx).cov
      · rw [if_pos c1]
        by_cases c2 : (juncAt junc js).cov < smallcov
        · rw [if_pos c2]
          intro w hw
          rcases mark_set_getD mark _ w hw with e | e
          · subst e
            exact ⟨js, hjs, by omega, hov, hs, c1, c2⟩
          · exact h w e
        · rw [if_neg c2]; exact h
      · rw [if_neg c1]
        by_cases c3 : (juncAt junc js).cov < (juncAt junc a.idx).cov
        · rw [if_pos c3]
          by_cases c4 : (juncAt junc a.idx).cov < smallcov
          · rw [if_pos c4]
            intro w hw
            rcases mark_set_getD mark _ w hw with e | e
            · subst e
              exact ⟨a.idx, by omega, by omega, ⟨hov.2, hov.1⟩, equal_strand_symm _ _ hs, c3, c4⟩
            · exact h w e
          · rw [if_neg c4]; exact h
        · rw [if_neg c3]; exact h
    · rw [if_neg hs]; exact h

theorem pj_sweep_marks_ok (junc : List JuncEntry) (jend : List Nat) (nj : Nat)
    (hsorted : ∀ i j, i ≤ j → j < nj → (juncAt junc i).start ≤ (juncAt junc j).start)
    (hse : ∀ i, i < nj → (juncAt junc i).start ≤ (juncAt junc i).end_)
    (hkeys : ∀ i j, i < nj → j < nj → junc_key (juncAt junc i) = junc_key (juncAt junc j) →
      i = j)
    (hperm : ∀ k, k < nj → ∃ e, e < nj ∧ jendAt jend e = k)
    (hend : ∀ e1 e2, e1 ≤ e2 → e2 < nj →
      (juncAt junc (jendAt jend e1)).end_ ≤ (juncAt junc (jendAt jend e2)).end_) :
    ∀ (fuel js je : Nat) (active : List ActiveEntry) (mark : List Bool),
      ActiveOK junc jend js je active →
      (∀ e, e < je → ∀ j, js ≤ j → j < nj →
        (juncAt junc (jendAt jend e)).end_ < (juncAt junc j).start) →
      MarksOK junc nj mark →
      MarksOK junc nj (pj_sweep junc jend nj fuel js je active mark) := by
  intro fuel
  induction fuel with
  | zero => intro js je active mark _ _ h; exact h
  | succ n ih =>
    intro js je active mark hact hcl hm
    rw [pj_sweep]
    split
    · rename_i hjs
      simp only []
      obtain ⟨hc, hstop⟩ := pj_close_active junc jend nj js
        (nj - je) je active (le_refl _) hact
      have hcl2 := pj_close_closed junc jend nj js hsorted (nj - je) je active
        (fun e he => hcl e he js (le_refl _) hjs)
      have hopen : ∀ a ∈ (pj_close junc jend nj js (nj - je) je active).2,
          a.idx < js ∧ Overlaps (juncAt junc a.idx) (juncAt junc js) := by
        intro a ha
        obtain ⟨a1, a2, a3⟩ := hc.2 a ha
        refine ⟨a1, ?_⟩
        obtain ⟨e, he, hje⟩ := hperm a.idx (by omega)
        have hge : (pj_close junc jend nj js (nj - je) je active).1 ≤ e := by
          by_contra hlt
          exact a3 e (by omega) hje
        have h1 := hend _ e hge he
        rw [hje] at h1
        have h2 : ¬ (juncAt junc (jendAt jend (pj_close junc jend nj js (nj - je) je active).1)).end_
            < (juncAt junc js).start := fun hh => hstop ⟨by omega, hh⟩
        have h3 := hsorted a.idx js (le_of_lt a1) hjs
        have h4 := hse js hjs
        unfold Overlaps
        constructor <;> omega
      apply ih
      · refine ⟨?_, fun a ha => ?_⟩
        · rw [List.map_append, List.nodup_append]
          refine ⟨hc.1, by simp, ?_⟩
          intro k hk1 hk2
          obtain ⟨b, hb, hbk⟩ := List.mem_map.mp hk1
          obtain ⟨b1, b2, _⟩ := hc.2 b hb
          simp only [List.map_cons, List.map_nil, List.mem_singleton] at hk2
          rw [← hbk, b2] at hk2
          have := hkeys _ _ (by omega) hjs hk2
          omega
        · rcases List.mem_append.mp ha with h1 | h1
          · obtain ⟨a1, a2, a3⟩ := hc.2 a h1
            exact ⟨by omega, a2, a3⟩
          · rw [List.mem_singleton] at h1
            subst h1
            refine ⟨by simp, rfl, fun e he heq => ?_⟩
            simp only [] at heq
            have h5 := hcl2 e he js (le_refl _) hjs
            rw [heq] at h5
            have h6 := hse js hjs
            omega
      · intro e he j hj hjn
        exact hcl2 e he j (by omega) hjn
      · exact pj_check_marks_ok junc nj js hjs _ mark hopen hm
    · exact hm

theorem pj_apply_cov_zero (nj : Nat) (mark : List Bool) :
    ∀ (junc : List JuncEntry) (j i : Nat), i < junc.length →
      (juncAt (pj_apply nj mark j junc) i).cov = 0 →
      (juncAt junc i).cov = 0 ∨ mark.getD (j + i) false = true := by
  intro junc
  induction junc with
  | nil => intro j i hi; simp at hi
  | cons e rest ih =>
    intro j i hi h
    cases i with
    | zero =>
      simp only [pj_apply, juncAt, List.getD_cons_zero] at h ⊢
      split at h
      · rename_i hc
        exact Or.inr (by simpa using hc.2)
      · exact Or.inl h
    | succ i =>
      have := ih (j + 1) i (by simpa using hi) (by simpa [pj_apply, juncAt] using h)
      rw [show j + 1 + i = j + (i + 1) by omega] at this
      simpa [juncAt] using this

/-- When no two junctions of the pool share chromosome, start and strand, the
NoiseFilter only suppresses dominated junctions: over a start-sorted pool with
`start <= end` and an index permutation `jend` sorted by end, every junction whose
coverage `process_junctions` sets to 0 overlaps another junction of the pool that has
a compatible strand, strictly greater coverage, and coverage below `smallcov`. -/
theorem process_junctions_dominated (junc : List JuncEntry) (jend : List Nat)
    (hsorted : ∀ i j, i ≤ j → j < junc.length → (juncAt junc i).start ≤ (juncAt junc j).start)
    (hse : ∀ i, i < junc.length → (juncAt junc i).start ≤ (juncAt junc i).end_)
    (hkeys : ∀ i j, i < junc.length → j < junc.length →
      junc_key (juncAt junc i) = junc_key (juncAt junc j) → i = j)
    (hperm : ∀ k, k < junc.length → ∃ e, e < junc.length ∧ jendAt jend e = k)
    (hend : ∀ e1 e2, e1 ≤ e2 → e2 < junc.length →
      (juncAt junc (jendAt jend e1)).end_ ≤ (juncAt junc (jendAt jend e2)).end_)
    (w : Nat) (hw : w < junc.length) (hnz : (juncAt junc w).cov ≠ 0)
    (hzero : (juncAt (process_junctions junc jend junc.length) w).cov = 0) :
    ∃ k, k < junc.length ∧ k ≠ w ∧ DominatedBy (juncAt junc w) (juncAt junc k) := by
  unfold process_junctions at hzero
  rcases pj_apply_cov_zero junc.length _ junc 0 w hw hzero with h | h
  · exact absurd h hnz
  · rw [Nat.zero_add] at h
    refine pj_sweep_marks_ok junc jend junc.length hsorted hse hkeys hperm hend
      junc.length 0 0 [] (List.replicate junc.length false) ?_ ?_ ?_ w h
    · exact ⟨by simp, fun a ha => absurd ha (List.not_mem_nil _)⟩
    · intro e he; omega
    · intro v hv
      rw [List.getD_eq_getElem?_getD] at hv
      by_cases hlt : v < junc.length
      · simp [hlt] at hv
      · simp [hlt] at hv

/-- An instance of `process_junctions_dominated`: of the junctions `[100,300]`
(coverage 15) and `[150,200]` (coverage 20) the first is suppressed, and it is
dominated by the second. -/
theorem process_junctions_dominated_example :
    (juncAt (process_junctions nestedJunc [1, 0] 2) 0).cov = 0 ∧
    ∃ k, k < 2 ∧ k ≠ 0 ∧ DominatedBy (juncAt nestedJunc 0) (juncAt nestedJunc k) := by
  refine ⟨by decide!, process_junctions_dominated nestedJunc [1, 0] ?_ ?_ ?_ ?_ ?_ 0
    (by decide) (by decide!) (by decide!)⟩
  · intro i j hij hj
    have hj2 : j < 2 := hj
    interval_cases j <;> interval_cases i <;> decide
  · intro i hi
    have hi2 : i < 2 := hi
    interval_cases i <;> decide
  · intro i j hi hj
    have hi2 : i < 2 := hi
    have hj2 : j < 2 := hj
    interval_cases i <;> interval_cases j <;> decide
  · intro k hk
    have hk2 : k < 2 := hk
    interval_cases k
    · exact ⟨1, by decide, by decide⟩
    · exact ⟨0, by decide, by decide⟩
  · intro e1 e2 h12 h2
    have h22 : e2 < 2 := h2
    interval_cases e2 <;> interval_cases e1 <;> decide

/-! ## The hand-over of pending junctions (`add_procjunc_to_bundle`) -/

theorem grown_end_ge (moved : List JuncEntry) :
    ∀ b : Int, b ≤ grown_end b moved := by
  induction moved with
  | nil => intro b; exact le_refl _
  | cons e rest ih =>
    intro b
    unfold grown_end
    rw [List.foldl_cons]
    have := ih (if e.end_ > b then e.end_ else b)
    unfold grown_end at this
    refine le_trans ?_ this
    split_ifs <;> omega

/-- What the scan loop of `add_procjunc_to_bundle` computes: it passes the longest
prefix that can be handed over, and leaves the bundle end grown by that prefix. -/
theorem procjunc_scan_spec (chr : String) :
    ∀ (pending : List JuncEntry) (j : Nat) (b : Int),
      ∃ k, LongestMovable chr b pending k ∧
        procjunc_scan chr pending j b
          = (j + k, grown_end b (pending.take k), decide (k < pending.length)) := by
  intro pending
  induction pending with
  | nil =>
    intro j b
    exact ⟨0, ⟨le_refl _, fun i hi => absurd hi (Nat.not_lt_zero _),
      fun h => absurd h (by simp)⟩, by simp [procjunc_scan, grown_end]⟩
  | cons e rest ih =>
    intro j b
    rw [procjunc_scan]
    by_cases hstop : e.chrname ≠ chr ∨ e.start > b
    · rw [if_pos hstop]
      refine ⟨0, ⟨Nat.zero_le _, fun i hi => absurd hi (Nat.not_lt_zero _), fun _ => ?_⟩,
        by simp [grown_end]⟩
      simp only [List.take_zero, grown_end, List.foldl_nil, juncAt, List.getD_cons_zero, Movable]
      rintro ⟨h1, h2⟩
      rcases hstop with h | h
      · exact h h1
      · omega
    · rw [if_neg hstop]
      obtain ⟨k, ⟨k1, k2, k3⟩, hk⟩ := ih (j + 1) (if e.end_ > b then e.end_ else b)
      have hmov : Movable chr b e := by
        unfold Movable
        by_contra hcon
        apply hstop
        by_cases h1 : e.chrname = chr
        · right
          by_contra h2
          exact hcon ⟨h1, by omega⟩
        · exact Or.inl h1
      have hg : ∀ n, grown_end b ((e :: rest).take (n + 1))
          = grown_end (if e.end_ > b then e.end_ else b) (rest.take n) := by
        intro n
        simp [grown_end]
      refine ⟨k + 1, ⟨by simp only [List.length_cons]; omega, ?_, ?_⟩, ?_⟩
      · intro i hi
        cases i with
        | zero => simpa [grown_end, juncAt] using hmov
        | succ n =>
          rw [hg]
          have := k2 n (by omega)
          simpa [juncAt] using this
      · intro hlt
        rw [hg]
        have := k3 (by simp only [List.length_cons] at hlt; omega)
        simpa [juncAt] using this
      · rw [hk, hg]
        simp only [List.length_cons, Nat.add_lt_add_iff_right, Prod.mk.injEq, and_true]
        omega

/-- C28: `add_procjunc_to_bundle` appends to the junction pool, in order, exactly
the longest prefix of the pending list whose junctions are on the current
chromosome and start at or before the bundle end as it grows, leaves the remaining
pending junctions pending in their original order, leaves the bundle end raised to
the largest end among the moved junctions and never lowered, and returns 1 exactly
when the whole pending list was moved (which includes the empty list). -/
theorem add_procjunc_to_bundle_hand_over (chr : String) (bundleend : Int)
    (junc pending : List JuncEntry) :
    ∃ k, LongestMovable chr bundleend pending k ∧
      add_procjunc_to_bundle chr bundleend junc pending
        = (grown_end bundleend (pending.take k), junc ++ pending.take k, pending.drop k,
            decide (k = pending.length)) ∧
      bundleend ≤ (add_procjunc_to_bundle chr bundleend junc pending).1 := by
  obtain ⟨k, hk, hscan⟩ := procjunc_scan_spec chr pending 0 bundleend
  have hval : add_procjunc_to_bundle chr bundleend junc pending
      = (grown_end bundleend (pending.take k), junc ++ pending.take k, pending.drop k,
          decide (k = pending.length)) := by
    unfold add_procjunc_to_bundle
    by_cases hlen : pending.length = 0
    · have hnil : pending = [] := List.length_eq_zero.mp hlen
      subst hnil
      have hk0 : k = 0 := by have := hk.1; simpa using this
      subst hk0
      simp [grown_end]
    · rw [if_neg hlen]
      simp only [hscan, Nat.zero_add]
      by_cases hlt : k < pending.length
      · have hne : k ≠ pending.length := by omega
        by_cases hpos : k > 0
        · simp [hlt, hne, hpos]
        · have hk0 : k = 0 := by omega
          subst hk0
          simp [hlt, hne, grown_end]
      · have heq : k = pending.length := by have := hk.1; omega
        have hpos : k > 0 := by omega
        subst heq
        simp [hpos]
  refine ⟨k, hk, hval, ?_⟩
  rw [hval]
  exact grown_end_ge _ _

/-! ## Termination of the merge -/

/-- The branch `get_record` takes: with all three heads 0 it returns when the
streams are used up and exits otherwise; else it handles the smallest non-zero
head, a junction end before a junction start or a drop at the same position, and a
junction start before a drop at the same position. -/
theorem get_record_branch (covg : List CovgEntry) (drop_arr : List DropEntry)
    (jend : List Nat) (nb nd nj : Nat) (st : MergeState) :
    (next_drop drop_arr nd st = 0 ∧ next_js nj st = 0 ∧ next_je jend nj st = 0 ∧
      get_record covg drop_arr jend nb nd nj st
        = if st.id = nd ∧ (skip_retracted jend nj st).js = nj ∧
            (skip_retracted jend nj st).je = nj
          then some (skip_retracted jend nj st) else none) ∨
    (next_drop drop_arr nd st ≠ 0 ∧
      (next_js nj st = 0 ∨ next_drop drop_arr nd st < next_js nj st) ∧
      (next_je jend nj st = 0 ∨ next_drop drop_arr nd st < next_je jend nj st) ∧
      get_record covg drop_arr jend nb nd nj st
        = some (get_record_drop covg drop_arr nb nd (next_drop drop_arr nd st)
            (skip_retracted jend nj st))) ∨
    (next_js nj st ≠ 0 ∧
      (next_drop drop_arr nd st = 0 ∨ next_js nj st ≤ next_drop drop_arr nd st) ∧
      (next_je jend nj st = 0 ∨ next_js nj st < next_je jend nj st) ∧
      get_record covg drop_arr jend nb nd nj st
        = some (get_record_jstart covg nb nj (next_js nj st) (skip_retracted jend nj st))) ∨
    (next_je jend nj st ≠ 0 ∧
      (next_drop drop_arr nd st = 0 ∨ next_je jend nj st ≤ next_drop drop_arr nd st) ∧
      (next_js nj st = 0 ∨ next_je jend nj st ≤ next_js nj st) ∧
      get_record covg drop_arr jend nb nd nj st
        = some (get_record_jend covg jend nb nj (next_je jend nj st)
            (skip_retracted jend nj st))) := by
  unfold get_record next_drop next_js next_je skip_retracted
  simp only []
  generalize (next_start st.junc nj (nj - st.js) st.js) = s
  generalize (next_end st.junc jend nj (nj - st.je) st.je) = e
  generalize (if st.id < nd then |(dropAt drop_arr st.id).pos| else 0) = nextd
  by_cases hz : nextd = 0 ∧ s.2 = 0 ∧ e.2 = 0
  · left
    rw [if_pos hz]
    exact ⟨hz.1, hz.2.1, hz.2.2, rfl⟩
  · right
    rw [if_neg hz]
    by_cases h1 : less_than nextd s.2 = true
    · rw [if_pos h1]
      obtain ⟨a1, a2⟩ := (less_than_true_iff _ _).mp h1
      by_cases h2 : less_than nextd e.2 = true
      · rw [if_pos h2]
        obtain ⟨_, b2⟩ := (less_than_true_iff _ _).mp h2
        exact Or.inl ⟨a1, a2, b2, rfl⟩
      · rw [if_neg h2]
        have hb : ¬ (e.2 = 0 ∨ nextd < e.2) := fun hb => h2 ((less_than_true_iff _ _).mpr ⟨a1, hb⟩)
        have he0 : e.2 ≠ 0 := fun h => hb (Or.inl h)
        rw [if_pos he0]
        refine Or.inr (Or.inr ⟨he0, Or.inr (by by_contra hc; exact hb (Or.inr (by omega))), ?_, rfl⟩)
        rcases a2 with a2 | a2
        · exact Or.inl a2
        · right
          have : ¬ nextd < e.2 := fun h => hb (Or.inr h)
          omega
    · rw [if_neg h1]
      have ha : nextd = 0 ∨ ¬ (s.2 = 0 ∨ nextd < s.2) := by
        by_cases hd : nextd = 0
        · exact Or.inl hd
        · exact Or.inr (fun hb => h1 ((less_than_true_iff _ _).mpr ⟨hd, hb⟩))
      by_cases h2 : less_than s.2 e.2 = true
      · rw [if_pos h2]
        obtain ⟨b1, b2⟩ := (less_than_true_iff _ _).mp h2
        refine Or.inr (Or.inl ⟨b1, ?_, b2, rfl⟩)
        rcases ha with ha | ha
        · exact Or.inl ha
        · right
          have : ¬ nextd < s.2 := fun h => ha (Or.inr h)
          omega
      · rw [if_neg h2]
        have hb : s.2 = 0 ∨ ¬ (e.2 = 0 ∨ s.2 < e.2) := by
          by_cases hs : s.2 = 0
          · exact Or.inl hs
          · exact Or.inr (fun hb => h2 ((less_than_true_iff _ _).mpr ⟨hs, hb⟩))
        have he0 : e.2 ≠ 0 := by
          intro he
          rcases hb with hb | hb
          · rcases ha with ha | ha
            · exact hz ⟨ha, hb, he⟩
            · exact ha (Or.inl hb)
          · exact hb (Or.inl he)
        rw [if_pos he0]
        refine Or.inr (Or.inr ⟨he0, ?_, ?_, rfl⟩)
        · rcases ha with ha | ha
          · exact Or.inl ha
          · right
            have h3 : ¬ nextd < s.2 := fun h => ha (Or.inr h)
            have h4 : s.2 ≠ 0 := fun h => ha (Or.inl h)
            rcases hb with hb | hb
            · exact absurd hb h4
            · have : ¬ s.2 < e.2 := fun h => hb (Or.inr h)
              omega
        · rcases hb with hb | hb
          · exact Or.inl hb
          · right
            have : ¬ s.2 < e.2 := fun h => hb (Or.inr h)
            omega
theorem push_drops_le (drop_arr : List DropEntry) (nd : Nat) (nextd prevpos : Int)
    (pos_cov : ℚ) :
    ∀ (fuel id : Nat) (junc : List JuncEntry) (record : List RecordEntry), id ≤ nd →
      (push_drops drop_arr nd nextd prevpos pos_cov fuel id junc record).1 ≤ nd := by
  intro fuel
  induction fuel with
  | zero => intro id junc record h; simpa [push_drops] using h
  | succ n ih =>
    intro id junc record h
    rw [push_drops]
    split
    · rename_i hc
      exact ih (id + 1) _ _ (by omega)
    · exact h

theorem collect_ends_le (junc : List JuncEntry) (jend : List Nat) (nj : Nat) (p : Int) :
    ∀ (fuel je : Nat) (tmpr : List Nat) (count : ℚ), je ≤ nj →
      (collect_ends junc jend nj p fuel je tmpr count).1 ≤ nj := by
  intro fuel
  induction fuel with
  | zero => intro je tmpr count h; simpa [collect_ends] using h
  | succ n ih =>
    intro je tmpr count h
    rw [collect_ends]
    split
    · rename_i hc
      split
      · exact ih (je + 1) _ _ (by omega)
      · exact ih (je + 1) _ _ (by omega)
    · exact h

theorem collect_starts_le (junc : List JuncEntry) (nj : Nat) (p : Int) :
    ∀ (fuel js : Nat) (tmpr : List Nat) (count : ℚ), js ≤ nj →
      (collect_starts junc nj p fuel js tmpr count).1 ≤ nj := by
  intro fuel
  induction fuel with
  | zero => intro js tmpr count h; simpa [collect_starts] using h
  | succ n ih =>
    intro js tmpr count h
    rw [collect_starts]
    split
    · rename_i hc
      split
      · exact ih (js + 1) _ _ (by omega)
      · exact ih (js + 1) _ _ (by omega)
    · exact h

/-- A live junction lies inside the pool. -/
theorem live_lt_length (junc : List JuncEntry) (j : Nat) (h : (juncAt junc j).cov > 0) :
    j < junc.length := by
  by_contra hcon
  have : junc[j]? = none := List.getElem?_eq_none (by omega)
  unfold juncAt at h
  rw [List.getD_eq_getElem?_getD, this] at h
  exact absurd h (by simp [default])

/-- The heads of the three streams are at existing events, and are non-zero while
their stream is not used up, when no position is 0. -/
theorem heads_spec (drop_arr : List DropEntry) (jend : List Nat) (nd nj : Nat)
    (st : MergeState) :
    st.js ≤ (skip_retracted jend nj st).js ∧ st.je ≤ (skip_retracted jend nj st).je ∧
    (st.js ≤ nj → (skip_retracted jend nj st).js ≤ nj) ∧
    (st.je ≤ nj → (skip_retracted jend nj st).je ≤ nj) ∧
    (next_drop drop_arr nd st ≠ 0 →
      st.id < nd ∧ |(dropAt drop_arr st.id).pos| = next_drop drop_arr nd st) ∧
    (next_js nj st ≠ 0 → (skip_retracted jend nj st).js < nj ∧
      (juncAt st.junc (skip_retracted jend nj st).js).cov > 0 ∧
      (juncAt st.junc (skip_retracted jend nj st).js).start = next_js nj st) ∧
    (next_je jend nj st ≠ 0 → (skip_retracted jend nj st).je < nj ∧
      (juncAt st.junc (jendAt jend (skip_retracted jend nj st).je)).cov > 0 ∧
      (juncAt st.junc (jendAt jend (skip_retracted jend nj st).je)).end_ = next_je jend nj st) ∧
    (NonzeroPositions drop_arr nd st.junc →
      (next_drop drop_arr nd st = 0 → ¬ st.id < nd) ∧
      (next_js nj st = 0 → ¬ (skip_retracted jend nj st).js < nj) ∧
      (next_je jend nj st = 0 → ¬ (skip_retracted jend nj st).je < nj)) := by
  obtain ⟨s1, _, s3, s4, s5⟩ := next_start_spec st.junc nj (nj - st.js) st.js rfl
  obtain ⟨e1, _, e3, e4, e5⟩ := next_end_spec st.junc jend nj (nj - st.je) st.je rfl
  unfold skip_retracted next_drop next_js next_je
  simp only []
  refine ⟨s1, e1, s5, e5, ?_, ?_, ?_, ?_⟩
  · intro h0
    by_cases hid : st.id < nd
    · rw [if_pos hid]
      exact ⟨hid, rfl⟩
    · rw [if_neg hid] at h0
      exact absurd rfl h0
  · intro h0
    by_cases hlt : (next_start st.junc nj (nj - st.js) st.js).1 < nj
    · exact ⟨hlt, (s3 hlt).1, (s3 hlt).2.symm⟩
    · exact absurd (s4 hlt) h0
  · intro h0
    by_cases hlt : (next_end st.junc jend nj (nj - st.je) st.je).1 < nj
    · exact ⟨hlt, (e3 hlt).1, (e3 hlt).2.symm⟩
    · exact absurd (e4 hlt) h0
  · rintro ⟨hd, hj⟩
    refine ⟨?_, ?_, ?_⟩
    · intro h0 hid
      rw [if_pos hid] at h0
      exact hd st.id hid (abs_eq_zero.mp h0)
    · intro h0 hlt
      obtain ⟨l1, l2⟩ := s3 hlt
      rw [h0] at l2
      exact (hj _ (live_lt_length _ _ l1)).1 l2.symm
    · intro h0 hlt
      obtain ⟨l1, l2⟩ := e3 hlt
      rw [h0] at l2
      exact (hj _ (live_lt_length _ _ l1)).2 l2.symm

/-- A call of `get_record` only retracts junctions. -/
theorem get_record_retracts (covg : List CovgEntry) (drop_arr : List DropEntry)
    (jend : List Nat) (nb nd nj : Nat) (st st2 : MergeState)
    (h : get_record covg drop_arr jend nb nd nj st = some st2) :
    Retracts st.junc st2.junc := by
  rcases get_record_branch covg drop_arr jend nb nd nj st with
    ⟨_, _, _, hg⟩ | ⟨_, _, _, hg⟩ | ⟨_, _, _, hg⟩ | ⟨_, _, _, hg⟩
  · rw [hg] at h
    split at h
    · cases h
      exact Retracts.refl _
    · exact absurd h (by simp)
  · rw [hg] at h
    cases h
    unfold get_record_drop
    simp only []
    exact (push_drops_spec drop_arr nd _ _ _ _ _ _ _).2.1
  · rw [hg] at h
    cases h
    rcases get_record_jstart_cases covg nb nj (next_js nj st) (skip_retracted jend nj st) with
      ⟨heq, _⟩ | heq | ⟨rec1, junc1, r, heq, _, _, _, hretr, _⟩
    · rw [heq]; exact Retracts.refl _
    · rw [heq]; exact junc_zero_all_retracts _ _
    · rw [heq]; exact hretr
  · rw [hg] at h
    cases h
    rcases get_record_jend_cases covg jend nb nj (next_je jend nj st)
        (skip_retracted jend nj st) with
      ⟨heq, _⟩ | heq | ⟨rec1, junc1, r, heq, _, _, _, hretr, _⟩
    · rw [heq]; exact Retracts.refl _
    · rw [heq]; exact junc_zero_all_retracts _ _
    · rw [heq]; exact hretr

theorem nonzeroPositions_retracts {drop_arr : List DropEntry} {nd : Nat}
    {a b : List JuncEntry} (h : NonzeroPositions drop_arr nd a) (hr : Retracts a b) :
    NonzeroPositions drop_arr nd b := by
  refine ⟨h.1, fun j hj => ?_⟩
  rw [(hr.2 j).1, (hr.2 j).2.1]
  exact h.2 j (by rw [hr.1]; exact hj)

/-- With no position at 0 and the three indices within their bounds, a call of
`get_record` made while an index is below its bound returns, keeps the indices
within their bounds, and increases their sum. -/
theorem get_record_advances (covg : List CovgEntry) (drop_arr : List DropEntry)
    (jend : List Nat) (nb nd nj : Nat) (st : MergeState)
    (hnz : NonzeroPositions drop_arr nd st.junc)
    (hid : st.id ≤ nd) (hjs : st.js ≤ nj) (hje : st.je ≤ nj)
    (hc : st.id < nd ∨ st.js < nj ∨ st.je < nj) :
    ∃ st2, get_record covg drop_arr jend nb nd nj st = some st2 ∧
      st.id + st.js + st.je < st2.id + st2.js + st2.je ∧
      st2.id ≤ nd ∧ st2.js ≤ nj ∧ st2.je ≤ nj ∧ NonzeroPositions drop_arr nd st2.junc := by
  obtain ⟨k1, k2, k3, k4, HD, HS, HE, hz⟩ := heads_spec drop_arr jend nd nj st
  obtain ⟨z1, z2, z3⟩ := hz hnz
  have key : ∀ st2, get_record covg drop_arr jend nb nd nj st = some st2 →
      st.id + st.js + st.je < st2.id + st2.js + st2.je →
      st2.id ≤ nd → st2.js ≤ nj → st2.je ≤ nj →
      ∃ st2, get_record covg drop_arr jend nb nd nj st = some st2 ∧
        st.id + st.js + st.je < st2.id + st2.js + st2.je ∧
        st2.id ≤ nd ∧ st2.js ≤ nj ∧ st2.je ≤ nj ∧ NonzeroPositions drop_arr nd st2.junc :=
    fun st2 h a b c d =>
      ⟨st2, h, a, b, c, d, nonzeroPositions_retracts hnz (get_record_retracts _ _ _ _ _ _ _ _ h)⟩
  have k3 := k3 hjs
  have k4 := k4 hje
  rcases get_record_branch covg drop_arr jend nb nd nj st with
    ⟨h1, h2, h3, hg⟩ | ⟨h1, _, _, hg⟩ | ⟨h1, _, _, hg⟩ | ⟨h1, _, _, hg⟩
  · have a1 := z1 h1
    have a2 := z2 h2
    have a3 := z3 h3
    have hex : st.id = nd ∧ (skip_retracted jend nj st).js = nj ∧
        (skip_retracted jend nj st).je = nj := ⟨by omega, by omega, by omega⟩
    rw [if_pos hex] at hg
    refine key _ hg ?_ (by simp only [skip_retracted]; omega) k3 k4
    have e1 : (skip_retracted jend nj st).id = st.id := rfl
    omega
  · obtain ⟨d1, d2⟩ := HD h1
    have adv := push_drops_advance drop_arr nd (next_drop drop_arr nd st) st.prevpos
      (get_cov covg (next_drop drop_arr nd st) (next_drop drop_arr nd st) st.ib nb).1 st.id
      st.junc
      (if next_drop drop_arr nd st > st.prevpos + 1 then
        add_cov_to_last st.record
          (get_cov covg (st.prevpos + 1) (next_drop drop_arr nd st - 1) st.ib nb).1
      else st.record) d1 d2
    have le := push_drops_le drop_arr nd (next_drop drop_arr nd st) st.prevpos
      (get_cov covg (next_drop drop_arr nd st) (next_drop drop_arr nd st) st.ib nb).1
      (nd - st.id) st.id st.junc
      (if next_drop drop_arr nd st > st.prevpos + 1 then
        add_cov_to_last st.record
          (get_cov covg (st.prevpos + 1) (next_drop drop_arr nd st - 1) st.ib nb).1
      else st.record) hid
    refine key _ hg ?_ ?_ ?_ ?_
    · unfold get_record_drop
      simp only [skip_retracted] at k1 k2 ⊢
      omega
    · unfold get_record_drop
      simp only [skip_retracted]
      exact le
    · exact k3
    · exact k4
  · obtain ⟨a1, _, a2⟩ := HS h1
    obtain ⟨f1, f2, f3, _, _⟩ := get_record_jstart_frame covg nb nj (next_js nj st)
      (skip_retracted jend nj st)
    have adv := collect_starts_advance st.junc nj (next_js nj st) _ [] 0 a1 a2
    have le := collect_starts_le st.junc nj (next_js nj st)
      (nj - (skip_retracted jend nj st).js) (skip_retracted jend nj st).js [] 0 k3
    have e1 : (skip_retracted jend nj st).id = st.id := rfl
    have e2 : (skip_retracted jend nj st).junc = st.junc := rfl
    rw [e2] at f3
    refine key _ hg ?_ ?_ ?_ ?_
    · rw [f1, f2, f3]; omega
    · rw [f1]; omega
    · rw [f3]; exact le
    · rw [f2]; exact k4
  · obtain ⟨a1, _, a2⟩ := HE h1
    obtain ⟨f1, f2, f3, _, _⟩ := get_record_jend_frame covg jend nb nj (next_je jend nj st)
      (skip_retracted jend nj st)
    have adv := collect_ends_advance st.junc jend nj (next_je jend nj st) _ [] 0 a1 a2
    have le := collect_ends_le st.junc jend nj (next_je jend nj st)
      (nj - (skip_retracted jend nj st).je) (skip_retracted jend nj st).je [] 0 k4
    have e1 : (skip_retracted jend nj st).id = st.id := rfl
    have e2 : (skip_retracted jend nj st).junc = st.junc := rfl
    rw [e2] at f3
    refine key _ hg ?_ ?_ ?_ ?_
    · rw [f1, f2, f3]; omega
    · rw [f1]; omega
    · rw [f2]; exact k3
    · rw [f3]; exact le
/-- The merge loop returns with all three streams used up when its bound is at
least the number of events still to consume. -/
theorem merge_loop_returns (covg : List CovgEntry) (drop_arr : List DropEntry)
    (jend : List Nat) (nb nd nj : Nat) :
    ∀ (fuel : Nat) (st : MergeState), NonzeroPositions drop_arr nd st.junc →
      st.id ≤ nd → st.js ≤ nj → st.je ≤ nj →
      nd + nj + nj ≤ fuel + (st.id + st.js + st.je) →
      ∃ st2, merge_loop covg drop_arr jend nb nd nj fuel st = some st2 ∧
        st2.id = nd ∧ st2.js = nj ∧ st2.je = nj := by
  intro fuel
  induction fuel with
  | zero =>
    intro st _ h1 h2 h3 hm
    have hc : ¬ (st.id < nd ∨ st.js < nj ∨ st.je < nj) := by omega
    rw [merge_loop, if_neg hc]
    exact ⟨st, rfl, by omega, by omega, by omega⟩
  | succ n ih =>
    intro st hnz h1 h2 h3 hm
    rw [merge_loop]
    by_cases hc : st.id < nd ∨ st.js < nj ∨ st.je < nj
    · rw [if_pos hc]
      obtain ⟨st2, hg, hsum, b1, b2, b3, hnz2⟩ :=
        get_record_advances covg drop_arr jend nb nd nj st hnz h1 h2 h3 hc
      rw [hg]
      exact ih st2 hnz2 b1 b2 b3 (by omega)
    · rw [if_neg hc]
      exact ⟨st, rfl, by omega, by omega, by omega⟩

/-- C30: when no drop position and no junction start or end is 0, every call of
`get_record` made with the indices within their bounds and one of them below its
bound returns (it does not reach `exit(1)`), strictly increases `id + js + je`, and
leaves the indices within their bounds; so the merge loop of `process_bundle`,
which starts at `id = 1`, `js = je = 0`, ends with all three streams used up
within `(nd - 1) + 2 * nj` calls. -/
theorem merge_terminates (covg : List CovgEntry) (drop_arr : List DropEntry)
    (jend : List Nat) (nb nd nj : Nat) (junc : List JuncEntry)
    (hnz : NonzeroPositions drop_arr nd junc) (hnd : 1 ≤ nd) :
    (∀ st : MergeState, NonzeroPositions drop_arr nd st.junc →
      st.id ≤ nd → st.js ≤ nj → st.je ≤ nj → (st.id < nd ∨ st.js < nj ∨ st.je < nj) →
      ∃ st2, get_record covg drop_arr jend nb nd nj st = some st2 ∧
        st.id + st.js + st.je < st2.id + st2.js + st2.je ∧
        st2.id ≤ nd ∧ st2.js ≤ nj ∧ st2.je ≤ nj ∧ NonzeroPositions drop_arr nd st2.junc) ∧
    ∀ (ib : Nat) (prevpos : Int) (record : List RecordEntry),
      ∃ st2, merge_loop covg drop_arr jend nb nd nj ((nd - 1) + 2 * nj)
          ⟨ib, 1, 0, 0, prevpos, junc, record⟩ = some st2 ∧
        st2.id = nd ∧ st2.js = nj ∧ st2.je = nj := by
  refine ⟨fun st h0 h1 h2 h3 hc =>
    get_record_advances covg drop_arr jend nb nd nj st h0 h1 h2 h3 hc, ?_⟩
  intro ib prevpos record
  exact merge_loop_returns covg drop_arr jend nb nd nj _ ⟨ib, 1, 0, 0, prevpos, junc, record⟩
    hnz hnd (Nat.zero_le _) (Nat.zero_le _) (by simp only []; omega)

theorem tie_nonzero :
    NonzeroPositions tieDrops 2 [⟨"chr1", 200, 300, 60, '+', 0⟩] := by
  refine ⟨fun k hk => ?_, fun j hj => ?_⟩
  · have : k = 0 ∨ k = 1 := by omega
    rcases this with rfl | rfl <;> decide
  · have : j = 0 := by simpa using hj
    subst this
    decide

/-- C30 on the region `[100, 400]` with the drops at 100, 200 and 400 and one
junction from 200 to 300: three calls are enough. -/
theorem merge_terminates_witness :
    NonzeroPositions tieDrops 2 [⟨"chr1", 200, 300, 60, '+', 0⟩] ∧ 1 ≤ 2 ∧
    ∃ st2, merge_loop tieCovg tieDrops [0] 2 2 1 ((2 - 1) + 2 * 1)
          ⟨0, 1, 0, 0, 100, [⟨"chr1", 200, 300, 60, '+', 0⟩],
            [⟨"tstart", 100, [0], 0, 20, 0⟩]⟩ = some st2 ∧
        st2.id = 2 ∧ st2.js = 1 ∧ st2.je = 1 :=
  ⟨tie_nonzero, by decide,
    (merge_terminates tieCovg tieDrops [0] 2 2 1 [⟨"chr1", 200, 300, 60, '+', 0⟩]
      tie_nonzero (by decide)).2 0 100 [⟨"tstart", 100, [0], 0, 20, 0⟩]⟩

/-! ## The outcome of a junction event -/

theorem junc_zero_all_not_mem (indices : List Nat) :
    ∀ (junc : List JuncEntry) (j : Nat), j ∉ indices →
      juncAt (junc_zero_all junc indices) j = juncAt junc j := by
  induction indices with
  | nil => intro junc j _; rfl
  | cons a rest ih =>
    intro junc j hj
    have h1 : j ≠ a := fun h => hj (h ▸ List.mem_cons_self _ _)
    have h2 : j ∉ rest := fun h => hj (List.mem_cons_of_mem _ h)
    show juncAt (junc_zero_all (junc_zero junc a) rest) j = juncAt junc j
    rw [ih (junc_zero junc a) j h2]
    unfold junc_zero
    rw [juncAt_set, if_neg (fun h => h1 h.1.symm)]

/-- The group loop of the `jstart` branch collects exactly the live junctions among
those it passes, all of which start at `p`, and stops at the first junction that
does not start at `p`. -/
theorem collect_starts_group (junc : List JuncEntry) (nj : Nat) (p : Int) :
    ∀ (fuel js : Nat) (tmpr : List Nat) (count : ℚ), fuel = nj - js →
      (collect_starts junc nj p fuel js tmpr count).2.1
        = tmpr ++ live_of junc
            (List.range' js ((collect_starts junc nj p fuel js tmpr count).1 - js)) ∧
      ((collect_starts junc nj p fuel js tmpr count).1 < nj →
        (juncAt junc (collect_starts junc nj p fuel js tmpr count).1).start ≠ p) := by
  intro fuel
  induction fuel with
  | zero =>
    intro js tmpr count hf
    simp only [collect_starts, Nat.sub_self, List.range'_zero, live_of, List.filter_nil,
      List.append_nil, true_and]
    intro h
    omega
  | succ n ih =>
    intro js tmpr count hf
    rw [collect_starts]
    have hge := collect_starts_ge junc nj p n (js + 1)
    split
    · rename_i hc
      split
      · rename_i hlive
        obtain ⟨h1, h2⟩ := ih (js + 1) (tmpr ++ [js]) (count + (juncAt junc js).cov) (by omega)
        refine ⟨?_, h2⟩
        rw [h1]
        have hg := hge (tmpr ++ [js]) (count + (juncAt junc js).cov)
        obtain ⟨m, hm⟩ : ∃ m, (collect_starts junc nj p n (js + 1) (tmpr ++ [js])
            (count + (juncAt junc js).cov)).1 - js = m + 1 := ⟨(collect_starts junc nj p n (js + 1) (tmpr ++ [js])
            (count + (juncAt junc js).cov)).1 - js - 1, by omega⟩
        have hm2 : (collect_starts junc nj p n (js + 1) (tmpr ++ [js])
            (count + (juncAt junc js).cov)).1 - (js + 1) = m := by omega
        rw [hm, hm2, List.range'_succ]
        simp [live_of, List.filter_cons, hlive]
      · rename_i hdead
        obtain ⟨h1, h2⟩ := ih (js + 1) tmpr count (by omega)
        refine ⟨?_, h2⟩
        rw [h1]
        have hg := hge tmpr count
        obtain ⟨m, hm⟩ : ∃ m, (collect_starts junc nj p n (js + 1) tmpr count).1 - js = m + 1 :=
          ⟨(collect_starts junc nj p n (js + 1) tmpr count).1 - js - 1, by omega⟩
        have hm2 : (collect_starts junc nj p n (js + 1) tmpr count).1 - (js + 1) = m := by omega
        rw [hm, hm2, List.range'_succ]
        simp [live_of, List.filter_cons, hdead]
    · rename_i hc
      simp only [Nat.sub_self, List.range'_zero, live_of, List.filter_nil, List.append_nil,
        true_and]
      intro hlt heq
      exact hc ⟨hlt, heq⟩

/-- The group loop of the `jend` branches collects exactly the live junctions among
those it passes, all of which end at `p`, and stops at the first junction in end
order that does not end at `p`. -/
theorem collect_ends_group (junc : List JuncEntry) (jend : List Nat) (nj : Nat) (p : Int) :
    ∀ (fuel je : Nat) (tmpr : List Nat) (count : ℚ), fuel = nj - je →
      (collect_ends junc jend nj p fuel je tmpr count).2.1
        = tmpr ++ live_of junc
            ((List.range' je ((collect_ends junc jend nj p fuel je tmpr count).1 - je)).map
              (jendAt jend)) ∧
      (∀ k, je ≤ k → k < (collect_ends junc jend nj p fuel je tmpr count).1 →
        (juncAt junc (jendAt jend k)).end_ = p) ∧
      ((collect_ends junc jend nj p fuel je tmpr count).1 < nj →
        (juncAt junc (jendAt jend (collect_ends junc jend nj p fuel je tmpr count).1)).end_
          ≠ p) := by
  intro fuel
  induction fuel with
  | zero =>
    intro je tmpr count hf
    simp only [collect_ends, Nat.sub_self, List.range'_zero, live_of, List.map_nil,
      List.filter_nil, List.append_nil, true_and]
    exact ⟨fun k h1 h2 => absurd h2 (by omega), fun h => by omega⟩
  | succ n ih =>
    intro je tmpr count hf
    rw [collect_ends]
    have hge := collect_ends_ge junc jend nj p n (je + 1)
    split
    · rename_i hc
      split
      · rename_i hlive
        obtain ⟨h1, h2, h3⟩ := ih (je + 1) (tmpr ++ [jendAt jend je])
          (count + (juncAt junc (jendAt jend je)).cov) (by omega)
        refine ⟨?_, ?_, h3⟩
        · rw [h1]
          have hg := hge (tmpr ++ [jendAt jend je]) (count + (juncAt junc (jendAt jend je)).cov)
          obtain ⟨m, hm⟩ : ∃ m, (collect_ends junc jend nj p n (je + 1) (tmpr ++ [jendAt jend je])
              (count + (juncAt junc (jendAt jend je)).cov)).1 - je = m + 1 := ⟨(collect_ends junc jend nj p n (je + 1) (tmpr ++ [jendAt jend je])
              (count + (juncAt junc (jendAt jend je)).cov)).1 - je - 1, by omega⟩
          have hm2 : (collect_ends junc jend nj p n (je + 1) (tmpr ++ [jendAt jend je])
              (count + (juncAt junc (jendAt jend je)).cov)).1 - (je + 1) = m := by omega
          rw [hm, hm2, List.range'_succ]
          simp [live_of, List.filter_cons, hlive]
        · intro k hk1 hk2
          rcases Nat.eq_or_lt_of_le hk1 with rfl | hl
          · exact hc.2
          · exact h2 k hl hk2
      · rename_i hdead
        obtain ⟨h1, h2, h3⟩ := ih (je + 1) tmpr count (by omega)
        refine ⟨?_, ?_, h3⟩
        · rw [h1]
          have hg := hge tmpr count
          obtain ⟨m, hm⟩ : ∃ m, (collect_ends junc jend nj p n (je + 1) tmpr count).1 - je = m + 1 := ⟨(collect_ends junc jend nj p n (je + 1) tmpr count).1 - je - 1, by omega⟩
          have hm2 : (collect_ends junc jend nj p n (je + 1) tmpr count).1 - (je + 1) = m := by
            omega
          rw [hm, hm2, List.range'_succ]
          simp [live_of, List.filter_cons, hdead]
        · intro k hk1 hk2
          rcases Nat.eq_or_lt_of_le hk1 with rfl | hl
          · exact hc.2
          · exact h2 k hl hk2
    · rename_i hc
      simp only [Nat.sub_self, List.range'_zero, live_of, List.map_nil, List.filter_nil,
        List.append_nil, true_and]
      exact ⟨fun k h1 h2 => absurd h2 (by omega), fun hlt heq => hc ⟨hlt, heq⟩⟩

/-- The backward scan of the `jstart` branch leaves in `prevjstart`, when
`prevcount` is not 0, the index of a `jstart` record at `p - 1`. -/
theorem prev_jstart_scan_match (junc : List JuncEntry) (record : List RecordEntry) (p : Int) :
    ∀ (n : Nat) (s : StartScan), n ≤ record.length →
      (s.prevcount ≠ 0 → s.prevjstart < record.length ∧
        (recAt record s.prevjstart).pos = p - 1 ∧ (recAt record s.prevjstart).type = "jstart") →
      ((prev_jstart_scan junc record p n s).prevcount ≠ 0 →
        (prev_jstart_scan junc record p n s).prevjstart < record.length ∧
        (recAt record (prev_jstart_scan junc record p n s).prevjstart).pos = p - 1 ∧
        (recAt record (prev_jstart_scan junc record p n s).prevjstart).type = "jstart") := by
  intro n
  induction n with
  | zero => intro s _ h; simpa [prev_jstart_scan] using h
  | succ i ih =>
    intro s hn h
    rw [prev_jstart_scan]
    split
    · split
      · exact h
      · split
        · rename_i hm
          exact ih _ (by omega) (fun _ => ⟨by simp only []; omega, hm.1, hm.2⟩)
        · exact ih s (by omega) h
    · exact h

/-- The backward scan of the `jend` branches leaves in `prevjend`, when `prevcount`
is not 0, the index of a `jend` record at `p - 1`. -/
theorem prev_jend_scan_match (junc : List JuncEntry) (record : List RecordEntry) (p : Int) :
    ∀ (n prevjend : Nat) (prevcount : ℚ), n ≤ record.length →
      (prevcount ≠ 0 → prevjend < record.length ∧
        (recAt record prevjend).pos = p - 1 ∧ (recAt record prevjend).type = "jend") →
      ((prev_jend_scan junc record p n prevjend prevcount).2 ≠ 0 →
        (prev_jend_scan junc record p n prevjend prevcount).1 < record.length ∧
        (recAt record (prev_jend_scan junc record p n prevjend prevcount).1).pos = p - 1 ∧
        (recAt record (prev_jend_scan junc record p n prevjend prevcount).1).type = "jend") := by
  intro n
  induction n with
  | zero => intro pj pc _ h; simpa [prev_jend_scan] using h
  | succ i ih =>
    intro pj pc hn h
    rw [prev_jend_scan]
    split
    · split
      · rename_i hm
        exact ih _ _ (by omega) (fun _ => ⟨by omega, hm.1, hm.2⟩)
      · exact ih pj pc (by omega) h
    · exact h

/-- After a group is retracted none of its junctions has coverage left, when no
coverage is negative. -/
theorem junc_zero_all_group (junc : List JuncEntry) (group : List Nat)
    (hcov : ∀ j, 0 ≤ (juncAt junc j).cov) :
    ∀ j ∈ group, (juncAt (junc_zero_all junc (live_of junc group)) j).cov = 0 := by
  intro j hj
  by_cases hl : (juncAt junc j).cov > 0
  · exact junc_zero_all_at _ _ _ (by
      unfold live_of
      exact List.mem_filter.mpr ⟨hj, by simpa using hl⟩)
  · have h0 : (juncAt junc j).cov = 0 := le_antisymm (not_lt.mp hl) (hcov j)
    rcases ((junc_zero_all_retracts (live_of junc group) junc).2 j).2.2 with g | g
    · rw [g, h0]
    · exact g

/-- The two outcomes of the `jstart` branch for a group with a live junction. -/
theorem get_record_jstart_outcome (covg : List CovgEntry) (nb nj : Nat) (p : Int)
    (st : MergeState) (hrec : RecIndexed st.junc st.record)
    (hcov : ∀ j, 0 ≤ (juncAt st.junc j).cov)
    (hcount : (collect_starts st.junc nj p (nj - st.js) st.js [] 0).2.2 > 0) :
    Accepted "jstart" p
        (List.range' st.js ((collect_starts st.junc nj p (nj - st.js) st.js [] 0).1 - st.js))
        st (get_record_jstart covg nb nj p st) ∨
      Rejected
        (List.range' st.js ((collect_starts st.junc nj p (nj - st.js) st.js [] 0).1 - st.js))
        st (get_record_jstart covg nb nj p st) := by
  obtain ⟨hgrp, _⟩ := collect_starts_group st.junc nj p (nj - st.js) st.js [] 0 rfl
  obtain ⟨hstart, _⟩ := collect_starts_spec st.junc nj p (nj - st.js) st.js [] 0 rfl
  rw [List.nil_append] at hgrp
  have hin : ∀ j ∈ List.range' st.js
      ((collect_starts st.junc nj p (nj - st.js) st.js [] 0).1 - st.js),
      (juncAt st.junc j).start = p := by
    intro j hj
    rw [List.mem_range'_1] at hj
    exact hstart j hj.1 (by omega)
  have hQ : ∀ s : StartScan,
      s = (if st.prevpos > p - delta_param then
          prev_jstart_scan st.junc st.record p st.record.length
            ⟨(collect_starts st.junc nj p (nj - st.js) st.js [] 0).2.2, 0, 0⟩
        else ⟨(collect_starts st.junc nj p (nj - st.js) st.js [] 0).2.2, 0, 0⟩) →
      s.prevcount ≠ 0 → s.prevjstart < st.record.length ∧
        (recAt st.record s.prevjstart).pos = p - 1 ∧
        (recAt st.record s.prevjstart).type = "jstart" := by
    intro s hs
    subst hs
    split
    · exact prev_jstart_scan_match st.junc st.record p st.record.length _ (le_refl _)
        (fun h => absurd rfl h)
    · exact fun h => absurd rfl h
  unfold get_record_jstart
  simp only []
  rw [if_pos hcount]
  generalize (if st.prevpos > p - delta_param then
      prev_jstart_scan st.junc st.record p st.record.length
        ⟨(collect_starts st.junc nj p (nj - st.js) st.js [] 0).2.2, 0, 0⟩
    else ⟨(collect_starts st.junc nj p (nj - st.js) st.js [] 0).2.2, 0, 0⟩) = s at hQ ⊢
  have hQ := hQ s rfl
  by_cases hacc : s.prevcount < s.count ∧ s.count > 0 ∧
      (flank_cov covg nb st.ib (p - delta_param + 1) (p + 1) (p + delta_param)).1
        > (flank_cov covg nb st.ib (p - delta_param + 1) (p + 1) (p + delta_param)).2
  · rw [if_pos hacc]
    left
    refine ⟨⟨_, _, rfl, ?_, rfl, rfl, hgrp⟩, rfl, ?_⟩
    · by_cases hgap : p > st.prevpos + 1
      · rw [if_pos hgap]; exact Or.inr ⟨_, rfl⟩
      · rw [if_neg hgap]; exact Or.inl rfl
    · intro j hj
      simp only []
      by_cases hpc : s.prevcount > 0
      · rw [if_pos hpc]
        obtain ⟨q1, q2, q3⟩ := hQ (ne_of_gt hpc)
        have hidx := (hrec _ (recAt_mem st.record _ q1)).1 q3
        rw [junc_zero_all_not_mem]
        intro hmem
        have h1 := hidx j hmem
        have h2 := hin j hj
        rw [q2] at h1
        omega
      · rw [if_neg hpc]
  · rw [if_neg hacc]
    right
    refine ⟨rfl, rfl, ?_⟩
    simp only []
    rw [hgrp]
    exact junc_zero_all_group st.junc _ hcov

/-- The two outcomes of the `jend` branch for a group with a live junction. -/
theorem get_record_jend_outcome (covg : List CovgEntry) (jend : List Nat) (nb nj : Nat)
    (p : Int) (st : MergeState) (hrec : RecIndexed st.junc st.record)
    (hcov : ∀ j, 0 ≤ (juncAt st.junc j).cov)
    (hcount : (collect_ends st.junc jend nj p (nj - st.je) st.je [] 0).2.2 > 0) :
    Accepted "jend" p
        ((List.range' st.je
          ((collect_ends st.junc jend nj p (nj - st.je) st.je [] 0).1 - st.je)).map
          (jendAt jend))
        st (get_record_jend covg jend nb nj p st) ∨
      Rejected
        ((List.range' st.je
          ((collect_ends st.junc jend nj p (nj - st.je) st.je [] 0).1 - st.je)).map
          (jendAt jend))
        st (get_record_jend covg jend nb nj p st) := by
  obtain ⟨hgrp, hend, _⟩ := collect_ends_group st.junc jend nj p (nj - st.je) st.je [] 0 rfl
  rw [List.nil_append] at hgrp
  have hin : ∀ j ∈ (List.range' st.je
      ((collect_ends st.junc jend nj p (nj - st.je) st.je [] 0).1 - st.je)).map (jendAt jend),
      (juncAt st.junc j).end_ = p := by
    intro j hj
    obtain ⟨k, hk, rfl⟩ := List.mem_map.mp hj
    rw [List.mem_range'_1] at hk
    exact hend k hk.1 (by omega)
  have hQ : ∀ s : Nat × ℚ,
      s = (if st.prevpos > p - 2 then
          prev_jend_scan st.junc st.record p st.record.length 0 0
        else (0, 0)) →
      s.2 ≠ 0 → s.1 < st.record.length ∧
        (recAt st.record s.1).pos = p - 1 ∧ (recAt st.record s.1).type = "jend" := by
    intro s hs
    subst hs
    split
    · exact prev_jend_scan_match st.junc st.record p st.record.length 0 0 (le_refl _)
        (fun h => absurd rfl h)
    · exact fun h => absurd rfl h
  unfold get_record_jend
  simp only []
  rw [if_pos hcount]
  generalize (if st.prevpos > p - 2 then
      prev_jend_scan st.junc st.record p st.record.length 0 0
    else (0, 0)) = s at hQ ⊢
  have hQ := hQ s rfl
  by_cases hacc : (flank_cov covg nb st.ib (p - delta_param) p (p + delta_param - 1)).1
        < (flank_cov covg nb st.ib (p - delta_param) p (p + delta_param - 1)).2 ∧
      s.2 < (collect_ends st.junc jend nj p (nj - st.je) st.je [] 0).2.2
  · rw [if_pos hacc]
    left
    refine ⟨⟨_, _, rfl, ?_, rfl, rfl, hgrp⟩, rfl, ?_⟩
    · by_cases hgap : p > st.prevpos + 1
      · rw [if_pos hgap]; exact Or.inr ⟨_, rfl⟩
      · rw [if_neg hgap]; exact Or.inl rfl
    · intro j hj
      simp only []
      by_cases hpc : s.2 > 0
      · rw [if_pos hpc]
        obtain ⟨q1, q2, q3⟩ := hQ (ne_of_gt hpc)
        have hidx := (hrec _ (recAt_mem st.record _ q1)).2 q3
        rw [junc_zero_all_not_mem]
        intro hmem
        have h1 := hidx j hmem
        have h2 := hin j hj
        rw [q2] at h1
        omega
      · rw [if_neg hpc]
  · rw [if_neg hacc]
    right
    refine ⟨rfl, rfl, ?_⟩
    simp only []
    rw [hgrp]
    exact junc_zero_all_group st.junc _ hcov

theorem recIndexed_add_cov {junc : List JuncEntry} {record : List RecordEntry}
    (h : RecIndexed junc record) (x : ℚ) : RecIndexed junc (add_cov_to_last record x) := by
  intro r hr
  have hm := add_cov_to_last_map (fun r => (r.type, r.pos, r.indices)) (fun _ _ => rfl) record x
  have : (r.type, r.pos, r.indices) ∈ (add_cov_to_last record x).map
      (fun r => (r.type, r.pos, r.indices)) := List.mem_map_of_mem _ hr
  rw [hm] at this
  obtain ⟨r0, h0, h1⟩ := List.mem_map.mp this
  simp only [Prod.mk.injEq] at h1
  obtain ⟨t1, t2, t3⟩ := h1
  rw [← t1, ← t2, ← t3]
  exact h r0 h0

theorem recIndexed_retracts {a b : List JuncEntry} {record : List RecordEntry}
    (h : RecIndexed a record) (hr : Retracts a b) : RecIndexed b record := by
  intro r hmem
  refine ⟨fun ht k hk => ?_, fun ht k hk => ?_⟩
  · rw [(hr.2 k).1]; exact (h r hmem).1 ht k hk
  · rw [(hr.2 k).2.1]; exact (h r hmem).2 ht k hk

theorem recIndexed_append {junc : List JuncEntry} {r1 r2 : List RecordEntry}
    (h1 : RecIndexed junc r1) (h2 : RecIndexed junc r2) : RecIndexed junc (r1 ++ r2) := by
  intro r hr
  rcases List.mem_append.mp hr with h | h
  · exact h1 r h
  · exact h2 r h

theorem nonneg_retracts {a b : List JuncEntry} (h : ∀ j, 0 ≤ (juncAt a j).cov)
    (hr : Retracts a b) : ∀ j, 0 ≤ (juncAt b j).cov := by
  intro j
  rcases (hr.2 j).2.2 with g | g
  · rw [g]; exact h j
  · rw [g]

/-- The records the drop loop pushes are `tstart` and `tend` records. -/
theorem push_drops_types (drop_arr : List DropEntry) (nd : Nat) (nextd prevpos : Int)
    (pos_cov : ℚ) :
    ∀ (fuel id : Nat) (junc : List JuncEntry) (record : List RecordEntry),
      ∃ pushed, (push_drops drop_arr nd nextd prevpos pos_cov fuel id junc record).2.2
          = record ++ pushed ∧
        ∀ x ∈ pushed, (x.type = "tstart" ∨ x.type = "tend") ∧ x.pos = nextd ∧
          x.pos_cov = pos_cov := by
  intro fuel
  induction fuel with
  | zero =>
    intro id junc record
    exact ⟨[], by simp [push_drops], by simp⟩
  | succ n ih =>
    intro id junc record
    rw [push_drops]
    split
    · obtain ⟨pushed, h1, h2⟩ := ih (id + 1)
        (if (dropAt drop_arr id).perc = 0 ∧ prevpos > nextd - delta_param then
          if (if (dropAt drop_arr id).pos < 0 then "tend" else "tstart") = "tstart" then
            if (recAt record (record.length - 1)).pos = nextd ∧
                (recAt record (record.length - 1)).type = "jstart" then
              junc_zero_all junc (recAt record (record.length - 1)).indices
            else junc
          else retract_jend_back record (nextd - delta_param) record.length junc
        else junc)
        (push_record record (if (dropAt drop_arr id).pos < 0 then "tend" else "tstart") nextd
          [id] (dropAt drop_arr id).perc pos_cov 0)
      refine ⟨⟨if (dropAt drop_arr id).pos < 0 then "tend" else "tstart", nextd, [id],
        (dropAt drop_arr id).perc, pos_cov, 0⟩ :: pushed, ?_, ?_⟩
      · simp only [] at h1 ⊢
        rw [h1, push_record, List.append_assoc, List.singleton_append]
      · intro x hx
        rcases List.mem_cons.mp hx with rfl | hx
        · refine ⟨?_, rfl, rfl⟩
          simp only []
          split
          · exact Or.inr rfl
          · exact Or.inl rfl
        · exact h2 x hx
    · exact ⟨[], by simp, by simp⟩

/-- A junction event is handled for a group with a live junction. -/
theorem handled_group_live (drop_arr : List DropEntry) (jend : List Nat) (nd nj : Nat)
    (st : MergeState) :
    (next_js nj st ≠ 0 →
      (collect_starts st.junc nj (next_js nj st) (nj - (skip_retracted jend nj st).js)
        (skip_retracted jend nj st).js [] 0).2.2 > 0) ∧
    (next_je jend nj st ≠ 0 →
      (collect_ends st.junc jend nj (next_je jend nj st) (nj - (skip_retracted jend nj st).je)
        (skip_retracted jend nj st).je [] 0).2.2 > 0) := by
  obtain ⟨_, _, _, _, _, HS, HE, _⟩ := heads_spec drop_arr jend nd nj st
  constructor
  · intro h0
    obtain ⟨a1, a2, a3⟩ := HS h0
    obtain ⟨_, c2, _⟩ := collect_starts_spec st.junc nj (next_js nj st)
      (nj - (skip_retracted jend nj st).js) (skip_retracted jend nj st).js [] 0 rfl
    exact (c2 _ (le_refl _) (collect_starts_advance st.junc nj _ _ [] 0 a1 a3) a2).2
  · intro h0
    obtain ⟨a1, a2, a3⟩ := HE h0
    obtain ⟨c2, _, _⟩ := collect_ends_spec st.junc jend nj (next_je jend nj st)
      (nj - (skip_retracted jend nj st).je) (skip_retracted jend nj st).je [] 0 rfl
    exact (c2 _ (le_refl _) (collect_ends_advance st.junc jend nj _ _ [] 0 a1 a3) a2).2

theorem accepted_not_rejected (type : String) (p : Int) (group : List Nat)
    (st st2 : MergeState) (ha : Accepted type p group st st2) : ¬ Rejected group st st2 := by
  rintro ⟨hr, _, _⟩
  obtain ⟨⟨rec1, r, h1, h2, _⟩, _⟩ := ha
  have hlen : rec1.length = st.record.length := by
    rcases h2 with h | ⟨x, h⟩
    · rw [h]
    · rw [h, add_cov_to_last_length]
  have := congrArg List.length h1
  rw [hr, List.length_append, hlen] at this
  simp at this

/-- C23: a call of `get_record` that handles a junction-start group, or a
junction-end group, returns with exactly one of two outcomes. Accept: it pushes
exactly one `jstart` (`jend`) record at the group's position whose indices are the
group's live junctions, sets `prevpos` to that position, and leaves the coverage of
the group's junctions as it was. Reject: it pushes no record, leaves `prevpos` as it
was, and leaves every junction of the group at coverage 0. The group is the run of
junctions at the head position, and holds a live one. This holds in every state in
which no junction coverage is negative and the junction records name junctions at
their own position, as all states of the merge loop do. -/
theorem get_record_junction_outcome (covg : List CovgEntry) (drop_arr : List DropEntry)
    (jend : List Nat) (nb nd nj : Nat) (st : MergeState)
    (hrec : RecIndexed st.junc st.record) (hcov : ∀ j, 0 ≤ (juncAt st.junc j).cov) :
    (HandlesStart drop_arr jend nd nj st →
      ∃ st2, get_record covg drop_arr jend nb nd nj st = some st2 ∧
        (∀ j ∈ start_group jend nj st, (juncAt st.junc j).start = next_js nj st) ∧
        live_of st.junc (start_group jend nj st) ≠ [] ∧
        (Accepted "jstart" (next_js nj st) (start_group jend nj st) st st2 ∨
          Rejected (start_group jend nj st) st st2) ∧
        ¬ (Accepted "jstart" (next_js nj st) (start_group jend nj st) st st2 ∧
          Rejected (start_group jend nj st) st st2)) ∧
    (HandlesEnd drop_arr jend nd nj st →
      ∃ st2, get_record covg drop_arr jend nb nd nj st = some st2 ∧
        (∀ j ∈ end_group jend nj st, (juncAt st.junc j).end_ = next_je jend nj st) ∧
        live_of st.junc (end_group jend nj st) ≠ [] ∧
        (Accepted "jend" (next_je jend nj st) (end_group jend nj st) st st2 ∨
          Rejected (end_group jend nj st) st st2) ∧
        ¬ (Accepted "jend" (next_je jend nj st) (end_group jend nj st) st st2 ∧
          Rejected (end_group jend nj st) st st2)) := by
  obtain ⟨_, _, _, _, _, HS, HE, _⟩ := heads_spec drop_arr jend nd nj st
  obtain ⟨LS, LE⟩ := handled_group_live drop_arr jend nd nj st
  constructor
  · rintro ⟨h1, h2, h3⟩
    have hg : get_record covg drop_arr jend nb nd nj st
        = some (get_record_jstart covg nb nj (next_js nj st) (skip_retracted jend nj st)) := by
      rcases get_record_branch covg drop_arr jend nb nd nj st with
        ⟨_, b, _, _⟩ | ⟨b1, b2, _, _⟩ | ⟨_, _, _, hg⟩ | ⟨b1, _, b3, _⟩
      · exact absurd b h1
      · exfalso
        rcases b2 with b2 | b2
        · exact h1 b2
        · rcases h2 with h2 | h2
          · exact b1 h2
          · omega
      · exact hg
      · exfalso
        rcases b3 with b3 | b3
        · exact h1 b3
        · rcases h3 with h3 | h3
          · exact b1 h3
          · omega
    obtain ⟨a1, a2, a3⟩ := HS h1
    obtain ⟨hgrp, _⟩ := collect_starts_group st.junc nj (next_js nj st)
      (nj - (skip_retracted jend nj st).js) (skip_retracted jend nj st).js [] 0 rfl
    obtain ⟨hstart, _⟩ := collect_starts_spec st.junc nj (next_js nj st)
      (nj - (skip_retracted jend nj st).js) (skip_retracted jend nj st).js [] 0 rfl
    have adv := collect_starts_advance st.junc nj (next_js nj st) _ [] 0 a1 a3
    have hout := get_record_jstart_outcome covg nb nj (next_js nj st)
      (skip_retracted jend nj st) hrec hcov (LS h1)
    refine ⟨_, hg, ?_, ?_, hout, fun h => accepted_not_rejected _ _ _ _ _ h.1 h.2⟩
    · intro j hj
      unfold start_group at hj
      rw [List.mem_range'_1] at hj
      exact hstart j hj.1 (by omega)
    · intro hnil
      have hmem : (skip_retracted jend nj st).js ∈ live_of st.junc (start_group jend nj st) := by
        unfold live_of start_group
        refine List.mem_filter.mpr ⟨?_, by simpa using a2⟩
        rw [List.mem_range'_1]
        omega
      rw [hnil] at hmem
      exact absurd hmem (List.not_mem_nil _)
  · rintro ⟨h1, h2, h3⟩
    have hg : get_record covg drop_arr jend nb nd nj st
        = some (get_record_jend covg jend nb nj (next_je jend nj st)
            (skip_retracted jend nj st)) := by
      rcases get_record_branch covg drop_arr jend nb nd nj st with
        ⟨_, _, b, _⟩ | ⟨b1, _, b3, _⟩ | ⟨b1, _, b3, _⟩ | ⟨_, _, _, hg⟩
      · exact absurd b h1
      · exfalso
        rcases b3 with b3 | b3
        · exact h1 b3
        · rcases h2 with h2 | h2
          · exact b1 h2
          · omega
      · exfalso
        rcases b3 with b3 | b3
        · exact h1 b3
        · rcases h3 with h3 | h3
          · exact b1 h3
          · omega
      · exact hg
    obtain ⟨a1, a2, a3⟩ := HE h1
    obtain ⟨hgrp, hend, _⟩ := collect_ends_group st.junc jend nj (next_je jend nj st)
      (nj - (skip_retracted jend nj st).je) (skip_retracted jend nj st).je [] 0 rfl
    have adv := collect_ends_advance st.junc jend nj (next_je jend nj st) _ [] 0 a1 a3
    have hout := get_record_jend_outcome covg jend nb nj (next_je jend nj st)
      (skip_retracted jend nj st) hrec hcov (LE h1)
    refine ⟨_, hg, ?_, ?_, hout, fun h => accepted_not_rejected _ _ _ _ _ h.1 h.2⟩
    · intro j hj
      unfold end_group at hj
      obtain ⟨k, hk, rfl⟩ := List.mem_map.mp hj
      rw [List.mem_range'_1] at hk
      exact hend k hk.1 (by omega)
    · intro hnil
      have hmem : jendAt jend (skip_retracted jend nj st).je
          ∈ live_of st.junc (end_group jend nj st) := by
        unfold live_of end_group
        refine List.mem_filter.mpr ⟨List.mem_map.mpr ⟨_, ?_, rfl⟩, by simpa using a2⟩
        rw [List.mem_range'_1]
        omega
      rw [hnil] at hmem
      exact absurd hmem (List.not_mem_nil _)

/-- Every call of `get_record` keeps the junction records naming junctions at their
own position and the junction coverages non-negative, so both hold in every state
of the merge loop of `process_bundle`, which starts with one `tstart` record. -/
theorem get_record_keeps_indexed (covg : List CovgEntry) (drop_arr : List DropEntry)
    (jend : List Nat) (nb nd nj : Nat) (st st2 : MergeState)
    (hrec : RecIndexed st.junc st.record) (hcov : ∀ j, 0 ≤ (juncAt st.junc j).cov)
    (h : get_record covg drop_arr jend nb nd nj st = some st2) :
    RecIndexed st2.junc st2.record ∧ ∀ j, 0 ≤ (juncAt st2.junc j).cov := by
  have hretr := get_record_retracts covg drop_arr jend nb nd nj st st2 h
  refine ⟨recIndexed_retracts ?_ hretr, nonneg_retracts hcov hretr⟩
  obtain ⟨LS, LE⟩ := handled_group_live drop_arr jend nd nj st
  have hacc : ∀ (type : String) (p : Int) (group : List Nat) (stx : MergeState),
      (type = "jstart" → ∀ j ∈ group, (juncAt st.junc j).start = p) →
      (type = "jend" → ∀ j ∈ group, (juncAt st.junc j).end_ = p) →
      (Accepted type p group (skip_retracted jend nj st) stx ∨
        Rejected group (skip_retracted jend nj st) stx) →
      RecIndexed st.junc stx.record := by
    intro type p group stx g1 g2 hout
    rcases hout with ⟨⟨rec1, r, h1, h2, h3, h4, h5⟩, _, _⟩ | ⟨h1, _, _⟩
    · rw [h1]
      refine recIndexed_append ?_ ?_
      · rcases h2 with h2 | ⟨x, h2⟩
        · rw [h2]; exact hrec
        · rw [h2]; exact recIndexed_add_cov hrec x
      · intro a ha
        rw [List.mem_singleton.mp ha, h4, h5]
        refine ⟨fun ht k hk => ?_, fun ht k hk => ?_⟩
        · exact g1 (h3 ▸ ht) k (List.mem_filter.mp hk).1
        · exact g2 (h3 ▸ ht) k (List.mem_filter.mp hk).1
    · rw [h1]; exact hrec
  rcases get_record_branch covg drop_arr jend nb nd nj st with
    ⟨_, _, _, hg⟩ | ⟨_, _, _, hg⟩ | ⟨h1, _, _, hg⟩ | ⟨h1, _, _, hg⟩
  · rw [hg] at h
    split at h
    · cases h
      exact hrec
    · exact absurd h (by simp)
  · rw [hg] at h
    cases h
    unfold get_record_drop
    simp only []
    obtain ⟨pushed, p1, p2⟩ := push_drops_types drop_arr nd (next_drop drop_arr nd st)
      (skip_retracted jend nj st).prevpos
      (get_cov covg (next_drop drop_arr nd st) (next_drop drop_arr nd st)
        (skip_retracted jend nj st).ib nb).1
      (nd - (skip_retracted jend nj st).id) (skip_retracted jend nj st).id
      (skip_retracted jend nj st).junc
      (if next_drop drop_arr nd st > (skip_retracted jend nj st).prevpos + 1 then
        add_cov_to_last (skip_retracted jend nj st).record
          (get_cov covg ((skip_retracted jend nj st).prevpos + 1) (next_drop drop_arr nd st - 1)
            (skip_retracted jend nj st).ib nb).1
      else (skip_retracted jend nj st).record)
    rw [p1]
    refine recIndexed_append ?_ ?_
    · split
      · exact recIndexed_add_cov hrec _
      · exact hrec
    · intro a ha
      rcases (p2 a ha).1 with ht | ht
      · rw [ht]
        exact ⟨fun h => absurd h (by decide), fun h => absurd h (by decide)⟩
      · rw [ht]
        exact ⟨fun h => absurd h (by decide), fun h => absurd h (by decide)⟩
  · rw [hg] at h
    cases h
    obtain ⟨hstart, _⟩ := collect_starts_spec (skip_retracted jend nj st).junc nj (next_js nj st)
      (nj - (skip_retracted jend nj st).js) (skip_retracted jend nj st).js [] 0 rfl
    refine hacc "jstart" (next_js nj st) _ _ (fun _ j hj => ?_)
      (fun ht => absurd ht (by decide))
      (get_record_jstart_outcome covg nb nj (next_js nj st) (skip_retracted jend nj st)
        hrec hcov (LS h1))
    rw [List.mem_range'_1] at hj
    exact hstart j hj.1 (by omega)
  · rw [hg] at h
    cases h
    obtain ⟨_, hend, _⟩ := collect_ends_group (skip_retracted jend nj st).junc jend nj
      (next_je jend nj st)
      (nj - (skip_retracted jend nj st).je) (skip_retracted jend nj st).je [] 0 rfl
    refine hacc "jend" (next_je jend nj st) _ _ (fun ht => absurd ht (by decide))
      (fun _ j hj => ?_)
      (get_record_jend_outcome covg jend nb nj (next_je jend nj st) (skip_retracted jend nj st)
        hrec hcov (LE h1))
    obtain ⟨k, hk, rfl⟩ := List.mem_map.mp hj
    rw [List.mem_range'_1] at hk
    exact hend k hk.1 (by omega)

theorem nonneg_of_mem (junc : List JuncEntry) (h : ∀ e ∈ junc, 0 ≤ e.cov) :
    ∀ j, 0 ≤ (juncAt junc j).cov := by
  intro j
  by_cases hj : j < junc.length
  · unfold juncAt
    rw [List.getD_eq_getElem _ _ hj]
    exact h _ (List.getElem_mem hj)
  · unfold juncAt
    rw [List.getD_eq_getElem?_getD, List.getElem?_eq_none (by omega)]
    exact le_refl _

/-- The state `tieStateEnd` is the state two calls of `get_record` after `tieState`. -/
theorem tie_states :
    ((get_record tieCovg tieDrops [0] 2 2 1 tieState).bind
      (get_record tieCovg tieDrops [0] 2 2 1)).map
        (fun s => ((s.ib, s.id, s.js, s.je), (s.prevpos, s.junc, s.record)))
      = some ((tieStateEnd.ib, tieStateEnd.id, tieStateEnd.js, tieStateEnd.je),
          (tieStateEnd.prevpos, tieStateEnd.junc, tieStateEnd.record)) := by
  decide!

/-- C23 at the junction start at 200 of the tie example, and at the junction end
at 300 two calls later. -/
theorem get_record_junction_outcome_witness :
    (RecIndexed tieState.junc tieState.record ∧ (∀ j, 0 ≤ (juncAt tieState.junc j).cov) ∧
      HandlesStart tieDrops [0] 2 1 tieState ∧
      ∃ st2, get_record tieCovg tieDrops [0] 2 2 1 tieState = some st2 ∧
        (∀ j ∈ start_group [0] 1 tieState, (juncAt tieState.junc j).start = next_js 1 tieState) ∧
        live_of tieState.junc (start_group [0] 1 tieState) ≠ [] ∧
        (Accepted "jstart" (next_js 1 tieState) (start_group [0] 1 tieState) tieState st2 ∨
          Rejected (start_group [0] 1 tieState) tieState st2) ∧
        ¬ (Accepted "jstart" (next_js 1 tieState) (start_group [0] 1 tieState) tieState st2 ∧
          Rejected (start_group [0] 1 tieState) tieState st2)) ∧
    (RecIndexed tieStateEnd.junc tieStateEnd.record ∧
      (∀ j, 0 ≤ (juncAt tieStateEnd.junc j).cov) ∧
      HandlesEnd tieDrops [0] 2 1 tieStateEnd ∧
      ∃ st2, get_record tieCovg tieDrops [0] 2 2 1 tieStateEnd = some st2 ∧
        (∀ j ∈ end_group [0] 1 tieStateEnd,
          (juncAt tieStateEnd.junc j).end_ = next_je [0] 1 tieStateEnd) ∧
        live_of tieStateEnd.junc (end_group [0] 1 tieStateEnd) ≠ [] ∧
        (Accepted "jend" (next_je [0] 1 tieStateEnd) (end_group [0] 1 tieStateEnd)
            tieStateEnd st2 ∨
          Rejected (end_group [0] 1 tieStateEnd) tieStateEnd st2) ∧
        ¬ (Accepted "jend" (next_je [0] 1 tieStateEnd) (end_group [0] 1 tieStateEnd)
            tieStateEnd st2 ∧
          Rejected (end_group [0] 1 tieStateEnd) tieStateEnd st2)) := by
  have r1 : RecIndexed tieState.junc tieState.record := by
    intro r hr
    simp only [tieState, List.mem_singleton] at hr
    subst hr
    exact ⟨fun h => absurd h (by decide), fun h => absurd h (by decide)⟩
  have c1 : ∀ j, 0 ≤ (juncAt tieState.junc j).cov :=
    nonneg_of_mem _ (by decide!)
  have s1 : HandlesStart tieDrops [0] 2 1 tieState := by
    unfold HandlesStart
    decide!
  have r2 : RecIndexed tieStateEnd.junc tieStateEnd.record := by
    intro r hr
    simp only [tieStateEnd, List.mem_cons, List.mem_singleton, List.not_mem_nil, or_false] at hr
    rcases hr with rfl | rfl | rfl
    · exact ⟨fun h => absurd h (by decide), fun h => absurd h (by decide)⟩
    · refine ⟨fun _ k hk => ?_, fun h => absurd h (by decide)⟩
      simp only [List.mem_singleton] at hk
      subst hk
      decide
    · exact ⟨fun h => absurd h (by decide), fun h => absurd h (by decide)⟩
  have c2 : ∀ j, 0 ≤ (juncAt tieStateEnd.junc j).cov :=
    nonneg_of_mem _ (by decide!)
  have s2 : HandlesEnd tieDrops [0] 2 1 tieStateEnd := by
    unfold HandlesEnd
    decide!
  exact ⟨⟨r1, c1, s1,
      (get_record_junction_outcome tieCovg tieDrops [0] 2 2 1 tieState r1 c1).1 s1⟩,
    ⟨r2, c2, s2,
      (get_record_junction_outcome tieCovg tieDrops [0] 2 2 1 tieStateEnd r2 c2).2 s2⟩⟩

/-! ## The flank test of a junction event -/

theorem overlapLen_point (p : Int) (seg : CovgEntry) :
    overlapLen p p seg = if seg.start ≤ p ∧ p ≤ seg.end_ then 1 else 0 := by
  unfold overlapLen
  by_cases h : seg.start ≤ p ∧ p ≤ seg.end_
  · rw [if_pos h, min_eq_left h.2, max_eq_left h.1]
    simp
  · rw [if_neg h]
    apply max_eq_left
    have h1 : min p seg.end_ ≤ p := min_le_left _ _
    have h2 : min p seg.end_ ≤ seg.end_ := min_le_right _ _
    have h3 : p ≤ max p seg.start := le_max_left _ _
    have h4 : seg.start ≤ max p seg.start := le_max_right _ _
    by_contra hcon
    apply h
    constructor <;> omega

/-- Over sorted disjoint segments the coverage of the one-position range `[p, p]`
is the coverage of the segment that contains `p`, or 0. -/
theorem rangeCov_point (p : Int) :
    ∀ covg : List CovgEntry, CovgSorted covg → rangeCov covg p p = pointCov covg p := by
  intro covg
  induction covg with
  | nil => intro _; simp [rangeCov, pointCov]
  | cons seg rest ih =>
    intro hs
    have hrest : CovgSorted rest :=
      ⟨fun t ht => hs.1 t (List.mem_cons_of_mem _ ht), (List.pairwise_cons.mp hs.2).2⟩
    rw [rangeCov_cons, overlapLen_point]
    unfold pointCov
    rw [List.find?_cons]
    by_cases h : seg.start ≤ p ∧ p ≤ seg.end_
    · rw [if_pos h]
      have hz : rangeCov rest p p = 0 := by
        apply rangeCov_eq_zero
        intro t ht
        rw [overlapLen_point, if_neg]
        intro hc
        have := (List.pairwise_cons.mp hs.2).1 t ht
        omega
      rw [hz]
      simp [h]
    · rw [if_neg h, ih hrest]
      unfold pointCov
      simp [h]

theorem pointCov_at (covg : List CovgEntry) (hs : CovgSorted covg) (i : Nat)
    (hi : i < covg.length) (p : Int) (h1 : (covgAt covg i).start ≤ p)
    (h2 : p ≤ (covgAt covg i).end_) : pointCov covg p = (covgAt covg i).cov := by
  rw [← rangeCov_point p covg hs]
  have hsplit : covg = covg.take i ++ covgAt covg i :: covg.drop (i + 1) := by
    rw [← covg_drop_eq_cons covg i hi, List.take_append_drop]
  conv_lhs => rw [hsplit]
  rw [rangeCov_append, rangeCov_cons, overlapLen_point, if_pos ⟨h1, h2⟩]
  have z1 : rangeCov (covg.take i) p p = 0 := by
    apply rangeCov_eq_zero
    intro t ht
    obtain ⟨j, hj1, hj2, rfl⟩ := mem_take_exists _ _ t ht
    rw [overlapLen_point, if_neg]
    intro hc
    have := hs.lt_of_lt hj1 hi
    omega
  have z2 : rangeCov (covg.drop (i + 1)) p p = 0 := by
    apply rangeCov_eq_zero
    intro t ht
    obtain ⟨j, hj1, hj2, rfl⟩ := mem_drop_exists _ _ t ht
    rw [overlapLen_point, if_neg]
    intro hc
    have := hs.lt_of_lt (show i < j by omega) hj2
    omega
  rw [z1, z2]
  simp

/-- C27 does not hold as stated. The segments `[1,20]`, `[21,156]`, `[157,160]`,
`[170,180]` are sorted and disjoint, the junctions `[0,158]` and `[20,300]` are
sorted by start and `jend = [0, 1]` sorts them by end. The start 0 of the first
junction reads as "no junction start left", so its end at 158 is handled first;
the `tend` at 160 retracts it, and only then the start at 20 of the second junction
is handled and its `jstart` record pushed, with the coverage cursor already on the
segment `[157,160]`: the record at 20 gets `pos_cov = 0`, while position 20 lies
in the segment `[1,20]` of coverage 30. -/
theorem build_records_point_coverage_counterexample :
    CovgSorted zeroCovg ∧
    zeroJunc.Pairwise (fun a b => a.start ≤ b.start) ∧
    sort_jend insertion_qsort zeroJunc 2 = [0, 1] ∧
    (build_records zeroCovg zeroJunc [0, 1]
        (region_loop zeroCovg zeroCovg.length 0 ⟨[], -1, false, 0, 0, 0⟩).s_arr).map
      (fun b => b.record.map (fun r => (r.type, r.pos, r.pos_cov)))
      = some [("tstart", 1, 30), ("jend", 158, 100), ("tend", 160, 100), ("jstart", 20, 0),
          ("tstart", 170, 20), ("tend", 180, 20)] ∧
    pointCov zeroCovg 20 = 30 := by
  refine ⟨by decide, by decide, by decide, by decide!, by decide!⟩

theorem tmpAt_append_left (tmp l : List TmpEntry) (j : Nat) (h : j < tmp.length) :
    tmpAt (tmp ++ l) j = tmpAt tmp j := by
  unfold tmpAt
  rw [List.getD_eq_getElem?_getD, List.getD_eq_getElem?_getD, List.getElem?_append_left h]

theorem tmpAt_append_length (tmp : List TmpEntry) (x : TmpEntry) :
    tmpAt (tmp ++ [x]) tmp.length = x := by
  unfold tmpAt
  rw [List.getD_eq_getElem?_getD, List.getElem?_append_right (le_refl _)]
  simp

theorem tmpAt_default (tmp : List TmpEntry) (j : Nat) (h : tmp.length ≤ j) :
    tmpAt tmp j = default := by
  unfold tmpAt
  rw [List.getD_eq_default _ _ h]

theorem tmp_deactivate_length (tmp : List TmpEntry) (k : Nat) :
    (tmp_deactivate tmp k).length = tmp.length := by
  simp [tmp_deactivate]

theorem tmpAt_deactivate (tmp : List TmpEntry) (k j : Nat) :
    (tmpAt (tmp_deactivate tmp k) j).pos = (tmpAt tmp j).pos ∧
    (tmpAt (tmp_deactivate tmp k) j).active
      = if j = k then false else (tmpAt tmp j).active := by
  by_cases hj : j < tmp.length
  · unfold tmp_deactivate
    have e : tmpAt (tmp.set k { tmpAt tmp k with active := false }) j
        = if k = j then { tmpAt tmp k with active := false } else tmpAt tmp j := by
      unfold tmpAt
      rw [List.getD_eq_getElem?_getD, List.getElem?_set]
      by_cases hk : k = j
      · subst hk
        simp [hj]
      · simp [hk, List.getD_eq_getElem?_getD]
    rw [e]
    by_cases hk : k = j
    · subst hk
      simp
    · have hk2 : ¬ j = k := fun h => hk h.symm
      simp [hk, hk2]
  · rw [tmpAt_default _ j (by rw [tmp_deactivate_length]; omega),
      tmpAt_default tmp j (by omega)]
    refine ⟨rfl, ?_⟩
    split <;> rfl

theorem deact_refl (a : List TmpEntry) : Deact a a :=
  ⟨rfl, fun _ => ⟨rfl, fun h => h⟩⟩

theorem deact_trans {a b c : List TmpEntry} (h1 : Deact a b) (h2 : Deact b c) : Deact a c :=
  ⟨h1.1.trans h2.1, fun j =>
    ⟨((h2.2 j).1).trans (h1.2 j).1, fun h => (h1.2 j).2 ((h2.2 j).2 h)⟩⟩

theorem tmp_deactivate_deact (tmp : List TmpEntry) (k : Nat) :
    Deact tmp (tmp_deactivate tmp k) := by
  refine ⟨(tmp_deactivate_length tmp k).symm, fun j => ⟨(tmpAt_deactivate tmp k j).1, ?_⟩⟩
  rw [(tmpAt_deactivate tmp k j).2]
  split
  · intro h; exact absurd h (by simp)
  · exact fun h => h

/-- The walk back over the candidates inside the window only deactivates
candidates; either it leaves `maxs` and the newest candidate as they were, or it
leaves `maxs` at a candidate inside the window of the newest one and the newest
candidate inactive. -/
theorem dedup_back_spec (i : Int) (perc : ℚ) :
    ∀ (n : Nat) (tmp : List TmpEntry) (maxs : Nat), n < tmp.length →
      Deact tmp (dedup_back i perc n tmp maxs).1 ∧
      (((dedup_back i perc n tmp maxs).2 = maxs ∧
          (tmpAt (dedup_back i perc n tmp maxs).1 (tmp.length - 1)).active
            = (tmpAt tmp (tmp.length - 1)).active) ∨
        ((dedup_back i perc n tmp maxs).2 < n ∧
          (tmpAt (dedup_back i perc n tmp maxs).1 (tmp.length - 1)).active = false ∧
          i - (tmpAt tmp (dedup_back i perc n tmp maxs).2).pos ≤ win)) := by
  intro n
  induction n with
  | zero =>
    intro tmp maxs _
    exact ⟨deact_refl _, Or.inl ⟨rfl, rfl⟩⟩
  | succ k ih =>
    intro tmp maxs hn
    rw [dedup_back]
    by_cases hw : i - (tmpAt tmp k).pos ≤ win
    · rw [if_pos hw]
      by_cases hp : perc > (tmpAt tmp k).perc
      · rw [if_pos hp]
        obtain ⟨d, hd⟩ := ih (tmp_deactivate tmp (tmp.length - 1)) k
          (by rw [tmp_deactivate_length]; omega)
        rw [tmp_deactivate_length] at hd
        refine ⟨deact_trans (tmp_deactivate_deact tmp _) d, Or.inr ?_⟩
        have hlast : (tmpAt (tmp_deactivate tmp (tmp.length - 1)) (tmp.length - 1)).active
            = false := by
          rw [(tmpAt_deactivate tmp _ _).2, if_pos rfl]
        rcases hd with ⟨e1, e2⟩ | ⟨e1, e2, e3⟩
        · rw [e1, e2]
          exact ⟨Nat.lt_succ_self _, hlast, hw⟩
        · rw [(tmpAt_deactivate tmp _ _).1] at e3
          exact ⟨by omega, e2, e3⟩
      · rw [if_neg hp]
        obtain ⟨d, hd⟩ := ih (tmp_deactivate tmp k) maxs (by rw [tmp_deactivate_length]; omega)
        rw [tmp_deactivate_length] at hd
        refine ⟨deact_trans (tmp_deactivate_deact tmp _) d, ?_⟩
        rcases hd with ⟨e1, e2⟩ | ⟨e1, e2, e3⟩
        · left
          refine ⟨e1, ?_⟩
          rw [e2, (tmpAt_deactivate tmp _ _).2, if_neg (by omega)]
        · right
          rw [(tmpAt_deactivate tmp _ _).1] at e3
          exact ⟨by omega, e2, e3⟩
    · rw [if_neg hw]
      exact ⟨deact_refl _, Or.inl ⟨rfl, rfl⟩⟩

/-- The invariant for the candidate list with a new last candidate at `i`, some
candidates deactivated, from facts about the new index `m`. -/
theorem DedupInv.of_deact {tmp r : List TmpEntry} {maxs m : Nat} {i : Int} {perc avg : ℚ}
    (inv : DedupInv tmp maxs) (hi : ∀ j, j < tmp.length → (tmpAt tmp j).pos < i)
    (hD : Deact (tmp ++ [⟨i, perc, avg, true⟩]) r) (hm : m ≤ tmp.length)
    (hafter : ∀ j, m < j → j < tmp.length + 1 → (tmpAt r j).active = false)
    (hnew : (tmpAt r tmp.length).active = true → ∀ j, j < tmp.length →
      (tmpAt r j).active = true → i - (tmpAt tmp j).pos > win)
    (hstale : (tmpAt r m).active = false → (tmpAt r tmp.length).active = false ∧
      ∀ j, j < tmp.length → (tmpAt r j).active = true → i - (tmpAt tmp j).pos > win) :
    DedupInv r m := by
  have hlen : r.length = tmp.length + 1 := by rw [← hD.1]; simp
  have hpos : ∀ j, j < tmp.length → (tmpAt r j).pos = (tmpAt tmp j).pos := by
    intro j hj
    rw [(hD.2 j).1, tmpAt_append_left _ _ _ hj]
  have hlast : (tmpAt r tmp.length).pos = i := by
    rw [(hD.2 _).1, tmpAt_append_length]
  have hact : ∀ j, j < tmp.length → (tmpAt r j).active = true → (tmpAt tmp j).active = true := by
    intro j hj h
    have := (hD.2 j).2 h
    rwa [tmpAt_append_left _ _ _ hj] at this
  refine ⟨by rw [hlen]; exact hm, ?_, by rw [hlen]; exact hafter, ?_, ?_⟩
  · intro j k hjk hk
    rw [hlen] at hk
    by_cases hkl : k < tmp.length
    · rw [hpos j (by omega), hpos k hkl]
      exact inv.sorted j k hjk hkl
    · have hke : k = tmp.length := by omega
      subst hke
      rw [hlast, hpos j hjk]
      exact hi j hjk
  · intro j k hjk hk aj ak
    rw [hlen] at hk
    by_cases hkl : k < tmp.length
    · rw [hpos j (by omega), hpos k hkl]
      exact inv.apart j k hjk hkl (hact j (by omega) aj) (hact k hkl ak)
    · have hke : k = tmp.length := by omega
      subst hke
      rw [hlast, hpos j hjk]
      exact hnew ak j hjk aj
  · intro hm0 j hj aj
    rw [hlen] at hj
    obtain ⟨s1, s2⟩ := hstale hm0
    have hjl : j < tmp.length := by
      by_contra hcon
      have hje : j = tmp.length := by omega
      rw [hje, s1] at aj
      exact absurd aj (by simp)
    rw [hlen, Nat.add_sub_cancel, hlast, hpos j hjl]
    exact s2 j hjl aj

/-- Recording a candidate at a scan position beyond all earlier ones keeps the
invariant of the candidate bookkeeping. -/
theorem add_candidate_inv (tmp : List TmpEntry) (maxs : Nat) (i : Int) (perc avg : ℚ)
    (inv : DedupInv tmp maxs) (hi : ∀ j, j < tmp.length → (tmpAt tmp j).pos < i) :
    DedupInv (add_candidate tmp maxs i perc avg).1 (add_candidate tmp maxs i perc avg).2 := by
  unfold add_candidate
  by_cases hne : tmp.length > 0
  · rw [if_pos hne]
    simp only [List.length_append, List.length_singleton, Nat.add_sub_cancel]
    have hmax : maxs < tmp.length := by have := inv.maxs_le; omega
    have e1 : tmpAt (tmp ++ [⟨i, perc, avg, true⟩]) maxs = tmpAt tmp maxs :=
      tmpAt_append_left _ _ _ hmax
    have e2 : tmpAt (tmp ++ [⟨i, perc, avg, true⟩]) (tmp.length + 1 - 2)
        = tmpAt tmp (tmp.length - 1) := by
      rw [show tmp.length + 1 - 2 = tmp.length - 1 by omega]
      exact tmpAt_append_left _ _ _ (by omega)
    rw [e1, e2]
    -- an active earlier candidate is at or before `maxs`
    have hle : ∀ j, j < tmp.length → (tmpAt tmp j).active = true →
        (tmpAt tmp j).pos ≤ (tmpAt tmp maxs).pos := by
      intro j hj aj
      have hjm : j ≤ maxs := by
        by_contra hcon
        have := inv.after j (by omega) hj
        rw [this] at aj
        exact absurd aj (by simp)
      rcases Nat.eq_or_lt_of_le hjm with rfl | hlt
      · exact le_refl _
      · exact le_of_lt (inv.sorted j maxs hlt hmax)
    have hlastpos : (tmpAt tmp (tmp.length - 1)).pos < i := hi _ (by omega)
    -- deactivating the new candidate
    have hdrop : DedupInv (tmp_deactivate (tmp ++ [⟨i, perc, avg, true⟩]) tmp.length) maxs := by
      have hD := tmp_deactivate_deact (tmp ++ [⟨i, perc, avg, true⟩]) tmp.length
      have hnewf : (tmpAt (tmp_deactivate (tmp ++ [⟨i, perc, avg, true⟩]) tmp.length)
          tmp.length).active = false := by
        rw [(tmpAt_deactivate _ _ _).2, if_pos rfl]
      have hsame : ∀ j, j < tmp.length →
          (tmpAt (tmp_deactivate (tmp ++ [⟨i, perc, avg, true⟩]) tmp.length) j).active
            = (tmpAt tmp j).active := by
        intro j hj
        rw [(tmpAt_deactivate _ _ _).2, if_neg (by omega), tmpAt_append_left _ _ _ hj]
      refine inv.of_deact hi hD (le_of_lt hmax) ?_ ?_ ?_
      · intro j hj1 hj2
        by_cases hjl : j < tmp.length
        · rw [hsame j hjl]
          exact inv.after j hj1 hjl
        · rw [show j = tmp.length by omega]
          exact hnewf
      · intro h
        rw [hnewf] at h
        exact absurd h (by simp)
      · intro h
        rw [hsame maxs hmax] at h
        refine ⟨hnewf, fun j hj aj => ?_⟩
        rw [hsame j hj] at aj
        have := inv.stale h j hj aj
        omega
    by_cases hfar : i - (tmpAt tmp maxs).pos > win
    · rw [if_pos hfar]
      by_cases hprev : (tmpAt tmp (tmp.length - 1)).perc ≥ perc ∨
          i - (tmpAt tmp (tmp.length - 1)).pos > win
      · rw [if_pos hprev]
        obtain ⟨hD, hcase⟩ := dedup_back_spec i perc tmp.length
          (tmp ++ [⟨i, perc, avg, true⟩]) tmp.length (by simp)
        simp only [List.length_append, List.length_singleton, Nat.add_sub_cancel] at hcase
        have hact : ∀ j, j < tmp.length →
            (tmpAt (dedup_back i perc tmp.length (tmp ++ [⟨i, perc, avg, true⟩])
              tmp.length).1 j).active = true → (tmpAt tmp j).active = true := by
          intro j hj h
          have := (hD.2 j).2 h
          rwa [tmpAt_append_left _ _ _ hj] at this
        have hfarj : ∀ j, j < tmp.length →
            (tmpAt (dedup_back i perc tmp.length (tmp ++ [⟨i, perc, avg, true⟩])
              tmp.length).1 j).active = true → i - (tmpAt tmp j).pos > win := by
          intro j hj aj
          have := hle j hj (hact j hj aj)
          omega
        rcases hcase with ⟨c1, c2⟩ | ⟨c1, c2, c3⟩
        · rw [c1]
          refine inv.of_deact hi hD (le_refl _) (fun j h1 h2 => absurd h2 (by omega))
            (fun _ => hfarj) ?_
          intro h
          rw [c2, tmpAt_append_length] at h
          exact absurd h (by simp)
        · rw [tmpAt_append_left _ _ _ c1] at c3
          have hgt : maxs < (dedup_back i perc tmp.length (tmp ++ [⟨i, perc, avg, true⟩])
              tmp.length).2 := by
            by_contra hcon
            have hpos : (tmpAt tmp (dedup_back i perc tmp.length
                (tmp ++ [⟨i, perc, avg, true⟩]) tmp.length).2).pos ≤ (tmpAt tmp maxs).pos := by
              rcases Nat.eq_or_lt_of_le (not_lt.mp hcon) with h | h
              · rw [h]
              · exact le_of_lt (inv.sorted _ _ h hmax)
            omega
          refine inv.of_deact hi hD (le_of_lt c1) ?_ ?_ ?_
          · intro j hj1 hj2
            by_cases hjl : j < tmp.length
            · by_contra hcon
              have hj := hact j hjl (by simpa using hcon)
              rw [inv.after j (by omega) hjl] at hj
              exact absurd hj (by simp)
            · rw [show j = tmp.length by omega]
              exact c2
          · intro h
            rw [c2] at h
            exact absurd h (by simp)
          · intro _
            exact ⟨c2, hfarj⟩
      · rw [if_neg hprev]
        exact hdrop
    · rw [if_neg hfar]
      by_cases hbetter : perc < (tmpAt tmp maxs).perc
      · rw [if_pos hbetter]
        have hD := tmp_deactivate_deact (tmp ++ [⟨i, perc, avg, true⟩]) maxs
        have hsame : ∀ j, j < tmp.length →
            (tmpAt (tmp_deactivate (tmp ++ [⟨i, perc, avg, true⟩]) maxs) j).active = true →
            (tmpAt tmp j).active = true ∧ j ≠ maxs := by
          intro j hj h
          rw [(tmpAt_deactivate _ _ _).2] at h
          by_cases hjm : j = maxs
          · rw [if_pos hjm] at h
            exact absurd h (by simp)
          · rw [if_neg hjm, tmpAt_append_left _ _ _ hj] at h
            exact ⟨h, hjm⟩
        have hnewt : (tmpAt (tmp_deactivate (tmp ++ [⟨i, perc, avg, true⟩]) maxs)
            tmp.length).active = true := by
          rw [(tmpAt_deactivate _ _ _).2, if_neg (by omega), tmpAt_append_length]
        refine inv.of_deact hi hD (le_refl _) (fun j h1 h2 => absurd h2 (by omega)) ?_ ?_
        · intro _ j hj aj
          obtain ⟨a1, a2⟩ := hsame j hj aj
          have hjm : j < maxs := by
            have : j ≤ maxs := by
              by_contra hcon
              have := inv.after j (by omega) hj
              rw [this] at a1
              exact absurd a1 (by simp)
            omega
          by_cases hma : (tmpAt tmp maxs).active = true
          · have := inv.apart j maxs hjm hmax a1 hma
            have := hi maxs hmax
            omega
          · have := inv.stale (by simpa using hma) j hj a1
            omega
        · intro h
          rw [hnewt] at h
          exact absurd h (by simp)
      · rw [if_neg hbetter]
        exact hdrop
  · rw [if_neg hne]
    have hnil : tmp = [] := List.length_eq_zero.mp (by omega)
    subst hnil
    have hm0 : maxs = 0 := by have := inv.maxs_le; simpa using this
    subst hm0
    refine ⟨by simp, ?_, ?_, ?_, ?_⟩
    · intro j k hjk hk
      simp at hk
      omega
    · intro j hj1 hj2
      simp at hj2
      omega
    · intro j k hjk hk
      simp at hk
      omega
    · intro h
      simp [tmpAt] at h

/-- Recording a candidate appends it and deactivates candidates; it activates none. -/
theorem add_candidate_deact (tmp : List TmpEntry) (maxs : Nat) (i : Int) (perc avg : ℚ) :
    Deact (tmp ++ [⟨i, perc, avg, true⟩]) (add_candidate tmp maxs i perc avg).1 := by
  unfold add_candidate
  simp only []
  split_ifs
  all_goals first
    | exact tmp_deactivate_deact _ _
    | exact deact_refl _
    | exact (dedup_back_spec i perc _ _ _ (by simp)).1

theorem staysInactive_refl (a : List TmpEntry) : StaysInactive a a :=
  ⟨le_refl _, fun _ _ => ⟨rfl, fun h => h⟩⟩

theorem staysInactive_trans {a b c : List TmpEntry} (h1 : StaysInactive a b)
    (h2 : StaysInactive b c) : StaysInactive a c := by
  refine ⟨le_trans h1.1 h2.1, fun k hk => ?_⟩
  have hk2 : k < b.length := lt_of_lt_of_le hk h1.1
  exact ⟨((h2.2 k hk2).1).trans (h1.2 k hk).1, fun h => (h2.2 k hk2).2 ((h1.2 k hk).2 h)⟩

theorem add_candidate_stays (tmp : List TmpEntry) (maxs : Nat) (i : Int) (perc avg : ℚ) :
    StaysInactive tmp (add_candidate tmp maxs i perc avg).1 := by
  have hD := add_candidate_deact tmp maxs i perc avg
  refine ⟨by rw [← hD.1]; simp, fun k hk => ?_⟩
  obtain ⟨d1, d2⟩ := hD.2 k
  rw [tmpAt_append_left _ _ _ hk] at d1 d2
  refine ⟨d1, fun h => ?_⟩
  by_contra hcon
  have := d2 (by simpa using hcon)
  rw [h] at this
  exact absurd this (by simp)

theorem cand_if_stays (cnd : Prop) [Decidable cnd] (tmp : List TmpEntry) (maxs : Nat)
    (i : Int) (perc avg : ℚ) :
    StaysInactive tmp (if cnd then add_candidate tmp maxs i perc avg else (tmp, maxs)).1 := by
  split
  · exact add_candidate_stays _ _ _ _ _
  · exact staysInactive_refl _

theorem cand_if_inv (cnd : Prop) [Decidable cnd] (tmp : List TmpEntry) (maxs : Nat)
    (i : Int) (perc avg : ℚ) (inv : DedupInv tmp maxs)
    (hi : ∀ j, j < tmp.length → (tmpAt tmp j).pos < i) :
    DedupInv (if cnd then add_candidate tmp maxs i perc avg else (tmp, maxs)).1
      (if cnd then add_candidate tmp maxs i perc avg else (tmp, maxs)).2 := by
  split
  · exact add_candidate_inv _ _ _ _ _ inv hi
  · exact inv

/-- One iteration of the scan never makes an inactive candidate active. -/
theorem scan_step_stays (c as ae : Int → ℚ) (jp : List Int) (len : Int) (st : ScanState) :
    StaysInactive st.tmps (scan_step c as ae jp len st).tmps ∧
    StaysInactive st.tmpe (scan_step c as ae jp len st).tmpe := by
  unfold scan_step
  simp only []
  exact ⟨cand_if_stays _ _ _ _ _ _, cand_if_stays _ _ _ _ _ _⟩

/-- One iteration of the scan keeps the invariant of both candidate lists. -/
theorem scan_step_dedup (c as ae : Int → ℚ) (jp : List Int) (len : Int) (st : ScanState)
    (hs : CandOK len st.i (st.tmps.map (fun t => t.pos)))
    (he : CandOK len st.i (st.tmpe.map (fun t => t.pos)))
    (ds : DedupInv st.tmps st.maxs) (de : DedupInv st.tmpe st.maxe) :
    DedupInv (scan_step c as ae jp len st).tmps (scan_step c as ae jp len st).maxs ∧
    DedupInv (scan_step c as ae jp len st).tmpe (scan_step c as ae jp len st).maxe := by
  have hlt : ∀ (tmp : List TmpEntry), CandOK len st.i (tmp.map (fun t => t.pos)) →
      ∀ j, j < tmp.length → (tmpAt tmp j).pos < st.i := by
    intro tmp h j hj
    have hmem : (tmpAt tmp j).pos ∈ tmp.map (fun t => t.pos) := by
      rw [tmpAt, List.getD_eq_getElem _ _ hj]
      exact List.mem_map_of_mem _ (List.getElem_mem hj)
    exact (h.2 _ hmem).2.1
  unfold scan_step
  simp only []
  exact ⟨cand_if_inv _ _ _ _ _ _ ds (hlt _ hs), cand_if_inv _ _ _ _ _ _ de (hlt _ he)⟩

theorem scan_loop_dedup (c as ae : Int → ℚ) (jp : List Int) (len : Int) :
    ∀ (fuel : Nat) (st : ScanState), smallwin + 1 ≤ st.i →
      CandOK len st.i (st.tmps.map (fun t => t.pos)) →
      CandOK len st.i (st.tmpe.map (fun t => t.pos)) →
      DedupInv st.tmps st.maxs → DedupInv st.tmpe st.maxe →
      DedupInv (scan_loop c as ae jp len fuel st).tmps (scan_loop c as ae jp len fuel st).maxs ∧
      DedupInv (scan_loop c as ae jp len fuel st).tmpe
        (scan_loop c as ae jp len fuel st).maxe := by
  intro fuel
  induction fuel with
  | zero => intro st _ _ _ ds de; exact ⟨ds, de⟩
  | succ n ih =>
    intro st h1 hs he ds de
    rw [scan_loop]
    split
    · rename_i hlt
      obtain ⟨a1, a2, a3⟩ := scan_step_cand c as ae jp len st h1 hlt hs he
      obtain ⟨b1, b2⟩ := scan_step_dedup c as ae jp len st hs he ds de
      exact ih _ a1 a2 a3 b1 b2
    · exact ⟨ds, de⟩

/-- One more iteration of the bound of the scan loop is one more iteration of the
loop, if its condition still holds. -/
theorem scan_loop_succ (c as ae : Int → ℚ) (jp : List Int) (len : Int) :
    ∀ (n : Nat) (st : ScanState),
      scan_loop c as ae jp len (n + 1) st
        = if (scan_loop c as ae jp len n st).i < len - smallwin
          then scan_step c as ae jp len (scan_loop c as ae jp len n st)
          else scan_loop c as ae jp len n st := by
  intro n
  induction n with
  | zero =>
    intro st
    simp only [scan_loop]
  | succ n ih =>
    intro st
    rw [scan_loop]
    by_cases h : st.i < len - smallwin
    · rw [if_pos h, ih (scan_step c as ae jp len st)]
      conv_rhs => rw [scan_loop, if_pos h]
    · rw [if_neg h]
      conv_rhs => rw [scan_loop, if_neg h]
      rw [if_neg h]

theorem empty_dedup : DedupInv [] 0 := by
  refine ⟨by simp, ?_, ?_, ?_, ?_⟩
  · intro j k _ hk; simp at hk
  · intro j _ hj; simp at hj
  · intro j k _ hk; simp at hk
  · intro _ j hj; simp at hj

/-- C25: at every point of the scan of `get_drop`, and so after it, any two start
candidates that are active differ in scan position by more than `win`, and
likewise any two active end candidates; and from any point of the scan to any
later one every candidate keeps its place and position, and stays inactive once it
is inactive. The scan of a region is `scan_after` with the region's arrays and
`n = len`. -/
theorem scan_dedup (c as ae : Int → ℚ) (jp : List Int) (len : Int) :
    (∀ n, ActiveApart (scan_after c as ae jp len n).tmps ∧
      ActiveApart (scan_after c as ae jp len n).tmpe) ∧
    (∀ n m, n ≤ m →
      StaysInactive (scan_after c as ae jp len n).tmps (scan_after c as ae jp len m).tmps ∧
      StaysInactive (scan_after c as ae jp len n).tmpe (scan_after c as ae jp len m).tmpe) := by
  constructor
  · intro n
    obtain ⟨h1, h2⟩ := scan_loop_dedup c as ae jp len n ⟨smallwin + 1, 0, [], [], 0, 0⟩
      (le_refl _) ⟨by simp, by simp⟩ ⟨by simp, by simp⟩ empty_dedup empty_dedup
    exact ⟨h1.apart, h2.apart⟩
  · intro n m hnm
    induction m with
    | zero =>
      have : n = 0 := by omega
      subst this
      exact ⟨staysInactive_refl _, staysInactive_refl _⟩
    | succ m ih =>
      rcases Nat.eq_or_lt_of_le hnm with rfl | hlt
      · exact ⟨staysInactive_refl _, staysInactive_refl _⟩
      · obtain ⟨i1, i2⟩ := ih (by omega)
        have hstep : StaysInactive (scan_after c as ae jp len m).tmps
              (scan_after c as ae jp len (m + 1)).tmps ∧
            StaysInactive (scan_after c as ae jp len m).tmpe
              (scan_after c as ae jp len (m + 1)).tmpe := by
          unfold scan_after
          rw [scan_loop_succ]
          split
          · exact scan_step_stays c as ae jp len _
          · exact ⟨staysInactive_refl _, staysInactive_refl _⟩
        exact ⟨staysInactive_trans i1 hstep.1, staysInactive_trans i2 hstep.2⟩

/-! ## The closing rule of `print_small_bundle` -/

/-- One parsed line stores at most one junction, in the pool or in the pending set,
and a stored junction has coverage at least `lowcov`, and at least `smallcov` when
its strand is `.`. -/
theorem add_junc_line_stored_cov (chr : String) (bundleend : Int)
    (junc unprocjunc : List JuncEntry) (l : JuncLine) :
    ∃ newj newu,
      (add_junc_line chr bundleend junc unprocjunc l).2.1 = junc ++ newj ∧
      (add_junc_line chr bundleend junc unprocjunc l).2.2.1 = unprocjunc ++ newu ∧
      ∀ e ∈ newj ++ newu, e.cov ≥ lowcov ∧ (e.strand = '.' → e.cov ≥ smallcov) := by
  obtain ⟨hyes, hno⟩ := add_junc_line_cases chr bundleend junc unprocjunc l
  by_cases hadm : admitStageA l ∧ admitStageB l
  · have hcov : ∀ e ∈ [storedEntry l],
        e.cov ≥ lowcov ∧ (e.strand = '.' → e.cov ≥ smallcov) := by
      intro e he
      rw [List.mem_singleton] at he
      subst he
      show l.cov_val ≥ lowcov ∧ (l.strand = '.' → l.cov_val ≥ smallcov)
      rcases hadm.1.2 with ⟨h3, h4⟩ | h3
      · exact ⟨h3, fun h => absurd h h4⟩
      · refine ⟨le_trans ?_ h3, fun _ => h3⟩
        unfold lowcov smallcov
        norm_num
    have h := hyes hadm
    split at h
    · exact ⟨[storedEntry l], [], h.1, by rw [h.2, List.append_nil], by simpa using hcov⟩
    · exact ⟨[], [storedEntry l], by rw [h.1, List.append_nil], h.2, by simpa using hcov⟩
  · have h := hno hadm
    exact ⟨[], [], by rw [h.1, List.append_nil], by rw [h.2, List.append_nil],
      fun e he => absurd he (List.not_mem_nil _)⟩

/-- C35: every junction that `add_junc_to_bundle` stores, in the junction pool or in
the pending set, has coverage at least `lowcov`, hence above 0, and every stored
junction with strand `.` has coverage at least `smallcov`; the junctions already in
the two collections stay as they are, in front of the new ones. -/
theorem add_junc_to_bundle_admitted_cov (chr : String) (bundleend : Int)
    (junc unprocjunc : List JuncEntry) (lines : List (Option JuncLine)) :
    ∃ newj newu,
      (add_junc_to_bundle chr bundleend junc unprocjunc lines).2.1 = junc ++ newj ∧
      (add_junc_to_bundle chr bundleend junc unprocjunc lines).2.2.1 = unprocjunc ++ newu ∧
      ∀ e ∈ newj ++ newu,
        e.cov ≥ lowcov ∧ e.cov > 0 ∧ (e.strand = '.' → e.cov ≥ smallcov) := by
  induction lines generalizing bundleend junc unprocjunc with
  | nil =>
    exact ⟨[], [], by simp [add_junc_to_bundle], by simp [add_junc_to_bundle],
      fun e he => absurd he (List.not_mem_nil _)⟩
  | cons x rest ih =>
    cases x with
    | none =>
      rw [add_junc_to_bundle]
      exact ih bundleend junc unprocjunc
    | some l =>
      rw [add_junc_to_bundle]
      obtain ⟨nj1, nu1, h1, h2, h3⟩ := add_junc_line_stored_cov chr bundleend junc unprocjunc l
      have hpos : ∀ e ∈ nj1 ++ nu1,
          e.cov ≥ lowcov ∧ e.cov > 0 ∧ (e.strand = '.' → e.cov ≥ smallcov) := by
        intro e he
        refine ⟨(h3 e he).1, lt_of_lt_of_le ?_ (h3 e he).1, (h3 e he).2⟩
        unfold lowcov
        norm_num
      split
      · exact ⟨nj1, nu1, h1, h2, hpos⟩
      · obtain ⟨nj2, nu2, g1, g2, g3⟩ := ih (add_junc_line chr bundleend junc unprocjunc l).1
          (add_junc_line chr bundleend junc unprocjunc l).2.1
          (add_junc_line chr bundleend junc unprocjunc l).2.2.1
        refine ⟨nj1 ++ nj2, nu1 ++ nu2, ?_, ?_, ?_⟩
        · rw [g1, h1, List.append_assoc]
        · rw [g2, h2, List.append_assoc]
        · intro e he
          simp only [List.mem_append] at he
          rcases he with (he | he) | (he | he)
          · exact hpos e (List.mem_append_left _ he)
          · exact g3 e (List.mem_append_left _ he)
          · exact hpos e (List.mem_append_right _ he)
          · exact g3 e (List.mem_append_right _ he)
/-! ## The cursor of `get_cov` across two queries -/

theorem get_cov_cursor_ge (covg : List CovgEntry) (start end_ : Int) (si : Nat)
    (hsi : si ≤ covg.length) : si ≤ (get_cov covg start end_ si covg.length).2 := by
  obtain ⟨h1, h2, _, _⟩ := get_cov_skip_spec covg start covg.length (covg.length - si) si rfl hsi
  unfold get_cov
  simp only []
  generalize get_cov_skip covg start covg.length (covg.length - si) si = k at h1 h2
  split
  · exact h1
  · rename_i hne
    exact le_trans h1
      (get_cov_acc_cursor covg end_ covg.length (covg.length - k) k _ 0 rfl (by omega)).1

/-- C33: over sorted, pairwise disjoint segments, `get_cov` never moves the cursor
back and never past the number of segments (from cursor 0, and from any cursor
within the buffer), and after a query `[s1, e1]` run from cursor 0, every later
query `[s2, e2]` with `s2 >= max(s1, e1)` run from the cursor the first one left
returns the same value as when run from cursor 0. -/
theorem get_cov_cursor_refines (covg : List CovgEntry) (s1 e1 s2 e2 : Int)
    (hs : CovgSorted covg) (h : max s1 e1 ≤ s2) :
    0 ≤ (get_cov covg s1 e1 0 covg.length).2 ∧
    (get_cov covg s1 e1 0 covg.length).2 ≤ covg.length ∧
    (∀ k, k ≤ covg.length → k ≤ (get_cov covg s1 e1 k covg.length).2 ∧
      (get_cov covg s1 e1 k covg.length).2 ≤ covg.length) ∧
    (get_cov covg s2 e2 (get_cov covg s1 e1 0 covg.length).2 covg.length).1
      = (get_cov covg s2 e2 0 covg.length).1 := by
  obtain ⟨hk, hp⟩ := get_cov_cursor covg s1 e1
  refine ⟨Nat.zero_le _, hk,
    fun k hkl => ⟨get_cov_cursor_ge covg s1 e1 k hkl, get_cov_cursor_le covg s1 e1 k hkl⟩, ?_⟩
  apply get_cov_cursor_sound covg hs s2 e2 _ hk
  intro i hi
  have h1 : s1 ≤ s2 := le_trans (le_max_left _ _) h
  have h2 : e1 ≤ s2 := le_trans (le_max_right _ _) h
  rcases hp i hi with h3 | h3 <;> omega

/-- C33 on the segments `[1,10]`, `[20,30]`: the query `[1,25]` leaves the cursor at
1, and the later query `[25,28]` gives 4 from that cursor and from cursor 0. -/
theorem get_cov_cursor_refines_witness :
    CovgSorted twoSegments ∧ max (1 : Int) 25 ≤ 25 ∧
    (get_cov twoSegments 1 25 0 twoSegments.length).2 = 1 ∧
    (get_cov twoSegments 25 28 0 twoSegments.length).1 = 4 ∧
    (get_cov twoSegments 25 28 (get_cov twoSegments 1 25 0 twoSegments.length).2
      twoSegments.length).1 = (get_cov twoSegments 25 28 0 twoSegments.length).1 :=
  ⟨by decide, by decide, by decide, by decide!,
    (get_cov_cursor_refines twoSegments 1 25 25 28 (by decide) (by decide)).2.2.2⟩
/-! ## The frame of `process_junctions` -/

theorem active_remove_subset (key : JuncKey) (a : ActiveEntry) :
    ∀ active : List ActiveEntry, a ∈ active_remove key active → a ∈ active := by
  intro active
  induction active with
  | nil => intro h; exact h
  | cons b rest ih =>
    intro h
    rw [active_remove] at h
    split at h
    · exact List.mem_cons_of_mem _ h
    · rcases List.mem_cons.mp h with hab | hrest
      · rw [hab]; exact List.mem_cons_self _ _
      · exact List.mem_cons_of_mem _ (ih hrest)

theorem pj_close_subset (junc : List JuncEntry) (jend : List Nat) (nj js : Nat)
    (a : ActiveEntry) :
    ∀ (fuel je : Nat) (active : List ActiveEntry),
      a ∈ (pj_close junc jend nj js fuel je active).2 → a ∈ active := by
  intro fuel
  induction fuel with
  | zero => intro je active h; exact h
  | succ n ih =>
    intro je active h
    rw [pj_close] at h
    split at h
    · exact active_remove_subset _ a active (ih _ _ h)
    · exact h

theorem pj_check_dominated (junc : List JuncEntry) (nj js : Nat) (hjs : js < nj) :
    ∀ (active : List ActiveEntry) (mark : List Bool),
      (∀ a ∈ active, a.idx < js) →
      (∀ w, mark.getD w false = true → StrandDominated junc nj w) →
      ∀ w, (pj_check junc js active mark).getD w false = true → StrandDominated junc nj w := by
  intro active
  induction active with
  | nil => intro mark _ h; exact h
  | cons a rest ih =>
    intro mark hact h
    rw [pj_check]
    try simp only []
    apply ih _ (fun b hb => hact b (List.mem_cons_of_mem _ hb))
    have hlt := hact a (List.mem_cons_self _ _)
    by_cases hs : equal_strand (juncAt junc a.idx).strand (juncAt junc js).strand = true
    · rw [if_pos hs]
      by_cases c1 : (juncAt junc js).cov > (juncAt junc a.idx).cov
      · rw [if_pos c1]
        by_cases c2 : (juncAt junc js).cov < smallcov
        · rw [if_pos c2]
          intro w hw
          rcases mark_set_getD mark _ w hw with e | e
          · subst e
            exact ⟨js, hjs, by omega, hs, c1, c2⟩
          · exact h w e
        · rw [if_neg c2]; exact h
      · rw [if_neg c1]
        by_cases c3 : (juncAt junc js).cov < (juncAt junc a.idx).cov
        · rw [if_pos c3]
          by_cases c4 : (juncAt junc a.idx).cov < smallcov
          · rw [if_pos c4]
            intro w hw
            rcases mark_set_getD mark _ w hw with e | e
            · subst e
              exact ⟨a.idx, by omega, by omega, equal_strand_symm _ _ hs, c3, c4⟩
            · exact h w e
          · rw [if_neg c4]; exact h
        · rw [if_neg c3]; exact h
    · rw [if_neg hs]; exact h

theorem pj_sweep_dominated (junc : List JuncEntry) (jend : List Nat) (nj : Nat) :
    ∀ (fuel js je : Nat) (active : List ActiveEntry) (mark : List Bool),
      (∀ a ∈ active, a.idx < js) →
      (∀ w, mark.getD w false = true → StrandDominated junc nj w) →
      ∀ w, (pj_sweep junc jend nj fuel js je active mark).getD w false = true →
        StrandDominated junc nj w := by
  intro fuel
  induction fuel with
  | zero => intro js je active mark _ h; exact h
  | succ n ih =>
    intro js je active mark hact hm
    rw [pj_sweep]
    split
    · rename_i hjs
      simp only []
      have hsub : ∀ a ∈ (pj_close junc jend nj js (nj - je) je active).2, a.idx < js :=
        fun a ha => hact a (pj_close_subset junc jend nj js a _ _ _ ha)
      apply ih
      · intro a ha
        rcases List.mem_append.mp ha with h1 | h1
        · exact Nat.lt_succ_of_lt (hsub a h1)
        · rw [List.mem_singleton] at h1
          rw [h1]
          exact Nat.lt_succ_self _
      · exact pj_check_dominated junc nj js hjs _ mark hsub hm
    · exact hm

/-- Entry `i` of the pool after "apply marks" is the old entry, or the old entry
with coverage 0 when its mark is set. -/
theorem pj_apply_cases (nj : Nat) (mark : List Bool) :
    ∀ (junc : List JuncEntry) (j i : Nat), i < junc.length →
      juncAt (pj_apply nj mark j junc) i = juncAt junc i ∨
      (mark.getD (j + i) false = true ∧
        juncAt (pj_apply nj mark j junc) i = { juncAt junc i with cov := 0 }) := by
  intro junc
  induction junc with
  | nil => intro j i hi; simp at hi
  | cons e rest ih =>
    intro j i hi
    cases i with
    | zero =>
      simp only [pj_apply, juncAt, List.getD_cons_zero]
      split
      · rename_i hc
        exact Or.inr ⟨by simpa using hc.2, rfl⟩
      · exact Or.inl rfl
    | succ i =>
      have := ih (j + 1) i (by simpa using hi)
      rw [show j + 1 + i = j + (i + 1) by omega] at this
      simpa [pj_apply, juncAt] using this

theorem pj_apply_length (nj : Nat) (mark : List Bool) :
    ∀ (junc : List JuncEntry) (j : Nat), (pj_apply nj mark j junc).length = junc.length := by
  intro junc
  induction junc with
  | nil => intro j; rfl
  | cons e rest ih => intro j; simp [pj_apply, ih]

/-- C32: `process_junctions` leaves the number of junctions and every junction's
chromosome, start, end and strand as they are; each coverage is afterwards its old
value or 0, and it is 0 in place of another value only if some other junction of
the list has a compatible strand and a strictly greater coverage that is below
`smallcov`; so a junction with coverage at least `smallcov`, and a junction whose
coverage is maximal in the list, keeps its coverage. -/
theorem process_junctions_frame (junc : List JuncEntry) (jend : List Nat) :
    (process_junctions junc jend junc.length).length = junc.length ∧
    ∀ w, w < junc.length →
      (juncAt (process_junctions junc jend junc.length) w).chrname = (juncAt junc w).chrname ∧
      (juncAt (process_junctions junc jend junc.length) w).start = (juncAt junc w).start ∧
      (juncAt (process_junctions junc jend junc.length) w).end_ = (juncAt junc w).end_ ∧
      (juncAt (process_junctions junc jend junc.length) w).strand = (juncAt junc w).strand ∧
      ((juncAt (process_junctions junc jend junc.length) w).cov = (juncAt junc w).cov ∨
        ((juncAt (process_junctions junc jend junc.length) w).cov = 0 ∧
          StrandDominated junc junc.length w)) ∧
      ((juncAt junc w).cov ≥ smallcov →
        (juncAt (process_junctions junc jend junc.length) w).cov = (juncAt junc w).cov) ∧
      ((∀ k, k < junc.length → (juncAt junc k).cov ≤ (juncAt junc w).cov) →
        (juncAt (process_junctions junc jend junc.length) w).cov = (juncAt junc w).cov) := by
  refine ⟨pj_apply_length _ _ _ _, fun w hw => ?_⟩
  have hdom : ∀ v, (pj_sweep junc jend junc.length junc.length 0 0 []
      (List.replicate junc.length false)).getD v false = true →
      StrandDominated junc junc.length v := by
    apply pj_sweep_dominated
    · intro a ha; exact absurd ha (List.not_mem_nil _)
    · intro v hv
      rw [List.getD_eq_getElem?_getD] at hv
      by_cases hlt : v < junc.length
      · simp [hlt] at hv
      · simp [hlt] at hv
  unfold process_junctions
  rcases pj_apply_cases junc.length (pj_sweep junc jend junc.length junc.length 0 0 []
    (List.replicate junc.length false)) junc 0 w hw with h | ⟨hm, h⟩
  · rw [h]
    exact ⟨rfl, rfl, rfl, rfl, Or.inl rfl, fun _ => rfl, fun _ => rfl⟩
  · rw [Nat.zero_add] at hm
    have hd := hdom w hm
    rw [h]
    refine ⟨rfl, rfl, rfl, rfl, Or.inr ⟨rfl, hd⟩, fun hge => ?_, fun hmax => ?_⟩
    · obtain ⟨k, _, _, _, c1, c2⟩ := hd
      exact absurd (lt_of_le_of_lt hge c1) (not_lt.mpr (le_of_lt c2))
    · obtain ⟨k, hk, _, _, c1, _⟩ := hd
      exact absurd c1 (not_lt.mpr (hmax k hk))
/-! ## A second pass of `process_junctions` -/

theorem pj_close_congr (a b : List JuncEntry) (jend : List Nat) (nj js : Nat)
    (hst : ∀ k, junc_key (juncAt b k) = junc_key (juncAt a k) ∧
      (juncAt b k).start = (juncAt a k).start ∧ (juncAt b k).end_ = (juncAt a k).end_) :
    ∀ (fuel je : Nat) (active : List ActiveEntry),
      pj_close b jend nj js fuel je active = pj_close a jend nj js fuel je active := by
  intro fuel
  induction fuel with
  | zero => intro je active; rfl
  | succ n ih =>
    intro je active
    rw [pj_close, pj_close, (hst (jendAt jend je)).2.2, (hst js).2.1, (hst (jendAt jend je)).1, ih]

theorem pj_apply_id (nj : Nat) (mark : List Bool) :
    ∀ (junc : List JuncEntry) (j : Nat),
      (∀ i, i < junc.length → mark.getD (j + i) false = true → (juncAt junc i).cov = 0) →
      pj_apply nj mark j junc = junc := by
  intro junc
  induction junc with
  | nil => intro j _; rfl
  | cons e rest ih =>
    intro j h
    rw [pj_apply]
    have hrest : pj_apply nj mark (j + 1) rest = rest := by
      apply ih
      intro i hi hm
      have := h (i + 1) (by simpa using hi) (by
        rw [show j + (i + 1) = j + 1 + i by omega]; exact hm)
      simpa [juncAt] using this
    rw [hrest]
    split
    · rename_i hc
      have h0 : e.cov = 0 := by
        have := h 0 (by simp) (by simpa using hc.2)
        simpa [juncAt] using this
      cases e
      simp only [] at h0
      subst h0
      rfl
    · rfl

/-- The pool after `process_junctions` agrees with the pool before it in every
field but the coverage, which is the old one or 0, and 0 where the mark is set. -/
theorem process_junctions_fields (junc : List JuncEntry) (jend : List Nat) (k : Nat) :
    junc_key (juncAt (process_junctions junc jend junc.length) k) = junc_key (juncAt junc k) ∧
    (juncAt (process_junctions junc jend junc.length) k).start = (juncAt junc k).start ∧
    (juncAt (process_junctions junc jend junc.length) k).end_ = (juncAt junc k).end_ ∧
    (juncAt (process_junctions junc jend junc.length) k).strand = (juncAt junc k).strand ∧
    ((juncAt (process_junctions junc jend junc.length) k).cov = (juncAt junc k).cov ∨
      (juncAt (process_junctions junc jend junc.length) k).cov = 0) ∧
    ((pj_sweep junc jend junc.length junc.length 0 0 []
        (List.replicate junc.length false)).getD k false = true →
      (juncAt (process_junctions junc jend junc.length) k).cov = 0) := by
  by_cases hk : k < junc.length
  · unfold process_junctions
    rcases pj_apply_cases junc.length (pj_sweep junc jend junc.length junc.length 0 0 []
      (List.replicate junc.length false)) junc 0 k hk with h | ⟨hm, h⟩
    · rw [h]
      refine ⟨rfl, rfl, rfl, rfl, Or.inl rfl, fun hm => ?_⟩
      have := pj_apply_marked junc.length _ junc 0 k hk (by omega)
        (by rw [Nat.zero_add]; exact hm)
      rw [h] at this
      exact this
    · rw [h]
      exact ⟨rfl, rfl, rfl, rfl, Or.inr rfl, fun _ => rfl⟩
  · have h1 : juncAt (process_junctions junc jend junc.length) k = default := by
      unfold juncAt process_junctions
      rw [List.getD_eq_default]
      rw [pj_apply_length]
      omega
    have h2 : juncAt junc k = default := by
      unfold juncAt
      rw [List.getD_eq_default]
      omega
    rw [h1, h2]
    exact ⟨rfl, rfl, rfl, rfl, Or.inl rfl, fun _ => rfl⟩

/-- The check of one scanned junction in a second pass only marks junctions that
the first pass, from the same active list, marks or that have coverage 0. -/
theorem pj_check_second (a b : List JuncEntry) (nj js : Nat) (hjs : js < nj)
    (hst : ∀ k, (juncAt b k).strand = (juncAt a k).strand ∧
      ((juncAt b k).cov = (juncAt a k).cov ∨ (juncAt b k).cov = 0))
    (hcov : ∀ k, 0 ≤ (juncAt a k).cov) :
    ∀ (active : List ActiveEntry) (mark1 mark2 : List Bool), mark1.length = nj →
      (∀ e ∈ active, e.idx < nj) →
      (∀ w, (pj_check a js active mark1).getD w false = true → (juncAt b w).cov = 0) →
      (∀ w, mark2.getD w false = true → (juncAt b w).cov = 0) →
      ∀ w, (pj_check b js active mark2).getD w false = true → (juncAt b w).cov = 0 := by
  have hnn : ∀ k, 0 ≤ (juncAt b k).cov := by
    intro k
    rcases (hst k).2 with h | h
    · rw [h]; exact hcov k
    · rw [h]
  have hkeep : ∀ k, (juncAt b k).cov ≠ 0 → (juncAt b k).cov = (juncAt a k).cov := by
    intro k hk
    rcases (hst k).2 with h | h
    · exact h
    · exact absurd h hk
  intro active
  induction active with
  | nil => intro mark1 mark2 _ _ _ h2; exact h2
  | cons e rest ih =>
    intro mark1 mark2 hlen hact h1 h2
    rw [pj_check] at h1 ⊢
    have he := hact e (List.mem_cons_self _ _)
    refine ih _ _ ?_ (fun x hx => hact x (List.mem_cons_of_mem _ hx)) h1 ?_
    · split_ifs <;> simp [hlen]
    · rw [(hst e.idx).1, (hst js).1]
      by_cases hs : equal_strand (juncAt a e.idx).strand (juncAt a js).strand = true
      · rw [if_pos hs]
        rw [if_pos hs] at h1
        by_cases c1 : (juncAt b js).cov > (juncAt b e.idx).cov
        · rw [if_pos c1]
          by_cases c2 : (juncAt b js).cov < smallcov
          · rw [if_pos c2]
            intro w hw
            rcases mark_set_getD mark2 _ w hw with hwe | hwe
            · subst hwe
              by_contra hne
              have e1 := hkeep _ hne
              have hpos : 0 < (juncAt b e.idx).cov := lt_of_le_of_ne (hnn _) (Ne.symm hne)
              have e2 := hkeep js (ne_of_gt (lt_trans hpos c1))
              rw [e1, e2] at c1
              rw [e2] at c2
              rw [if_pos c1, if_pos c2] at h1
              exact hne (h1 _ (pj_check_mono a js _ rest _ (mark_set_self mark1 _ (by omega))))
            · exact h2 w hwe
          · rw [if_neg c2]; exact h2
        · rw [if_neg c1]
          by_cases c3 : (juncAt b js).cov < (juncAt b e.idx).cov
          · rw [if_pos c3]
            by_cases c4 : (juncAt b e.idx).cov < smallcov
            · rw [if_pos c4]
              intro w hw
              rcases mark_set_getD mark2 _ w hw with hwe | hwe
              · subst hwe
                by_contra hne
                have e1 := hkeep _ hne
                have hpos : 0 < (juncAt b w).cov := lt_of_le_of_ne (hnn _) (Ne.symm hne)
                have e2 := hkeep e.idx (ne_of_gt (lt_trans hpos c3))
                rw [e1, e2] at c3
                rw [e2] at c4
                rw [if_neg (not_lt.mpr (le_of_lt c3)), if_pos c3, if_pos c4] at h1
                exact hne (h1 _ (pj_check_mono a w _ rest _ (mark_set_self mark1 _ (by omega))))
              · exact h2 w hwe
            · rw [if_neg c4]; exact h2
          · rw [if_neg c3]; exact h2
      · rw [if_neg hs]; exact h2

theorem pj_sweep_second (a b : List JuncEntry) (jend : List Nat) (nj : Nat)
    (hst : ∀ k, junc_key (juncAt b k) = junc_key (juncAt a k) ∧
      (juncAt b k).start = (juncAt a k).start ∧ (juncAt b k).end_ = (juncAt a k).end_ ∧
      (juncAt b k).strand = (juncAt a k).strand ∧
      ((juncAt b k).cov = (juncAt a k).cov ∨ (juncAt b k).cov = 0))
    (hcov : ∀ k, 0 ≤ (juncAt a k).cov) :
    ∀ (fuel js je : Nat) (active : List ActiveEntry) (mark1 mark2 : List Bool),
      mark1.length = nj → (∀ e ∈ active, e.idx < js) →
      (∀ w, (pj_sweep a jend nj fuel js je active mark1).getD w false = true →
        (juncAt b w).cov = 0) →
      (∀ w, mark2.getD w false = true → (juncAt b w).cov = 0) →
      ∀ w, (pj_sweep b jend nj fuel js je active mark2).getD w false = true →
        (juncAt b w).cov = 0 := by
  intro fuel
  induction fuel with
  | zero => intro js je active mark1 mark2 _ _ _ h2; exact h2
  | succ n ih =>
    intro js je active mark1 mark2 hlen hact h1 h2
    rw [pj_sweep] at h1 ⊢
    split
    · rename_i hjs
      rw [if_pos hjs] at h1
      simp only [] at h1 ⊢
      rw [pj_close_congr a b jend nj js (fun k => ⟨(hst k).1, (hst k).2.1, (hst k).2.2.1⟩),
        (hst js).1]
      have hsub : ∀ e ∈ (pj_close a jend nj js (nj - je) je active).2, e.idx < js :=
        fun e he => hact e (pj_close_subset a jend nj js e _ _ _ he)
      refine ih _ _ _ _ _ ?_ ?_ h1 ?_
      · rw [pj_check_length]; exact hlen
      · intro e he
        rcases List.mem_append.mp he with h3 | h3
        · exact Nat.lt_succ_of_lt (hsub e h3)
        · rw [List.mem_singleton] at h3
          rw [h3]
          exact Nat.lt_succ_self _
      · apply pj_check_second a b nj js hjs (fun k => ⟨(hst k).2.2.2.1, (hst k).2.2.2.2⟩) hcov
          _ mark1 mark2 hlen (fun e he => lt_trans (hsub e he) hjs) ?_ h2
        intro w hw
        exact h1 w (pj_sweep_mono a jend nj w _ _ _ _ _ hw)
    · exact h2

/-- C36: for every junction list whose coverages are not negative (a stored
junction has coverage at least `lowcov`, and the filter only ever sets a coverage
to 0), and every index permutation `jend`, a second application of
`process_junctions`, to the result of the first, changes nothing: no coverage, and
no other field. -/
theorem process_junctions_idempotent (junc : List JuncEntry) (jend : List Nat)
    (hcov : ∀ j ∈ junc, 0 ≤ j.cov) :
    process_junctions (process_junctions junc jend junc.length) jend
        (process_junctions junc jend junc.length).length
      = process_junctions junc jend junc.length := by
  have hlen : (process_junctions junc jend junc.length).length = junc.length :=
    pj_apply_length _ _ _ _
  have hnn : ∀ k, 0 ≤ (juncAt junc k).cov := by
    intro k
    unfold juncAt
    by_cases hk : k < junc.length
    · rw [List.getD_eq_getElem _ _ hk]
      exact hcov _ (List.getElem_mem _)
    · rw [List.getD_eq_default _ _ (by omega)]
      exact le_refl _
  rw [hlen]
  conv_lhs => rw [process_junctions]
  apply pj_apply_id
  intro i _ hm
  rw [Nat.zero_add] at hm
  refine pj_sweep_second junc (process_junctions junc jend junc.length) jend junc.length
    (fun k => ?_) hnn junc.length 0 0 [] (List.replicate junc.length false)
    (List.replicate junc.length false) (by simp)
    (fun e he => absurd he (List.not_mem_nil _)) ?_ ?_ i hm
  · obtain ⟨f1, f2, f3, f4, f5, _⟩ := process_junctions_fields junc jend k
    exact ⟨f1, f2, f3, f4, f5⟩
  · intro w hw
    exact (process_junctions_fields junc jend w).2.2.2.2.2 hw
  · intro v hv
    rw [List.getD_eq_getElem?_getD] at hv
    by_cases hlt : v < junc.length
    · simp [hlt] at hv
    · simp [hlt] at hv

/-- C36 on the junctions `[100,300]` (coverage 15) and `[150,200]`
(coverage 20): the first pass retracts the first junction, and a second pass leaves
the pool as the first left it. -/
theorem process_junctions_idempotent_witness :
    (∀ j ∈ nestedJunc, 0 ≤ j.cov) ∧
    (process_junctions nestedJunc [1, 0] nestedJunc.length).map (fun j => j.cov) = [0, 20] ∧
    process_junctions (process_junctions nestedJunc [1, 0] nestedJunc.length) [1, 0]
        (process_junctions nestedJunc [1, 0] nestedJunc.length).length
      = process_junctions nestedJunc [1, 0] nestedJunc.length :=
  ⟨by decide!, by decide!, process_junctions_idempotent nestedJunc [1, 0] (by decide!)⟩
/-! ## Conservation of coverage by the merge -/

theorem sumRange_add (x : Int → ℚ) (a : Int) (m : Nat) :
    ∀ n : Nat, sumRange x a (m + n) = sumRange x a m + sumRange x (a + m) n := by
  intro n
  induction n with
  | zero => simp [sumRange]
  | succ n ih =>
    rw [← Nat.add_assoc, sumRange, ih, sumRange]
    push_cast
    rw [add_assoc, add_assoc]

theorem sumTo_split (x : Int → ℚ) (a m b : Int) (h1 : a ≤ m) (h2 : m ≤ b) :
    sumTo x a b = sumTo x a m + sumTo x m b := by
  unfold sumTo
  have e1 : (b - a).toNat = (m - a).toNat + (b - m).toNat := by omega
  rw [e1, sumRange_add]
  have e2 : a + ((m - a).toNat : Int) = m := by omega
  rw [e2]

theorem sumTo_self (x : Int → ℚ) (a : Int) : sumTo x a a = 0 := by
  unfold sumTo
  simp [sumRange]

theorem sumTo_succ (x : Int → ℚ) (a b : Int) (h : a ≤ b) :
    sumTo x a (b + 1) = sumTo x a b + x b := by
  unfold sumTo
  have e1 : (b + 1 - a).toNat = (b - a).toNat + 1 := by omega
  rw [e1, sumRange]
  have e2 : a + ((b - a).toNat : Int) = b := by omega
  rw [e2]

theorem sumTo_nonneg (x : Int → ℚ) (a : Int) :
    ∀ (n : Nat), (∀ t, a ≤ t → t < a + n → 0 ≤ x t) → 0 ≤ sumRange x a n := by
  intro n
  induction n with
  | zero => intro _; exact le_refl _
  | succ n ih =>
    intro h
    rw [sumRange]
    apply add_nonneg
    · exact ih (fun t h1 h2 => h t h1 (by push_cast; omega))
    · exact h _ (by omega) (by push_cast; omega)

/-- Inside one block the array holds the sum from the start of the block. -/
theorem block_closed (x c : Int → ℚ) (n : Int) (hb : BlockSums x c n) (s : Int)
    (hs1 : 1 ≤ s) (hs : (s - 1) % win = 0) :
    ∀ (d : Nat), (d : Int) < win → s + d ≤ n → c (s + d) = sumTo x s (s + d + 1) := by
  intro d
  induction d with
  | zero =>
    intro _ hn
    simp only [Nat.cast_zero, add_zero] at hn ⊢
    rw [hb.2 s hs1 hn, if_neg (by rw [hs]; exact fun h => h rfl), add_zero,
      sumTo_succ x s s (le_refl _), sumTo_self, zero_add]
  | succ d ih =>
    intro hd hn
    have hd1 : ((d + 1 : Nat) : Int) = (d : Int) + 1 := by push_cast; rfl
    rw [hd1] at hd hn ⊢
    have hmod : (s + ((d : Int) + 1) - 1) % win ≠ 0 := by
      unfold win at hd hs ⊢
      omega
    rw [hb.2 _ (by omega) hn, if_pos hmod,
      show s + ((d : Int) + 1) - 1 = s + (d : Int) by omega, ih (by omega) (by omega),
      sumTo_succ x s (s + ((d : Int) + 1)) (by omega),
      show s + (d : Int) + 1 = s + ((d : Int) + 1) by omega]
    ring

theorem block_closed_int (x c : Int → ℚ) (n : Int) (hb : BlockSums x c n) (s j : Int)
    (hs1 : 1 ≤ s) (hs : (s - 1) % win = 0) (h1 : s ≤ j) (h2 : j - s < win) (h3 : j ≤ n) :
    c j = sumTo x s (j + 1) := by
  have := block_closed x c n hb s hs1 hs (j - s).toNat (by omega) (by omega)
  rw [show s + ((j - s).toNat : Int) = j by omega] at this
  exact this

/-- The raw left sum of `compute_perc` is the sum of `x` over the window `[l, i)`. -/
theorem sumleft_block (x c : Int → ℚ) (n : Int) (hb : BlockSums x c n) (l i : Int)
    (h1 : 1 ≤ l) (h2 : l < i) (h3 : i - 1 ≤ n) (h4 : i - l ≤ win) :
    sumleft l i c = sumTo x l i := by
  unfold sumleft
  simp only []
  have hk0 : 0 ≤ (i - 2) % win := by unfold win; omega
  have hkw : (i - 1 - (i - 2) % win - 1) % win = 0 := by unfold win; omega
  have hk1 : (i - 2) % win < win := by unfold win; omega
  have hk2 : (i - 2) % win ≤ i - 2 := by unfold win; omega
  generalize (i - 2) % win = k at hk0 hkw hk1 hk2
  have hci : c (i - 1) = sumTo x (i - 1 - k) i := by
    have := block_closed_int x c n hb (i - 1 - k) (i - 1) (by omega) hkw (by omega)
      (by omega) h3
    rw [show i - 1 + 1 = i by omega] at this
    exact this
  by_cases hc : i - 1 - k < i ∧ i - 1 - k ≥ l
  · rw [if_pos hc, hci]
    by_cases hone : i - 1 - k = 1
    · have hl : l = 1 := by omega
      rw [hone, hl, show (1 : Int) - 1 = 0 by norm_num, hb.1 0 (le_refl _)]
      ring
    · have hbig : win + 1 ≤ i - 1 - k := by
        unfold win at hkw ⊢
        omega
      have hp : c (i - 1 - k - 1) = sumTo x (i - 1 - k - win) (i - 1 - k) := by
        have := block_closed_int x c n hb (i - 1 - k - win) (i - 1 - k - 1) (by omega)
          (by unfold win at hkw ⊢; omega) (by unfold win; omega) (by unfold win; omega)
          (by omega)
        rw [show i - 1 - k - 1 + 1 = i - 1 - k by omega] at this
        exact this
      have hl : c (l - 1) = sumTo x (i - 1 - k - win) l := by
        have := block_closed_int x c n hb (i - 1 - k - win) (l - 1) (by omega)
          (by unfold win at hkw ⊢; omega) (by omega) (by omega) (by omega)
        rw [show l - 1 + 1 = l by omega] at this
        exact this
      rw [hp, hl, sumTo_split x (i - 1 - k - win) l (i - 1 - k) (by omega) (by omega),
        sumTo_split x l (i - 1 - k) i (by omega) (by omega)]
      ring
  · rw [if_neg hc]
    have hlt : i - 1 - k < l := by omega
    have hl : c (l - 1) = sumTo x (i - 1 - k) l := by
      have := block_closed_int x c n hb (i - 1 - k) (l - 1) (by omega) hkw (by omega)
        (by omega) (by omega)
      rw [show l - 1 + 1 = l by omega] at this
      exact this
    rw [hci, hl, sumTo_split x (i - 1 - k) l i (by omega) (by omega)]
    ring

/-- The raw right sum of `compute_perc` is the sum of `x` over the window `[i, r]`. -/
theorem sumright_block (x c : Int → ℚ) (n : Int) (hb : BlockSums x c n) (r i : Int)
    (h1 : 1 ≤ i) (h2 : i ≤ r) (h3 : r ≤ n) (h4 : r - i + 1 ≤ win) :
    sumright r i c = sumTo x i (r + 1) := by
  unfold sumright
  simp only []
  have hk0 : 0 ≤ (r - 1) % win := by unfold win; omega
  have hkw : (r - (r - 1) % win - 1) % win = 0 := by unfold win; omega
  have hk1 : (r - 1) % win < win := by unfold win; omega
  have hk2 : (r - 1) % win ≤ r - 1 := by unfold win; omega
  generalize (r - 1) % win = k at hk0 hkw hk1 hk2
  have hcr : c r = sumTo x (r - k) (r + 1) :=
    block_closed_int x c n hb (r - k) r (by omega) hkw (by omega) (by omega) h3
  by_cases hc : r - k - 1 < r ∧ r - k ≥ i
  · rw [if_pos hc, hcr]
    by_cases hone : r - k = 1
    · have hi : i = 1 := by omega
      rw [hone, hi, show (1 : Int) - 1 = 0 by norm_num, hb.1 0 (le_refl _)]
      ring
    · have hbig : win + 1 ≤ r - k := by
        unfold win at hkw ⊢
        omega
      have hp : c (r - k - 1) = sumTo x (r - k - win) (r - k) := by
        have := block_closed_int x c n hb (r - k - win) (r - k - 1) (by omega)
          (by unfold win at hkw ⊢; omega) (by unfold win; omega) (by unfold win; omega)
          (by omega)
        rw [show r - k - 1 + 1 = r - k by omega] at this
        exact this
      have hi : c (i - 1) = sumTo x (r - k - win) i := by
        have := block_closed_int x c n hb (r - k - win) (i - 1) (by omega)
          (by unfold win at hkw ⊢; omega) (by omega) (by omega) (by omega)
        rw [show i - 1 + 1 = i by omega] at this
        exact this
      rw [hp, hi, sumTo_split x (r - k - win) i (r - k) (by omega) (by omega),
        sumTo_split x i (r - k) (r + 1) (by omega) (by omega)]
      ring
  · rw [if_neg hc]
    have hlt : r - k < i := by omega
    have hi : c (i - 1) = sumTo x (r - k) i := by
      have := block_closed_int x c n hb (r - k) (i - 1) (by omega) hkw (by omega)
        (by omega) (by omega)
      rw [show i - 1 + 1 = i by omega] at this
      exact this
    rw [hcr, hi, sumTo_split x (r - k) i (r + 1) (by omega) (by omega)]
    ring

/-- What one iteration of the array-building loop does to `c` and to the segment
cursor. -/
theorem build_step_c (covg : List CovgEntry) (junc : List JuncEntry) (jend : List Nat)
    (nb nj : Nat) (start i : Int) (st : BuildState) :
    (build_step covg junc jend nb nj start i st).curr_si
      = seg_of_pos covg (i + start) (nb - st.curr_si) st.curr_si ∧
    ∀ n, (build_step covg junc jend nb nj start i st).c n
      = if n = i + 1 then
          (covgAt covg (seg_of_pos covg (i + start) (nb - st.curr_si) st.curr_si)).cov
            + (if i % win ≠ 0 then st.c i else 0)
        else st.c n := by
  unfold build_step
  simp only []
  constructor
  · split <;> rfl
  · intro n
    have hc : ∀ m, (if i % win ≠ 0 then
          arr_add (arr_set st.c (i + 1)
            (covgAt covg (seg_of_pos covg (i + start) (nb - st.curr_si) st.curr_si)).cov) (i + 1)
            (arr_set st.c (i + 1)
              (covgAt covg (seg_of_pos covg (i + start) (nb - st.curr_si) st.curr_si)).cov i)
        else arr_set st.c (i + 1)
          (covgAt covg (seg_of_pos covg (i + start) (nb - st.curr_si) st.curr_si)).cov) m
        = if m = i + 1 then
          (covgAt covg (seg_of_pos covg (i + start) (nb - st.curr_si) st.curr_si)).cov
            + (if i % win ≠ 0 then st.c i else 0)
        else st.c m := by
      intro m
      have hne : i ≠ i + 1 := by omega
      by_cases hr : i % win ≠ 0
      · rw [if_pos hr, if_pos hr]
        unfold arr_add arr_set
        rw [if_neg hne]
        by_cases hm : m = i + 1
        · rw [if_pos hm, if_pos hm, if_pos hm]
        · rw [if_neg hm, if_neg hm, if_neg hm]
      · rw [if_neg hr, if_neg hr]
        unfold arr_set
        by_cases hm : m = i + 1
        · rw [if_pos hm, if_pos hm, add_zero]
        · rw [if_neg hm, if_neg hm]
    split
    · exact hc n
    · exact hc n

theorem blockSums_congr (x y c : Int → ℚ) (n : Int) (h : ∀ j, 1 ≤ j → j ≤ n → x j = y j)
    (hb : BlockSums x c n) : BlockSums y c n :=
  ⟨hb.1, fun j h1 h2 => by rw [← h j h1 h2]; exact hb.2 j h1 h2⟩

theorem blockSums_zero (x : Int → ℚ) : BlockSums x (fun _ => 0) 0 :=
  ⟨fun _ _ => rfl, fun j h1 h2 => absurd (le_trans h1 h2) (by decide)⟩

/-- One iteration of the array-building loop extends the block-reset running sum by
the coverage of the segment the cursor stops at. -/
theorem build_step_block (covg : List CovgEntry) (junc : List JuncEntry) (jend : List Nat)
    (nb nj : Nat) (start k : Int) (st : BuildState) (x : Int → ℚ) (hk : 0 ≤ k)
    (hb : BlockSums x st.c k) :
    BlockSums
      (fun t => if t = k + 1 then
          (covgAt covg (seg_of_pos covg (k + start) (nb - st.curr_si) st.curr_si)).cov
        else x t)
      (build_step covg junc jend nb nj start k st).c (k + 1) := by
  obtain ⟨_, hc⟩ := build_step_c covg junc jend nb nj start k st
  constructor
  · intro j hj
    rw [hc j, if_neg (by omega)]
    exact hb.1 j hj
  · intro j h1 h2
    rw [hc j, hc (j - 1), if_neg (show j - 1 ≠ k + 1 by omega)]
    beta_reduce
    by_cases hj : j = k + 1
    · rw [if_pos hj, if_pos hj, hj, show k + 1 - 1 = k by omega]
    · rw [if_neg hj, if_neg hj]
      exact hb.2 j h1 (by omega)

/-- Inside a contiguous region the loop `while (istart > covg[curr_si].end)` stops
at the segment that holds `istart`. -/
theorem seg_of_pos_spec (covg : List CovgEntry) (si se : Nat)
    (hcont : ∀ k, si ≤ k → k < se → (covgAt covg (k + 1)).start = (covgAt covg k).end_ + 1)
    (p : Int) (hp : p ≤ (covgAt covg se).end_) :
    ∀ (fuel cur : Nat), se < cur + fuel → si ≤ cur → cur ≤ se →
      (covgAt covg cur).start ≤ p →
      cur ≤ seg_of_pos covg p fuel cur ∧ seg_of_pos covg p fuel cur ≤ se ∧
      (covgAt covg (seg_of_pos covg p fuel cur)).start ≤ p ∧
      p ≤ (covgAt covg (seg_of_pos covg p fuel cur)).end_ := by
  intro fuel
  induction fuel with
  | zero => intro cur h1 _ h3; omega
  | succ n ih =>
    intro cur h1 h2 h3 h4
    rw [seg_of_pos]
    split
    · rename_i hgt
      have hlt : cur < se := by
        by_contra hn
        have : cur = se := by omega
        rw [this] at hgt
        omega
      have hnext := hcont cur h2 hlt
      obtain ⟨a, b, c, d⟩ := ih (cur + 1) (by omega) (by omega) (by omega) (by omega)
      exact ⟨by omega, b, c, d⟩
    · rename_i hle
      exact ⟨le_refl _, h3, h4, by omega⟩

/-- Over a contiguous region of sorted, disjoint segments, the array `c` that
`get_drop` builds is the block-reset running sum of the per-base coverage. -/
theorem build_arrays_base (covg : List CovgEntry) (hs : CovgSorted covg)
    (junc : List JuncEntry) (jend : List Nat) (nj : Nat) (si se : Nat) (hse : se < covg.length)
    (hcont : ∀ k, si ≤ k → k < se → (covgAt covg (k + 1)).start = (covgAt covg k).end_ + 1)
    (start : Int) :
    ∀ (n : Nat) (k : Int) (st : BuildState), 0 ≤ k →
      start + k + n ≤ (covgAt covg se).end_ + 1 →
      si ≤ st.curr_si → st.curr_si ≤ se → (covgAt covg st.curr_si).start ≤ start + k →
      BlockSums (baseCov covg start) st.c k →
      BlockSums (baseCov covg start)
        (build_arrays covg junc jend covg.length nj start n k st).c (k + n) := by
  intro n
  induction n with
  | zero =>
    intro k st _ _ _ _ _ hb
    simpa [build_arrays] using hb
  | succ n ih =>
    intro k st hk hn h1 h2 h3 hb
    rw [build_arrays]
    have hcur := seg_of_pos_spec covg si se hcont (k + start)
      (by push_cast at hn; omega) (covg.length - st.curr_si) st.curr_si (by omega) h1 h2
      (by omega)
    obtain ⟨hcs, _⟩ := build_step_c covg junc jend covg.length nj start k st
    have hstep := build_step_block covg junc jend covg.length nj start k st _ hk hb
    have hval : (covgAt covg (seg_of_pos covg (k + start) (covg.length - st.curr_si)
        st.curr_si)).cov = baseCov covg start (k + 1) := by
      unfold baseCov
      rw [show start + (k + 1) - 1 = k + start by omega]
      exact (pointCov_at covg hs _ (by omega) _ hcur.2.2.1 hcur.2.2.2).symm
    have hb2 : BlockSums (baseCov covg start)
        (build_step covg junc jend covg.length nj start k st).c (k + 1) := by
      apply blockSums_congr _ _ _ _ _ hstep
      intro j _ _
      beta_reduce
      split
      · rename_i hj
        rw [hval, hj]
      · rfl
    have := ih (k + 1) (build_step covg junc jend covg.length nj start k st) (by omega)
      (by push_cast at hn ⊢; omega) (by rw [hcs]; omega) (by rw [hcs]; exact hcur.2.1)
      (by rw [hcs]; omega) hb2
    rw [show k + ((n + 1 : Nat) : Int) = k + 1 + (n : Int) by push_cast; omega]
    exact this

/-- With non-negative coverage values the array `c` is the block-reset running sum
of non-negative values, whatever the segments and junctions are. -/
theorem build_arrays_nonneg (covg : List CovgEntry) (hcov : ∀ i, 0 ≤ (covgAt covg i).cov)
    (junc : List JuncEntry) (jend : List Nat) (nb nj : Nat) (start : Int) :
    ∀ (n : Nat) (k : Int) (st : BuildState), 0 ≤ k →
      (∃ x, BlockSums x st.c k ∧ ∀ t, 0 ≤ x t) →
      ∃ x, BlockSums x (build_arrays covg junc jend nb nj start n k st).c (k + n) ∧
        ∀ t, 0 ≤ x t := by
  intro n
  induction n with
  | zero =>
    intro k st _ h
    simpa [build_arrays] using h
  | succ n ih =>
    intro k st hk h
    obtain ⟨x, hb, hx⟩ := h
    rw [build_arrays]
    have hstep := build_step_block covg junc jend nb nj start k st x hk hb
    have := ih (k + 1) (build_step covg junc jend nb nj start k st) (by omega)
      ⟨_, hstep, fun t => by
        split
        · exact hcov _
        · exact hx t⟩
    rw [show k + ((n + 1 : Nat) : Int) = k + 1 + (n : Int) by push_cast; omega]
    exact this

/-- With no junctions the adjustment arrays `as` and `ae` stay 0. -/
theorem build_arrays_no_junc (covg : List CovgEntry) (junc : List JuncEntry)
    (jend : List Nat) (nb : Nat) (start : Int) :
    ∀ (n : Nat) (k : Int) (st : BuildState), (∀ m, st.as m = 0) → (∀ m, st.ae m = 0) →
      (∀ m, (build_arrays covg junc jend nb 0 start n k st).as m = 0) ∧
      (∀ m, (build_arrays covg junc jend nb 0 start n k st).ae m = 0) := by
  intro n
  induction n with
  | zero => intro k st h1 h2; exact ⟨h1, h2⟩
  | succ n ih =>
    intro k st h1 h2
    rw [build_arrays]
    have hz : ∀ (a : Int → ℚ), (∀ m, a m = 0) →
        ∀ m, (if k % win ≠ 0 then arr_add a (k + 1) (a k) else a) m = 0 := by
      intro a ha m
      split
      · unfold arr_add
        split
        · rw [ha, ha, add_zero]
        · exact ha m
      · exact ha m
    apply ih
    · intro m
      unfold build_step
      simp only [Nat.not_lt_zero, false_and, if_false]
      exact hz st.as h1 m
    · intro m
      unfold build_step
      simp only [Nat.not_lt_zero, false_and, if_false]
      exact hz st.ae h2 m

/-- C37: for the arrays `get_drop` builds over a contiguous region of sorted,
disjoint segments with no junctions, and every window `1 <= l < i <= r <= len - 1`
with `i - l <= win` and `r - i + 1 <= win`, the raw left sum of `compute_perc` is
the sum of the per-base coverage over the offsets `[l, i)` and its raw right sum the
sum over `[i, r]` (offset `t` is the `t`-th base of the region, whose running sum is
`c[t]`); so `percl` is `R / L` when `L > R` and 1 otherwise, and `percr` is `L / R`
when `R > L` and 1 otherwise, for those window sums `L` and `R`. -/
theorem compute_perc_block_reset (covg : List CovgEntry) (jend : List Nat)
    (si se js je : Nat) (l i r : Int) (hs : CovgSorted covg) (hsi : si ≤ se)
    (hse : se < covg.length)
    (hcont : ∀ k, si ≤ k → k < se → (covgAt covg (k + 1)).start = (covgAt covg k).end_ + 1)
    (h1 : 1 ≤ l) (h2 : l < i) (h3 : i ≤ r)
    (h4 : r ≤ (covgAt covg se).end_ - (covgAt covg si).start + 1 - 1)
    (h5 : i - l ≤ win) (h6 : r - i + 1 ≤ win) :
    sumleft l i (region_arrays covg [] jend 0 si se js je).c
      = sumTo (baseCov covg (covgAt covg si).start) l i ∧
    sumright r i (region_arrays covg [] jend 0 si se js je).c
      = sumTo (baseCov covg (covgAt covg si).start) i (r + 1) ∧
    (compute_perc l r i (region_arrays covg [] jend 0 si se js je).c
        (region_arrays covg [] jend 0 si se js je).as
        (region_arrays covg [] jend 0 si se js je).ae).percl
      = (if sumTo (baseCov covg (covgAt covg si).start) l i
            > sumTo (baseCov covg (covgAt covg si).start) i (r + 1)
          then sumTo (baseCov covg (covgAt covg si).start) i (r + 1)
            / sumTo (baseCov covg (covgAt covg si).start) l i
          else 1) ∧
    (compute_perc l r i (region_arrays covg [] jend 0 si se js je).c
        (region_arrays covg [] jend 0 si se js je).as
        (region_arrays covg [] jend 0 si se js je).ae).percr
      = (if sumTo (baseCov covg (covgAt covg si).start) i (r + 1)
            > sumTo (baseCov covg (covgAt covg si).start) l i
          then sumTo (baseCov covg (covgAt covg si).start) l i
            / sumTo (baseCov covg (covgAt covg si).start) i (r + 1)
          else 1) := by
  have hlen : 0 ≤ (covgAt covg se).end_ - (covgAt covg si).start + 1 := by omega
  have hb : BlockSums (baseCov covg (covgAt covg si).start)
      (region_arrays covg [] jend 0 si se js je).c
      ((covgAt covg se).end_ - (covgAt covg si).start + 1) := by
    have := build_arrays_base covg hs [] jend 0 si se hse hcont (covgAt covg si).start
      ((covgAt covg se).end_ - (covgAt covg si).start + 1).toNat 0
      ⟨si, fun _ => 0, fun _ => 0, fun _ => 0, js, je, []⟩ (le_refl _) (by omega) (le_refl _)
      hsi (by simp) (blockSums_zero _)
    rw [zero_add, Int.toNat_of_nonneg hlen] at this
    exact this
  obtain ⟨has, hae⟩ := build_arrays_no_junc covg [] jend covg.length (covgAt covg si).start
    ((covgAt covg se).end_ - (covgAt covg si).start + 1).toNat 0
    ⟨si, fun _ => 0, fun _ => 0, fun _ => 0, js, je, []⟩ (fun _ => rfl) (fun _ => rfl)
  have hL := sumleft_block _ _ _ hb l i h1 h2 (by omega) h5
  have hR := sumright_block _ _ _ hb r i (by omega) h3 (by omega) h6
  have hLa : sumlefta l i (region_arrays covg [] jend 0 si se js je).c
      (region_arrays covg [] jend 0 si se js je).as
      = sumleft l i (region_arrays covg [] jend 0 si se js je).c := by
    unfold sumlefta region_arrays
    simp only [has]
    split <;> ring
  have hRa : sumrighta r i (region_arrays covg [] jend 0 si se js je).c
      (region_arrays covg [] jend 0 si se js je).ae
      = sumright r i (region_arrays covg [] jend 0 si se js je).c := by
    unfold sumrighta region_arrays
    simp only [hae]
    split <;> ring
  have hpl : (compute_perc l r i (region_arrays covg [] jend 0 si se js je).c
      (region_arrays covg [] jend 0 si se js je).as
      (region_arrays covg [] jend 0 si se js je).ae).percl
      = if sumlefta l i (region_arrays covg [] jend 0 si se js je).c
            (region_arrays covg [] jend 0 si se js je).as
          > sumright r i (region_arrays covg [] jend 0 si se js je).c
        then sumright r i (region_arrays covg [] jend 0 si se js je).c
          / sumlefta l i (region_arrays covg [] jend 0 si se js je).c
            (region_arrays covg [] jend 0 si se js je).as
        else 1 := rfl
  have hpr : (compute_perc l r i (region_arrays covg [] jend 0 si se js je).c
      (region_arrays covg [] jend 0 si se js je).as
      (region_arrays covg [] jend 0 si se js je).ae).percr
      = if sumrighta r i (region_arrays covg [] jend 0 si se js je).c
            (region_arrays covg [] jend 0 si se js je).ae
          > sumleft l i (region_arrays covg [] jend 0 si se js je).c
        then sumleft l i (region_arrays covg [] jend 0 si se js je).c
          / sumrighta r i (region_arrays covg [] jend 0 si se js je).c
            (region_arrays covg [] jend 0 si se js je).ae
        else 1 := rfl
  refine ⟨hL, hR, ?_, ?_⟩
  · rw [hpl, hLa, hL, hR]
  · rw [hpr, hRa, hL, hR]

/-- C37 on the region `[100, 275]` (coverage 100 up to 139, 10 after): for the
window `l = 30`, `i = 160`, `r = 175`, whose left part crosses the restart of the
running sum after offset 150 and the fall of the coverage after offset 40, the left
sum is `11 * 100 + 119 * 10 = 2290` and the right sum `16 * 10 = 160`. -/
theorem compute_perc_block_reset_witness :
    CovgSorted stepCovg ∧
    sumTo (baseCov stepCovg 100) 30 160 = 2290 ∧
    sumTo (baseCov stepCovg 100) 160 (175 + 1) = 160 ∧
    sumleft 30 160 (region_arrays stepCovg [] [] 0 0 1 0 0).c
      = sumTo (baseCov stepCovg (covgAt stepCovg 0).start) 30 160 ∧
    sumright 175 160 (region_arrays stepCovg [] [] 0 0 1 0 0).c
      = sumTo (baseCov stepCovg (covgAt stepCovg 0).start) 160 (175 + 1) ∧
    (compute_perc 30 175 160 (region_arrays stepCovg [] [] 0 0 1 0 0).c
        (region_arrays stepCovg [] [] 0 0 1 0 0).as
        (region_arrays stepCovg [] [] 0 0 1 0 0).ae).percl
      = (if sumTo (baseCov stepCovg (covgAt stepCovg 0).start) 30 160
            > sumTo (baseCov stepCovg (covgAt stepCovg 0).start) 160 (175 + 1)
          then sumTo (baseCov stepCovg (covgAt stepCovg 0).start) 160 (175 + 1)
            / sumTo (baseCov stepCovg (covgAt stepCovg 0).start) 30 160
          else 1) ∧
    (compute_perc 30 175 160 (region_arrays stepCovg [] [] 0 0 1 0 0).c
        (region_arrays stepCovg [] [] 0 0 1 0 0).as
        (region_arrays stepCovg [] [] 0 0 1 0 0).ae).percr
      = (if sumTo (baseCov stepCovg (covgAt stepCovg 0).start) 160 (175 + 1)
            > sumTo (baseCov stepCovg (covgAt stepCovg 0).start) 30 160
          then sumTo (baseCov stepCovg (covgAt stepCovg 0).start) 30 160
            / sumTo (baseCov stepCovg (covgAt stepCovg 0).start) 160 (175 + 1)
          else 1) :=
  ⟨by decide, by decide!, by decide!,
    compute_perc_block_reset stepCovg [] 0 1 0 0 30 160 175 (by decide) (by decide) (by decide)
      (by
        intro k hk1 hk2
        have : k = 0 := by omega
        subst this
        decide)
      (by decide) (by decide) (by decide) (by decide) (by decide) (by decide)⟩
/-! ## The range of the confidence values -/

theorem sumTo_nonneg_all (x : Int → ℚ) (hx : ∀ t, 0 ≤ x t) (a b : Int) : 0 ≤ sumTo x a b :=
  sumTo_nonneg x a _ (fun t _ _ => hx t)

/-- Over the block-reset running sum of non-negative values, the percentages of
`compute_perc` for a window inside the arrays are not negative. -/
theorem compute_perc_nonneg (x c : Int → ℚ) (n : Int) (hb : BlockSums x c n)
    (hx : ∀ t, 0 ≤ x t) (as ae : Int → ℚ) (l r i : Int) (hw : WindowOK n l r i) :
    PercOK (compute_perc l r i c as ae) := by
  obtain ⟨h1, h2, h3, h4, h5, h6⟩ := hw
  have hL : 0 ≤ sumleft l i c := by
    rw [sumleft_block x c n hb l i h1 h2 (by omega) h5]
    exact sumTo_nonneg_all x hx _ _
  have hR : 0 ≤ sumright r i c := by
    rw [sumright_block x c n hb r i (by omega) h3 h4 h6]
    exact sumTo_nonneg_all x hx _ _
  have hpl : (compute_perc l r i c as ae).percl
      = if sumlefta l i c as > sumright r i c then sumright r i c / sumlefta l i c as
        else 1 := rfl
  have hpr : (compute_perc l r i c as ae).percr
      = if sumrighta r i c ae > sumleft l i c then sumleft l i c / sumrighta r i c ae
        else 1 := rfl
  constructor
  · rw [hpl]
    split
    · rename_i hgt
      exact div_nonneg hR (le_of_lt (lt_of_le_of_lt hR hgt))
    · exact zero_le_one
  · rw [hpr]
    split
    · rename_i hgt
      exact div_nonneg hL (le_of_lt (lt_of_le_of_lt hL hgt))
    · exact zero_le_one

theorem perc_min_ok (m p : Perc) (hm : PercOK m) (hp : PercOK p) : PercOK (perc_min m p) := by
  unfold perc_min PercOK
  simp only []
  constructor
  · split
    · exact hp.1
    · exact hm.1
  · split
    · exact hp.2
    · exact hm.2

/-- The junction-anchored windows of the scan keep the percentages non-negative:
behind the index the skip loop stops at, every entry of `jp` is above the left end
of the window. -/
theorem anchor_loop_ok (x c : Int → ℚ) (n : Int) (hb : BlockSums x c n) (hx : ∀ t, 0 ≤ x t)
    (as ae : Int → ℚ) (jp : List Int) (i r_val : Int)
    (hw : WindowOK n (2 * i - r_val - 1) r_val i) :
    ∀ (fuel k : Nat) (m : Perc), PercOK m →
      (∀ k2, k ≤ k2 → k2 < jp.length → jp.getD k2 0 > 2 * i - r_val - 1) →
      PercOK (anchor_loop jp c as ae i r_val fuel k m) := by
  obtain ⟨h1, h2, h3, h4, h5, h6⟩ := hw
  intro fuel
  induction fuel with
  | zero => intro k m hm _; exact hm
  | succ f ih =>
    intro k m hm hjp
    rw [anchor_loop]
    split
    · rename_i hc
      simp only []
      apply ih _ _ _ (fun k2 hk hk2 => hjp k2 (by omega) hk2)
      have hgt := hjp k (le_refl _) hc.1
      split
      · rename_i hb1
        apply perc_min_ok m _ hm
        apply compute_perc_nonneg x c n hb hx
        unfold smallwin at hb1
        exact ⟨by omega, by omega, by omega, by omega, by omega, by omega⟩
      · split
        · rename_i hb1 hb2
          apply perc_min_ok m _ hm
          apply compute_perc_nonneg x c n hb hx
          unfold smallwin at hb2
          have := hc.2
          exact ⟨by omega, by omega, by omega, by omega, by omega, by omega⟩
        · exact hm
    · exact hm

theorem skip_jp_spec (jp : List Int) (l : Int) :
    ∀ (fuel j : Nat), jp.length ≤ j + fuel →
      j ≤ skip_jp jp l fuel j ∧
      (skip_jp jp l fuel j < jp.length → jp.getD (skip_jp jp l fuel j) 0 > l) := by
  intro fuel
  induction fuel with
  | zero =>
    intro j h
    exact ⟨le_refl _, fun hlt => by simp only [skip_jp] at hlt; omega⟩
  | succ f ih =>
    intro j h
    rw [skip_jp]
    split
    · obtain ⟨a, b⟩ := ih (j + 1) (by omega)
      exact ⟨by omega, b⟩
    · rename_i hc
      refine ⟨le_refl _, fun hlt => ?_⟩
      by_contra hle
      exact hc ⟨hlt, by omega⟩

/-- The list `jp` of junction offsets is strictly increasing. -/
theorem build_arrays_jp (covg : List CovgEntry) (junc : List JuncEntry) (jend : List Nat)
    (nb nj : Nat) (start : Int) :
    ∀ (n : Nat) (k : Int) (st : BuildState),
      (st.jp.Pairwise (fun a b => a < b) ∧ ∀ v ∈ st.jp, v ≤ k) →
      (build_arrays covg junc jend nb nj start n k st).jp.Pairwise (fun a b => a < b) ∧
      ∀ v ∈ (build_arrays covg junc jend nb nj start n k st).jp, v ≤ k + n := by
  intro n
  induction n with
  | zero => intro k st h; simpa [build_arrays] using h
  | succ n ih =>
    intro k st h
    rw [build_arrays]
    have hsn : (st.jp ++ [k + 1]).Pairwise (fun a b => a < b) ∧
        ∀ v ∈ st.jp ++ [k + 1], v ≤ k + 1 := by
      constructor
      · rw [List.pairwise_append]
        refine ⟨h.1, by simp, ?_⟩
        intro a ha b hb
        rw [List.mem_singleton.mp hb]
        have := h.2 a ha
        omega
      · intro v hv
        rcases List.mem_append.mp hv with hv | hv
        · have := h.2 v hv
          omega
        · rw [List.mem_singleton.mp hv]
    have hsame : st.jp.Pairwise (fun a b => a < b) ∧ ∀ v ∈ st.jp, v ≤ k + 1 :=
      ⟨h.1, fun v hv => by have := h.2 v hv; omega⟩
    have hstep : (build_step covg junc jend nb nj start k st).jp.Pairwise (fun a b => a < b) ∧
        ∀ v ∈ (build_step covg junc jend nb nj start k st).jp, v ≤ k + 1 := by
      unfold build_step
      simp only []
      by_cases hj : st.js < nj ∧ (juncAt junc st.js).start = k + start
      · simp only [if_pos hj, if_true]
        split <;> exact hsn
      · simp only [if_neg hj]
        split
        · simpa using hsn
        · simpa using hsame
    have := ih (k + 1) _ hstep
    rw [show k + ((n + 1 : Nat) : Int) = k + 1 + (n : Int) by push_cast; omega]
    exact this

theorem tmp_deactivate_perc (tmp : List TmpEntry) (k : Nat) :
    (tmp_deactivate tmp k).map (fun t => t.perc) = tmp.map (fun t => t.perc) := by
  unfold tmp_deactivate
  rw [List.map_set]
  apply List.ext_getElem
  · simp
  · intro n h1 h2
    rw [List.getElem_set]
    split
    · rename_i heq
      subst heq
      simp only [List.getElem_map]
      rw [tmpAt, List.getD_eq_getElem]
    · rfl

theorem dedup_back_perc (i : Int) (perc : ℚ) :
    ∀ (n : Nat) (tmp : List TmpEntry) (maxs : Nat),
      (dedup_back i perc n tmp maxs).1.map (fun t => t.perc) = tmp.map (fun t => t.perc) := by
  intro n
  induction n with
  | zero => intro tmp maxs; rfl
  | succ k ih =>
    intro tmp maxs
    rw [dedup_back]
    split
    · split
      · rw [ih, tmp_deactivate_perc]
      · rw [ih, tmp_deactivate_perc]
    · rfl

/-- Recording a candidate appends its percentage and changes no other percentage. -/
theorem add_candidate_perc (tmp : List TmpEntry) (maxs : Nat) (i : Int) (perc avg : ℚ) :
    (add_candidate tmp maxs i perc avg).1.map (fun t => t.perc)
      = tmp.map (fun t => t.perc) ++ [perc] := by
  unfold add_candidate
  simp only []
  split_ifs
  all_goals
    simp only [dedup_back_perc, tmp_deactivate_perc, List.map_append, List.map_cons,
      List.map_nil]

theorem cand_if_percs (cnd : Prop) [Decidable cnd] (tmp : List TmpEntry) (maxs : Nat)
    (i : Int) (perc avg : ℚ) (h : PercsOK (tmp.map (fun t => t.perc)))
    (hp : cnd → 0 ≤ perc ∧ perc < percnoise) :
    PercsOK ((if cnd then add_candidate tmp maxs i perc avg else (tmp, maxs)).1.map
      (fun t => t.perc)) := by
  split
  · rename_i hc
    rw [add_candidate_perc]
    intro p hpm
    rcases List.mem_append.mp hpm with h1 | h1
    · exact h p h1
    · rw [List.mem_singleton.mp h1]
      exact hp hc
  · exact h

/-- The window of one scan position lies inside the arrays, its halves are at most
`win` long, and its left end is `2 * i - r_val - 1`. -/
theorem scan_window_ok (len i : Int) (h1 : smallwin + 1 ≤ i) (h2 : i < len - smallwin) :
    (if 2 * i - (if i - win < 1 then 1 else i - win) - 1 > len - 1 then
        2 * i - (if 2 * i - (if i - win < 1 then 1 else i - win) - 1 > len - 1 then len - 1
          else 2 * i - (if i - win < 1 then 1 else i - win) - 1) - 1
      else (if i - win < 1 then 1 else i - win))
      = 2 * i - (if 2 * i - (if i - win < 1 then 1 else i - win) - 1 > len - 1 then len - 1
          else 2 * i - (if i - win < 1 then 1 else i - win) - 1) - 1 ∧
    WindowOK len
      (2 * i - (if 2 * i - (if i - win < 1 then 1 else i - win) - 1 > len - 1 then len - 1
          else 2 * i - (if i - win < 1 then 1 else i - win) - 1) - 1)
      (if 2 * i - (if i - win < 1 then 1 else i - win) - 1 > len - 1 then len - 1
          else 2 * i - (if i - win < 1 then 1 else i - win) - 1) i := by
  unfold WindowOK
  unfold smallwin at h1 h2
  unfold win
  split_ifs <;> refine ⟨by omega, by omega, by omega, by omega, by omega, by omega, by omega⟩

theorem scan_step_i (c as ae : Int → ℚ) (jp : List Int) (len : Int) (st : ScanState) :
    st.i + 1 ≤ (scan_step c as ae jp len st).i := by
  unfold scan_step
  simp only []
  unfold delta_param
  split_ifs <;> omega

theorem jp_sorted_getD (jp : List Int) (hjp : jp.Pairwise (fun a b => a < b)) (a b : Nat)
    (hab : a ≤ b) (hb : b < jp.length) : jp.getD a 0 ≤ jp.getD b 0 := by
  rw [List.getD_eq_getElem _ _ (by omega), List.getD_eq_getElem _ _ hb]
  rcases Nat.lt_or_eq_of_le hab with h | h
  · exact le_of_lt (List.pairwise_iff_getElem.mp hjp a b (by omega) hb h)
  · subst h; exact le_refl _

/-- One scan position keeps the percentages of all candidates in `[0, percnoise)`. -/
theorem scan_step_percs (x c : Int → ℚ) (len : Int) (hb : BlockSums x c len)
    (hx : ∀ t, 0 ≤ x t) (as ae : Int → ℚ) (jp : List Int)
    (hjp : jp.Pairwise (fun a b => a < b)) (st : ScanState)
    (h1 : smallwin + 1 ≤ st.i) (h2 : st.i < len - smallwin)
    (hs : PercsOK (st.tmps.map (fun t => t.perc)))
    (he : PercsOK (st.tmpe.map (fun t => t.perc))) :
    PercsOK ((scan_step c as ae jp len st).tmps.map (fun t => t.perc)) ∧
    PercsOK ((scan_step c as ae jp len st).tmpe.map (fun t => t.perc)) := by
  obtain ⟨hl, hw⟩ := scan_window_ok len st.i h1 h2
  unfold scan_step
  simp only []
  rw [hl]
  generalize (if 2 * st.i - (if st.i - win < 1 then 1 else st.i - win) - 1 > len - 1 then
      len - 1 else 2 * st.i - (if st.i - win < 1 then 1 else st.i - win) - 1) = rv at hw ⊢
  have hskip := skip_jp_spec jp (2 * st.i - rv - 1) (jp.length - st.j_idx) st.j_idx (by omega)
  have hm : PercOK (anchor_loop jp c as ae st.i rv
      (jp.length - skip_jp jp (2 * st.i - rv - 1) (jp.length - st.j_idx) st.j_idx)
      (skip_jp jp (2 * st.i - rv - 1) (jp.length - st.j_idx) st.j_idx)
      (compute_perc (2 * st.i - rv - 1) rv st.i c as ae)) := by
    apply anchor_loop_ok x c len hb hx as ae jp st.i rv hw _ _ _
      (compute_perc_nonneg x c len hb hx as ae _ _ _ hw)
    intro k2 hk hk2
    have hfirst := hskip.2 (by omega)
    have := jp_sorted_getD jp hjp _ k2 hk hk2
    omega
  generalize anchor_loop jp c as ae st.i rv
      (jp.length - skip_jp jp (2 * st.i - rv - 1) (jp.length - st.j_idx) st.j_idx)
      (skip_jp jp (2 * st.i - rv - 1) (jp.length - st.j_idx) st.j_idx)
      (compute_perc (2 * st.i - rv - 1) rv st.i c as ae) = m at hm ⊢
  exact ⟨cand_if_percs _ _ _ _ _ _ hs (fun hc => ⟨hm.2, hc⟩),
    cand_if_percs _ _ _ _ _ _ he (fun hc => ⟨hm.1, hc⟩)⟩

theorem scan_loop_percs (x c : Int → ℚ) (len : Int) (hb : BlockSums x c len)
    (hx : ∀ t, 0 ≤ x t) (as ae : Int → ℚ) (jp : List Int)
    (hjp : jp.Pairwise (fun a b => a < b)) :
    ∀ (fuel : Nat) (st : ScanState), smallwin + 1 ≤ st.i →
      PercsOK (st.tmps.map (fun t => t.perc)) → PercsOK (st.tmpe.map (fun t => t.perc)) →
      PercsOK ((scan_loop c as ae jp len fuel st).tmps.map (fun t => t.perc)) ∧
      PercsOK ((scan_loop c as ae jp len fuel st).tmpe.map (fun t => t.perc)) := by
  intro fuel
  induction fuel with
  | zero => intro st _ hs he; exact ⟨hs, he⟩
  | succ f ih =>
    intro st h1 hs he
    rw [scan_loop]
    split
    · rename_i h2
      obtain ⟨a, b⟩ := scan_step_percs x c len hb hx as ae jp hjp st h1 h2 hs he
      exact ih _ (le_trans h1 (le_trans (by omega) (scan_step_i c as ae jp len st))) a b
    · exact ⟨hs, he⟩

theorem percsOK_push (d : List DropEntry) (pos : Int) (p cov : ℚ)
    (h : PercsOK (d.map (fun x => x.perc))) (hp : 0 ≤ p ∧ p < percnoise) :
    PercsOK ((push_drop d pos p cov).map (fun x => x.perc)) := by
  intro q hq
  rw [push_drop, List.map_append] at hq
  rcases List.mem_append.mp hq with h1 | h1
  · exact h q h1
  · simp only [List.map_cons, List.map_nil, List.mem_singleton] at h1
    rw [h1]
    exact hp

theorem percsOK_tail {a : ℚ} {l : List ℚ} (h : PercsOK (a :: l)) : PercsOK l :=
  fun p hp => h p (List.mem_cons_of_mem _ hp)

/-- The merge of the candidates only pushes drops with a candidate's percentage. -/
theorem merge_candidates_percs (start : Int) :
    ∀ (n : Nat) (ts te : List TmpEntry) (d d2 : List DropEntry),
      ts.length + te.length = n →
      PercsOK (ts.map (fun t => t.perc)) → PercsOK (te.map (fun t => t.perc)) →
      PercsOK (d.map (fun x => x.perc)) →
      merge_candidates start ts te d = some d2 → PercsOK (d2.map (fun x => x.perc)) := by
  intro n
  induction n with
  | zero =>
    intro ts te d d2 hn _ _ hd h
    have h1 : ts = [] := List.length_eq_zero.mp (by omega)
    have h2 : te = [] := List.length_eq_zero.mp (by omega)
    subst h1 h2
    rw [merge_candidates] at h
    cases h
    exact hd
  | succ n ih =>
    intro ts te d d2 hn hts hte hd h
    cases ts with
    | nil =>
      cases te with
      | nil => simp at hn
      | cons e es =>
        rw [merge_candidates] at h
        have hE := hte e.perc (by simp)
        refine ih [] es _ d2 (by simpa using hn) hts (percsOK_tail hte) ?_ h
        split
        · exact percsOK_push d _ _ _ hd hE
        · exact hd
    | cons s ss =>
      have hS := hts s.perc (by simp)
      cases te with
      | nil =>
        rw [merge_candidates] at h
        refine ih ss [] _ d2 (by simpa using hn) (percsOK_tail hts) hte ?_ h
        split
        · exact percsOK_push d _ _ _ hd hS
        · exact hd
      | cons e es =>
        have hE := hte e.perc (by simp)
        have hlen1 : (s :: ss).length + es.length = n := by
          simp only [List.length_cons] at hn ⊢; omega
        have hlen2 : ss.length + (e :: es).length = n := by
          simp only [List.length_cons] at hn ⊢; omega
        rw [merge_candidates] at h
        by_cases hlt : e.pos < s.pos
        · rw [if_pos hlt] at h
          refine ih (s :: ss) es _ d2 hlen1 hts (percsOK_tail hte) ?_ h
          split
          · exact percsOK_push d _ _ _ hd hE
          · exact hd
        · rw [if_neg hlt] at h
          by_cases hact : s.active = true
          · rw [if_pos hact] at h
            by_cases hco : e.active = true ∧ e.pos = s.pos
            · rw [if_pos hco] at h
              exact absurd h (by simp)
            · rw [if_neg hco] at h
              exact ih ss (e :: es) _ d2 hlen2 (percsOK_tail hts) hte
                (percsOK_push d _ _ _ hd hS) h
          · rw [if_neg hact] at h
            exact ih ss (e :: es) _ d2 hlen2 (percsOK_tail hts) hte hd h

theorem percnoise_pos : (0 : ℚ) ≤ 0 ∧ (0 : ℚ) < percnoise := by
  unfold percnoise
  norm_num

theorem get_drop_window_percs (covg : List CovgEntry) (hcov : ∀ i, 0 ≤ (covgAt covg i).cov)
    (junc : List JuncEntry) (jend : List Nat) (drop_arr : List DropEntry) (si nb nj : Nat)
    (start len : Int) (js je : Nat) (r : DropResult) (hlen : 0 ≤ len)
    (hd : PercsOK (drop_arr.map (fun x => x.perc)))
    (h : get_drop_window covg junc jend drop_arr si nb nj start len js je = some r) :
    PercsOK (r.drop_arr.map (fun x => x.perc)) := by
  unfold get_drop_window at h
  simp only [] at h
  obtain ⟨x, hb, hx⟩ := build_arrays_nonneg covg hcov junc jend nb nj start len.toNat 0
    ⟨si, fun _ => 0, fun _ => 0, fun _ => 0, js, je, []⟩ (le_refl _)
    ⟨fun _ => 0, blockSums_zero _, fun _ => le_refl _⟩
  have hjp := (build_arrays_jp covg junc jend nb nj start len.toNat 0
    ⟨si, fun _ => 0, fun _ => 0, fun _ => 0, js, je, []⟩ ⟨by simp, by simp⟩).1
  rw [zero_add, Int.toNat_of_nonneg hlen] at hb
  generalize build_arrays covg junc jend nb nj start len.toNat 0
    ⟨si, fun _ => 0, fun _ => 0, fun _ => 0, js, je, []⟩ = b at h hb hjp
  obtain ⟨cs, ce⟩ := scan_loop_percs x b.c len hb hx b.as b.ae b.jp hjp len.toNat
    ⟨smallwin + 1, 0, [], [], 0, 0⟩ (le_refl _) (by intro p hp; simp at hp)
    (by intro p hp; simp at hp)
  generalize scan_loop b.c b.as b.ae b.jp len len.toNat ⟨smallwin + 1, 0, [], [], 0, 0⟩ = sc at *
  split at h
  · exact absurd h (by simp)
  · rename_i d hdm
    cases h
    exact merge_candidates_percs start _ sc.tmps sc.tmpe drop_arr d rfl cs ce hd hdm

/-- Every drop `get_drop` appends has a percentage in `[0, percnoise)`. -/
theorem get_drop_percs (covg : List CovgEntry) (hcov : ∀ i, 0 ≤ (covgAt covg i).cov)
    (junc : List JuncEntry) (jend : List Nat) (drop_arr : List DropEntry)
    (si se nb js je nj : Nat) (r : DropResult)
    (hd : PercsOK (drop_arr.map (fun x => x.perc)))
    (h : get_drop covg junc jend drop_arr si se nb js je nj = some r) :
    PercsOK (r.drop_arr.map (fun x => x.perc)) := by
  unfold get_drop at h
  simp only [] at h
  have hd1 := percsOK_push drop_arr (covgAt covg si).start 0 (covgAt covg si).cov hd
    percnoise_pos
  by_cases hlen : (covgAt covg se).end_ - (covgAt covg si).start + 1 ≥ win + smallwin
  · rw [if_pos hlen] at h
    cases hw : get_drop_window covg junc jend
        (push_drop drop_arr (covgAt covg si).start 0 (covgAt covg si).cov) si nb nj
        (covgAt covg si).start ((covgAt covg se).end_ - (covgAt covg si).start + 1)
        (skip_starts_before junc nj (covgAt covg si).start (nj - js) js)
        (skip_ends_before junc jend nj (covgAt covg si).start (nj - je) je) with
    | none => rw [hw] at h; cases h
    | some w =>
      rw [hw] at h
      simp only [Option.some.injEq] at h
      subst h
      exact percsOK_push _ _ _ _
        (get_drop_window_percs covg hcov junc jend _ si nb nj _ _ _ _ w
          (by unfold win smallwin at hlen; omega) hd1 hw) percnoise_pos
  · rw [if_neg hlen] at h
    simp only [Option.some.injEq] at h
    subst h
    exact percsOK_push _ _ _ _ hd1 percnoise_pos

theorem drop_loop_percs (covg : List CovgEntry) (hcov : ∀ i, 0 ≤ (covgAt covg i).cov)
    (junc : List JuncEntry) (jend : List Nat) (nb nj : Nat) :
    ∀ (regs : List ContRegion) (r d : DropResult),
      PercsOK (r.drop_arr.map (fun x => x.perc)) →
      drop_loop covg junc jend nb nj regs r = some d →
      PercsOK (d.drop_arr.map (fun x => x.perc)) := by
  intro regs
  induction regs with
  | nil =>
    intro r d hr h
    rw [drop_loop] at h
    cases h
    exact hr
  | cons reg rest ih =>
    intro r d hr h
    rw [drop_loop] at h
    cases hg : get_drop covg junc jend r.drop_arr reg.si reg.ei nb r.js r.je nj with
    | none => rw [hg] at h; cases h
    | some r1 =>
      rw [hg] at h
      exact ih r1 d (get_drop_percs covg hcov junc jend _ _ _ _ _ _ _ r1 hr hg) h

theorem confOK_congr (covg : List CovgEntry) (r r2 : RecordEntry)
    (h : (r2.type, r2.pos, r2.change_perc) = (r.type, r.pos, r.change_perc))
    (hr : ConfOK covg r) : ConfOK covg r2 := by
  simp only [Prod.mk.injEq] at h
  obtain ⟨h1, h2, h3⟩ := h
  unfold ConfOK at hr ⊢
  rw [h1, h2, h3]
  exact hr

theorem confOK_add_cov_to_last (covg : List CovgEntry) (record : List RecordEntry) (x : ℚ)
    (h : ∀ r ∈ record, ConfOK covg r) : ∀ r ∈ add_cov_to_last record x, ConfOK covg r := by
  intro r hr
  have hm := add_cov_to_last_map (fun r => (r.type, r.pos, r.change_perc)) (fun _ _ => rfl)
    record x
  have : (r.type, r.pos, r.change_perc) ∈ (add_cov_to_last record x).map
      (fun r => (r.type, r.pos, r.change_perc)) := List.mem_map_of_mem _ hr
  rw [hm] at this
  obtain ⟨r0, hr0, he⟩ := List.mem_map.mp this
  exact confOK_congr covg r0 r he.symm (h r0 hr0)

theorem confOK_gap (covg : List CovgEntry) (record : List RecordEntry) (cnd : Prop)
    [Decidable cnd] (x : ℚ) (h : ∀ r ∈ record, ConfOK covg r) :
    ∀ r ∈ (if cnd then add_cov_to_last record x else record), ConfOK covg r := by
  split
  · exact confOK_add_cov_to_last covg record x h
  · exact h

theorem flank_cov_nonneg (covg : List CovgEntry) (ib : Nat) (lo mid hi : Int)
    (hib : ib ≤ covg.length)
    (hwf : ∀ i, (covgAt covg i).start ≤ (covgAt covg i).end_)
    (hcov : ∀ i, 0 ≤ (covgAt covg i).cov) :
    0 ≤ (flank_cov covg covg.length ib lo mid hi).1 ∧
    0 ≤ (flank_cov covg covg.length ib lo mid hi).2 := by
  unfold flank_cov
  simp only []
  have hcur : (if lo < (covgAt covg 0).start then 0
      else cursor_back covg (if lo < (covgAt covg 0).start then (covgAt covg 0).start else lo)
        ib) ≤ covg.length := by
    split
    · exact Nat.zero_le _
    · exact le_trans (cursor_back_le covg _ ib) hib
  exact ⟨get_cov_nonneg covg _ _ _ _ hcur hwf hcov,
    get_cov_nonneg covg _ _ _ _ (get_cov_cursor_le covg _ _ _ hcur) hwf hcov⟩

theorem push_drops_conf (drop_arr : List DropEntry) (nd : Nat) (nextd prevpos : Int)
    (pos_cov : ℚ) :
    ∀ (fuel id : Nat) (junc : List JuncEntry) (record : List RecordEntry),
      ∃ pushed, (push_drops drop_arr nd nextd prevpos pos_cov fuel id junc record).2.2
          = record ++ pushed ∧
        ∀ x ∈ pushed, (x.type = "tstart" ∨ x.type = "tend") ∧
          ∃ k, k < nd ∧ x.change_perc = (dropAt drop_arr k).perc := by
  intro fuel
  induction fuel with
  | zero =>
    intro id junc record
    exact ⟨[], by simp [push_drops], fun x hx => absurd hx (List.not_mem_nil _)⟩
  | succ n ih =>
    intro id junc record
    rw [push_drops]
    by_cases hc : id < nd ∧ |(dropAt drop_arr id).pos| = nextd
    · rw [if_pos hc]
      simp only []
      generalize (if (dropAt drop_arr id).perc = 0 ∧ prevpos > nextd - delta_param then
          if (if (dropAt drop_arr id).pos < 0 then "tend" else "tstart") = "tstart" then
            if (recAt record (record.length - 1)).pos = nextd ∧
                (recAt record (record.length - 1)).type = "jstart" then
              junc_zero_all junc (recAt record (record.length - 1)).indices
            else junc
          else retract_jend_back record (nextd - delta_param) record.length junc
        else junc) = junc1
      obtain ⟨pushed, hp, hall⟩ := ih (id + 1) junc1
        (push_record record (if (dropAt drop_arr id).pos < 0 then "tend" else "tstart") nextd [id]
          (dropAt drop_arr id).perc pos_cov 0)
      refine ⟨⟨if (dropAt drop_arr id).pos < 0 then "tend" else "tstart", nextd, [id],
        (dropAt drop_arr id).perc, pos_cov, 0⟩ :: pushed, ?_, ?_⟩
      · rw [hp, push_record, List.append_assoc]
        rfl
      · intro x hx
        rcases List.mem_cons.mp hx with h | h
        · rw [h]
          refine ⟨?_, id, hc.1, rfl⟩
          simp only []
          split
          · exact Or.inr rfl
          · exact Or.inl rfl
        · exact hall x h
    · rw [if_neg hc]
      exact ⟨[], by simp, fun x hx => absurd hx (List.not_mem_nil _)⟩

theorem confOK_drop (covg : List CovgEntry) (drop_arr : List DropEntry) (nd : Nat)
    (hnd : nd ≤ drop_arr.length) (hd : PercsOK (drop_arr.map (fun x => x.perc)))
    (x : RecordEntry) (ht : x.type = "tstart" ∨ x.type = "tend")
    (hk : ∃ k, k < nd ∧ x.change_perc = (dropAt drop_arr k).perc) : ConfOK covg x := by
  obtain ⟨k, hk1, hk2⟩ := hk
  have hmem : (dropAt drop_arr k).perc ∈ drop_arr.map (fun x => x.perc) := by
    apply List.mem_map_of_mem
    unfold dropAt
    rw [List.getD_eq_getElem _ _ (by omega)]
    exact List.getElem_mem _
  obtain ⟨p1, p2⟩ := hd _ hmem
  rw [← hk2] at p1 p2
  refine ⟨p1, lt_trans p2 (by unfold percnoise; norm_num), fun _ => Or.inr p2, ?_, ?_⟩
  · intro hj
    rcases ht with h | h <;> rw [h] at hj <;> exact absurd hj (by decide)
  · intro hj
    rcases ht with h | h <;> rw [h] at hj <;> exact absurd hj (by decide)

theorem get_record_jend_conf (covg : List CovgEntry) (jend : List Nat) (nj : Nat) (p : Int)
    (st : MergeState)
    (hwf : ∀ i, (covgAt covg i).start ≤ (covgAt covg i).end_)
    (hcov : ∀ i, 0 ≤ (covgAt covg i).cov) (inv : ConfInv covg st) :
    ConfInv covg (get_record_jend covg jend covg.length nj p st) := by
  unfold get_record_jend
  simp only []
  by_cases hcount : (collect_ends st.junc jend nj p (nj - st.je) st.je [] 0).2.2 > 0
  · rw [if_pos hcount]
    generalize (if st.prevpos > p - 2 then
        prev_jend_scan st.junc st.record p st.record.length 0 0
      else (0, 0)) = s
    by_cases hacc : (flank_cov covg covg.length st.ib (p - delta_param) p
          (p + delta_param - 1)).1
          < (flank_cov covg covg.length st.ib (p - delta_param) p (p + delta_param - 1)).2 ∧
        s.2 < (collect_ends st.junc jend nj p (nj - st.je) st.je [] 0).2.2
    · rw [if_pos hacc]
      have hf := (flank_cov_nonneg covg st.ib (p - delta_param) p (p + delta_param - 1) inv.1
        hwf hcov).1
      refine ⟨get_cov_cursor_le covg p p st.ib inv.1, fun r hr => ?_⟩
      simp only [push_record] at hr
      rcases List.mem_append.mp hr with h | h
      · exact confOK_gap covg st.record _ _ inv.2 r h
      · rw [List.mem_singleton] at h
        subst h
        refine ⟨div_nonneg hf (le_of_lt (lt_of_le_of_lt hf hacc.1)),
          (div_lt_one (lt_of_le_of_lt hf hacc.1)).mpr hacc.1, ?_, ?_, ?_⟩
        · intro ht
          rcases ht with ht | ht
          · exact absurd (show ("jend" : String) = "tstart" from ht) (by decide)
          · exact absurd (show ("jend" : String) = "tend" from ht) (by decide)
        · intro _
          exact ⟨st.ib, rfl, hf, hacc.1⟩
        · intro ht
          exact absurd (show ("jend" : String) = "jstart" from ht) (by decide)
    · rw [if_neg hacc]
      exact inv
  · rw [if_neg hcount]
    exact inv

theorem get_record_jstart_conf (covg : List CovgEntry) (nj : Nat) (p : Int) (st : MergeState)
    (hwf : ∀ i, (covgAt covg i).start ≤ (covgAt covg i).end_)
    (hcov : ∀ i, 0 ≤ (covgAt covg i).cov) (inv : ConfInv covg st) :
    ConfInv covg (get_record_jstart covg covg.length nj p st) := by
  unfold get_record_jstart
  simp only []
  by_cases hcount : (collect_starts st.junc nj p (nj - st.js) st.js [] 0).2.2 > 0
  · rw [if_pos hcount]
    generalize (if st.prevpos > p - delta_param then
        prev_jstart_scan st.junc st.record p st.record.length
          ⟨(collect_starts st.junc nj p (nj - st.js) st.js [] 0).2.2, 0, 0⟩
      else ⟨(collect_starts st.junc nj p (nj - st.js) st.js [] 0).2.2, 0, 0⟩) = s
    by_cases hacc : s.prevcount < s.count ∧ s.count > 0 ∧
        (flank_cov covg covg.length st.ib (p - delta_param + 1) (p + 1) (p + delta_param)).1
          > (flank_cov covg covg.length st.ib (p - delta_param + 1) (p + 1)
            (p + delta_param)).2
    · rw [if_pos hacc]
      have hf := (flank_cov_nonneg covg st.ib (p - delta_param + 1) (p + 1) (p + delta_param)
        inv.1 hwf hcov).2
      refine ⟨get_cov_cursor_le covg p p st.ib inv.1, fun r hr => ?_⟩
      simp only [push_record] at hr
      rcases List.mem_append.mp hr with h | h
      · exact confOK_gap covg st.record _ _ inv.2 r h
      · rw [List.mem_singleton] at h
        subst h
        refine ⟨div_nonneg hf (le_of_lt (lt_of_le_of_lt hf hacc.2.2)),
          (div_lt_one (lt_of_le_of_lt hf hacc.2.2)).mpr hacc.2.2, ?_, ?_, ?_⟩
        · intro ht
          rcases ht with ht | ht
          · exact absurd (show ("jstart" : String) = "tstart" from ht) (by decide)
          · exact absurd (show ("jstart" : String) = "tend" from ht) (by decide)
        · intro ht
          exact absurd (show ("jstart" : String) = "jend" from ht) (by decide)
        · intro _
          exact ⟨st.ib, rfl, hf, hacc.2.2⟩
    · rw [if_neg hacc]
      exact inv
  · rw [if_neg hcount]
    exact inv

theorem get_record_drop_conf (covg : List CovgEntry) (drop_arr : List DropEntry) (nd : Nat)
    (q : Int) (st : MergeState) (hnd : nd ≤ drop_arr.length)
    (hd : PercsOK (drop_arr.map (fun x => x.perc))) (inv : ConfInv covg st) :
    ConfInv covg (get_record_drop covg drop_arr covg.length nd q st) := by
  obtain ⟨pushed, hp, hall⟩ := push_drops_conf drop_arr nd q st.prevpos
    (get_cov covg q q st.ib covg.length).1 (nd - st.id) st.id st.junc
    (if q > st.prevpos + 1 then
        add_cov_to_last st.record (get_cov covg (st.prevpos + 1) (q - 1) st.ib covg.length).1
      else st.record)
  have hrec : (get_record_drop covg drop_arr covg.length nd q st).record
      = (if q > st.prevpos + 1 then
        add_cov_to_last st.record (get_cov covg (st.prevpos + 1) (q - 1) st.ib covg.length).1
      else st.record) ++ pushed := by
    rw [← hp]
    rfl
  refine ⟨get_cov_cursor_le covg q q st.ib inv.1, fun r hr => ?_⟩
  rw [hrec] at hr
  rcases List.mem_append.mp hr with h | h
  · exact confOK_gap covg st.record _ _ inv.2 r h
  · exact confOK_drop covg drop_arr nd hnd hd r (hall r h).1 (hall r h).2

theorem get_record_conf (covg : List CovgEntry) (drop_arr : List DropEntry)
    (jend : List Nat) (nd nj : Nat) (st st2 : MergeState)
    (hwf : ∀ i, (covgAt covg i).start ≤ (covgAt covg i).end_)
    (hcov : ∀ i, 0 ≤ (covgAt covg i).cov) (hnd : nd ≤ drop_arr.length)
    (hd : PercsOK (drop_arr.map (fun x => x.perc))) (inv : ConfInv covg st)
    (h : get_record covg drop_arr jend covg.length nd nj st = some st2) :
    ConfInv covg st2 := by
  have hskip : ConfInv covg (skip_retracted jend nj st) := inv
  rcases get_record_branch covg drop_arr jend covg.length nd nj st with
    ⟨_, _, _, hb⟩ | ⟨_, _, _, hb⟩ | ⟨_, _, _, hb⟩ | ⟨_, _, _, hb⟩
  · rw [hb] at h
    split at h
    · cases h; exact hskip
    · cases h
  · rw [hb] at h
    cases h
    exact get_record_drop_conf covg drop_arr nd _ _ hnd hd hskip
  · rw [hb] at h
    cases h
    exact get_record_jstart_conf covg nj _ _ hwf hcov hskip
  · rw [hb] at h
    cases h
    exact get_record_jend_conf covg jend nj _ _ hwf hcov hskip

theorem merge_loop_conf (covg : List CovgEntry) (drop_arr : List DropEntry)
    (jend : List Nat) (nd nj : Nat)
    (hwf : ∀ i, (covgAt covg i).start ≤ (covgAt covg i).end_)
    (hcov : ∀ i, 0 ≤ (covgAt covg i).cov) (hnd : nd ≤ drop_arr.length)
    (hd : PercsOK (drop_arr.map (fun x => x.perc))) :
    ∀ (fuel : Nat) (st stf : MergeState), ConfInv covg st →
      merge_loop covg drop_arr jend covg.length nd nj fuel st = some stf →
      ConfInv covg stf := by
  intro fuel
  induction fuel with
  | zero =>
    intro st stf inv h
    rw [merge_loop] at h
    split at h
    · cases h
    · cases h; exact inv
  | succ n ih =>
    intro st stf inv h
    rw [merge_loop] at h
    split at h
    · cases hg : get_record covg drop_arr jend covg.length nd nj st with
      | none => rw [hg] at h; cases h
      | some st1 =>
        rw [hg] at h
        exact ih st1 stf
          (get_record_conf covg drop_arr jend nd nj st st1 hwf hcov hnd hd inv hg) h
    · cases h; exact inv

/-- Every record of the sequence `process_bundle` builds has its confidence in
range, when the segments have `start <= end` and non-negative coverage values. -/
theorem build_records_confOK (covg : List CovgEntry) (junc : List JuncEntry)
    (jend : List Nat) (s_arr : List ContRegion) (b : Built)
    (hreg : ∀ seg ∈ covg, seg.start ≤ seg.end_ ∧ 0 ≤ seg.cov)
    (h : build_records covg junc jend s_arr = some b) :
    ∀ r ∈ b.record, ConfOK covg r := by
  have hwf : ∀ i, (covgAt covg i).start ≤ (covgAt covg i).end_ := by
    intro i
    unfold covgAt
    by_cases hi : i < covg.length
    · rw [List.getD_eq_getElem _ _ hi]
      exact (hreg _ (List.getElem_mem _)).1
    · rw [List.getD_eq_default _ _ (by omega)]
      exact le_refl _
  have hcov : ∀ i, 0 ≤ (covgAt covg i).cov := by
    intro i
    unfold covgAt
    by_cases hi : i < covg.length
    · rw [List.getD_eq_getElem _ _ hi]
      exact (hreg _ (List.getElem_mem _)).2
    · rw [List.getD_eq_default _ _ (by omega)]
      exact le_refl _
  have hzero : ∀ (ty : String) (p : Int) (idx : List Nat) (pc cn : ℚ),
      (ty = "tstart" ∨ ty = "tend") → ConfOK covg ⟨ty, p, idx, 0, pc, cn⟩ := by
    intro ty p idx pc cn ht
    refine ⟨le_refl _, zero_lt_one, fun _ => Or.inl rfl, ?_, ?_⟩
    · intro hj
      simp only [] at hj
      rcases ht with h1 | h1 <;> rw [h1] at hj <;> exact absurd hj (by decide)
    · intro hj
      simp only [] at hj
      rcases ht with h1 | h1 <;> rw [h1] at hj <;> exact absurd hj (by decide)
  unfold build_records at h
  simp only [] at h
  cases hd : drop_loop covg (process_junctions junc jend junc.length) jend covg.length
      junc.length s_arr ⟨[], 0, 0⟩ with
  | none => rw [hd] at h; cases h
  | some d =>
    rw [hd] at h
    simp only [] at h
    have hperc := drop_loop_percs covg hcov _ jend covg.length junc.length s_arr ⟨[], 0, 0⟩ d
      (by intro p hp; simp at hp) hd
    cases hm : merge_loop covg d.drop_arr jend covg.length (d.drop_arr.length - 1) junc.length
        ((d.drop_arr.length - 1 - 1) + junc.length + junc.length)
        ⟨0, 1, 0, 0, (covgAt covg 0).start, process_junctions junc jend junc.length,
          push_record [] "tstart" (covgAt covg 0).start [0] 0 (covgAt covg 0).cov 0⟩ with
    | none => rw [hm] at h; cases h
    | some st =>
      rw [hm] at h
      simp only [Option.some.injEq] at h
      subst h
      have inv := merge_loop_conf covg d.drop_arr jend (d.drop_arr.length - 1) junc.length
        hwf hcov (Nat.sub_le _ _) hperc _ _ st
        ⟨Nat.zero_le _, fun r hr => by
          simp only [push_record, List.nil_append, List.mem_singleton] at hr
          rw [hr]
          exact hzero _ _ _ _ _ (Or.inl rfl)⟩ hm
      intro r hr
      simp only [push_record] at hr
      rcases List.mem_append.mp hr with h1 | h1
      · exact confOK_gap covg st.record _ _ inv.2 r h1
      · rw [List.mem_singleton] at h1
        rw [h1]
        exact hzero _ _ _ _ _ (Or.inr rfl)

/-- C34: for every region whose segments have `start <= end` and a non-negative
coverage value, every record of the sequence `process_bundle` builds (the initial
`tstart`, every record pushed during the merge, the final `tend`) has a confidence
in `[0, 1)`: a junction record has the smaller flank sum over the strictly larger
one, as `get_record` computes them at the record's position, and a `tstart` or
`tend` record has confidence 0 or a value below `percnoise`. -/
theorem build_records_confidence_range (covg : List CovgEntry) (junc : List JuncEntry)
    (jend : List Nat) (s_arr : List ContRegion) (b : Built)
    (hreg : ∀ seg ∈ covg, seg.start ≤ seg.end_ ∧ 0 ≤ seg.cov)
    (h : build_records covg junc jend s_arr = some b) :
    ∀ r ∈ b.record,
      0 ≤ r.change_perc ∧ r.change_perc < 1 ∧
      ((r.type = "tstart" ∨ r.type = "tend") →
        r.change_perc = 0 ∨ r.change_perc < percnoise) ∧
      ConfOK covg r :=
  fun r hr =>
    ⟨(build_records_confOK covg junc jend s_arr b hreg h r hr).1,
      (build_records_confOK covg junc jend s_arr b hreg h r hr).2.1,
      (build_records_confOK covg junc jend s_arr b hreg h r hr).2.2.1,
      build_records_confOK covg junc jend s_arr b hreg h r hr⟩

/-- C34 on the region `[100, 260]` whose coverage falls from 20 to 5 after 199,
with a junction that starts at 199: the records are a `tstart` at 100 with
confidence 0, a `jstart` at 199 with confidence `25 / 100`, the right flank sum
over the left one, and the final `tend` with confidence 0. -/
theorem build_records_confidence_range_witness :
    (∀ seg ∈ fallCovg, seg.start ≤ seg.end_ ∧ 0 ≤ seg.cov) ∧
    ∃ b, build_records fallCovg fallJunc [0]
        (region_loop fallCovg fallCovg.length 0 ⟨[], -1, false, 0, 0, 0⟩).s_arr = some b ∧
      b.record.map (fun r => (r.type, r.pos, r.change_perc))
        = [("tstart", 100, 0), ("jstart", 199, 1 / 4), ("tend", 260, 0)] ∧
      ∀ r ∈ b.record,
        0 ≤ r.change_perc ∧ r.change_perc < 1 ∧
        ((r.type = "tstart" ∨ r.type = "tend") →
          r.change_perc = 0 ∨ r.change_perc < percnoise) ∧
        ConfOK fallCovg r := by
  have hev : (build_records fallCovg fallJunc [0]
      (region_loop fallCovg fallCovg.length 0 ⟨[], -1, false, 0, 0, 0⟩).s_arr).map
      (fun b => b.record.map (fun r => (r.type, r.pos, r.change_perc)))
      = some [("tstart", 100, 0), ("jstart", 199, 1 / 4), ("tend", 260, 0)] := by
    decide!
  have hreg : ∀ seg ∈ fallCovg, seg.start ≤ seg.end_ ∧ 0 ≤ seg.cov := by decide!
  cases hb : build_records fallCovg fallJunc [0]
      (region_loop fallCovg fallCovg.length 0 ⟨[], -1, false, 0, 0, 0⟩).s_arr with
  | none => rw [hb] at hev; cases hev
  | some b =>
    rw [hb] at hev
    simp only [Option.map_some', Option.some.injEq] at hev
    exact ⟨hreg, b, rfl, hev, build_records_confidence_range fallCovg fallJunc [0] _ b hreg hb⟩
end SpliceCOV
